import Mathlib

/-!
Verification development for `malloc-lab/mm.c`

A shallow embedding of the segregated free list allocator of `src/malloc-lab/mm.c`.

* Memory is a map from byte addresses to 64-bit words (`Mem`); every access of the
  allocator is an aligned word access.  Bytes (for `memcpy` and `memset`) are taken
  out of the words in little-endian order.
* `NULL` is the address `0`.
* The global variables `heap_start` and `seglist`, together with the state of the
  heap growth primitive (`lo` is `mem_heap_lo()`, `lo + brk - 1` is `mem_heap_hi()`),
  are the fields of `Heap`.
* `size_t` arithmetic wraps modulo `2 ^ 64` (`wadd`, `wsub`, `wmul`); pointer arithmetic
  is arithmetic on addresses.
* Unbounded loops take a fuel argument and return `none` when it runs out.
* The `dbg_*` contracts compile to nothing in the build that is modelled.
-/

namespace MM

/-! ## Memory -/

/-- Word addressed memory: the 64-bit word stored at a byte address. -/
abbrev Mem := Nat → Nat

/-- Store of one word. -/
def wr (m : Mem) (a v : Nat) : Mem := fun x => if x = a then v else m x

/-- Addition of `size_t` values. -/
def wadd (x y : Nat) : Nat := (x + y) % 2 ^ 64

/-- Subtraction of `size_t` values. -/
def wsub (x y : Nat) : Nat := (x + 2 ^ 64 - y % 2 ^ 64) % 2 ^ 64

/-- Multiplication of `size_t` values. -/
def wmul (x y : Nat) : Nat := (x * y) % 2 ^ 64

/-- The byte at address `a` (little endian inside the aligned word). -/
def get_byte (m : Mem) (a : Nat) : Nat := (m (a / 8 * 8) / 256 ^ (a % 8)) % 256

/-- Store of one byte at address `a`. -/
def set_byte (m : Mem) (a v : Nat) : Mem :=
  let w := m (a / 8 * 8)
  let k := 256 ^ (a % 8)
  wr m (a / 8 * 8) (w - (w / k % 256) * k + v * k)

/-- The library `memcpy`: copies `n` bytes from `src` to `dst`, lowest address first. -/
def memcpy (m : Mem) (dst src : Nat) : Nat → Mem
  | 0 => m
  | n + 1 =>
    let m1 := memcpy m dst src n
    set_byte m1 (dst + n) (get_byte m1 (src + n))

/-- The library `memset`: stores the byte `c` at the `n` addresses from `dst` on. -/
def memset (m : Mem) (dst c : Nat) : Nat → Mem
  | 0 => m
  | n + 1 => set_byte (memset m dst c n) (dst + n) c

/-! ## Basic constants -/

def wsize : Nat := 8
def dsize : Nat := 2 * wsize
def min_block_size : Nat := dsize
def chunksize : Nat := 2 ^ 12
def alloc_mask : Nat := 0x1
def prev_alloc_mask : Nat := 0x2
def mini_mask : Nat := 0x4
def size_mask : Nat := 0xFFFFFFFFFFFFFFF0
def next_mask : Nat := 0xFFFFFFFFFFFFFFF8
def BUCKET_NUM : Nat := 15

/-- Allocator state: the heap memory, the heap growth primitive's region
(`lo = mem_heap_lo()`, `brk` bytes handed out so far) and the two globals. -/
structure Heap where
  mem : Mem
  lo : Nat
  brk : Nat
  heap_start : Nat
  seglist : Nat → Nat

/-! ## Short helper functions -/

def max (x y : Nat) : Nat := if x > y then x else y

def round_up (size n : Nat) : Nat := wmul n (wadd size (n - 1) / n)

def pack (size : Nat) (alloc prev_alloc : Bool) : Nat :=
  let word := size
  let word := if alloc then word ||| alloc_mask else word
  let word := if prev_alloc then word ||| prev_alloc_mask else word
  word

def mini_pack (header : Nat) (alloc prev_alloc : Bool) : Nat :=
  let word := header ||| mini_mask
  let word := if alloc then word ||| alloc_mask else word
  let word := if prev_alloc then word ||| prev_alloc_mask else word
  word

def extract_mini (word : Nat) : Bool := (word &&& mini_mask) != 0

def get_mini (m : Mem) (block : Nat) : Bool := extract_mini (m block)

def extract_size (word : Nat) : Nat := word &&& size_mask

def get_size (m : Mem) (block : Nat) : Nat :=
  if get_mini m block then dsize else extract_size (m block)

/-- The payload starts one word after the header (`offsetof(block_t, payload)` is 8). -/
def payload_to_header (bp : Nat) : Nat := bp - wsize

def header_to_payload (block : Nat) : Nat := block + wsize

def header_to_footer (m : Mem) (block : Nat) : Nat :=
  block + wsize + get_size m block - dsize

def footer_to_header (m : Mem) (footer : Nat) : Nat :=
  footer + wsize - extract_size (m footer)

def get_payload_size (m : Mem) (block : Nat) : Nat :=
  if get_mini m block then wsize else wsub (get_size m block) wsize

def extract_alloc (word : Nat) : Bool := (word &&& alloc_mask) != 0

def extract_prev_alloc (word : Nat) : Bool := (word &&& prev_alloc_mask) != 0

def get_alloc (m : Mem) (block : Nat) : Bool := extract_alloc (m block)

def get_prev_alloc (m : Mem) (block : Nat) : Bool := extract_prev_alloc (m block)

def extract_header (word : Nat) : Nat := word &&& next_mask

def mini_get_header (m : Mem) (block : Nat) : Nat := extract_header (m block)

/-- The field `block->next` is the word after the header. -/
def mini_get_next (m : Mem) (block : Nat) : Nat := extract_header (m (block + 8))

def write_epilogue (m : Mem) (block : Nat) : Mem := wr m block (pack 0 true false)

def find_next (m : Mem) (block : Nat) : Nat :=
  if get_mini m block then block + dsize else block + get_size m block

def extend_write (m : Mem) (block size : Nat) (alloc prev_alloc : Bool) : Mem :=
  let m := wr m block (pack size alloc prev_alloc)
  let footerp := header_to_footer m block
  wr m footerp (pack size alloc prev_alloc)

/-- The part of `write_block` that patches the `prev_alloc` bit of the following block;
the source has this text twice, once per branch.  The footer written for a free
non-mini successor is located with `header_to_footer(block)`, as in the source. -/
def write_block_next (m : Mem) (block : Nat) (alloc : Bool) : Mem :=
  let next := find_next m block
  let next_alloc := get_alloc m next
  let next_mini := get_mini m next
  if !next_mini then
    let next_size := get_size m next
    let m := wr m next (pack next_size next_alloc alloc)
    if !next_alloc then
      wr m (header_to_footer m block) (pack next_size next_alloc alloc)
    else m
  else
    let next_header := mini_get_header m next
    let m := wr m next (mini_pack next_header next_alloc alloc)
    if !next_alloc then
      let next_next := mini_get_next m next
      wr m (next + 8) (mini_pack next_next next_alloc alloc)
    else m

def write_block (m : Mem) (block size : Nat) (alloc prev_alloc mini : Bool) : Mem :=
  if !mini then
    let m := wr m block (pack size alloc prev_alloc)
    let m := if !alloc then wr m (header_to_footer m block) (pack size alloc prev_alloc) else m
    write_block_next m block alloc
  else
    let header := mini_get_header m block
    let nxt := mini_get_next m block
    let m := wr m block (mini_pack header alloc prev_alloc)
    let m := wr m (block + 8) (mini_pack nxt alloc prev_alloc)
    write_block_next m block alloc

def find_prev_footer (block : Nat) : Nat := block - wsize

def find_prev (m : Mem) (block : Nat) : Nat :=
  let footerp := find_prev_footer block
  if extract_mini (m footerp) then footerp - wsize
  else if extract_size (m footerp) = 0 then 0
  else footer_to_header m footerp

/-! ## Free list index -/

def find_bucket (size : Nat) : Nat :=
  if size ≤ 16 then 0
  else if size > 16 ∧ size ≤ 32 then 1
  else if size > 32 ∧ size ≤ 64 then 2
  else if size > 64 ∧ size ≤ 128 then 3
  else if size > 128 ∧ size ≤ 256 then 4
  else if size > 256 ∧ size ≤ 512 then 5
  else if size > 512 ∧ size ≤ 1024 then 6
  else if size > 1024 ∧ size ≤ 2048 then 7
  else if size > 2048 ∧ size ≤ 4096 then 8
  else if size > 4096 ∧ size ≤ 8192 then 9
  else if size > 8192 ∧ size ≤ 16384 then 10
  else if size > 16384 ∧ size ≤ 32768 then 11
  else if size > 32768 ∧ size ≤ 65536 then 12
  else if size > 65536 ∧ size ≤ 131072 then 13
  else 14

/-- The field `block->next` of a non-mini block. -/
def get_next (m : Mem) (block : Nat) : Nat := m (block + 8)

/-- The field `block->prev` of a non-mini block. -/
def get_prev (m : Mem) (block : Nat) : Nat := m (block + 16)

def insert (s : Heap) (block : Nat) : Heap :=
  if block = 0 then s
  else if !get_mini s.mem block then
    let bucket := find_bucket (get_size s.mem block)
    if s.seglist bucket = 0 then
      let sl := wr s.seglist bucket block
      let m := wr s.mem (block + 16) 0
      let m := wr m (block + 8) 0
      { s with mem := m, seglist := sl }
    else
      let m := wr s.mem (s.seglist bucket + 16) block
      let m := wr m (block + 8) (s.seglist bucket)
      let m := wr m (block + 16) 0
      { s with mem := m, seglist := wr s.seglist bucket block }
  else
    let prev_alloc := get_prev_alloc s.mem block
    let alloc := get_alloc s.mem block
    if s.seglist 0 = 0 then
      let sl := wr s.seglist 0 block
      let m := wr s.mem block (mini_pack 0 alloc prev_alloc)
      let m := wr m (block + 8) (mini_pack 0 alloc prev_alloc)
      { s with mem := m, seglist := sl }
    else
      let head := s.seglist 0
      let head_alloc := get_alloc s.mem head
      let head_prev_alloc := get_prev_alloc s.mem head
      let m := wr s.mem (head + 8) (mini_pack block head_alloc head_prev_alloc)
      let m := wr m block (mini_pack head alloc prev_alloc)
      let m := wr m (block + 8) (mini_pack 0 alloc prev_alloc)
      { s with mem := m, seglist := wr s.seglist 0 block }

def delete (s : Heap) (block : Nat) : Heap :=
  if !get_mini s.mem block then
    let bucket := find_bucket (get_size s.mem block)
    let s :=
      if block = s.seglist bucket then
        if get_next s.mem block = 0 then
          { s with seglist := wr s.seglist bucket 0 }
        else
          let sl := wr s.seglist bucket (get_next s.mem block)
          { s with mem := wr s.mem (get_next s.mem block + 16) 0, seglist := sl }
      else
        let m := wr s.mem (get_prev s.mem block + 8) (get_next s.mem block)
        let m :=
          if get_next m block ≠ 0 then wr m (get_next m block + 16) (get_prev m block)
          else m
        { s with mem := m }
    let m := wr s.mem (block + 8) 0
    let m := wr m (block + 16) 0
    { s with mem := m }
  else
    let s :=
      if block = s.seglist 0 then
        if mini_get_header s.mem block = 0 then
          { s with seglist := wr s.seglist 0 0 }
        else
          let head := mini_get_header s.mem block
          let prev_alloc := get_prev_alloc s.mem head
          { s with mem := wr s.mem (head + 8) (mini_pack 0 false prev_alloc),
                   seglist := wr s.seglist 0 head }
      else
        let previous := mini_get_next s.mem block
        let prev_prev_alloc := get_prev_alloc s.mem previous
        if mini_get_header s.mem block ≠ 0 then
          let next := mini_get_header s.mem block
          let next_prev_alloc := get_prev_alloc s.mem next
          let m := wr s.mem (next + 8) (mini_pack previous false next_prev_alloc)
          let m := wr m previous (mini_pack next false prev_prev_alloc)
          { s with mem := m }
        else
          { s with mem := wr s.mem previous (mini_pack 0 false prev_prev_alloc) }
    let prev_alloc := get_prev_alloc s.mem block
    let m := wr s.mem block (mini_pack 0 true prev_alloc)
    let m := wr m (block + 8) (mini_pack 0 true prev_alloc)
    { s with mem := m }

/-! ## Coalescing and splitting -/

def coalesce_prev_next (s : Heap) (prev next size : Nat) : Heap × Nat :=
  let prev_size := get_size s.mem prev
  let next_size := get_size s.mem next
  let total_size := wadd (wadd size prev_size) next_size
  let prev_prev_alloc := get_prev_alloc s.mem prev
  let s := delete s prev
  let s := delete s next
  ({ s with mem := write_block s.mem prev total_size false prev_prev_alloc false }, prev)

def coalesce_prev (s : Heap) (previous size : Nat) : Heap × Nat :=
  let prev_size := get_size s.mem previous
  let total_size := wadd size prev_size
  let prev_prev_alloc := get_prev_alloc s.mem previous
  let s := delete s previous
  ({ s with mem := write_block s.mem previous total_size false prev_prev_alloc false },
    previous)

def coalesce_next (s : Heap) (block next size : Nat) : Heap × Nat :=
  let next_size := get_size s.mem next
  let total_size := wadd size next_size
  let prev_alloc := get_prev_alloc s.mem block
  let s := delete s next
  ({ s with mem := write_block s.mem block total_size false prev_alloc false }, block)

def coalesce_block (s : Heap) (block : Nat) : Heap × Nat :=
  let next := find_next s.mem block
  let previous := if !get_prev_alloc s.mem block then find_prev s.mem block else 0
  let prev_free := !get_prev_alloc s.mem block
  let next_free := if next ≠ 0 ∧ !get_alloc s.mem next then true else false
  let block_size := get_size s.mem block
  if prev_free && next_free then coalesce_prev_next s previous next block_size
  else if prev_free && !next_free then coalesce_prev s previous block_size
  else if !prev_free && next_free then coalesce_next s block next block_size
  else
    let prev_alloc := get_prev_alloc s.mem block
    ({ s with mem := write_block s.mem block block_size false prev_alloc
                       (get_mini s.mem block) }, block)

/-- Modelled from the spec: `mem_sbrk` of `memlib.c`, which is not among the sources.
The heap growth primitive either fails (`none`, the `(void *)-1` of the C interface) and
changes nothing, or commits `incr` more bytes directly after the previous top of the
heap and returns the address where they start.  Whether it succeeds is given by the
caller of the model (`grow`); a successful call keeps the heap inside the 64-bit address
space. -/
def mem_sbrk (s : Heap) (incr : Nat) (grow : Bool) : Option Nat × Heap :=
  if grow = true ∧ s.lo + s.brk + incr < 2 ^ 64 then
    (some (s.lo + s.brk), { s with brk := s.brk + incr })
  else (none, s)

/-- Address returned by `mem_heap_hi()`: the last byte of the heap. -/
def mem_heap_hi (s : Heap) : Nat := s.lo + s.brk - 1

def extend_heap (s : Heap) (size : Nat) (grow : Bool) : Heap × Nat :=
  let size := round_up size dsize
  match mem_sbrk s size grow with
  | (none, s) => (s, 0)
  | (some bp, s) =>
    let block := payload_to_header bp
    let prev_alloc := get_prev_alloc s.mem block
    let m := extend_write s.mem block size false prev_alloc
    let block_next := find_next m block
    let m := write_epilogue m block_next
    let (s, block) := coalesce_block { s with mem := m } block
    (insert s block, block)

def split_block (m : Mem) (block asize : Nat) : Mem × Nat :=
  let block_size := get_size m block
  if wsub block_size asize ≥ min_block_size then
    let prev_alloc := get_prev_alloc m block
    let m := write_block m block asize true prev_alloc (asize == min_block_size)
    let block_next := find_next m block
    let m := write_block m block_next (wsub block_size asize) false true
      (wsub block_size asize == min_block_size)
    (m, block_next)
  else (m, 0)

/-- The `for` loop of `find_fit` over one bucket: `block` is the loop variable, `best`
and `level` the two locals.  The result is the value of `best` when the loop is left. -/
def find_fit_scan (m : Mem) (asize : Nat) : Nat → Nat → Nat → Nat → Option Nat
  | 0, _, _, _ => none
  | fuel + 1, block, best, level =>
    if block = 0 then some best
    else
      let hit := decide (asize ≤ get_size m block)
      let best :=
        if hit then
          if best = 0 ∨ get_size m best > get_size m block then block else best
        else best
      let level := if hit then level - 1 else level
      if level = 0 then some best
      else find_fit_scan m asize fuel (get_next m block) best level

/-- The `while (bucket < BUCKET_NUM)` loop of `find_fit`; `k` bounds the number of
remaining buckets. -/
def find_fit_buckets (s : Heap) (asize fuel : Nat) : Nat → Nat → Option Nat
  | 0, _ => some 0
  | k + 1, bucket =>
    if bucket < BUCKET_NUM then
      match find_fit_scan s.mem asize fuel (s.seglist bucket) 0 5 with
      | none => none
      | some best =>
        if best = 0 then find_fit_buckets s asize fuel k (bucket + 1) else some best
    else some 0

def find_fit (fuel : Nat) (s : Heap) (asize : Nat) : Option Nat :=
  if asize = min_block_size ∧ s.seglist 0 ≠ 0 then some (s.seglist 0)
  else find_fit_buckets s asize fuel (BUCKET_NUM + 1) (find_bucket asize)

/-! ## Heap checker -/

/-- The `while (block != epilogue)` loop of `mm_checkheap`.  The result is `none` when
the fuel runs out, `some none` when a check fails (the function returns `false`) and
`some (some c)` with the final value of `free_count_heap` otherwise.  The locals `footer`
and `prev` are only read when the block is free and non-mini, or has a free
predecessor. -/
def checkheap_blocks (s : Heap) (epilogue : Nat) : Nat → Nat → Nat → Option (Option Nat)
  | 0, _, _ => none
  | fuel + 1, block, free_count_heap =>
    let m := s.mem
    if block = epilogue then some (some free_count_heap)
    else
      let footer := header_to_footer m block
      let next := find_next m block
      -- Checks alignment
      if !get_mini m block ∧ get_size m block % dsize ≠ 0 then some none
      -- Checks boundaries
      else if block < s.heap_start ∨ block > mem_heap_hi s - 7 - min_block_size then some none
      -- Checks header and footer consistency
      else if (!get_alloc m block ∧ !get_mini m block) ∧
          (get_alloc m block ≠ get_alloc m footer ∨ get_size m block ≠ get_size m footer) then
        some none
      -- Checks coalescing
      else if !get_alloc m block ∧ !get_prev_alloc m block then some none
      else if !get_alloc m block ∧ (next ≠ 0 ∧ next ≠ epilogue ∧ !get_alloc m next) then
        some none
      -- Checks pointer consistency
      else if (!get_alloc m block ∧ !get_mini m block) ∧
          (get_prev m block ≠ 0 ∧ get_next m (get_prev m block) ≠ block) then some none
      else if (!get_alloc m block ∧ !get_mini m block) ∧
          (get_next m block ≠ 0 ∧ get_prev m (get_next m block) ≠ block) then some none
      else if (!get_alloc m block ∧ get_mini m block) ∧
          (mini_get_next m block ≠ 0 ∧ mini_get_header m (mini_get_next m block) ≠ block) then
        some none
      else if (!get_alloc m block ∧ get_mini m block) ∧
          (mini_get_header m block ≠ 0 ∧ mini_get_next m (mini_get_header m block) ≠ block) then
        some none
      -- Checks the alloc bit against the prev_alloc bit of the next block in heap
      else if get_prev_alloc m (find_next m block) ≠ get_alloc m block then some none
      else
        let free_count_heap := if !get_alloc m block then free_count_heap + 1 else free_count_heap
        checkheap_blocks s epilogue fuel (find_next m block) free_count_heap

/-- The `while (tmp != NULL)` loop of `mm_checkheap` over one bucket. -/
def checkheap_bucket (m : Mem) (bucket : Nat) : Nat → Nat → Nat → Option (Option Nat)
  | 0, _, _ => none
  | fuel + 1, tmp, free_count_list =>
    if tmp = 0 then some (some free_count_list)
    else if find_bucket (get_size m tmp) ≠ bucket then some none
    else checkheap_bucket m bucket fuel (get_next m tmp) (free_count_list + 1)

/-- The `for (bucket = 1; bucket < BUCKET_NUM; bucket++)` loop of `mm_checkheap`;
`k` bounds the number of remaining buckets. -/
def checkheap_buckets (s : Heap) (fuel : Nat) : Nat → Nat → Nat → Option (Option Nat)
  | 0, _, free_count_list => some (some free_count_list)
  | k + 1, bucket, free_count_list =>
    if bucket < BUCKET_NUM then
      match checkheap_bucket s.mem bucket fuel (s.seglist bucket) free_count_list with
      | none => none
      | some none => some none
      | some (some c) => checkheap_buckets s fuel k (bucket + 1) c
    else some (some free_count_list)

/-- The `while (tmp != 0)` loop of `mm_checkheap` over the mini list. -/
def checkheap_mini (m : Mem) : Nat → Nat → Nat → Option Nat
  | 0, _, _ => none
  | fuel + 1, tmp, free_count_list =>
    if tmp = 0 then some free_count_list
    else checkheap_mini m fuel (mini_get_header m tmp) (free_count_list + 1)

/-- The heap checker.  The argument `line` of the source is only printed and is left
out.  The result is `none` when a loop runs out of fuel. -/
def mm_checkheap (fuel : Nat) (s : Heap) : Option Bool :=
  let prologue := s.heap_start - wsize
  let epilogue := mem_heap_hi s - 7
  if prologue < s.lo ∨ get_alloc s.mem prologue = false ∨ get_size s.mem prologue ≠ 0 then
    some false
  else if get_alloc s.mem epilogue = false ∨ get_size s.mem epilogue ≠ 0 then some false
  else
    match checkheap_blocks s epilogue fuel s.heap_start 0 with
    | none => none
    | some none => some false
    | some (some free_count_heap) =>
      match checkheap_buckets s fuel BUCKET_NUM 1 0 with
      | none => none
      | some none => some false
      | some (some c) =>
        match checkheap_mini s.mem fuel (s.seglist 0) c with
        | none => none
        | some free_count_list =>
          if free_count_heap ≠ free_count_list then some false else some true

/-! ## Public operations -/

/-- Returns the new state and the boolean result of `mm_init`. -/
def mm_init (s : Heap) (grow : Bool) : Heap × Bool :=
  match mem_sbrk s (2 * wsize) grow with
  | (none, s) => (s, false)
  | (some start, s) =>
    let m := wr s.mem start (pack 0 true false)
    let m := wr m (start + 8) (pack 0 true true)
    let s := { s with mem := m, heap_start := start + 8,
                      seglist := fun i => if i < BUCKET_NUM then 0 else s.seglist i }
    let (s, block) := extend_heap s chunksize grow
    if block = 0 then (s, false) else (s, true)

/-- Returns the new state and the pointer result of `malloc` (`0` is `NULL`). -/
def malloc (fuel : Nat) (s : Heap) (size : Nat) (grow : Bool) : Option (Heap × Nat) :=
  let s := if s.heap_start = 0 then (mm_init s grow).1 else s
  if size = 0 then some (s, 0)
  else
    let asize := round_up (wadd size wsize) dsize
    let asize := if asize < min_block_size then min_block_size else asize
    match find_fit fuel s asize with
    | none => none
    | some block =>
      let (s, block) :=
        if block = 0 then extend_heap s (max asize chunksize) grow else (s, block)
      if block = 0 then some (s, 0)
      else
        let block_size := get_size s.mem block
        let prev_alloc := get_prev_alloc s.mem block
        let s := { s with mem := write_block s.mem block block_size true prev_alloc
                                   (get_mini s.mem block) }
        let s := delete s block
        let s :=
          if block_size > min_block_size then
            let (m, rest) := split_block s.mem block asize
            if rest ≠ 0 then insert { s with mem := m } rest else { s with mem := m }
          else s
        some (s, header_to_payload block)

def free (s : Heap) (bp : Nat) : Heap :=
  if bp = 0 then s
  else
    let block := payload_to_header bp
    let size := get_size s.mem block
    let prev_alloc := get_prev_alloc s.mem block
    let s := { s with mem := write_block s.mem block size false prev_alloc
                               (get_mini s.mem block) }
    let (s, block) := coalesce_block s block
    insert s block

def realloc (fuel : Nat) (s : Heap) (ptr size : Nat) (grow : Bool) : Option (Heap × Nat) :=
  let block := payload_to_header ptr
  if size = 0 then some (free s ptr, 0)
  else if ptr = 0 then malloc fuel s size grow
  else
    match malloc fuel s size grow with
    | none => none
    | some (s, newptr) =>
      if newptr = 0 then some (s, 0)
      else
        let copysize := get_payload_size s.mem block
        let copysize := if size < copysize then size else copysize
        let s := { s with mem := memcpy s.mem newptr ptr copysize }
        some (free s ptr, newptr)

def calloc (fuel : Nat) (s : Heap) (elements size : Nat) (grow : Bool) : Option (Heap × Nat) :=
  let asize := wmul elements size
  if elements = 0 then some (s, 0)
  else if asize / elements ≠ size then some (s, 0)
  else
    match malloc fuel s asize grow with
    | none => none
    | some (s, bp) =>
      if bp = 0 then some (s, 0)
      else some ({ s with mem := memset s.mem bp 0 asize }, bp)

/-! ## Clients of the allocator -/

/-- One action of a client program: a call of a public operation (with the answer the
heap growth primitive gives if it is asked during the call), or a store of one byte
into memory the client owns. -/
inductive Op where
  | malloc (size : Nat) (grow : Bool)
  | free (ptr : Nat)
  | realloc (ptr size : Nat) (grow : Bool)
  | calloc (elements size : Nat) (grow : Bool)
  | store (addr byte : Nat)

/-- The allocator together with the payload pointers the client holds (`live`): the
pointers returned by `malloc`, `calloc` and `realloc` and not released since. -/
structure Client where
  heap : Heap
  live : List Nat

/-- What the client holds after a call that returned `p`. -/
def got (live : List Nat) (p : Nat) : List Nat := if p = 0 then live else p :: live

/-- One action.  The loops of the allocator get as many steps as the heap has bytes;
`none` means that a loop did not finish within them. -/
def exec (c : Client) : Op → Option Client
  | Op.malloc size grow =>
    match malloc c.heap.brk c.heap size grow with
    | none => none
    | some (h, p) => some ⟨h, got c.live p⟩
  | Op.free ptr => some ⟨free c.heap ptr, c.live.erase ptr⟩
  | Op.realloc ptr size grow =>
    match realloc c.heap.brk c.heap ptr size grow with
    | none => none
    | some (h, q) =>
      if size = 0 then some ⟨h, c.live.erase ptr⟩
      else if q = 0 then some ⟨h, c.live⟩
      else some ⟨h, q :: c.live.erase ptr⟩
  | Op.calloc elements size grow =>
    match calloc c.heap.brk c.heap elements size grow with
    | none => none
    | some (h, p) => some ⟨h, got c.live p⟩
  | Op.store addr byte => some ⟨{ c.heap with mem := set_byte c.heap.mem addr byte }, c.live⟩

/-- The documented preconditions: `free` and `realloc` take `NULL` or a pointer the
client holds, and the client stores bytes only inside the payload of a block it holds. -/
def legal (c : Client) : Op → Bool
  | Op.malloc _ _ => true
  | Op.free ptr => decide (ptr = 0 ∨ ptr ∈ c.live)
  | Op.realloc ptr _ _ => decide (ptr = 0 ∨ ptr ∈ c.live)
  | Op.calloc _ _ _ => true
  | Op.store addr byte =>
    decide (byte < 256) &&
      c.live.any fun p =>
        decide (p ≤ addr ∧ addr < p + get_payload_size c.heap.mem (payload_to_header p))

/-- Runs a sequence of actions; `none` when an action breaks a precondition or does not
finish. -/
def run (c : Client) : List Op → Option Client
  | [] => some c
  | op :: ops =>
    if legal c op then
      match exec c op with
      | none => none
      | some c1 => run c1 ops
    else none

/-- The number of bytes a call asks for (`0` for `free` and for a store). -/
def Op.request : Op → Nat
  | Op.malloc size _ => size
  | Op.free _ => 0
  | Op.realloc _ size _ => size
  | Op.calloc elements size _ => elements * size
  | Op.store _ _ => 0

/-- An empty heap region at address `lo` with memory contents `m`, before `mm_init`. -/
def empty_heap (m : Mem) (lo : Nat) : Heap :=
  { mem := m, lo := lo, brk := 0, heap_start := 0, seglist := fun _ => 0 }

/-- The client of a heap that has just been initialised. -/
def fresh (m : Mem) (lo : Nat) : Client := ⟨(mm_init (empty_heap m lo) true).1, []⟩

/-! ## The properties of a heap that the specification states -/

/-- Address of the epilogue word, the last word of the heap. -/
def epilogue (s : Heap) : Nat := mem_heap_hi s - 7

/-- The `k`-th block in address order: `find_next` applied `k` times to `heap_start`. -/
def block_at (s : Heap) : Nat → Nat
  | 0 => s.heap_start
  | k + 1 => find_next s.mem (block_at s k)

/-- The address-order walk has not met the epilogue up to and including step `k`. -/
def before_epilogue (s : Heap) (k : Nat) : Prop := ∀ j, j ≤ k → block_at s j ≠ epilogue s

/-- No two address-adjacent blocks are both free. -/
def no_adjacent_free (s : Heap) : Prop :=
  ∀ k, before_epilogue s k → get_alloc s.mem (block_at s k) = false →
    get_alloc s.mem (find_next s.mem (block_at s k)) = true

/-- The `prev_alloc` bit of every block up to and including the epilogue is the alloc
bit of the block before it (the prologue for the first block). -/
def prev_alloc_consistent (s : Heap) : Prop :=
  get_prev_alloc s.mem s.heap_start = get_alloc s.mem (s.heap_start - wsize) ∧
  ∀ k, before_epilogue s k →
    get_prev_alloc s.mem (block_at s (k + 1)) = get_alloc s.mem (block_at s k)

/-- Header and footer of every free non-mini block agree in size, alloc bit and
prev_alloc bit. -/
def footers_match (s : Heap) : Prop :=
  ∀ k, before_epilogue s k →
    get_alloc s.mem (block_at s k) = false → get_mini s.mem (block_at s k) = false →
    let footer := header_to_footer s.mem (block_at s k)
    extract_size (s.mem footer) = get_size s.mem (block_at s k) ∧
    extract_alloc (s.mem footer) = false ∧
    extract_prev_alloc (s.mem footer) = get_prev_alloc s.mem (block_at s k)

/-- The heap is tiled: prologue and epilogue are allocated words of size 0 at the two
ends of the heap, and the address-order walk meets the epilogue after `n` blocks whose
sizes are positive multiples of 16. -/
def well_tiled (s : Heap) : Prop :=
  s.heap_start = s.lo + wsize ∧
  s.mem s.lo &&& size_mask = 0 ∧ get_alloc s.mem s.lo = true ∧
  get_size s.mem (epilogue s) = 0 ∧ get_alloc s.mem (epilogue s) = true ∧
  ∃ n, block_at s n = epilogue s ∧
    ∀ k, k < n → 0 < get_size s.mem (block_at s k) ∧ get_size s.mem (block_at s k) % 16 = 0

/-- The free blocks met by the address-order walk from `block` to the epilogue, `none`
when the walk does not end within the fuel. -/
def heap_free_blocks (s : Heap) : Nat → Nat → Option (List Nat)
  | 0, _ => none
  | fuel + 1, block =>
    if block = epilogue s then some []
    else
      match heap_free_blocks s fuel (find_next s.mem block) with
      | none => none
      | some l => some (if get_alloc s.mem block then l else block :: l)

/-- The blocks of one bucket, following the `next` fields. -/
def bucket_blocks (m : Mem) : Nat → Nat → Option (List Nat)
  | 0, _ => none
  | fuel + 1, block =>
    if block = 0 then some []
    else (bucket_blocks m fuel (get_next m block)).map fun l => block :: l

/-- The blocks of the mini list, following the pointers kept in the headers. -/
def mini_blocks (m : Mem) : Nat → Nat → Option (List Nat)
  | 0, _ => none
  | fuel + 1, block =>
    if block = 0 then some []
    else (mini_blocks m fuel (mini_get_header m block)).map fun l => block :: l

/-- The blocks of the buckets `bucket`, `bucket + 1`, ... (at most `k` of them). -/
def buckets_blocks (s : Heap) (fuel : Nat) : Nat → Nat → Option (List Nat)
  | 0, _ => some []
  | k + 1, bucket =>
    if bucket < BUCKET_NUM then
      match bucket_blocks s.mem fuel (s.seglist bucket), buckets_blocks s fuel k (bucket + 1) with
      | some l, some r => some (l ++ r)
      | _, _ => none
    else some []

/-- All blocks of the free list index: the mini list and the buckets 1 to 14. -/
def index_blocks (s : Heap) (fuel : Nat) : Option (List Nat) :=
  match mini_blocks s.mem fuel (s.seglist 0), buckets_blocks s fuel BUCKET_NUM 1 with
  | some l, some r => some (l ++ r)
  | _, _ => none

/-- The free list index lists exactly the free blocks of the heap, each once.  Both
walks get as many steps as the heap has bytes. -/
def index_exact (s : Heap) : Prop :=
  ∃ l r, heap_free_blocks s s.brk s.heap_start = some l ∧ index_blocks s s.brk = some r ∧
    r.Nodup ∧ ∀ b, b ∈ l ↔ b ∈ r

/-- The payload of the block that `p` points into: the addresses from `p` up to
`p + get_payload_size`. -/
def payload_end (s : Heap) (p : Nat) : Nat := p + get_payload_size s.mem (payload_to_header p)

/-- The payloads of the blocks the client holds are pairwise disjoint and lie between
the prologue and the epilogue. -/
def payloads_disjoint (c : Client) : Prop :=
  (∀ p, p ∈ c.live → c.heap.lo + wsize ≤ p ∧ payload_end c.heap p ≤ epilogue c.heap) ∧
  ∀ p q, p ∈ c.live → q ∈ c.live → p ≠ q →
    payload_end c.heap p ≤ q ∨ payload_end c.heap q ≤ p

/-- Memory holding zero everywhere. -/
def zero_mem : Mem := fun _ => 0

/-! ## The heap invariant -/

/-- A block of the heap: the address of its header, its size in bytes and whether it is
allocated. -/
structure Blk where
  addr : Nat
  size : Nat
  alloc : Bool

/-- The word at `a` reads as a header with this size (the mini flag stands for size 16),
alloc bit and prev_alloc bit. -/
def Tags (m : Mem) (a size : Nat) (alloc pa : Bool) : Prop :=
  size % 16 = 0 ∧ get_alloc m a = alloc ∧ get_prev_alloc m a = pa ∧
  get_mini m a = decide (size = 16) ∧ get_size m a = size

/-- The header word of `b` holds the size (or the mini flag for a block of 16 bytes),
the alloc bit of `b` and the prev_alloc bit `pa`. -/
def Hdr (m : Mem) (b : Blk) (pa : Bool) : Prop :=
  16 ≤ b.size ∧ Tags m b.addr b.size b.alloc pa

/-- The last word of a free block: the footer of a non-mini block repeats the size and
the alloc bit, and the second word of a mini block carries the mini flag (this is the
word `find_prev` reads from the block behind). -/
def Ftr (m : Mem) (b : Blk) : Prop :=
  b.alloc = false →
    extract_mini (m (b.addr + b.size - 8)) = decide (b.size = 16) ∧
    (b.size ≠ 16 → extract_size (m (b.addr + b.size - 8)) = b.size ∧
      extract_alloc (m (b.addr + b.size - 8)) = false)

/-- The blocks `bs` tile the addresses from `a` to `a1`; `pa` is the alloc bit of the
block before `a` and `pa1` the alloc bit of the last block of `bs`. -/
def Seg (m : Mem) : Nat → Bool → List Blk → Nat → Bool → Prop
  | a, pa, [], a1, pa1 => a1 = a ∧ pa1 = pa
  | a, pa, b :: bs, a1, pa1 =>
    b.addr = a ∧ Hdr m b pa ∧ Ftr m b ∧ Seg m (a + b.size) b.alloc bs a1 pa1

/-- A doubly linked list: `p` points to the first element of `l`, every element is
non-null, `pv` of an element is the element before it (`prev` for the first) and `nx`
of an element is the element after it (`NULL` for the last). -/
def LL (nx pv : Nat → Nat) : Nat → Nat → List Nat → Prop
  | _, p, [] => p = 0
  | prev, p, x :: xs => p = x ∧ x ≠ 0 ∧ pv x = prev ∧ LL nx pv x (nx x) xs

/-- The list of bucket `i`: bucket 0 is the mini list, linked through the pointer bits
of the header (forward) and of the second word (backward); the other buckets are
linked through the `next` and `prev` fields. -/
def FList (m : Mem) (i head : Nat) (l : List Nat) : Prop :=
  if i = 0 then LL (mini_get_header m) (mini_get_next m) 0 head l
  else LL (get_next m) (get_prev m) 0 head l

/-- Of two address-adjacent blocks one is allocated. -/
def NoAdj (bs : List Blk) : Prop := List.Chain' (fun x y : Blk => x.alloc = true ∨ y.alloc = true) bs

/-- The invariant of the allocator: `bs` are the blocks of the heap in address order and
`fl i` is the list of bucket `i`.  The free block at address `x`, if there is one, is
not in the index; `x = 0` in every state between two calls. -/
structure Valid (s : Heap) (bs : List Blk) (fl : Nat → List Nat) (x : Nat) (pae : Bool) : Prop where
  lo_pos : 0 < s.lo
  lo_al : s.lo % 16 = 0
  hs : s.heap_start = s.lo + 8
  brk16 : 16 ≤ s.brk
  top : s.lo + s.brk < 2 ^ 64
  pro : get_alloc s.mem s.lo = true ∧ extract_size (s.mem s.lo) = 0 ∧ extract_mini (s.mem s.lo) = false
  seg : Seg s.mem (s.lo + 8) true bs (s.lo + s.brk - 8) pae
  epi : get_alloc s.mem (s.lo + s.brk - 8) = true ∧ get_size s.mem (s.lo + s.brk - 8) = 0 ∧
    get_mini s.mem (s.lo + s.brk - 8) = false ∧ get_prev_alloc s.mem (s.lo + s.brk - 8) = pae
  noadj : NoAdj bs
  lists : ∀ i, i < 15 → FList s.mem i (s.seglist i) (fl i)
  mem_fl : ∀ i, i < 15 → ∀ a, a ∈ fl i ↔
    (∃ b, b ∈ bs ∧ b.addr = a ∧ b.alloc = false ∧ find_bucket b.size = i) ∧ a ≠ x
  nodup : ∀ i, i < 15 → (fl i).Nodup

/-- The invariant of a client: the heap is valid and every pointer the client holds is
the payload of an allocated block. -/
def Inv (c : Client) : Prop :=
  ∃ bs fl pae, Valid c.heap bs fl 0 pae ∧ c.live.Nodup ∧
    ∀ p, p ∈ c.live → ∃ b, b ∈ bs ∧ b.alloc = true ∧ p = b.addr + 8

/-- Memory after the stores `write_block` makes into the block itself. -/
def wb_own (m : Mem) (x size : Nat) (alloc pa : Bool) : Mem :=
  if size = 16 then
    wr (wr m x (mini_pack (mini_get_header m x) alloc pa)) (x + 8)
      (mini_pack (mini_get_next m x) alloc pa)
  else if alloc = true then wr m x (pack size alloc pa)
  else wr (wr m x (pack size alloc pa)) (x + size - 8) (pack size alloc pa)

/-- The index part of the invariant, relative to a list `bs0` of blocks that only fixes
where blocks lie: every bucket is a well-formed list of distinct block addresses of its
size class. -/
structure Idx (s : Heap) (bs0 : List Blk) (fl : Nat → List Nat) : Prop where
  lists : ∀ i, i < 15 → FList s.mem i (s.seglist i) (fl i)
  sub : ∀ i, i < 15 → ∀ y, y ∈ fl i → ∃ b, b ∈ bs0 ∧ b.addr = y ∧ find_bucket b.size = i
  nodup : ∀ i, i < 15 → (fl i).Nodup

/-- The states inside `coalesce_block`: the region of `xs` bytes at `xa` lies between
the blocks `l1` and `l2`, the blocks of the region are not in the index, and the
neighbours of the region may be free. -/
structure PreCoal (s : Heap) (l1 : List Blk) (xa xs : Nat) (l2 : List Blk)
    (fl : Nat → List Nat) (pax pae : Bool) : Prop where
  lo_pos : 0 < s.lo
  lo_al : s.lo % 16 = 0
  hs : s.heap_start = s.lo + 8
  brk16 : 16 ≤ s.brk
  top : s.lo + s.brk < 2 ^ 64
  pro : get_alloc s.mem s.lo = true ∧ extract_size (s.mem s.lo) = 0 ∧ extract_mini (s.mem s.lo) = false
  seg1 : Seg s.mem (s.lo + 8) true l1 xa pax
  x16 : 16 ≤ xs
  xm : xs % 16 = 0
  seg2 : Seg s.mem (xa + xs) false l2 (s.lo + s.brk - 8) pae
  epi : Tags s.mem (s.lo + s.brk - 8) 0 true pae
  noadj : NoAdj (l1 ++ ⟨xa, xs, true⟩ :: l2)
  lists : ∀ i, i < 15 → FList s.mem i (s.seglist i) (fl i)
  mem_fl : ∀ i, i < 15 → ∀ a, a ∈ fl i ↔
    ∃ b, (b ∈ l1 ∨ b ∈ l2) ∧ b.addr = a ∧ b.alloc = false ∧ find_bucket b.size = i
  nodup : ∀ i, i < 15 → (fl i).Nodup

/-- The part of `malloc` after a free block has been found: the block becomes
allocated, leaves the index and is split when it is larger than needed. -/
def place (s : Heap) (block asize : Nat) : Heap :=
  let block_size := get_size s.mem block
  let prev_alloc := get_prev_alloc s.mem block
  let s := { s with mem := write_block s.mem block block_size true prev_alloc (get_mini s.mem block) }
  let s := delete s block
  if block_size > min_block_size then
    let (m, rest) := split_block s.mem block asize
    if rest ≠ 0 then insert { s with mem := m } rest else { s with mem := m }
  else s

/-- The number of entries in the lists of the buckets `bucket, bucket + 1, ...`, as the
`for` loop of `mm_checkheap` counts them in at most `k` rounds. -/
def sum_len (fl : Nat → List Nat) : Nat → Nat → Nat
  | 0, _ => 0
  | k + 1, bucket =>
    if bucket < BUCKET_NUM then (fl bucket).length + sum_len fl k (bucket + 1) else 0

/-- The client keeps to the documented preconditions during the whole sequence: every
action is legal in the state in which it is made. -/
def respects (c : Client) : List Op → Bool
  | [] => true
  | op :: ops =>
    legal c op &&
      match exec c op with
      | none => true
      | some c1 => respects c1 ops

/-- The adjusted block size `asize` that `malloc` computes from the request: header
added, rounded up to a multiple of 16, at least `min_block_size`. -/
def adjust (size : Nat) : Nat :=
  let asize := round_up (wadd size wsize) dsize
  if asize < min_block_size then min_block_size else asize

/-! ## The search of the free list index, in the words of the specification -/

/-- The first five blocks of a list, in list order, that have at least `a` bytes. -/
def first_fits (size : Nat → Nat) (a : Nat) (l : List Nat) : List Nat :=
  (l.filter fun b => decide (a ≤ size b)).take 5

/-- The smallest block of a list, the earliest one among blocks of equal size; `NULL`
for the empty list. -/
def smallest (size : Nat → Nat) (l : List Nat) : Nat :=
  (l.find? fun b => l.all fun c => decide (size b ≤ size c)).getD 0

/-- The lowest bucket from `find_bucket a` on whose list holds a block of at least `a`
bytes. -/
def lowest_bucket (size : Nat → Nat) (fl : Nat → List Nat) (a : Nat) : Option Nat :=
  (List.range' (find_bucket a) (BUCKET_NUM - find_bucket a)).find? fun k =>
    (fl k).any fun b => decide (a ≤ size b)

/-- The block that the specification asks of `find_fit`, for buckets whose lists are
`fl 0`, `fl 1`, ... and blocks of the sizes `size`: the head of the mini list for a request
of 16 bytes when that list is not empty; otherwise, in the lowest bucket that holds a
fitting block, the smallest of the first five fitting blocks; `NULL` when no bucket
holds one. -/
def find_fit_ref (size : Nat → Nat) (fl : Nat → List Nat) (a : Nat) : Nat :=
  if a = 16 ∧ fl 0 ≠ [] then (fl 0).headD 0
  else
    match lowest_bucket size fl a with
    | none => 0
    | some k => smallest size (first_fits size a (fl k))

/-! ## Free blocks and their buckets -/

/-- The block `b` is on the list of bucket `i` (bucket 0 is the mini list, linked
through the headers); the walk along the list gets as many steps as the heap has
bytes. -/
def in_bucket (s : Heap) (i b : Nat) : Prop :=
  ∃ l, (if i = 0 then mini_blocks s.mem s.brk (s.seglist 0)
    else bucket_blocks s.mem s.brk (s.seglist i)) = some l ∧ b ∈ l

/-- Every free block of 16 bytes carries the mini flag and is on the mini list and on
no other list; every larger free block is not mini and is on the list of the bucket
of its size, which is not bucket 0, and on no other list. -/
def buckets_by_size (s : Heap) : Prop :=
  ∀ k, before_epilogue s k → get_alloc s.mem (block_at s k) = false →
    (get_size s.mem (block_at s k) = 16 →
      get_mini s.mem (block_at s k) = true ∧ in_bucket s 0 (block_at s k) ∧
      ∀ i, 1 ≤ i → i < BUCKET_NUM → ¬ in_bucket s i (block_at s k)) ∧
    (16 < get_size s.mem (block_at s k) →
      get_mini s.mem (block_at s k) = false ∧
      1 ≤ find_bucket (get_size s.mem (block_at s k)) ∧
      in_bucket s (find_bucket (get_size s.mem (block_at s k))) (block_at s k) ∧
      ∀ i, i < BUCKET_NUM → i ≠ find_bucket (get_size s.mem (block_at s k)) →
        ¬ in_bucket s i (block_at s k))

/-! ## Heaps with one word replaced -/

/-- The heap `s` with the word `v` stored at the address `a`. -/
def poke (s : Heap) (a v : Nat) : Heap := { s with mem := wr s.mem a v }

/-! ## Requests of one size in a row, and the release of every other block -/

/-- The blocks `i, i + 1, ..., i + n - 1` of a row of allocated blocks of `a` bytes each
that starts at `base`. -/
def row (base a i n : Nat) : List Blk :=
  (List.range' i n).map fun k => ⟨base + k * a, a, true⟩

/-- The free block of `R` bytes at `t`; no block when `R` is zero. -/
def tail_block (t R : Nat) : List Blk := if R = 0 then [] else [⟨t, R, false⟩]

/-- The free bytes at the end of the heap after a request with the adjusted size `a` has
been served while `R` bytes were free there: the request is cut from them when they
suffice, and otherwise the heap grows by `max a chunksize` bytes first. -/
def rest_step (a R : Nat) : Nat := if a ≤ R then R - a else R + max a chunksize - a

/-- The free bytes at the end of the heap after `n` such requests. -/
def rest (a : Nat) : Nat → Nat → Nat
  | R, 0 => R
  | R, n + 1 => rest a (rest_step a R) n

/-- Every other element of a list, starting with the first. -/
def every_other : List Nat → List Nat
  | [] => []
  | [x] => [x]
  | x :: _ :: l => x :: every_other l

/-- The `n` blocks of a row from index `i` on, and the `R` free bytes behind the row,
after every other block, starting with block `i`, has been released: a released block
stays alone between its allocated neighbours, and the last block of the row, if it is
released, takes up the free bytes behind it. -/
def released (base a R : Nat) : Nat → Nat → List Blk
  | i, 0 => tail_block (base + i * a) R
  | i, 1 => [⟨base + i * a, a + R, false⟩]
  | i, n + 2 =>
    ⟨base + i * a, a, false⟩ :: ⟨base + (i + 1) * a, a, true⟩ :: released base a R (i + 2) n

/-! ## Bit level facts about header words -/

theorem lor_small (k b x r : Nat) (hr : r < 2 ^ k) (hrb : (r ||| b) = r + b)
    (hlt : r + b < 2 ^ k) (hx : x % 2 ^ k = r) : x ||| b = x + b := by
  have e0 : 2 ^ k * (x / 2 ^ k) + r = x := by rw [← hx]; exact Nat.div_add_mod _ _
  have e1 : x = 2 ^ k * (x / 2 ^ k) ||| r := by
    rw [← Nat.mul_add_lt_is_or hr]; exact e0.symm
  calc x ||| b = (2 ^ k * (x / 2 ^ k) ||| r) ||| b := by rw [← e1]
    _ = 2 ^ k * (x / 2 ^ k) ||| (r + b) := by rw [Nat.lor_assoc, hrb]
    _ = 2 ^ k * (x / 2 ^ k) + (r + b) := (Nat.mul_add_lt_is_or hlt _).symm
    _ = x + b := by omega

theorem lor_one (x : Nat) (h : x % 2 = 0) : x ||| 1 = x + 1 :=
  lor_small 1 1 x 0 (by norm_num) (by decide) (by norm_num) (by simpa using h)

theorem lor_two (x : Nat) (h : x / 2 % 2 = 0) : x ||| 2 = x + 2 := by
  have h4 : x % 4 < 2 := by omega
  have h5 : x % 2 ^ 2 = x % 4 := by norm_num
  interval_cases hx : x % 4
  · exact lor_small 2 2 x 0 (by norm_num) (by decide) (by norm_num) (by omega)
  · exact lor_small 2 2 x 1 (by norm_num) (by decide) (by norm_num) (by omega)

theorem lor_four (x : Nat) (h : x / 4 % 2 = 0) : x ||| 4 = x + 4 := by
  have h4 : x % 8 < 4 := by omega
  have h5 : x % 2 ^ 3 = x % 8 := by norm_num
  interval_cases hx : x % 8
  · exact lor_small 3 4 x 0 (by norm_num) (by decide) (by norm_num) (by omega)
  · exact lor_small 3 4 x 1 (by norm_num) (by decide) (by norm_num) (by omega)
  · exact lor_small 3 4 x 2 (by norm_num) (by decide) (by norm_num) (by omega)
  · exact lor_small 3 4 x 3 (by norm_num) (by decide) (by norm_num) (by omega)

theorem land_size_mask (w : Nat) : w &&& 0xFFFFFFFFFFFFFFF0 = w % 2 ^ 64 / 16 * 16 := by
  apply Nat.eq_of_testBit_eq
  intro i
  have h : (0xFFFFFFFFFFFFFFF0 : Nat) = 2 ^ 4 * (2 ^ 60 - 1) := by norm_num
  have h2 : w % 2 ^ 64 / 16 * 16 = 2 ^ 4 * ((w % 2 ^ 64) >>> 4) := by
    rw [Nat.shiftRight_eq_div_pow]; norm_num; ring
  rw [h, h2, Nat.testBit_and, Nat.testBit_mul_pow_two, Nat.testBit_mul_pow_two,
    Nat.testBit_two_pow_sub_one, Nat.testBit_shiftRight, Nat.testBit_mod_two_pow]
  by_cases h4 : 4 ≤ i
  · have e : 4 + (i - 4) = i := by omega
    by_cases h64 : i < 64
    · have : i - 4 < 60 := by omega
      simp [h4, h64, this, e]
    · have : ¬ i - 4 < 60 := by omega
      simp [h4, h64, this, e]
  · simp [h4]

theorem land_next_mask (w : Nat) : w &&& 0xFFFFFFFFFFFFFFF8 = w % 2 ^ 64 / 8 * 8 := by
  apply Nat.eq_of_testBit_eq
  intro i
  have h : (0xFFFFFFFFFFFFFFF8 : Nat) = 2 ^ 3 * (2 ^ 61 - 1) := by norm_num
  have h2 : w % 2 ^ 64 / 8 * 8 = 2 ^ 3 * ((w % 2 ^ 64) >>> 3) := by
    rw [Nat.shiftRight_eq_div_pow]; norm_num; ring
  rw [h, h2, Nat.testBit_and, Nat.testBit_mul_pow_two, Nat.testBit_mul_pow_two,
    Nat.testBit_two_pow_sub_one, Nat.testBit_shiftRight, Nat.testBit_mod_two_pow]
  by_cases h4 : 3 ≤ i
  · have e : 3 + (i - 3) = i := by omega
    by_cases h64 : i < 64
    · have : i - 3 < 61 := by omega
      simp [h4, h64, this, e]
    · have : ¬ i - 3 < 61 := by omega
      simp [h4, h64, this, e]
  · simp [h4]

theorem land_one (w : Nat) : w &&& 1 = w % 2 := by
  have := Nat.and_pow_two_sub_one_eq_mod w 1
  simp

theorem land_two (w : Nat) : w &&& 2 = w / 2 % 2 * 2 := by
  have := Nat.and_two_pow w 1
  rw [Nat.testBit_to_div_mod] at this
  simp at this
  rw [this]
  rcases Nat.mod_two_eq_zero_or_one (w / 2) with h | h <;> simp [h]

theorem land_four (w : Nat) : w &&& 4 = w / 4 % 2 * 4 := by
  have := Nat.and_two_pow w 2
  rw [Nat.testBit_to_div_mod] at this
  simp at this
  rw [this]
  rcases Nat.mod_two_eq_zero_or_one (w / 4) with h | h <;> simp [h]

/-! Arithmetic readings of the accessors. -/

theorem extract_alloc_eq (w : Nat) : extract_alloc w = decide (w % 2 = 1) := by
  unfold extract_alloc alloc_mask
  rw [land_one]
  rcases Nat.mod_two_eq_zero_or_one w with h | h <;> simp [h]

theorem extract_prev_alloc_eq (w : Nat) : extract_prev_alloc w = decide (w / 2 % 2 = 1) := by
  unfold extract_prev_alloc prev_alloc_mask
  rw [land_two]
  rcases Nat.mod_two_eq_zero_or_one (w / 2) with h | h <;> simp [h]

theorem extract_mini_eq (w : Nat) : extract_mini w = decide (w / 4 % 2 = 1) := by
  unfold extract_mini mini_mask
  rw [land_four]
  rcases Nat.mod_two_eq_zero_or_one (w / 4) with h | h <;> simp [h]

theorem extract_size_eq (w : Nat) : extract_size w = w % 2 ^ 64 / 16 * 16 := by
  unfold extract_size size_mask
  exact land_size_mask w

theorem extract_header_eq (w : Nat) : extract_header w = w % 2 ^ 64 / 8 * 8 := by
  unfold extract_header next_mask
  exact land_next_mask w

theorem pack_eq (size : Nat) (a p : Bool) (h : size % 4 = 0) :
    pack size a p = size + a.toNat + 2 * p.toNat := by
  unfold pack alloc_mask prev_alloc_mask
  cases a <;> cases p <;> simp
  · exact lor_two _ (by omega)
  · exact lor_one _ (by omega)
  · rw [lor_one _ (by omega), lor_two _ (by omega)]

theorem mini_pack_eq (header : Nat) (a p : Bool) (h : header % 8 = 0) :
    mini_pack header a p = header + 4 + a.toNat + 2 * p.toNat := by
  unfold mini_pack alloc_mask prev_alloc_mask mini_mask
  rw [lor_four _ (by omega)]
  cases a <;> cases p <;> simp
  · exact lor_two _ (by omega)
  · exact lor_one _ (by omega)
  · rw [lor_one _ (by omega), lor_two _ (by omega)]

theorem extract_size_mod (w : Nat) : extract_size w % 16 = 0 := by
  rw [extract_size_eq]; omega

theorem extract_size_lt (w : Nat) : extract_size w < 2 ^ 64 := by
  rw [extract_size_eq]; omega

theorem extract_header_mod (w : Nat) : extract_header w % 8 = 0 := by
  rw [extract_header_eq]; omega

theorem extract_header_lt (w : Nat) : extract_header w < 2 ^ 64 := by
  rw [extract_header_eq]; omega

theorem extract_alloc_pack (size : Nat) (a p : Bool) (h : size % 16 = 0) :
    extract_alloc (pack size a p) = a := by
  rw [extract_alloc_eq, pack_eq _ _ _ (by omega)]
  cases a <;> cases p <;> simp <;> omega

theorem extract_prev_alloc_pack (size : Nat) (a p : Bool) (h : size % 16 = 0) :
    extract_prev_alloc (pack size a p) = p := by
  rw [extract_prev_alloc_eq, pack_eq _ _ _ (by omega)]
  cases a <;> cases p <;> simp <;> omega

theorem extract_mini_pack (size : Nat) (a p : Bool) (h : size % 16 = 0) :
    extract_mini (pack size a p) = false := by
  rw [extract_mini_eq, pack_eq _ _ _ (by omega)]
  cases a <;> cases p <;> simp <;> omega

theorem extract_size_pack (size : Nat) (a p : Bool) (h : size % 16 = 0) (hlt : size < 2 ^ 64) :
    extract_size (pack size a p) = size := by
  rw [extract_size_eq, pack_eq _ _ _ (by omega)]
  cases a <;> cases p <;> simp <;> omega

theorem extract_alloc_mini_pack (x : Nat) (a p : Bool) (h : x % 8 = 0) :
    extract_alloc (mini_pack x a p) = a := by
  rw [extract_alloc_eq, mini_pack_eq _ _ _ h]
  cases a <;> cases p <;> simp <;> omega

theorem extract_prev_alloc_mini_pack (x : Nat) (a p : Bool) (h : x % 8 = 0) :
    extract_prev_alloc (mini_pack x a p) = p := by
  rw [extract_prev_alloc_eq, mini_pack_eq _ _ _ h]
  cases a <;> cases p <;> simp <;> omega

theorem extract_mini_mini_pack (x : Nat) (a p : Bool) (h : x % 8 = 0) :
    extract_mini (mini_pack x a p) = true := by
  rw [extract_mini_eq, mini_pack_eq _ _ _ h]
  cases a <;> cases p <;> simp <;> omega

theorem extract_header_mini_pack (x : Nat) (a p : Bool) (h : x % 8 = 0) (hlt : x < 2 ^ 64) :
    extract_header (mini_pack x a p) = x := by
  rw [extract_header_eq, mini_pack_eq _ _ _ h]
  cases a <;> cases p <;> simp <;> omega

/-! Reads after a store. -/

theorem wr_same (m : Mem) (a v : Nat) : wr m a v a = v := by simp [wr]

theorem wr_other (m : Mem) (a v x : Nat) (h : x ≠ a) : wr m a v x = m x := by simp [wr, h]

/-! ## Block sequences -/

theorem Seg_append (m : Mem) (l1 l2 : List Blk) (a : Nat) (pa : Bool) (a1 : Nat) (pa1 : Bool) :
    Seg m a pa (l1 ++ l2) a1 pa1 ↔ ∃ a2 pa2, Seg m a pa l1 a2 pa2 ∧ Seg m a2 pa2 l2 a1 pa1 := by
  induction l1 generalizing a pa with
  | nil =>
    simp only [List.nil_append, Seg]
    constructor
    · intro h; exact ⟨a, pa, ⟨rfl, rfl⟩, h⟩
    · rintro ⟨a2, pa2, ⟨rfl, rfl⟩, h⟩; exact h
  | cons b l ih =>
    show (b.addr = a ∧ Hdr m b pa ∧ Ftr m b ∧ Seg m (a + b.size) b.alloc (l ++ l2) a1 pa1) ↔
      ∃ a2 pa2, (b.addr = a ∧ Hdr m b pa ∧ Ftr m b ∧ Seg m (a + b.size) b.alloc l a2 pa2) ∧
        Seg m a2 pa2 l2 a1 pa1
    rw [ih]
    constructor
    · rintro ⟨h1, h2, h3, a2, pa2, h4, h5⟩; exact ⟨a2, pa2, ⟨h1, h2, h3, h4⟩, h5⟩
    · rintro ⟨a2, pa2, ⟨h1, h2, h3, h4⟩, h5⟩; exact ⟨h1, h2, h3, a2, pa2, h4, h5⟩

theorem Seg_le (m : Mem) (l : List Blk) (a : Nat) (pa : Bool) (a1 : Nat) (pa1 : Bool)
    (h : Seg m a pa l a1 pa1) : a ≤ a1 := by
  induction l generalizing a pa with
  | nil => simp only [Seg] at h; omega
  | cons b l ih =>
    simp only [Seg] at h
    have := ih _ _ h.2.2.2
    omega

theorem Seg_mem_range (m : Mem) (l : List Blk) (a : Nat) (pa : Bool) (a1 : Nat) (pa1 : Bool)
    (h : Seg m a pa l a1 pa1) (b : Blk) (hb : b ∈ l) :
    a ≤ b.addr ∧ b.addr + b.size ≤ a1 ∧ 16 ≤ b.size ∧ b.size % 16 = 0 ∧ b.addr % 16 = a % 16 := by
  induction l generalizing a pa with
  | nil => simp at hb
  | cons c l ih =>
    simp only [Seg] at h
    obtain ⟨h1, h2, _, h4⟩ := h
    rcases List.mem_cons.1 hb with rfl | hb
    · have := Seg_le _ _ _ _ _ _ h4
      obtain ⟨h6, h5, _⟩ := h2
      refine ⟨by omega, by omega, h6, h5, by rw [h1]⟩
    · have := ih _ _ h4 hb
      obtain ⟨h6, h5, _⟩ := h2
      refine ⟨by omega, this.2.1, this.2.2.1, this.2.2.2.1, by omega⟩

theorem Seg_mem_hdr (m : Mem) (l : List Blk) (a : Nat) (pa : Bool) (a1 : Nat) (pa1 : Bool)
    (h : Seg m a pa l a1 pa1) (b : Blk) (hb : b ∈ l) : (∃ p, Hdr m b p) ∧ Ftr m b := by
  induction l generalizing a pa with
  | nil => simp at hb
  | cons c l ih =>
    simp only [Seg] at h
    rcases List.mem_cons.1 hb with rfl | hb
    · exact ⟨⟨pa, h.2.1⟩, h.2.2.1⟩
    · exact ih _ _ h.2.2.2 hb

/-- Two blocks of a sequence are the same block or do not overlap. -/
theorem Seg_pairwise (m : Mem) (l : List Blk) (a : Nat) (pa : Bool) (a1 : Nat) (pa1 : Bool)
    (h : Seg m a pa l a1 pa1) (b c : Blk) (hb : b ∈ l) (hc : c ∈ l) :
    b = c ∨ b.addr + b.size ≤ c.addr ∨ c.addr + c.size ≤ b.addr := by
  induction l generalizing a pa with
  | nil => simp at hb
  | cons d l ih =>
    simp only [Seg] at h
    obtain ⟨h1, _, _, h4⟩ := h
    rcases List.mem_cons.1 hb with hb1 | hb1
    · rcases List.mem_cons.1 hc with hc1 | hc1
      · left; rw [hb1, hc1]
      · have := Seg_mem_range _ _ _ _ _ _ h4 c hc1
        right; left; rw [hb1]; omega
    · rcases List.mem_cons.1 hc with hc1 | hc1
      · have := Seg_mem_range _ _ _ _ _ _ h4 b hb1
        right; right; rw [hc1]; omega
      · exact ih _ _ h4 hb1 hc1

/-- A block of a sequence is determined by its address. -/
theorem Seg_addr_inj (m : Mem) (l : List Blk) (a : Nat) (pa : Bool) (a1 : Nat) (pa1 : Bool)
    (h : Seg m a pa l a1 pa1) (b c : Blk) (hb : b ∈ l) (hc : c ∈ l) (e : b.addr = c.addr) :
    b = c := by
  rcases Seg_pairwise m l a pa a1 pa1 h b c hb hc with h1 | h1 | h1
  · exact h1
  · have := Seg_mem_range _ _ _ _ _ _ h b hb; omega
  · have := Seg_mem_range _ _ _ _ _ _ h c hc; omega

/-- A sequence only depends on the header words and on the last words of the free
blocks. -/
theorem Seg_mono (m m1 : Mem) (l : List Blk) (a : Nat) (pa : Bool) (a1 : Nat) (pa1 : Bool)
    (h : Seg m a pa l a1 pa1)
    (hm : ∀ b, b ∈ l → (∀ p, Hdr m b p → Hdr m1 b p) ∧ (Ftr m b → Ftr m1 b)) :
    Seg m1 a pa l a1 pa1 := by
  induction l generalizing a pa with
  | nil => exact h
  | cons c l ih =>
    simp only [Seg] at h ⊢
    obtain ⟨h1, h2, h3, h4⟩ := h
    have hc := hm c (List.mem_cons_self _ _)
    exact ⟨h1, hc.1 _ h2, hc.2 h3, ih _ _ h4 (fun b hb => hm b (List.mem_cons_of_mem _ hb))⟩

theorem Hdr_frame (m m1 : Mem) (b : Blk) (p : Bool) (e : m1 b.addr = m b.addr) (h : Hdr m b p) :
    Hdr m1 b p := by
  unfold Hdr Tags get_alloc get_prev_alloc get_mini get_size get_mini at *
  rw [e]; exact h

theorem Ftr_frame (m m1 : Mem) (b : Blk) (e : m1 (b.addr + b.size - 8) = m (b.addr + b.size - 8))
    (h : Ftr m b) : Ftr m1 b := by
  unfold Ftr at *
  rw [e]; exact h

/-- Stores that miss the header words and the last words of the free blocks keep a
sequence. -/
theorem Seg_frame (m m1 : Mem) (l : List Blk) (a : Nat) (pa : Bool) (a1 : Nat) (pa1 : Bool)
    (h : Seg m a pa l a1 pa1)
    (hm : ∀ b, b ∈ l → m1 b.addr = m b.addr ∧
      (b.alloc = false → m1 (b.addr + b.size - 8) = m (b.addr + b.size - 8))) :
    Seg m1 a pa l a1 pa1 := by
  refine Seg_mono m m1 l a pa a1 pa1 h (fun b hb => ⟨fun p hp => Hdr_frame m m1 b p (hm b hb).1 hp, ?_⟩)
  intro hf ha
  have e := (hm b hb).2 ha
  unfold Ftr at hf
  rw [e]; exact hf ha

/-! ## Linked lists -/

theorem LL_head (nx pv : Nat → Nat) (prev p : Nat) (l : List Nat) (h : LL nx pv prev p l) :
    p = l.headD 0 := by
  cases l with
  | nil => simpa [LL] using h
  | cons x xs => simp only [LL] at h; simp [h.1]

theorem LL_nonzero (nx pv : Nat → Nat) (prev p : Nat) (l : List Nat) (h : LL nx pv prev p l) :
    ∀ y, y ∈ l → y ≠ 0 := by
  induction l generalizing prev p with
  | nil => intro y hy; simp at hy
  | cons x xs ih =>
    simp only [LL] at h
    intro y hy
    rcases List.mem_cons.1 hy with e | hy
    · rw [e]; exact h.2.1
    · exact ih _ _ h.2.2.2 y hy

/-- The successor of the head is the head of the tail. -/
theorem LL_next (nx pv : Nat → Nat) (prev p x : Nat) (xs : List Nat)
    (h : LL nx pv prev p (x :: xs)) : nx x = xs.headD 0 := by
  simp only [LL] at h
  exact LL_head _ _ _ _ _ h.2.2.2

theorem headD_mem_or (l : List Nat) : l.headD 0 = 0 ∨ l.headD 0 ∈ l := by
  cases l with
  | nil => left; rfl
  | cons x xs => right; simp

/-- Changing the links keeps a list when the new links agree with the old ones on its
elements, except that the backward link of the head may be set to the new `prev`. -/
theorem LL_relink (nx pv nx1 pv1 : Nat → Nat) (prev prev1 p : Nat) (l : List Nat)
    (h : LL nx pv prev p l) (hd : l.Nodup)
    (hn : ∀ y, y ∈ l → nx1 y = nx y)
    (hp : ∀ y, y ∈ l → y ≠ p → pv1 y = pv y)
    (hh : p ≠ 0 → pv1 p = prev1) : LL nx1 pv1 prev1 p l := by
  induction l generalizing prev prev1 p with
  | nil => exact h
  | cons x xs ih =>
    simp only [LL] at h ⊢
    obtain ⟨h1, h2, h3, h4⟩ := h
    have hx : x ∉ xs := (List.nodup_cons.1 hd).1
    have hd2 := (List.nodup_cons.1 hd).2
    refine ⟨h1, h2, ?_, ?_⟩
    · rw [← h1]; exact hh (by rw [h1]; exact h2)
    · rw [hn x (List.mem_cons_self _ _)]
      refine ih x x (nx x) h4 hd2 (fun y hy => hn y (List.mem_cons_of_mem _ hy)) ?_ ?_
      · intro y hy _
        refine hp y (List.mem_cons_of_mem _ hy) ?_
        rw [h1]; intro e; rw [e] at hy; exact hx hy
      · intro hne
        have hmem : nx x ∈ xs := by
          have := LL_head _ _ _ _ _ h4
          rcases headD_mem_or xs with h0 | h0
          · rw [← this] at h0; exact absurd h0 hne
          · rw [← this] at h0; exact h0
        rw [hp (nx x) (List.mem_cons_of_mem _ hmem) (by rw [h1]; intro e; rw [e] at hmem; exact hx hmem)]
        cases xs with
        | nil => simp at hmem
        | cons z zs =>
          simp only [LL] at h4
          rw [h4.1]; exact h4.2.2.1

theorem LL_frame (nx pv nx1 pv1 : Nat → Nat) (prev p : Nat) (l : List Nat)
    (h : LL nx pv prev p l)
    (hn : ∀ y, y ∈ l → nx1 y = nx y ∧ pv1 y = pv y) : LL nx1 pv1 prev p l := by
  induction l generalizing prev p with
  | nil => exact h
  | cons x xs ih =>
    simp only [LL] at h ⊢
    obtain ⟨h1, h2, h3, h4⟩ := h
    have hx := hn x (List.mem_cons_self _ _)
    refine ⟨h1, h2, by rw [hx.2]; exact h3, ?_⟩
    rw [hx.1]
    exact ih _ _ h4 (fun y hy => hn y (List.mem_cons_of_mem _ hy))

/-- Where the links of an element point. -/
theorem LL_links (nx pv : Nat → Nat) (prev p : Nat) (l : List Nat) (h : LL nx pv prev p l)
    (x : Nat) (hx : x ∈ l) :
    ((x = p ∧ pv x = prev) ∨ (x ≠ p ∧ pv x ∈ l ∧ nx (pv x) = x)) ∧
    (nx x = 0 ∨ (nx x ∈ l ∧ pv (nx x) = x)) := by
  induction l generalizing prev p with
  | nil => simp at hx
  | cons z zs ih =>
    have hnx := LL_next _ _ _ _ _ _ h
    simp only [LL] at h
    obtain ⟨h1, h2, h3, h4⟩ := h
    rcases List.mem_cons.1 hx with e | hx1
    · subst e
      refine ⟨Or.inl ⟨h1.symm, h3⟩, ?_⟩
      cases zs with
      | nil => left; simpa using hnx
      | cons w ws =>
        right
        simp only [LL] at h4
        simp only [List.headD_cons] at hnx
        refine ⟨by rw [hnx]; simp, ?_⟩
        rw [hnx]; exact h4.2.2.1
    · have := ih z (nx z) h4 hx1
      constructor
      · rcases this.1 with ⟨e1, e2⟩ | ⟨e1, e2, e3⟩
        · by_cases hxz : x = z
          · left; exact ⟨by rw [hxz, h1], by rw [hxz]; exact h3⟩
          · right
            refine ⟨by rw [h1]; exact hxz, by rw [e2]; simp, by rw [e2, ← e1]⟩
        · by_cases hxz : x = z
          · left; exact ⟨by rw [hxz, h1], by rw [hxz]; exact h3⟩
          · right; exact ⟨by rw [h1]; exact hxz, List.mem_cons_of_mem _ e2, e3⟩
      · rcases this.2 with e | ⟨e1, e2⟩
        · left; exact e
        · right; exact ⟨List.mem_cons_of_mem _ e1, e2⟩

theorem LL_next_ne (nx pv : Nat → Nat) (prev p : Nat) (l : List Nat) (h : LL nx pv prev p l)
    (hd : l.Nodup) (x : Nat) (hx : x ∈ l) : nx x ≠ x := by
  induction l generalizing prev p with
  | nil => simp at hx
  | cons z zs ih =>
    have hnx := LL_next _ _ _ _ _ _ h
    simp only [LL] at h
    have hz : z ∉ zs := (List.nodup_cons.1 hd).1
    rcases List.mem_cons.1 hx with e | hx1
    · rw [e, hnx]
      rcases headD_mem_or zs with h0 | h0
      · rw [h0]; exact fun e2 => h.2.1 e2.symm
      · intro e2; rw [e2] at h0; exact hz h0
    · exact ih _ _ h.2.2.2 (List.nodup_cons.1 hd).2 hx1

theorem LL_prev_ne (nx pv : Nat → Nat) (prev p : Nat) (l : List Nat) (h : LL nx pv prev p l)
    (hd : l.Nodup) (hprev : prev ∉ l) (x : Nat) (hx : x ∈ l) : pv x ≠ x := by
  induction l generalizing prev p with
  | nil => simp at hx
  | cons z zs ih =>
    simp only [LL] at h
    have hz : z ∉ zs := (List.nodup_cons.1 hd).1
    rcases List.mem_cons.1 hx with e | hx1
    · rw [e, h.2.2.1]
      intro e2; rw [e2] at hprev; exact hprev (List.mem_cons_self _ _)
    · exact ih _ _ h.2.2.2 (List.nodup_cons.1 hd).2 hz hx1

theorem LL_prev_ne_next (nx pv : Nat → Nat) (prev p : Nat) (l : List Nat)
    (h : LL nx pv prev p l) (hd : l.Nodup) (hprev : prev ∉ l) (x : Nat) (hx : x ∈ l)
    (hn : nx x ≠ 0) : pv x ≠ nx x := by
  induction l generalizing prev p with
  | nil => simp at hx
  | cons z zs ih =>
    have hl := LL_links _ _ _ _ _ h x hx
    simp only [LL] at h
    have hz : z ∉ zs := (List.nodup_cons.1 hd).1
    rcases List.mem_cons.1 hx with e | hx1
    · rw [e, h.2.2.1]
      intro e2
      rcases hl.2 with e3 | ⟨e3, _⟩
      · exact hn e3
      · rw [e, ← e2] at e3; exact hprev e3
    · exact ih _ _ h.2.2.2 (List.nodup_cons.1 hd).2 hz hx1

/-- Unlinking `x`: the element before `x` gets the successor of `x` as its successor, the
element after `x` gets the predecessor of `x` as its predecessor, and the head moves on
when `x` was the head. -/
theorem LL_delete (nx pv nx1 pv1 : Nat → Nat) (prev p x : Nat) (l : List Nat)
    (h : LL nx pv prev p l) (hd : l.Nodup) (hx : x ∈ l) (hprev : prev ∉ l)
    (hn : ∀ y, y ∈ l → y ≠ x → nx1 y = if y = pv x then nx x else nx y)
    (hp : ∀ y, y ∈ l → y ≠ x → pv1 y = if y = nx x then pv x else pv y) :
    LL nx1 pv1 prev (if p = x then nx x else p) (l.erase x) := by
  induction l generalizing prev p with
  | nil => simp at hx
  | cons z zs ih =>
    have hz : z ∉ zs := (List.nodup_cons.1 hd).1
    have hd2 := (List.nodup_cons.1 hd).2
    have hl := h
    simp only [LL] at h
    obtain ⟨h1, h2, h3, h4⟩ := h
    by_cases hxz : x = z
    · subst hxz
      rw [List.erase_cons_head, if_pos h1]
      refine LL_relink nx pv nx1 pv1 x prev (nx x) zs h4 hd2 ?_ ?_ ?_
      · intro y hy
        have hyx : y ≠ x := by intro e; rw [e] at hy; exact hz hy
        rw [hn y (List.mem_cons_of_mem _ hy) hyx, if_neg]
        rw [h3]; intro e; rw [e] at hy; exact hprev (List.mem_cons_of_mem _ hy)
      · intro y hy hne
        have hyx : y ≠ x := by intro e; rw [e] at hy; exact hz hy
        rw [hp y (List.mem_cons_of_mem _ hy) hyx, if_neg hne]
      · intro hne
        have hmem : nx x ∈ zs := by
          have := LL_head _ _ _ _ _ h4
          rcases headD_mem_or zs with h0 | h0
          · rw [← this] at h0; exact absurd h0 hne
          · rw [← this] at h0; exact h0
        have hyx : nx x ≠ x := by intro e; rw [e] at hmem; exact hz hmem
        rw [hp (nx x) (List.mem_cons_of_mem _ hmem) hyx, if_pos rfl, h3]
    · have hxs : x ∈ zs := by
        rcases List.mem_cons.1 hx with e | e
        · exact absurd e hxz
        · exact e
      have hne : ¬ (z == x) = true := by simpa using fun e : z = x => hxz e.symm
      rw [List.erase_cons_tail hne, if_neg (by rw [h1]; exact fun e => hxz e.symm)]
      have hlk := LL_links nx pv z (nx z) zs h4 x hxs
      simp only [LL]
      refine ⟨h1, h2, ?_, ?_⟩
      · rw [hp z (List.mem_cons_self _ _) (fun e => hxz e.symm), if_neg, h3]
        rcases hlk.2 with e | ⟨e, _⟩
        · rw [e]; exact h2
        · intro e2; rw [← e2] at e; exact hz e
      · have hih := ih z (nx z) h4 hd2 hxs hz
          (fun y hy => hn y (List.mem_cons_of_mem _ hy))
          (fun y hy => hp y (List.mem_cons_of_mem _ hy))
        have e : nx1 z = if nx z = x then nx x else nx z := by
          rw [hn z (List.mem_cons_self _ _) (fun e => hxz e.symm)]
          rcases hlk.1 with ⟨e1, e2⟩ | ⟨e1, e2, _⟩
          · rw [if_pos e2.symm, if_pos e1.symm]
          · rw [if_neg, if_neg (fun e => e1 e.symm)]
            intro e3; rw [← e3] at e2; exact hz e2
        rw [e]; exact hih

/-! ## Reading block fields after a store -/

theorem get_alloc_wr (m : Mem) (a v x : Nat) :
    get_alloc (wr m a v) x = if x = a then extract_alloc v else get_alloc m x := by
  unfold get_alloc wr; split <;> rfl

theorem get_prev_alloc_wr (m : Mem) (a v x : Nat) :
    get_prev_alloc (wr m a v) x = if x = a then extract_prev_alloc v else get_prev_alloc m x := by
  unfold get_prev_alloc wr; split <;> rfl

theorem get_mini_wr (m : Mem) (a v x : Nat) :
    get_mini (wr m a v) x = if x = a then extract_mini v else get_mini m x := by
  unfold get_mini wr; split <;> rfl

theorem get_size_wr (m : Mem) (a v x : Nat) :
    get_size (wr m a v) x =
      if x = a then (if extract_mini v then dsize else extract_size v) else get_size m x := by
  unfold get_size get_mini wr; split <;> rfl

theorem mini_get_header_wr (m : Mem) (a v x : Nat) :
    mini_get_header (wr m a v) x = if x = a then extract_header v else mini_get_header m x := by
  unfold mini_get_header wr; split <;> rfl

theorem mini_get_next_wr (m : Mem) (a v x : Nat) :
    mini_get_next (wr m a v) x =
      if x + 8 = a then extract_header v else mini_get_next m x := by
  unfold mini_get_next wr; split <;> rfl

theorem get_next_wr (m : Mem) (a v x : Nat) :
    get_next (wr m a v) x = if x + 8 = a then v else get_next m x := by
  unfold get_next wr; split <;> rfl

theorem get_prev_wr (m : Mem) (a v x : Nat) :
    get_prev (wr m a v) x = if x + 16 = a then v else get_prev m x := by
  unfold get_prev wr; split <;> rfl

theorem Tags_frame (m m1 : Mem) (a size : Nat) (al pa : Bool) (e : m1 a = m a)
    (h : Tags m a size al pa) : Tags m1 a size al pa := by
  unfold Tags get_alloc get_prev_alloc get_mini get_size get_mini at *
  rw [e]; exact h

theorem Tags_size_lt (m : Mem) (a size : Nat) (al pa : Bool) (h : Tags m a size al pa) :
    size < 2 ^ 64 := by
  obtain ⟨_, _, _, h4, h5⟩ := h
  unfold get_size at h5
  by_cases hm : get_mini m a = true
  · rw [if_pos hm] at h5; unfold dsize wsize at h5; omega
  · rw [if_neg hm] at h5
    have := extract_size_lt (m a); omega

/-- The tags of a freshly packed header. -/
theorem Tags_pack (m : Mem) (a size : Nat) (al pa : Bool) (h16 : size % 16 = 0)
    (hne : size ≠ 16) (hlt : size < 2 ^ 64) (e : m a = pack size al pa) :
    Tags m a size al pa := by
  unfold Tags get_alloc get_prev_alloc get_mini get_size get_mini
  rw [e, extract_alloc_pack _ _ _ h16, extract_prev_alloc_pack _ _ _ h16,
    extract_mini_pack _ _ _ h16, extract_size_pack _ _ _ h16 hlt]
  simp [hne, h16]

theorem Tags_mini_pack (m : Mem) (a x : Nat) (al pa : Bool) (h8 : x % 8 = 0)
    (e : m a = mini_pack x al pa) : Tags m a 16 al pa := by
  unfold Tags get_alloc get_prev_alloc get_mini get_size get_mini
  rw [e, extract_alloc_mini_pack _ _ _ h8, extract_prev_alloc_mini_pack _ _ _ h8,
    extract_mini_mini_pack _ _ _ h8]
  simp [dsize, wsize]

/-! ## `write_block` -/

/-- The stores of `write_block_next` when the word behind the block reads as a header. -/
theorem write_block_next_eq (m : Mem) (x size : Nat) (alloc : Bool) (nsize : Nat)
    (nalloc npa : Bool) (hx : find_next m x = x + size) (hsz : get_size m x = size)
    (h16 : 16 ≤ size) (hn : Tags m (x + size) nsize nalloc npa) :
    write_block_next m x alloc =
      if nsize = 16 then
        (if nalloc = true then
          wr m (x + size) (mini_pack (mini_get_header m (x + size)) nalloc alloc)
        else
          wr (wr m (x + size) (mini_pack (mini_get_header m (x + size)) nalloc alloc))
            (x + size + 8) (mini_pack (mini_get_next m (x + size)) nalloc alloc))
      else
        (if nalloc = true then wr m (x + size) (pack nsize nalloc alloc)
        else
          wr (wr m (x + size) (pack nsize nalloc alloc)) (x + size - 8)
            (pack nsize nalloc alloc)) := by
  obtain ⟨hn1, hn2, hn3, hn4, hn5⟩ := hn
  have hne : x ≠ x + size := by omega
  unfold write_block_next
  simp only [hx, hn2, hn4, hn5]
  by_cases h1 : nsize = 16
  · simp only [h1, decide_True, Bool.not_true, if_true]
    cases nalloc
    · simp [mini_get_next_wr]
    · simp
  · simp only [h1, decide_False, Bool.not_false, if_true, if_false]
    cases nalloc
    · have : header_to_footer (wr m (x + size) (pack nsize false alloc)) x = x + size - 8 := by
        unfold header_to_footer
        rw [get_size_wr, if_neg hne, hsz]
        unfold wsize dsize wsize; omega
      simp [this]
    · simp


theorem wb_own_tags (m : Mem) (x size : Nat) (alloc pa : Bool) (h16 : 16 ≤ size)
    (hm : size % 16 = 0) (hlt : size < 2 ^ 64) : Tags (wb_own m x size alloc pa) x size alloc pa := by
  unfold wb_own
  by_cases h1 : size = 16
  · rw [if_pos h1, h1]
    refine Tags_mini_pack _ _ (mini_get_header m x) _ _ (extract_header_mod _) ?_
    rw [wr_other _ _ _ _ (by omega), wr_same]
  · rw [if_neg h1]
    refine Tags_pack _ _ _ _ _ hm h1 hlt ?_
    cases alloc
    · simp only [Bool.false_eq_true, if_false]
      rw [wr_other _ _ _ _ (by omega), wr_same]
    · simp only [if_true]
      rw [wr_same]

theorem wb_own_frame (m : Mem) (x size : Nat) (alloc pa : Bool) (w : Nat) (h1 : w ≠ x)
    (h2 : w ≠ x + size - 8) : wb_own m x size alloc pa w = m w := by
  unfold wb_own
  by_cases h : size = 16
  · rw [if_pos h, wr_other _ _ _ _ (by omega), wr_other _ _ _ _ h1]
  · rw [if_neg h]
    cases alloc
    · simp only [Bool.false_eq_true, if_false]
      rw [wr_other _ _ _ _ h2, wr_other _ _ _ _ h1]
    · simp only [if_true]
      rw [wr_other _ _ _ _ h1]

theorem Tags_find_next (m : Mem) (x size : Nat) (al pa : Bool) (h : Tags m x size al pa) :
    find_next m x = x + size := by
  obtain ⟨_, _, _, h4, h5⟩ := h
  unfold find_next
  by_cases h1 : size = 16
  · rw [h4]; simp [h1, dsize, wsize]
  · rw [h4, h5]; simp [h1]

theorem write_block_eq (m : Mem) (x size : Nat) (alloc pa : Bool) (h16 : 16 ≤ size)
    (hm : size % 16 = 0) (hlt : size < 2 ^ 64) :
    write_block m x size alloc pa (decide (size = 16)) =
      write_block_next (wb_own m x size alloc pa) x alloc := by
  unfold write_block wb_own
  by_cases h1 : size = 16
  · simp [h1]
  · simp only [h1, decide_False, Bool.not_false, if_true, if_false]
    cases alloc
    · have : header_to_footer (wr m x (pack size false pa)) x = x + size - 8 := by
        have ht := Tags_pack (wr m x (pack size false pa)) x size false pa hm h1 hlt (wr_same _ _ _)
        unfold header_to_footer
        rw [ht.2.2.2.2]
        unfold wsize dsize wsize; omega
      simp [this]
    · simp

/-- What `write_block` does when the word behind the block reads as a header: the
block gets its tags, the prev_alloc bit behind it is patched, and nothing else but the
last word of the block and the second word of a free mini successor is stored to. -/
theorem write_block_spec (m : Mem) (x size : Nat) (alloc pa : Bool) (nsize : Nat)
    (nalloc npa : Bool) (h16 : 16 ≤ size) (hm : size % 16 = 0) (hlt : size < 2 ^ 64)
    (hn : Tags m (x + size) nsize nalloc npa) :
    Tags (write_block m x size alloc pa (decide (size = 16))) x size alloc pa ∧
    Tags (write_block m x size alloc pa (decide (size = 16))) (x + size) nsize nalloc alloc ∧
    (∀ w, w ≠ x → w ≠ x + size - 8 → w ≠ x + size → w ≠ x + size + 8 →
      write_block m x size alloc pa (decide (size = 16)) w = m w) ∧
    ((nalloc = true ∨ nsize ≠ 16) →
      write_block m x size alloc pa (decide (size = 16)) (x + size + 8) = m (x + size + 8)) := by
  have hown := wb_own_tags m x size alloc pa h16 hm hlt
  have hfr := wb_own_frame m x size alloc pa
  have hn1 : Tags (wb_own m x size alloc pa) (x + size) nsize nalloc npa :=
    Tags_frame _ _ _ _ _ _ (hfr _ (by omega) (by omega)) hn
  have hnlt := Tags_size_lt _ _ _ _ _ hn
  rw [write_block_eq m x size alloc pa h16 hm hlt,
    write_block_next_eq _ x size alloc nsize nalloc npa (Tags_find_next _ _ _ _ _ hown)
      hown.2.2.2.2 h16 hn1]
  have e1 : x ≠ x + size := by omega
  have e2 : x ≠ x + size + 8 := by omega
  have e3 : x + size ≠ x + size + 8 := by omega
  have e4 : x + size ≠ x + size - 8 := by omega
  have e5 : x + size + 8 ≠ x + size := by omega
  refine ⟨?_, ?_, ?_, ?_⟩
  · -- own tags survive the stores behind the block
    by_cases h1 : nsize = 16
    · rw [if_pos h1]
      cases nalloc
      · simp only [Bool.false_eq_true, if_false]
        exact Tags_frame _ _ _ _ _ _ (by rw [wr_other _ _ _ _ e2, wr_other _ _ _ _ e1]) hown
      · simp only [if_true]
        exact Tags_frame _ _ _ _ _ _ (by rw [wr_other _ _ _ _ e1]) hown
    · rw [if_neg h1]
      cases nalloc
      · simp only [Bool.false_eq_true, if_false]
        exact Tags_frame _ _ _ _ _ _
          (by rw [wr_other _ _ _ _ (by omega), wr_other _ _ _ _ e1]) hown
      · simp only [if_true]
        exact Tags_frame _ _ _ _ _ _ (by rw [wr_other _ _ _ _ e1]) hown
  · by_cases h1 : nsize = 16
    · rw [if_pos h1, h1]
      cases nalloc
      · simp only [Bool.false_eq_true, if_false]
        exact Tags_mini_pack _ _ (mini_get_header _ _) _ _ (extract_header_mod _)
          (by rw [wr_other _ _ _ _ e3, wr_same])
      · simp only [if_true]
        exact Tags_mini_pack _ _ (mini_get_header _ _) _ _ (extract_header_mod _)
          (by rw [wr_same])
    · rw [if_neg h1]
      cases nalloc
      · simp only [Bool.false_eq_true, if_false]
        exact Tags_pack _ _ _ _ _ hn.1 h1 hnlt (by rw [wr_other _ _ _ _ e4, wr_same])
      · simp only [if_true]
        exact Tags_pack _ _ _ _ _ hn.1 h1 hnlt (by rw [wr_same])
  · intro w w1 w2 w3 w4
    by_cases h1 : nsize = 16
    · rw [if_pos h1]
      cases nalloc
      · simp only [Bool.false_eq_true, if_false]
        rw [wr_other _ _ _ _ w4, wr_other _ _ _ _ w3, hfr w w1 w2]
      · simp only [if_true]
        rw [wr_other _ _ _ _ w3, hfr w w1 w2]
    · rw [if_neg h1]
      cases nalloc
      · simp only [Bool.false_eq_true, if_false]
        rw [wr_other _ _ _ _ w2, wr_other _ _ _ _ w3, hfr w w1 w2]
      · simp only [if_true]
        rw [wr_other _ _ _ _ w3, hfr w w1 w2]
  · intro hc
    by_cases h1 : nsize = 16
    · rw [if_pos h1]
      cases nalloc
      · simp [h1] at hc
      · simp only [if_true]
        rw [wr_other _ _ _ _ e5, hfr _ (by omega) (by omega)]
    · rw [if_neg h1]
      cases nalloc
      · simp only [Bool.false_eq_true, if_false]
        rw [wr_other _ _ _ _ (by omega), wr_other _ _ _ _ e5, hfr _ (by omega) (by omega)]
      · simp only [if_true]
        rw [wr_other _ _ _ _ e5, hfr _ (by omega) (by omega)]

theorem mini_get_header_mod (m : Mem) (a : Nat) : mini_get_header m a % 8 = 0 :=
  extract_header_mod _

theorem mini_get_header_lt (m : Mem) (a : Nat) : mini_get_header m a < 2 ^ 64 :=
  extract_header_lt _

theorem mini_get_next_mod (m : Mem) (a : Nat) : mini_get_next m a % 8 = 0 :=
  extract_header_mod _

theorem mini_get_next_lt (m : Mem) (a : Nat) : mini_get_next m a < 2 ^ 64 :=
  extract_header_lt _

theorem mini_get_header_mini_pack (m : Mem) (a x : Nat) (al pa : Bool) (h8 : x % 8 = 0)
    (hlt : x < 2 ^ 64) (e : m a = mini_pack x al pa) : mini_get_header m a = x := by
  unfold mini_get_header
  rw [e, extract_header_mini_pack _ _ _ h8 hlt]

theorem mini_get_next_mini_pack (m : Mem) (a x : Nat) (al pa : Bool) (h8 : x % 8 = 0)
    (hlt : x < 2 ^ 64) (e : m (a + 8) = mini_pack x al pa) : mini_get_next m a = x := by
  unfold mini_get_next
  rw [e, extract_header_mini_pack _ _ _ h8 hlt]

/-- More on `write_block`: the last word of the block when it is written free, and the
list pointers kept in mini blocks. -/
theorem write_block_spec2 (m : Mem) (x size : Nat) (alloc pa : Bool) (nsize : Nat)
    (nalloc npa : Bool) (h16 : 16 ≤ size) (hm : size % 16 = 0) (hlt : size < 2 ^ 64)
    (hn : Tags m (x + size) nsize nalloc npa) :
    (alloc = false → (nalloc = true ∨ nsize = 16) →
      extract_mini (write_block m x size alloc pa (decide (size = 16)) (x + size - 8)) =
        decide (size = 16) ∧
      (size ≠ 16 →
        extract_size (write_block m x size alloc pa (decide (size = 16)) (x + size - 8)) = size ∧
        extract_alloc (write_block m x size alloc pa (decide (size = 16)) (x + size - 8)) =
          false)) ∧
    (size = 16 →
      mini_get_header (write_block m x size alloc pa (decide (size = 16))) x =
        mini_get_header m x ∧
      ((nalloc = true ∨ nsize = 16) →
        mini_get_next (write_block m x size alloc pa (decide (size = 16))) x =
          mini_get_next m x)) ∧
    (nsize = 16 →
      mini_get_header (write_block m x size alloc pa (decide (size = 16))) (x + size) =
        mini_get_header m (x + size) ∧
      mini_get_next (write_block m x size alloc pa (decide (size = 16))) (x + size) =
        mini_get_next m (x + size) ∧
      (nalloc = false →
        extract_mini (write_block m x size alloc pa (decide (size = 16)) (x + size + 8)) =
          true)) := by
  have hown := wb_own_tags m x size alloc pa h16 hm hlt
  have hfr := wb_own_frame m x size alloc pa
  have hn1 : Tags (wb_own m x size alloc pa) (x + size) nsize nalloc npa :=
    Tags_frame _ _ _ _ _ _ (hfr _ (by omega) (by omega)) hn
  rw [write_block_eq m x size alloc pa h16 hm hlt,
    write_block_next_eq _ x size alloc nsize nalloc npa (Tags_find_next _ _ _ _ _ hown)
      hown.2.2.2.2 h16 hn1]
  have e1 : x ≠ x + size := by omega
  have e2 : x ≠ x + size + 8 := by omega
  have e3 : x + size ≠ x + size + 8 := by omega
  have e5 : x + size + 8 ≠ x + size := by omega
  have e6 : x + size - 8 ≠ x + size := by omega
  have e7 : x + size - 8 ≠ x + size + 8 := by omega
  -- the last word of the block after the own stores
  have hlast : alloc = false →
      extract_mini (wb_own m x size alloc pa (x + size - 8)) = decide (size = 16) ∧
      (size ≠ 16 → extract_size (wb_own m x size alloc pa (x + size - 8)) = size ∧
        extract_alloc (wb_own m x size alloc pa (x + size - 8)) = false) := by
    intro ha
    unfold wb_own
    by_cases h1 : size = 16
    · rw [if_pos h1]
      have : x + size - 8 = x + 8 := by omega
      rw [this, wr_same, extract_mini_mini_pack _ _ _ (mini_get_next_mod _ _)]
      simp [h1]
    · rw [if_neg h1, ha]
      simp only [Bool.false_eq_true, if_false]
      rw [wr_same, extract_mini_pack _ _ _ hm, extract_size_pack _ _ _ hm hlt,
        extract_alloc_pack _ _ _ hm]
      simp [h1]
  have hptr : size = 16 →
      mini_get_header (wb_own m x size alloc pa) x = mini_get_header m x ∧
      mini_get_next (wb_own m x size alloc pa) x = mini_get_next m x := by
    intro h1
    unfold wb_own
    rw [if_pos h1]
    constructor
    · exact mini_get_header_mini_pack _ _ _ _ _ (mini_get_header_mod _ _)
        (mini_get_header_lt _ _) (by rw [wr_other _ _ _ _ (by omega), wr_same])
    · exact mini_get_next_mini_pack _ _ _ _ _ (mini_get_next_mod _ _) (mini_get_next_lt _ _)
        (by rw [wr_same])
  refine ⟨?_, ?_, ?_⟩
  · intro ha hc
    by_cases h1 : nsize = 16
    · rw [if_pos h1]
      cases nalloc
      · simp only [Bool.false_eq_true, if_false]
        rw [wr_other _ _ _ _ e7, wr_other _ _ _ _ e6]; exact hlast ha
      · simp only [if_true]
        rw [wr_other _ _ _ _ e6]; exact hlast ha
    · rw [if_neg h1]
      cases nalloc
      · simp [h1] at hc
      · simp only [if_true]
        rw [wr_other _ _ _ _ e6]; exact hlast ha
  · intro h1
    have hp := hptr h1
    constructor
    · rw [← hp.1]
      unfold mini_get_header
      by_cases h2 : nsize = 16
      · rw [if_pos h2]
        cases nalloc
        · simp only [Bool.false_eq_true, if_false]
          rw [wr_other _ _ _ _ e2, wr_other _ _ _ _ e1]
        · simp only [if_true]
          rw [wr_other _ _ _ _ e1]
      · rw [if_neg h2]
        cases nalloc
        · simp only [Bool.false_eq_true, if_false]
          rw [wr_other _ _ _ _ (by omega), wr_other _ _ _ _ e1]
        · simp only [if_true]
          rw [wr_other _ _ _ _ e1]
    · intro hc
      rw [← hp.2]
      unfold mini_get_next
      by_cases h2 : nsize = 16
      · rw [if_pos h2]
        cases nalloc
        · simp only [Bool.false_eq_true, if_false]
          rw [wr_other _ _ _ _ (by omega), wr_other _ _ _ _ (by omega)]
        · simp only [if_true]
          rw [wr_other _ _ _ _ (by omega)]
      · rw [if_neg h2]
        cases nalloc
        · simp [h2] at hc
        · simp only [if_true]
          rw [wr_other _ _ _ _ (by omega)]
  · intro h2
    rw [if_pos h2]
    have hh : mini_get_header (wb_own m x size alloc pa) (x + size) = mini_get_header m (x + size) := by
      unfold mini_get_header; rw [hfr _ (by omega) (by omega)]
    have hx : mini_get_next (wb_own m x size alloc pa) (x + size) = mini_get_next m (x + size) := by
      unfold mini_get_next; rw [hfr _ (by omega) (by omega)]
    cases nalloc
    · simp only [Bool.false_eq_true, if_false]
      refine ⟨?_, ?_, ?_⟩
      · rw [← hh]
        exact mini_get_header_mini_pack _ _ _ _ _ (mini_get_header_mod _ _)
          (mini_get_header_lt _ _) (by rw [wr_other _ _ _ _ e3, wr_same])
      · rw [← hx]
        exact mini_get_next_mini_pack _ _ _ _ _ (mini_get_next_mod _ _) (mini_get_next_lt _ _)
          (by rw [wr_same])
      · intro _
        rw [wr_same]
        exact extract_mini_mini_pack _ _ _ (mini_get_next_mod _ _)
    · simp only [if_true]
      refine ⟨?_, ?_, ?_⟩
      · rw [← hh]
        exact mini_get_header_mini_pack _ _ _ _ _ (mini_get_header_mod _ _)
          (mini_get_header_lt _ _) (by rw [wr_same])
      · rw [← hx]
        unfold mini_get_next
        rw [wr_other _ _ _ _ e5]
      · intro h; exact absurd h (by simp)

/-- The stores of `write_block_next` whatever the word behind the block holds. -/
theorem write_block_next_any (m : Mem) (x size : Nat) (alloc : Bool)
    (hx : find_next m x = x + size) (hsz : get_size m x = size) (h16 : 16 ≤ size) :
    write_block_next m x alloc =
      if get_mini m (x + size) = true then
        (if get_alloc m (x + size) = true then
          wr m (x + size) (mini_pack (mini_get_header m (x + size)) true alloc)
        else
          wr (wr m (x + size) (mini_pack (mini_get_header m (x + size)) false alloc))
            (x + size + 8) (mini_pack (mini_get_next m (x + size)) false alloc))
      else
        (if get_alloc m (x + size) = true then
          wr m (x + size) (pack (get_size m (x + size)) true alloc)
        else
          wr (wr m (x + size) (pack (get_size m (x + size)) false alloc)) (x + size - 8)
            (pack (get_size m (x + size)) false alloc)) := by
  have hne : x ≠ x + size := by omega
  unfold write_block_next
  simp only [hx]
  by_cases h1 : get_mini m (x + size) = true
  · simp only [h1, Bool.not_true, Bool.false_eq_true, if_false, if_true]
    by_cases h2 : get_alloc m (x + size) = true
    · simp [h2]
    · simp only [Bool.not_eq_true] at h2
      simp [h2, mini_get_next_wr]
  · simp only [Bool.not_eq_true] at h1
    simp only [h1, Bool.not_false, if_true, Bool.false_eq_true, if_false]
    by_cases h2 : get_alloc m (x + size) = true
    · simp [h2]
    · simp only [Bool.not_eq_true] at h2
      have : header_to_footer (wr m (x + size) (pack (get_size m (x + size)) false alloc)) x =
          x + size - 8 := by
        unfold header_to_footer
        rw [get_size_wr, if_neg hne, hsz]
        unfold wsize dsize wsize; omega
      simp [h2, this]

/-- Whatever lies behind the block, `write_block` gives the block its tags and stores
only to four words: the header, the last word of the block, and the two words behind
the block. -/
theorem write_block_any (m : Mem) (x size : Nat) (alloc pa : Bool) (h16 : 16 ≤ size)
    (hm : size % 16 = 0) (hlt : size < 2 ^ 64) :
    Tags (write_block m x size alloc pa (decide (size = 16))) x size alloc pa ∧
    (∀ w, w ≠ x → w ≠ x + size - 8 → w ≠ x + size → w ≠ x + size + 8 →
      write_block m x size alloc pa (decide (size = 16)) w = m w) := by
  have hown := wb_own_tags m x size alloc pa h16 hm hlt
  have hfr := wb_own_frame m x size alloc pa
  rw [write_block_eq m x size alloc pa h16 hm hlt,
    write_block_next_any _ x size alloc (Tags_find_next _ _ _ _ _ hown) hown.2.2.2.2 h16]
  have e1 : x ≠ x + size := by omega
  have e2 : x ≠ x + size + 8 := by omega
  constructor
  · split_ifs
    · exact Tags_frame _ _ _ _ _ _ (by rw [wr_other _ _ _ _ e1]) hown
    · exact Tags_frame _ _ _ _ _ _ (by rw [wr_other _ _ _ _ e2, wr_other _ _ _ _ e1]) hown
    · exact Tags_frame _ _ _ _ _ _ (by rw [wr_other _ _ _ _ e1]) hown
    · exact Tags_frame _ _ _ _ _ _
        (by rw [wr_other _ _ _ _ (by omega), wr_other _ _ _ _ e1]) hown
  · intro w w1 w2 w3 w4
    split_ifs
    · rw [wr_other _ _ _ _ w3, hfr w w1 w2]
    · rw [wr_other _ _ _ _ w4, wr_other _ _ _ _ w3, hfr w w1 w2]
    · rw [wr_other _ _ _ _ w3, hfr w w1 w2]
    · rw [wr_other _ _ _ _ w2, wr_other _ _ _ _ w3, hfr w w1 w2]

/-! ## `delete` -/

/-- Unlinking a non-mini block from its bucket. -/
theorem delete_spec (s : Heap) (x k : Nat) (L : List Nat)
    (hL : LL (get_next s.mem) (get_prev s.mem) 0 (s.seglist k) L) (hx : x ∈ L) (hd : L.Nodup)
    (hal : ∀ y, y ∈ L → y % 16 = 8) (hmini : get_mini s.mem x = false)
    (hb : find_bucket (get_size s.mem x) = k) :
    LL (get_next (delete s x).mem) (get_prev (delete s x).mem) 0 ((delete s x).seglist k)
      (L.erase x) ∧
    (∀ j, j ≠ k → (delete s x).seglist j = s.seglist j) ∧
    (delete s x).lo = s.lo ∧ (delete s x).brk = s.brk ∧
    (delete s x).heap_start = s.heap_start ∧
    (∀ w, w ≠ x + 8 → w ≠ x + 16 → (∀ y, y ∈ L → y ≠ x → w ≠ y + 8 ∧ w ≠ y + 16) →
      (delete s x).mem w = s.mem w) := by
  have hnz := LL_nonzero _ _ _ _ _ hL
  have hlk := LL_links _ _ _ _ _ hL x hx
  have hx8 := hal x hx
  have h0 : (0 : Nat) ∉ L := fun h => hnz 0 h rfl
  unfold delete
  simp only [hmini, Bool.not_false, if_true, hb]
  by_cases hh : x = s.seglist k
  · -- the block is the head of the bucket
    have hpv : get_prev s.mem x = 0 := by
      rcases hlk.1 with ⟨_, e⟩ | ⟨e, _⟩
      · exact e
      · exact absurd hh e
    simp only [if_pos hh]
    by_cases hn : get_next s.mem x = 0
    · simp only [if_pos hn]
      refine ⟨?_, ?_, trivial, trivial, trivial, ?_⟩
      · have := LL_delete (get_next s.mem) (get_prev s.mem)
          (get_next (wr (wr s.mem (x + 8) 0) (x + 16) 0))
          (get_prev (wr (wr s.mem (x + 8) 0) (x + 16) 0)) 0 (s.seglist k) x L hL hd hx h0
          (by
            intro y hy hyx
            have := hal y hy
            have := hnz y hy
            simp only [get_next_wr, hpv, hn]
            split_ifs <;> first | rfl | omega)
          (by
            intro y hy hyx
            have := hal y hy
            have := hnz y hy
            simp only [get_prev_wr, hpv, hn]
            split_ifs <;> first | rfl | omega)
        rw [if_pos hh.symm, hn] at this
        simpa [wr] using this
      · intro j hj; simp [wr, hj]
      · intro w h1 h2 _
        show wr (wr s.mem (x + 8) 0) (x + 16) 0 w = s.mem w
        rw [wr_other _ _ _ _ h2, wr_other _ _ _ _ h1]
    · simp only [if_neg hn]
      have hnx : get_next s.mem x ∈ L ∧ get_prev s.mem (get_next s.mem x) = x := by
        rcases hlk.2 with e | e
        · exact absurd e hn
        · exact e
      have hnx8 := hal _ hnx.1
      have hnxne : get_next s.mem x ≠ x := by
        intro e
        have := LL_links _ _ _ _ _ hL (get_next s.mem x) hnx.1
        rcases this.1 with ⟨e1, e2⟩ | ⟨e1, _⟩
        · rw [hnx.2] at e2; exact hnz x hx e2
        · exact e1 (by rw [e]; exact hh)
      refine ⟨?_, ?_, trivial, trivial, trivial, ?_⟩
      · have := LL_delete (get_next s.mem) (get_prev s.mem)
          (get_next (wr (wr (wr s.mem (get_next s.mem x + 16) 0) (x + 8) 0) (x + 16) 0))
          (get_prev (wr (wr (wr s.mem (get_next s.mem x + 16) 0) (x + 8) 0) (x + 16) 0))
          0 (s.seglist k) x L hL hd hx h0
          (by
            intro y hy hyx
            have := hal y hy
            have := hnz y hy
            simp only [get_next_wr, hpv]
            split_ifs <;> first | rfl | omega)
          (by
            intro y hy hyx
            have := hal y hy
            have := hnz y hy
            simp only [get_prev_wr, hpv]
            split_ifs <;> first | rfl | omega)
        rw [if_pos hh.symm] at this
        simpa [wr] using this
      · intro j hj; simp [wr, hj]
      · intro w h1 h2 h3
        show wr (wr (wr s.mem (get_next s.mem x + 16) 0) (x + 8) 0) (x + 16) 0 w = s.mem w
        rw [wr_other _ _ _ _ h2, wr_other _ _ _ _ h1,
          wr_other _ _ _ _ (h3 _ hnx.1 hnxne).2]
  · -- the block has a predecessor in the bucket
    simp only [if_neg hh]
    have hpv : get_prev s.mem x ∈ L ∧ get_next s.mem (get_prev s.mem x) = x := by
      rcases hlk.1 with ⟨e, _⟩ | ⟨_, e⟩
      · exact absurd e hh
      · exact e
    have hpv8 := hal _ hpv.1
    have hpvne : get_prev s.mem x ≠ x := LL_prev_ne _ _ _ _ _ hL hd h0 x hx
    have hnxne : get_next s.mem x ≠ x := LL_next_ne _ _ _ _ _ hL hd x hx
    have hnx : get_next s.mem x ≠ 0 →
        get_next s.mem x ∈ L ∧ get_prev s.mem (get_next s.mem x) = x := by
      intro hn
      rcases hlk.2 with e | e
      · exact absurd e hn
      · exact e
    have e1 : get_next (wr s.mem (get_prev s.mem x + 8) (get_next s.mem x)) x =
        get_next s.mem x := by
      rw [get_next_wr, if_neg (by omega)]
    have e2 : get_prev (wr s.mem (get_prev s.mem x + 8) (get_next s.mem x)) x =
        get_prev s.mem x := by
      rw [get_prev_wr, if_neg (by omega)]
    simp only [e1, e2]
    by_cases hn : get_next s.mem x = 0
    · simp only [hn, ne_eq, not_true_eq_false, if_false]
      refine ⟨?_, ?_, trivial, trivial, trivial, ?_⟩
      · have := LL_delete (get_next s.mem) (get_prev s.mem)
          (get_next (wr (wr (wr s.mem (get_prev s.mem x + 8) 0) (x + 8) 0) (x + 16) 0))
          (get_prev (wr (wr (wr s.mem (get_prev s.mem x + 8) 0) (x + 8) 0) (x + 16) 0))
          0 (s.seglist k) x L hL hd hx h0
          (by
            intro y hy hyx
            have := hal y hy
            have := hnz y hy
            simp only [get_next_wr, hn]
            split_ifs <;> first | rfl | omega)
          (by
            intro y hy hyx
            have := hal y hy
            have := hnz y hy
            simp only [get_prev_wr, hn]
            split_ifs <;> first | rfl | omega)
        rw [if_neg (fun e => hh e.symm)] at this
        exact this
      · intro j _; trivial
      · intro w h1 h2 h3
        show wr (wr (wr s.mem (get_prev s.mem x + 8) 0) (x + 8) 0) (x + 16) 0 w = s.mem w
        rw [wr_other _ _ _ _ h2, wr_other _ _ _ _ h1,
          wr_other _ _ _ _ (h3 _ hpv.1 hpvne).1]
    · simp only [ne_eq, hn, not_false_eq_true, if_true]
      have hnx1 := hnx hn
      have hnx8 := hal _ hnx1.1
      refine ⟨?_, ?_, trivial, trivial, trivial, ?_⟩
      · have := LL_delete (get_next s.mem) (get_prev s.mem)
          (get_next (wr (wr (wr (wr s.mem (get_prev s.mem x + 8) (get_next s.mem x))
            (get_next s.mem x + 16) (get_prev s.mem x)) (x + 8) 0) (x + 16) 0))
          (get_prev (wr (wr (wr (wr s.mem (get_prev s.mem x + 8) (get_next s.mem x))
            (get_next s.mem x + 16) (get_prev s.mem x)) (x + 8) 0) (x + 16) 0))
          0 (s.seglist k) x L hL hd hx h0
          (by
            intro y hy hyx
            have := hal y hy
            have := hnz y hy
            simp only [get_next_wr]
            split_ifs <;> first | rfl | omega)
          (by
            intro y hy hyx
            have := hal y hy
            have := hnz y hy
            simp only [get_prev_wr]
            split_ifs <;> first | rfl | omega)
        rw [if_neg (fun e => hh e.symm)] at this
        exact this
      · intro j _; trivial
      · intro w h1 h2 h3
        show wr (wr (wr (wr s.mem (get_prev s.mem x + 8) (get_next s.mem x))
            (get_next s.mem x + 16) (get_prev s.mem x)) (x + 8) 0) (x + 16) 0 w = s.mem w
        rw [wr_other _ _ _ _ h2, wr_other _ _ _ _ h1,
          wr_other _ _ _ _ (h3 _ hnx1.1 hnxne).2, wr_other _ _ _ _ (h3 _ hpv.1 hpvne).1]

/-- Unlinking a mini block from the mini list. -/
theorem delete_mini_spec (s : Heap) (x : Nat) (L : List Nat)
    (hL : LL (mini_get_header s.mem) (mini_get_next s.mem) 0 (s.seglist 0) L) (hx : x ∈ L)
    (hd : L.Nodup) (hal : ∀ y, y ∈ L → y % 16 = 8 ∧ y < 2 ^ 64)
    (hmini : get_mini s.mem x = true) :
    LL (mini_get_header (delete s x).mem) (mini_get_next (delete s x).mem) 0
      ((delete s x).seglist 0) (L.erase x) ∧
    (∀ j, j ≠ 0 → (delete s x).seglist j = s.seglist j) ∧
    (delete s x).lo = s.lo ∧ (delete s x).brk = s.brk ∧
    (delete s x).heap_start = s.heap_start ∧
    (∀ w, w ≠ x → w ≠ x + 8 → (∀ y, y ∈ L → y ≠ x → w ≠ y ∧ w ≠ y + 8) →
      (delete s x).mem w = s.mem w) ∧
    Tags (delete s x).mem x 16 true (get_prev_alloc s.mem x) ∧
    (∀ y, y ∈ L → y ≠ x → ∀ pa, Tags s.mem y 16 false pa → Tags (delete s x).mem y 16 false pa) ∧
    (∀ y, y ∈ L → y ≠ x → extract_mini (s.mem (y + 8)) = true →
      extract_mini ((delete s x).mem (y + 8)) = true) := by
  have hnz := LL_nonzero _ _ _ _ _ hL
  have hlk := LL_links _ _ _ _ _ hL x hx
  have hx8 := hal x hx
  have h0 : (0 : Nat) ∉ L := fun h => hnz 0 h rfl
  have hpvne : mini_get_next s.mem x ≠ x := LL_prev_ne _ _ _ _ _ hL hd h0 x hx
  have hnxne : mini_get_header s.mem x ≠ x := LL_next_ne _ _ _ _ _ hL hd x hx
  have hz : ∀ a p, extract_header (mini_pack 0 a p) = 0 := fun a p =>
    extract_header_mini_pack 0 a p (by norm_num) (by norm_num)
  have hptr : ∀ y, y ∈ L → ∀ a p, extract_header (mini_pack y a p) = y := fun y hy a p =>
    extract_header_mini_pack y a p (by have := hal y hy; omega) (hal y hy).2
  have hmp : ∀ y a p, y % 8 = 0 → extract_mini (mini_pack y a p) = true := fun y a p h =>
    extract_mini_mini_pack y a p h
  unfold delete
  simp only [hmini, Bool.not_true, Bool.false_eq_true, if_false]
  have hnx : mini_get_header s.mem x ≠ 0 →
      mini_get_header s.mem x ∈ L ∧ mini_get_next s.mem (mini_get_header s.mem x) = x := by
    intro hn
    rcases hlk.2 with e | e
    · exact absurd e hn
    · exact e
  by_cases hh : x = s.seglist 0
  · have hpv : mini_get_next s.mem x = 0 := by
      rcases hlk.1 with ⟨_, e⟩ | ⟨e, _⟩
      · exact e
      · exact absurd hh e
    simp only [if_pos hh]
    by_cases hn : mini_get_header s.mem x = 0
    · simp only [if_pos hn]
      refine ⟨?_, ?_, trivial, trivial, trivial, ?_, ?_, ?_, ?_⟩
      · have := LL_delete (mini_get_header s.mem) (mini_get_next s.mem)
          (mini_get_header (wr (wr s.mem x (mini_pack 0 true (get_prev_alloc s.mem x))) (x + 8)
            (mini_pack 0 true (get_prev_alloc s.mem x))))
          (mini_get_next (wr (wr s.mem x (mini_pack 0 true (get_prev_alloc s.mem x))) (x + 8)
            (mini_pack 0 true (get_prev_alloc s.mem x))))
          0 (s.seglist 0) x L hL hd hx h0
          (by
            intro y hy hyx
            have := hal y hy
            have := hnz y hy
            simp only [mini_get_header_wr, hpv, hn]
            split_ifs <;> first | rfl | omega)
          (by
            intro y hy hyx
            have := hal y hy
            have := hnz y hy
            simp only [mini_get_next_wr, hpv, hn]
            split_ifs <;> first | rfl | omega)
        rw [if_pos hh.symm, hn] at this
        simpa [wr] using this
      · intro j hj; simp [wr, hj]
      · intro w h1 h2 _
        rw [wr_other _ _ _ _ h2, wr_other _ _ _ _ h1]
      · exact Tags_mini_pack _ _ 0 _ _ (by norm_num)
          (by rw [wr_other _ _ _ _ (by omega), wr_same])
      · intro y hy hyx pa ht
        have := hal y hy
        exact Tags_frame _ _ _ _ _ _
          (by rw [wr_other _ _ _ _ (by omega), wr_other _ _ _ _ hyx]) ht
      · intro y hy hyx ht
        have := hal y hy
        rw [wr_other _ _ _ _ (by omega), wr_other _ _ _ _ (by omega)]
        exact ht
    · simp only [if_neg hn]
      have hnx1 := hnx hn
      have hnx8 := hal _ hnx1.1
      have e1 : get_prev_alloc (wr s.mem (mini_get_header s.mem x + 8)
          (mini_pack 0 false (get_prev_alloc s.mem (mini_get_header s.mem x)))) x =
          get_prev_alloc s.mem x := by
        rw [get_prev_alloc_wr, if_neg (by omega)]
      simp only [e1]
      refine ⟨?_, ?_, trivial, trivial, trivial, ?_, ?_, ?_, ?_⟩
      · have := LL_delete (mini_get_header s.mem) (mini_get_next s.mem)
          (mini_get_header (wr (wr (wr s.mem (mini_get_header s.mem x + 8)
            (mini_pack 0 false (get_prev_alloc s.mem (mini_get_header s.mem x)))) x
            (mini_pack 0 true (get_prev_alloc s.mem x))) (x + 8)
            (mini_pack 0 true (get_prev_alloc s.mem x))))
          (mini_get_next (wr (wr (wr s.mem (mini_get_header s.mem x + 8)
            (mini_pack 0 false (get_prev_alloc s.mem (mini_get_header s.mem x)))) x
            (mini_pack 0 true (get_prev_alloc s.mem x))) (x + 8)
            (mini_pack 0 true (get_prev_alloc s.mem x))))
          0 (s.seglist 0) x L hL hd hx h0
          (by
            intro y hy hyx
            have := hal y hy
            have := hnz y hy
            simp only [mini_get_header_wr, hpv]
            split_ifs <;> first | rfl | omega)
          (by
            intro y hy hyx
            have := hal y hy
            have := hnz y hy
            simp only [mini_get_next_wr, hpv, hz]
            split_ifs <;> first | rfl | omega)
        rw [if_pos hh.symm] at this
        simpa [wr] using this
      · intro j hj; simp [wr, hj]
      · intro w h1 h2 h3
        rw [wr_other _ _ _ _ h2, wr_other _ _ _ _ h1,
          wr_other _ _ _ _ (h3 _ hnx1.1 hnxne).2]
      · exact Tags_mini_pack _ _ 0 _ _ (by norm_num)
          (by rw [wr_other _ _ _ _ (by omega), wr_same])
      · intro y hy hyx pa ht
        have := hal y hy
        exact Tags_frame _ _ _ _ _ _
          (by rw [wr_other _ _ _ _ (by omega), wr_other _ _ _ _ hyx,
            wr_other _ _ _ _ (by omega)]) ht
      · intro y hy hyx ht
        have := hal y hy
        rw [wr_other _ _ _ _ (by omega), wr_other _ _ _ _ (by omega)]
        by_cases hy2 : y = mini_get_header s.mem x
        · rw [hy2, wr_same]; exact hmp 0 _ _ (by norm_num)
        · rw [wr_other _ _ _ _ (by omega)]; exact ht
  · simp only [if_neg hh]
    have hpv : mini_get_next s.mem x ∈ L ∧
        mini_get_header s.mem (mini_get_next s.mem x) = x := by
      rcases hlk.1 with ⟨e, _⟩ | ⟨_, e⟩
      · exact absurd e hh
      · exact e
    have hpv8 := hal _ hpv.1
    by_cases hn : mini_get_header s.mem x = 0
    · simp only [hn, ne_eq, not_true_eq_false, if_false]
      have e1 : get_prev_alloc (wr s.mem (mini_get_next s.mem x)
          (mini_pack 0 false (get_prev_alloc s.mem (mini_get_next s.mem x)))) x =
          get_prev_alloc s.mem x := by
        rw [get_prev_alloc_wr, if_neg (fun e => hpvne e.symm)]
      simp only [e1]
      refine ⟨?_, ?_, trivial, trivial, trivial, ?_, ?_, ?_, ?_⟩
      · have := LL_delete (mini_get_header s.mem) (mini_get_next s.mem)
          (mini_get_header (wr (wr (wr s.mem (mini_get_next s.mem x)
            (mini_pack 0 false (get_prev_alloc s.mem (mini_get_next s.mem x)))) x
            (mini_pack 0 true (get_prev_alloc s.mem x))) (x + 8)
            (mini_pack 0 true (get_prev_alloc s.mem x))))
          (mini_get_next (wr (wr (wr s.mem (mini_get_next s.mem x)
            (mini_pack 0 false (get_prev_alloc s.mem (mini_get_next s.mem x)))) x
            (mini_pack 0 true (get_prev_alloc s.mem x))) (x + 8)
            (mini_pack 0 true (get_prev_alloc s.mem x))))
          0 (s.seglist 0) x L hL hd hx h0
          (by
            intro y hy hyx
            have := hal y hy
            have := hnz y hy
            simp only [mini_get_header_wr, hn, hz]
            split_ifs <;> first | rfl | omega)
          (by
            intro y hy hyx
            have := hal y hy
            have := hnz y hy
            simp only [mini_get_next_wr, hn]
            split_ifs <;> first | rfl | omega)
        rw [if_neg (fun e => hh e.symm)] at this
        exact this
      · intro j _; trivial
      · intro w h1 h2 h3
        rw [wr_other _ _ _ _ h2, wr_other _ _ _ _ h1,
          wr_other _ _ _ _ (h3 _ hpv.1 hpvne).1]
      · exact Tags_mini_pack _ _ 0 _ _ (by norm_num)
          (by rw [wr_other _ _ _ _ (by omega), wr_same])
      · intro y hy hyx pa ht
        have := hal y hy
        by_cases hy2 : y = mini_get_next s.mem x
        · have hpa : get_prev_alloc s.mem y = pa := ht.2.2.1
          rw [← hy2, hpa]
          exact Tags_mini_pack _ _ 0 _ _ (by norm_num)
            (by rw [wr_other _ _ _ _ (by omega), wr_other _ _ _ _ hyx, wr_same])
        · exact Tags_frame _ _ _ _ _ _
            (by rw [wr_other _ _ _ _ (by omega), wr_other _ _ _ _ hyx,
              wr_other _ _ _ _ hy2]) ht
      · intro y hy hyx ht
        have := hal y hy
        rw [wr_other _ _ _ _ (by omega), wr_other _ _ _ _ (by omega),
          wr_other _ _ _ _ (by omega)]
        exact ht
    · simp only [ne_eq, hn, not_false_eq_true, if_true]
      have hnx1 := hnx hn
      have hnx8 := hal _ hnx1.1
      have hpn : mini_get_next s.mem x ≠ mini_get_header s.mem x :=
        LL_prev_ne_next _ _ _ _ _ hL hd h0 x hx hn
      have e1 : get_prev_alloc (wr (wr s.mem (mini_get_header s.mem x + 8)
          (mini_pack (mini_get_next s.mem x) false
            (get_prev_alloc s.mem (mini_get_header s.mem x)))) (mini_get_next s.mem x)
          (mini_pack (mini_get_header s.mem x) false
            (get_prev_alloc s.mem (mini_get_next s.mem x)))) x = get_prev_alloc s.mem x := by
        rw [get_prev_alloc_wr, if_neg (fun e => hpvne e.symm), get_prev_alloc_wr,
          if_neg (by omega)]
      simp only [e1]
      have hp1 := hptr _ hpv.1
      have hp2 := hptr _ hnx1.1
      refine ⟨?_, ?_, trivial, trivial, trivial, ?_, ?_, ?_, ?_⟩
      · have := LL_delete (mini_get_header s.mem) (mini_get_next s.mem)
          (mini_get_header (wr (wr (wr (wr s.mem (mini_get_header s.mem x + 8)
            (mini_pack (mini_get_next s.mem x) false
              (get_prev_alloc s.mem (mini_get_header s.mem x)))) (mini_get_next s.mem x)
            (mini_pack (mini_get_header s.mem x) false
              (get_prev_alloc s.mem (mini_get_next s.mem x)))) x
            (mini_pack 0 true (get_prev_alloc s.mem x))) (x + 8)
            (mini_pack 0 true (get_prev_alloc s.mem x))))
          (mini_get_next (wr (wr (wr (wr s.mem (mini_get_header s.mem x + 8)
            (mini_pack (mini_get_next s.mem x) false
              (get_prev_alloc s.mem (mini_get_header s.mem x)))) (mini_get_next s.mem x)
            (mini_pack (mini_get_header s.mem x) false
              (get_prev_alloc s.mem (mini_get_next s.mem x)))) x
            (mini_pack 0 true (get_prev_alloc s.mem x))) (x + 8)
            (mini_pack 0 true (get_prev_alloc s.mem x))))
          0 (s.seglist 0) x L hL hd hx h0
          (by
            intro y hy hyx
            have := hal y hy
            have := hnz y hy
            simp only [mini_get_header_wr, hp2]
            split_ifs <;> first | rfl | omega)
          (by
            intro y hy hyx
            have := hal y hy
            have := hnz y hy
            simp only [mini_get_next_wr, hp1]
            split_ifs <;> first | rfl | omega)
        rw [if_neg (fun e => hh e.symm)] at this
        exact this
      · intro j _; trivial
      · intro w h1 h2 h3
        rw [wr_other _ _ _ _ h2, wr_other _ _ _ _ h1,
          wr_other _ _ _ _ (h3 _ hpv.1 hpvne).1, wr_other _ _ _ _ (h3 _ hnx1.1 hnxne).2]
      · exact Tags_mini_pack _ _ 0 _ _ (by norm_num)
          (by rw [wr_other _ _ _ _ (by omega), wr_same])
      · intro y hy hyx pa ht
        have := hal y hy
        by_cases hy2 : y = mini_get_next s.mem x
        · have hpa : get_prev_alloc s.mem y = pa := ht.2.2.1
          rw [← hy2, hpa]
          exact Tags_mini_pack _ _ (mini_get_header s.mem x) _ _ (by omega)
            (by rw [wr_other _ _ _ _ (by omega), wr_other _ _ _ _ hyx, wr_same])
        · exact Tags_frame _ _ _ _ _ _
            (by rw [wr_other _ _ _ _ (by omega), wr_other _ _ _ _ hyx,
              wr_other _ _ _ _ hy2, wr_other _ _ _ _ (by omega)]) ht
      · intro y hy hyx ht
        have := hal y hy
        rw [wr_other _ _ _ _ (by omega), wr_other _ _ _ _ (by omega),
          wr_other _ _ _ _ (by omega)]
        by_cases hy2 : y = mini_get_header s.mem x
        · rw [hy2, wr_same]; exact hmp _ _ _ (by omega)
        · rw [wr_other _ _ _ _ (by omega)]; exact ht

/-! ## `insert` -/

theorem LL_nil_iff (nx pv : Nat → Nat) (prev p : Nat) (l : List Nat) (h : LL nx pv prev p l) :
    p = 0 ↔ l = [] := by
  cases l with
  | nil => simp only [LL] at h; simp [h]
  | cons x xs =>
    simp only [LL] at h
    constructor
    · intro e; exact absurd (h.1 ▸ e) h.2.1
    · intro e; simp at e

/-- Linking a non-mini block in at the head of its bucket. -/
theorem insert_spec (s : Heap) (x k : Nat) (L : List Nat)
    (hL : LL (get_next s.mem) (get_prev s.mem) 0 (s.seglist k) L) (hx0 : x ≠ 0)
    (hx : x ∉ L) (hd : L.Nodup) (hx8 : x % 16 = 8) (hal : ∀ y, y ∈ L → y % 16 = 8)
    (hmini : get_mini s.mem x = false) (hb : find_bucket (get_size s.mem x) = k) :
    LL (get_next (insert s x).mem) (get_prev (insert s x).mem) 0 ((insert s x).seglist k)
      (x :: L) ∧
    (∀ j, j ≠ k → (insert s x).seglist j = s.seglist j) ∧
    (insert s x).lo = s.lo ∧ (insert s x).brk = s.brk ∧
    (insert s x).heap_start = s.heap_start ∧
    (∀ w, w ≠ x + 8 → w ≠ x + 16 → (∀ y, y ∈ L → w ≠ y + 16) →
      (insert s x).mem w = s.mem w) := by
  have hnz := LL_nonzero _ _ _ _ _ hL
  have hnil := LL_nil_iff _ _ _ _ _ hL
  unfold insert
  simp only [if_neg hx0, hmini, Bool.not_false, if_true, hb]
  by_cases hh : s.seglist k = 0
  · have hLn := hnil.1 hh
    subst hLn
    simp only [if_pos hh]
    refine ⟨?_, ?_, trivial, trivial, trivial, ?_⟩
    · simp only [LL, wr_same, get_next_wr, get_prev_wr]
      refine ⟨trivial, hx0, ?_, ?_⟩
      · split_ifs <;> rfl
      · split_ifs <;> rfl
    · intro j hj; simp [wr, hj]
    · intro w h1 h2 _
      show wr (wr s.mem (x + 16) 0) (x + 8) 0 w = s.mem w
      rw [wr_other _ _ _ _ h1, wr_other _ _ _ _ h2]
  · simp only [if_neg hh]
    have hmem : s.seglist k ∈ L := by
      have := LL_head _ _ _ _ _ hL
      rcases headD_mem_or L with h0 | h0
      · rw [← this] at h0; exact absurd h0 hh
      · rw [← this] at h0; exact h0
    have hh8 := hal _ hmem
    have hhx : s.seglist k ≠ x := fun e => hx (e ▸ hmem)
    refine ⟨?_, ?_, trivial, trivial, trivial, ?_⟩
    · simp only [LL, wr_same]
      refine ⟨trivial, hx0, ?_, ?_⟩
      · simp only [get_prev_wr]; split_ifs <;> rfl
      · have e : get_next (wr (wr (wr s.mem (s.seglist k + 16) x) (x + 8) (s.seglist k))
            (x + 16) 0) x = s.seglist k := by
          simp only [get_next_wr]; split_ifs <;> first | rfl | omega
        rw [e]
        refine LL_relink _ _ _ _ 0 x _ L hL hd ?_ ?_ ?_
        · intro y hy
          have := hal y hy
          have : y ≠ x := fun e => hx (e ▸ hy)
          simp only [get_next_wr]; split_ifs <;> first | rfl | omega
        · intro y hy hyp
          have := hal y hy
          have : y ≠ x := fun e => hx (e ▸ hy)
          simp only [get_prev_wr]; split_ifs <;> first | rfl | omega
        · intro _
          simp only [get_prev_wr]; split_ifs <;> first | rfl | omega
    · intro j hj; simp [wr, hj]
    · intro w h1 h2 h3
      show wr (wr (wr s.mem (s.seglist k + 16) x) (x + 8) (s.seglist k)) (x + 16) 0 w = s.mem w
      rw [wr_other _ _ _ _ h2, wr_other _ _ _ _ h1, wr_other _ _ _ _ (h3 _ hmem)]

/-- Linking a mini block in at the head of the mini list. -/
theorem insert_mini_spec (s : Heap) (x : Nat) (L : List Nat) (al pa : Bool)
    (hL : LL (mini_get_header s.mem) (mini_get_next s.mem) 0 (s.seglist 0) L) (hx0 : x ≠ 0)
    (hx : x ∉ L) (hd : L.Nodup) (hx8 : x % 16 = 8 ∧ x < 2 ^ 64)
    (hal : ∀ y, y ∈ L → y % 16 = 8 ∧ y < 2 ^ 64) (ht : Tags s.mem x 16 al pa) :
    LL (mini_get_header (insert s x).mem) (mini_get_next (insert s x).mem) 0
      ((insert s x).seglist 0) (x :: L) ∧
    (∀ j, j ≠ 0 → (insert s x).seglist j = s.seglist j) ∧
    (insert s x).lo = s.lo ∧ (insert s x).brk = s.brk ∧
    (insert s x).heap_start = s.heap_start ∧
    (∀ w, w ≠ x → w ≠ x + 8 → (∀ y, y ∈ L → w ≠ y + 8) → (insert s x).mem w = s.mem w) ∧
    Tags (insert s x).mem x 16 al pa ∧ extract_mini ((insert s x).mem (x + 8)) = true ∧
    (∀ y, y ∈ L → extract_mini (s.mem (y + 8)) = true →
      extract_mini ((insert s x).mem (y + 8)) = true) := by
  have hnz := LL_nonzero _ _ _ _ _ hL
  have hnil := LL_nil_iff _ _ _ _ _ hL
  have hmini : get_mini s.mem x = true := by rw [ht.2.2.2.1]; simp
  have hz : ∀ a p, extract_header (mini_pack 0 a p) = 0 := fun a p =>
    extract_header_mini_pack 0 a p (by norm_num) (by norm_num)
  have hpx : ∀ a p, extract_header (mini_pack x a p) = x := fun a p =>
    extract_header_mini_pack x a p (by omega) hx8.2
  unfold insert
  simp only [if_neg hx0, hmini, Bool.not_true, Bool.false_eq_true, if_false, ht.2.1, ht.2.2.1]
  by_cases hh : s.seglist 0 = 0
  · have hLn := hnil.1 hh
    subst hLn
    simp only [if_pos hh]
    refine ⟨?_, ?_, trivial, trivial, trivial, ?_, ?_, ?_, ?_⟩
    · simp only [LL, wr_same, mini_get_header_wr, mini_get_next_wr, hz]
      refine ⟨trivial, hx0, ?_, ?_⟩
      · split_ifs <;> rfl
      · split_ifs <;> rfl
    · intro j hj; simp [wr, hj]
    · intro w h1 h2 _
      show wr (wr s.mem x _) (x + 8) _ w = s.mem w
      rw [wr_other _ _ _ _ h2, wr_other _ _ _ _ h1]
    · exact Tags_mini_pack _ _ 0 _ _ (by norm_num)
        (by show wr (wr s.mem x _) (x + 8) _ x = _
            rw [wr_other _ _ _ _ (by omega), wr_same])
    · show extract_mini (wr (wr s.mem x _) (x + 8) _ (x + 8)) = true
      rw [wr_same]; exact extract_mini_mini_pack _ _ _ (by norm_num)
    · intro y hy; simp at hy
  · simp only [if_neg hh]
    have hmem : s.seglist 0 ∈ L := by
      have := LL_head _ _ _ _ _ hL
      rcases headD_mem_or L with h0 | h0
      · rw [← this] at h0; exact absurd h0 hh
      · rw [← this] at h0; exact h0
    have hh8 := hal _ hmem
    have hhx : s.seglist 0 ≠ x := fun e => hx (e ▸ hmem)
    have hph : ∀ a p, extract_header (mini_pack (s.seglist 0) a p) = s.seglist 0 := fun a p =>
      extract_header_mini_pack _ a p (by omega) hh8.2
    refine ⟨?_, ?_, trivial, trivial, trivial, ?_, ?_, ?_, ?_⟩
    · simp only [LL, wr_same]
      refine ⟨trivial, hx0, ?_, ?_⟩
      · simp only [mini_get_next_wr, hz]; split_ifs <;> rfl
      · have e : mini_get_header (wr (wr (wr s.mem (s.seglist 0 + 8)
            (mini_pack x (get_alloc s.mem (s.seglist 0)) (get_prev_alloc s.mem (s.seglist 0))))
            x (mini_pack (s.seglist 0) al pa)) (x + 8) (mini_pack 0 al pa)) x = s.seglist 0 := by
          simp only [mini_get_header_wr, hph]; split_ifs <;> first | rfl | omega
        rw [e]
        refine LL_relink _ _ _ _ 0 x _ L hL hd ?_ ?_ ?_
        · intro y hy
          have := hal y hy
          have : y ≠ x := fun e => hx (e ▸ hy)
          simp only [mini_get_header_wr]; split_ifs <;> first | rfl | omega
        · intro y hy hyp
          have := hal y hy
          have : y ≠ x := fun e => hx (e ▸ hy)
          simp only [mini_get_next_wr]; split_ifs <;> first | rfl | omega
        · intro _
          simp only [mini_get_next_wr, hpx]; split_ifs <;> first | rfl | omega
    · intro j hj; simp [wr, hj]
    · intro w h1 h2 h3
      show wr (wr (wr s.mem (s.seglist 0 + 8) _) x _) (x + 8) _ w = s.mem w
      rw [wr_other _ _ _ _ h2, wr_other _ _ _ _ h1, wr_other _ _ _ _ (h3 _ hmem)]
    · exact Tags_mini_pack _ _ (s.seglist 0) _ _ (by omega)
        (by show wr (wr (wr s.mem (s.seglist 0 + 8) _) x _) (x + 8) _ x = _
            rw [wr_other _ _ _ _ (by omega), wr_same])
    · show extract_mini (wr (wr (wr s.mem (s.seglist 0 + 8) _) x _) (x + 8) _ (x + 8)) = true
      rw [wr_same]; exact extract_mini_mini_pack _ _ _ (by norm_num)
    · intro y hy hm
      have := hal y hy
      have hyx : y ≠ x := fun e => hx (e ▸ hy)
      show extract_mini (wr (wr (wr s.mem (s.seglist 0 + 8) _) x _) (x + 8) _ (y + 8)) = true
      rw [wr_other _ _ _ _ (by omega), wr_other _ _ _ _ (by omega)]
      by_cases hy2 : y = s.seglist 0
      · rw [hy2, wr_same]; exact extract_mini_mini_pack _ _ _ (by omega)
      · rw [wr_other _ _ _ _ (by omega)]; exact hm

/-! ## `write_block` inside a block sequence -/

/-- The word at the start of a sequence that ends in the epilogue reads as a header. -/
theorem Seg_head_tags (m : Mem) (a : Nat) (pa : Bool) (l : List Blk) (e : Nat) (pae : Bool)
    (h : Seg m a pa l e pae) (hepi : Tags m e 0 true pae) :
    ∃ nsize nalloc, Tags m a nsize nalloc pa ∧
      (l = [] → nsize = 0 ∧ nalloc = true ∧ a = e) ∧
      (∀ n l3, l = n :: l3 → nsize = n.size ∧ nalloc = n.alloc ∧ n.addr = a ∧ 16 ≤ n.size) := by
  cases l with
  | nil =>
    simp only [Seg] at h
    obtain ⟨rfl, rfl⟩ := h
    exact ⟨0, true, hepi, fun _ => ⟨rfl, rfl, rfl⟩, fun n l3 e => by simp at e⟩
  | cons n l3 =>
    simp only [Seg] at h
    obtain ⟨h1, h2, _, _⟩ := h
    refine ⟨n.size, n.alloc, by rw [← h1]; exact h2.2, fun e => by simp at e, ?_⟩
    intro n1 l4 e
    simp only [List.cons.injEq] at e
    rw [← e.1]
    exact ⟨rfl, rfl, h1, h2.1⟩

/-- `write_block` on the addresses between two block sequences: the sequences stay, the
block gets its tags, and the prev_alloc bit behind it follows. -/
theorem write_block_seg (m : Mem) (a0 : Nat) (pa0 : Bool) (l1 l2 : List Blk) (a size : Nat)
    (pa1 pan : Bool) (e : Nat) (pae : Bool) (al pa : Bool)
    (hpre : Seg m a0 pa0 l1 a pa1) (hsuf : Seg m (a + size) pan l2 e pae)
    (hepi : Tags m e 0 true pae) (h16 : 16 ≤ size) (hm : size % 16 = 0) (he : e < 2 ^ 64) :
    Seg (write_block m a size al pa (decide (size = 16))) a0 pa0 l1 a pa1 ∧
    Tags (write_block m a size al pa (decide (size = 16))) a size al pa ∧
    (∃ pae1, Seg (write_block m a size al pa (decide (size = 16))) (a + size) al l2 e pae1 ∧
      Tags (write_block m a size al pa (decide (size = 16))) e 0 true pae1 ∧
      (l2 = [] → pae1 = al) ∧ (l2 ≠ [] → pae1 = pae)) ∧
    (al = false → (∀ n l3, l2 = n :: l3 → n.alloc = true ∨ n.size = 16) →
      Ftr (write_block m a size al pa (decide (size = 16))) ⟨a, size, al⟩) := by
  have hle := Seg_le _ _ _ _ _ _ hsuf
  have hlt : size < 2 ^ 64 := by omega
  obtain ⟨nsize, nalloc, hn, hnil, hcons⟩ := Seg_head_tags _ _ _ _ _ _ hsuf hepi
  have hA := write_block_spec m a size al pa nsize nalloc pan h16 hm hlt hn
  have hB := write_block_spec2 m a size al pa nsize nalloc pan h16 hm hlt hn
  obtain ⟨hA1, hA2, hA3, hA4⟩ := hA
  obtain ⟨hB1, hB2, hB3⟩ := hB
  refine ⟨?_, hA1, ?_, ?_⟩
  · -- the blocks before
    refine Seg_frame _ _ _ _ _ _ _ hpre (fun b hb => ?_)
    have := Seg_mem_range _ _ _ _ _ _ hpre b hb
    exact ⟨hA3 _ (by omega) (by omega) (by omega) (by omega),
      fun _ => hA3 _ (by omega) (by omega) (by omega) (by omega)⟩
  · -- the blocks behind
    cases l2 with
    | nil =>
      obtain ⟨hs, ha, hae⟩ := hnil rfl
      subst hs; subst ha
      refine ⟨al, ?_, ?_, fun _ => rfl, fun h => absurd rfl h⟩
      · simp only [Seg]; exact ⟨hae.symm, trivial⟩
      · rw [← hae]; exact hA2
    | cons n l3 =>
      obtain ⟨hs, ha, hna, hn16⟩ := hcons n l3 rfl
      subst hs; subst ha
      simp only [Seg] at hsuf
      obtain ⟨_, hh, hf, hrest⟩ := hsuf
      have hle2 := Seg_le _ _ _ _ _ _ hrest
      refine ⟨pae, ?_, ?_, fun h => by simp at h, fun _ => rfl⟩
      · simp only [Seg]
        refine ⟨hna, ⟨hn16, by rw [hna]; exact hA2⟩, ?_, ?_⟩
        · intro hfree
          have hf1 := hf hfree
          by_cases hmini : n.size = 16
          · have := (hB3 hmini).2.2 hfree
            have e1 : n.addr + n.size - 8 = a + size + 8 := by omega
            rw [e1, this]
            simp [hmini]
          · have e1 : write_block m a size al pa (decide (size = 16)) (n.addr + n.size - 8) =
                m (n.addr + n.size - 8) := hA3 _ (by omega) (by omega) (by omega) (by omega)
            rw [e1]; exact hf1
        · refine Seg_frame _ _ _ _ _ _ _ hrest (fun b hb => ?_)
          have := Seg_mem_range _ _ _ _ _ _ hrest b hb
          exact ⟨hA3 _ (by omega) (by omega) (by omega) (by omega),
            fun _ => hA3 _ (by omega) (by omega) (by omega) (by omega)⟩
      · exact Tags_frame _ _ _ _ _ _ (hA3 _ (by omega) (by omega) (by omega) (by omega)) hepi
  · intro hal hnext hfree
    have hc : nalloc = true ∨ nsize = 16 := by
      cases l2 with
      | nil => exact Or.inl (hnil rfl).2.1
      | cons n l3 =>
        obtain ⟨hs, ha, _, _⟩ := hcons n l3 rfl
        rw [hs, ha]; exact hnext n l3 rfl
    exact hB1 hal hc

theorem ite_lt_of (c : Prop) [Decidable c] (a b n : Nat) (ha : a < n) (hb : b < n) :
    (if c then a else b) < n := by split <;> assumption

theorem ite_ne_zero_of (c : Prop) [Decidable c] (a b : Nat) (ha : a ≠ 0) (hb : b ≠ 0) :
    (if c then a else b) ≠ 0 := by split <;> assumption

theorem find_bucket_lt (n : Nat) : find_bucket n < 15 := by
  unfold find_bucket
  repeat (first | exact (by norm_num : (14 : Nat) < 15) | refine ite_lt_of _ _ _ _ (by norm_num) ?_)

theorem find_bucket_zero (n : Nat) : find_bucket n = 0 ↔ n ≤ 16 := by
  unfold find_bucket
  by_cases h : n ≤ 16
  · rw [if_pos h]; exact ⟨fun _ => h, fun _ => rfl⟩
  · rw [if_neg h]
    refine ⟨fun h1 => absurd h1 ?_, fun h1 => absurd h1 h⟩
    repeat (first | exact (by norm_num : (14 : Nat) ≠ 0) | refine ite_ne_zero_of _ _ _ (by norm_num) ?_)

theorem FList_frame (m m1 : Mem) (i head : Nat) (l : List Nat) (h : FList m i head l)
    (h0 : i = 0 → ∀ y, y ∈ l →
      mini_get_header m1 y = mini_get_header m y ∧ mini_get_next m1 y = mini_get_next m y)
    (h1 : i ≠ 0 → ∀ y, y ∈ l → m1 (y + 8) = m (y + 8) ∧ m1 (y + 16) = m (y + 16)) :
    FList m1 i head l := by
  unfold FList at *
  by_cases hi : i = 0
  · rw [if_pos hi] at h ⊢
    exact LL_frame _ _ _ _ _ _ _ h (h0 hi)
  · rw [if_neg hi] at h ⊢
    exact LL_frame _ _ _ _ _ _ _ h (fun y hy => by
      unfold get_next get_prev; exact h1 hi y hy)

/-- `write_block` keeps the bucket lists: it stores to no link field, and it keeps the
pointer bits of the mini blocks it stores to. -/
theorem write_block_flist (m : Mem) (a0 : Nat) (pa0 : Bool) (l1 l2 : List Blk) (a size : Nat)
    (pa1 pan : Bool) (e : Nat) (pae : Bool) (al pa : Bool)
    (hpre : Seg m a0 pa0 l1 a pa1) (hsuf : Seg m (a + size) pan l2 e pae)
    (hepi : Tags m e 0 true pae) (h16 : 16 ≤ size) (hm : size % 16 = 0) (he : e < 2 ^ 64)
    (i head : Nat) (L : List Nat) (hL : FList m i head L)
    (hmem : ∀ y, y ∈ L →
      (∃ b, (b ∈ l1 ∨ b ∈ l2) ∧ b.addr = y ∧ find_bucket b.size = i) ∨
      (y = a ∧ find_bucket size = i ∧ ∀ n l3, l2 = n :: l3 → n.alloc = true ∨ n.size = 16)) :
    FList (write_block m a size al pa (decide (size = 16))) i head L := by
  have hle := Seg_le _ _ _ _ _ _ hsuf
  have hlt : size < 2 ^ 64 := by omega
  obtain ⟨nsize, nalloc, hn, hnil, hcons⟩ := Seg_head_tags _ _ _ _ _ _ hsuf hepi
  obtain ⟨hA1, hA2, hA3, hA4⟩ := write_block_spec m a size al pa nsize nalloc pan h16 hm hlt hn
  obtain ⟨hB1, hB2, hB3⟩ := write_block_spec2 m a size al pa nsize nalloc pan h16 hm hlt hn
  -- a block behind the region is the first one or lies behind the first one
  have hpos : ∀ b, b ∈ l2 → (b.addr = a + size ∧ nsize = b.size ∧ 16 ≤ b.size) ∨
      a + size + 16 ≤ b.addr := by
    intro b hb
    cases l2 with
    | nil => simp at hb
    | cons n l3 =>
      obtain ⟨hs, _, hna, hn16⟩ := hcons n l3 rfl
      simp only [Seg] at hsuf
      rcases List.mem_cons.1 hb with e1 | e1
      · left; rw [e1]; exact ⟨hna, hs, hn16⟩
      · right
        have := Seg_mem_range _ _ _ _ _ _ hsuf.2.2.2 b e1
        omega
  have hc : (∀ n l3, l2 = n :: l3 → n.alloc = true ∨ n.size = 16) →
      nalloc = true ∨ nsize = 16 := by
    intro hnext
    cases l2 with
    | nil => exact Or.inl (hnil rfl).2.1
    | cons n l3 =>
      obtain ⟨hs, ha, _, _⟩ := hcons n l3 rfl
      rw [hs, ha]; exact hnext n l3 rfl
  refine FList_frame _ _ _ _ _ hL ?_ ?_
  · intro hi y hy
    rcases hmem y hy with ⟨b, hb, hby, hbk⟩ | ⟨hya, hbk, hnext⟩
    · rw [hi, find_bucket_zero] at hbk
      rcases hb with hb | hb
      · have := Seg_mem_range _ _ _ _ _ _ hpre b hb
        unfold mini_get_header mini_get_next
        rw [hA3 _ (by omega) (by omega) (by omega) (by omega),
          hA3 _ (by omega) (by omega) (by omega) (by omega)]
        exact ⟨rfl, rfl⟩
      · rcases hpos b hb with ⟨h1, h2, h3⟩ | h1
        · have := hB3 (by omega)
          rw [← hby, h1]; exact ⟨this.1, this.2.1⟩
        · unfold mini_get_header mini_get_next
          rw [hA3 _ (by omega) (by omega) (by omega) (by omega),
            hA3 _ (by omega) (by omega) (by omega) (by omega)]
          exact ⟨rfl, rfl⟩
    · rw [hi, find_bucket_zero] at hbk
      have h1 : size = 16 := by omega
      rw [hya]
      exact ⟨(hB2 h1).1, (hB2 h1).2 (hc hnext)⟩
  · intro hi y hy
    rcases hmem y hy with ⟨b, hb, hby, hbk⟩ | ⟨hya, hbk, hnext⟩
    · have hbs : ¬ b.size ≤ 16 := fun h => hi (by rw [← hbk]; exact (find_bucket_zero _).2 h)
      rcases hb with hb | hb
      · have := Seg_mem_range _ _ _ _ _ _ hpre b hb
        exact ⟨hA3 _ (by omega) (by omega) (by omega) (by omega),
          hA3 _ (by omega) (by omega) (by omega) (by omega)⟩
      · rcases hpos b hb with ⟨h1, h2, h3⟩ | h1
        · refine ⟨?_, hA3 _ (by omega) (by omega) (by omega) (by omega)⟩
          rw [← hby, h1]
          exact hA4 (Or.inr (by omega))
        · exact ⟨hA3 _ (by omega) (by omega) (by omega) (by omega),
            hA3 _ (by omega) (by omega) (by omega) (by omega)⟩
    · have hbs : ¬ size ≤ 16 := fun h => hi (by rw [← hbk]; exact (find_bucket_zero _).2 h)
      rw [hya]
      exact ⟨hA3 _ (by omega) (by omega) (by omega) (by omega),
        hA3 _ (by omega) (by omega) (by omega) (by omega)⟩

/-! ## `delete` inside a valid heap -/

theorem Seg_sep (m : Mem) (l : List Blk) (a : Nat) (pa : Bool) (a1 : Nat) (pa1 : Bool)
    (h : Seg m a pa l a1 pa1) (b c : Blk) (hb : b ∈ l) (hc : c ∈ l) (hne : b.addr ≠ c.addr) :
    b.addr + b.size ≤ c.addr ∨ c.addr + c.size ≤ b.addr := by
  rcases Seg_pairwise m l a pa a1 pa1 h b c hb hc with h1 | h1
  · rw [h1] at hne; exact absurd rfl hne
  · exact h1

/-- Unlinking a non-mini block keeps every block sequence of the heap and the lists of
the other buckets. -/
theorem delete_keeps (s : Heap) (x k : Nat) (L : List Nat) (m0 : Mem) (a0 : Nat) (pa0 : Bool)
    (bs0 : List Blk) (e : Nat) (pae : Bool) (hg : Seg m0 a0 pa0 bs0 e pae) (ha0 : a0 % 16 = 8)
    (hk : k ≠ 0)
    (hL : LL (get_next s.mem) (get_prev s.mem) 0 (s.seglist k) L) (hx : x ∈ L) (hd : L.Nodup)
    (hLb : ∀ y, y ∈ L → ∃ b, b ∈ bs0 ∧ b.addr = y ∧ find_bucket b.size = k)
    (hmini : get_mini s.mem x = false) (hb : find_bucket (get_size s.mem x) = k) :
    LL (get_next (delete s x).mem) (get_prev (delete s x).mem) 0 ((delete s x).seglist k)
      (L.erase x) ∧
    (∀ j Lj, j ≠ k → FList s.mem j (s.seglist j) Lj →
      (∀ y, y ∈ Lj → ∃ b, b ∈ bs0 ∧ b.addr = y ∧ find_bucket b.size = j) →
      FList (delete s x).mem j ((delete s x).seglist j) Lj) ∧
    (∀ l a pa a1 pa1, Seg s.mem a pa l a1 pa1 → (∀ b, b ∈ l → b ∈ bs0) →
      Seg (delete s x).mem a pa l a1 pa1) ∧
    (∀ w, (∀ b, b ∈ bs0 → w ≤ b.addr ∨ b.addr + b.size - 8 ≤ w) → (delete s x).mem w = s.mem w) ∧
    (delete s x).lo = s.lo ∧ (delete s x).brk = s.brk ∧
    (delete s x).heap_start = s.heap_start := by
  have hal : ∀ y, y ∈ L → y % 16 = 8 := by
    intro y hy
    obtain ⟨b, hb1, hb2, _⟩ := hLb y hy
    have := Seg_mem_range _ _ _ _ _ _ hg b hb1
    omega
  obtain ⟨h1, h2, h3, h4, h5, h6⟩ := delete_spec s x k L hL hx hd hal hmini hb
  -- the link fields of the elements of `L` lie strictly inside their blocks
  have hfield : ∀ w, (∀ b, b ∈ bs0 → w ≤ b.addr ∨ b.addr + b.size - 8 ≤ w) →
      (delete s x).mem w = s.mem w := by
    intro w hw
    have hy : ∀ y, y ∈ L → w ≠ y + 8 ∧ w ≠ y + 16 := by
      intro y hy
      obtain ⟨b, hb1, hb2, hb3⟩ := hLb y hy
      have := Seg_mem_range _ _ _ _ _ _ hg b hb1
      have hbs : ¬ b.size ≤ 16 := fun h => hk (by rw [← hb3]; exact (find_bucket_zero _).2 h)
      have := hw b hb1
      omega
    exact h6 w (hy x hx).1 (hy x hx).2 (fun y hy1 _ => hy y hy1)
  refine ⟨h1, ?_, ?_, hfield, h3, h4, h5⟩
  · intro j Lj hj hLj hLjb
    rw [h2 j hj]
    refine FList_frame _ _ _ _ _ hLj ?_ ?_
    · intro hj0 y hy
      obtain ⟨b, hb1, hb2, hb3⟩ := hLjb y hy
      have hr := Seg_mem_range _ _ _ _ _ _ hg b hb1
      rw [hj0, find_bucket_zero] at hb3
      have hw : ∀ w, (w = y ∨ w = y + 8) → (delete s x).mem w = s.mem w := by
        intro w hw
        refine hfield w (fun c hc => ?_)
        by_cases hcb : c.addr = b.addr
        · have := Seg_addr_inj _ _ _ _ _ _ hg c b hc hb1 hcb
          rw [this]; omega
        · have := Seg_sep _ _ _ _ _ _ hg c b hc hb1 hcb
          have := Seg_mem_range _ _ _ _ _ _ hg c hc
          omega
      unfold mini_get_header mini_get_next
      rw [hw y (Or.inl rfl), hw (y + 8) (Or.inr rfl)]
      exact ⟨rfl, rfl⟩
    · intro hj0 y hy
      obtain ⟨b, hb1, hb2, hb3⟩ := hLjb y hy
      have hr := Seg_mem_range _ _ _ _ _ _ hg b hb1
      have hbs : ¬ b.size ≤ 16 := fun h => hj0 (by rw [← hb3]; exact (find_bucket_zero _).2 h)
      -- `y` is not in `L`, so its fields are not stored to
      have hyL : ∀ z, z ∈ L → z ≠ y := by
        intro z hz hzy
        obtain ⟨c, hc1, hc2, hc3⟩ := hLb z hz
        have := Seg_addr_inj _ _ _ _ _ _ hg c b hc1 hb1 (by rw [hc2, hb2, hzy])
        rw [this, hb3] at hc3
        exact hj hc3
      have hw : ∀ w, (w = y + 8 ∨ w = y + 16) → (delete s x).mem w = s.mem w := by
        intro w hw
        have hz : ∀ z, z ∈ L → w ≠ z + 8 ∧ w ≠ z + 16 := by
          intro z hz
          have := hal z hz
          have := hyL z hz
          omega
        exact h6 w (hz x hx).1 (hz x hx).2 (fun z hz1 _ => hz z hz1)
      exact ⟨hw _ (Or.inl rfl), hw _ (Or.inr rfl)⟩
  · intro l a pa a1 pa1 hl hsub
    refine Seg_frame _ _ _ _ _ _ _ hl (fun b hb => ?_)
    have hbr := Seg_mem_range _ _ _ _ _ _ hg b (hsub b hb)
    have hw : ∀ w, (w = b.addr ∨ w = b.addr + b.size - 8) → (delete s x).mem w = s.mem w := by
      intro w hw
      refine hfield w (fun c hc => ?_)
      by_cases hcb : c.addr = b.addr
      · have := Seg_addr_inj _ _ _ _ _ _ hg c b hc (hsub b hb) hcb
        rw [this]; omega
      · have := Seg_sep _ _ _ _ _ _ hg c b hc (hsub b hb) hcb
        have := Seg_mem_range _ _ _ _ _ _ hg c hc
        omega
    exact ⟨hw _ (Or.inl rfl), fun _ => hw _ (Or.inr rfl)⟩

/-- Unlinking a mini block keeps every block sequence of the heap that does not hold the
block, and the lists of the other buckets. -/
theorem delete_mini_keeps (s : Heap) (x : Nat) (L : List Nat) (m0 : Mem) (a0 : Nat)
    (pa0 : Bool) (bs0 : List Blk) (e : Nat) (pae : Bool) (hg : Seg m0 a0 pa0 bs0 e pae)
    (ha0 : a0 % 16 = 8) (he : e < 2 ^ 64)
    (hL : LL (mini_get_header s.mem) (mini_get_next s.mem) 0 (s.seglist 0) L) (hx : x ∈ L)
    (hd : L.Nodup)
    (hLb : ∀ y, y ∈ L → ∃ b, b ∈ bs0 ∧ b.addr = y ∧ find_bucket b.size = 0)
    (hmini : get_mini s.mem x = true) :
    LL (mini_get_header (delete s x).mem) (mini_get_next (delete s x).mem) 0
      ((delete s x).seglist 0) (L.erase x) ∧
    (∀ j Lj, j ≠ 0 → FList s.mem j (s.seglist j) Lj →
      (∀ y, y ∈ Lj → ∃ b, b ∈ bs0 ∧ b.addr = y ∧ find_bucket b.size = j) →
      FList (delete s x).mem j ((delete s x).seglist j) Lj) ∧
    (∀ l a pa a1 pa1, Seg s.mem a pa l a1 pa1 →
      (∀ b, b ∈ l → b ∈ bs0 ∧ b.addr ≠ x ∧ (b.addr ∈ L → b.alloc = false)) →
      Seg (delete s x).mem a pa l a1 pa1) ∧
    (∀ w, (∀ y, y ∈ L → w ≠ y ∧ w ≠ y + 8) → (delete s x).mem w = s.mem w) ∧
    Tags (delete s x).mem x 16 true (get_prev_alloc s.mem x) ∧
    (delete s x).lo = s.lo ∧ (delete s x).brk = s.brk ∧
    (delete s x).heap_start = s.heap_start := by
  have hblk : ∀ y, y ∈ L → ∃ b, b ∈ bs0 ∧ b.addr = y ∧ b.size = 16 := by
    intro y hy
    obtain ⟨b, hb1, hb2, hb3⟩ := hLb y hy
    have := Seg_mem_range _ _ _ _ _ _ hg b hb1
    rw [find_bucket_zero] at hb3
    exact ⟨b, hb1, hb2, by omega⟩
  have hal : ∀ y, y ∈ L → y % 16 = 8 ∧ y < 2 ^ 64 := by
    intro y hy
    obtain ⟨b, hb1, hb2, _⟩ := hblk y hy
    have := Seg_mem_range _ _ _ _ _ _ hg b hb1
    omega
  obtain ⟨h1, h2, h3, h4, h5, h6, h7, h8, h9⟩ := delete_mini_spec s x L hL hx hd hal hmini
  have hfield : ∀ w, (∀ y, y ∈ L → w ≠ y ∧ w ≠ y + 8) → (delete s x).mem w = s.mem w := by
    intro w hw
    exact h6 w (hw x hx).1 (hw x hx).2 (fun y hy _ => hw y hy)
  -- a word of a block that is not in `L` is not stored to
  have hother : ∀ b, b ∈ bs0 → b.addr ∉ L → ∀ w, b.addr ≤ w → w < b.addr + b.size →
      (delete s x).mem w = s.mem w := by
    intro b hb hbL w hw1 hw2
    refine hfield w (fun y hy => ?_)
    obtain ⟨c, hc1, hc2, hc3⟩ := hblk y hy
    have hne : c.addr ≠ b.addr := by
      intro e1; rw [hc2] at e1; rw [← e1] at hbL; exact hbL hy
    have := Seg_sep _ _ _ _ _ _ hg c b hc1 hb hne
    omega
  refine ⟨h1, ?_, ?_, hfield, h7, h3, h4, h5⟩
  · intro j Lj hj hLj hLjb
    rw [h2 j hj]
    refine FList_frame _ _ _ _ _ hLj (fun hj0 => absurd hj0 hj) ?_
    intro _ y hy
    obtain ⟨b, hb1, hb2, hb3⟩ := hLjb y hy
    have hr := Seg_mem_range _ _ _ _ _ _ hg b hb1
    have hbs : ¬ b.size ≤ 16 := fun h => hj (by rw [← hb3]; exact (find_bucket_zero _).2 h)
    have hbL : b.addr ∉ L := by
      intro hin
      obtain ⟨c, hc1, hc2, hc3⟩ := hblk _ hin
      have := Seg_addr_inj _ _ _ _ _ _ hg c b hc1 hb1 hc2
      rw [this] at hc3; omega
    rw [← hb2]
    exact ⟨hother b hb1 hbL _ (by omega) (by omega), hother b hb1 hbL _ (by omega) (by omega)⟩
  · intro l a pa a1 pa1 hl hsub
    refine Seg_mono _ _ _ _ _ _ _ hl (fun b hb => ?_)
    obtain ⟨hb0, hbx, hbf⟩ := hsub b hb
    have hbr := Seg_mem_range _ _ _ _ _ _ hg b hb0
    by_cases hin : b.addr ∈ L
    · obtain ⟨c, hc1, hc2, hc3⟩ := hblk _ hin
      have hcb := Seg_addr_inj _ _ _ _ _ _ hg c b hc1 hb0 hc2
      rw [hcb] at hc3
      have hfree := hbf hin
      constructor
      · intro p hp
        refine ⟨hp.1, ?_⟩
        have := h8 b.addr hin hbx p (by
          have := hp.2; rw [hc3, hfree] at this; exact this)
        rw [hc3, hfree]; exact this
      · intro hf _
        have hf1 := hf hfree
        have e1 : b.addr + b.size - 8 = b.addr + 8 := by omega
        rw [e1] at hf1 ⊢
        have := h9 b.addr hin hbx (by rw [hf1.1]; simp [hc3])
        rw [this]
        simp [hc3]
    · constructor
      · intro p hp
        exact Hdr_frame _ _ _ _ (hother b hb0 hin _ (by omega) (by omega)) hp
      · intro hf
        exact Ftr_frame _ _ _ (hother b hb0 hin _ (by omega) (by omega)) hf

/-! ## `insert` inside a valid heap -/

/-- Linking a non-mini block in keeps every block sequence of the heap and the lists of
the other buckets. -/
theorem insert_keeps (s : Heap) (x k : Nat) (L : List Nat) (m0 : Mem) (a0 : Nat) (pa0 : Bool)
    (bs0 : List Blk) (e : Nat) (pae : Bool) (hg : Seg m0 a0 pa0 bs0 e pae) (ha0 : a0 % 16 = 8)
    (hk : k ≠ 0) (hx0 : x ≠ 0)
    (hL : LL (get_next s.mem) (get_prev s.mem) 0 (s.seglist k) L) (hx : x ∉ L) (hd : L.Nodup)
    (hLb : ∀ y, y ∈ L → ∃ b, b ∈ bs0 ∧ b.addr = y ∧ find_bucket b.size = k)
    (hxb : ∃ b, b ∈ bs0 ∧ b.addr = x ∧ find_bucket b.size = k)
    (hmini : get_mini s.mem x = false) (hb : find_bucket (get_size s.mem x) = k) :
    LL (get_next (insert s x).mem) (get_prev (insert s x).mem) 0 ((insert s x).seglist k)
      (x :: L) ∧
    (∀ j Lj, j ≠ k → FList s.mem j (s.seglist j) Lj →
      (∀ y, y ∈ Lj → ∃ b, b ∈ bs0 ∧ b.addr = y ∧ find_bucket b.size = j) →
      FList (insert s x).mem j ((insert s x).seglist j) Lj) ∧
    (∀ l a pa a1 pa1, Seg s.mem a pa l a1 pa1 → (∀ b, b ∈ l → b ∈ bs0) →
      Seg (insert s x).mem a pa l a1 pa1) ∧
    (∀ w, (∀ b, b ∈ bs0 → w ≤ b.addr ∨ b.addr + b.size - 8 ≤ w) → (insert s x).mem w = s.mem w) ∧
    (insert s x).lo = s.lo ∧ (insert s x).brk = s.brk ∧
    (insert s x).heap_start = s.heap_start := by
  have hal : ∀ y, y ∈ L → y % 16 = 8 := by
    intro y hy
    obtain ⟨b, hb1, hb2, _⟩ := hLb y hy
    have := Seg_mem_range _ _ _ _ _ _ hg b hb1
    omega
  have hx8 : x % 16 = 8 := by
    obtain ⟨b, hb1, hb2, _⟩ := hxb
    have := Seg_mem_range _ _ _ _ _ _ hg b hb1
    omega
  obtain ⟨h1, h2, h3, h4, h5, h6⟩ := insert_spec s x k L hL hx0 hx hd hx8 hal hmini hb
  have hin : ∀ y, (y ∈ L ∨ y = x) → ∃ b, b ∈ bs0 ∧ b.addr = y ∧ find_bucket b.size = k := by
    intro y hy
    rcases hy with hy | hy
    · exact hLb y hy
    · rw [hy]; exact hxb
  have hfield : ∀ w, (∀ b, b ∈ bs0 → w ≤ b.addr ∨ b.addr + b.size - 8 ≤ w) →
      (insert s x).mem w = s.mem w := by
    intro w hw
    have hy : ∀ y, (y ∈ L ∨ y = x) → w ≠ y + 8 ∧ w ≠ y + 16 := by
      intro y hy
      obtain ⟨b, hb1, hb2, hb3⟩ := hin y hy
      have := Seg_mem_range _ _ _ _ _ _ hg b hb1
      have hbs : ¬ b.size ≤ 16 := fun h => hk (by rw [← hb3]; exact (find_bucket_zero _).2 h)
      have := hw b hb1
      omega
    exact h6 w (hy x (Or.inr rfl)).1 (hy x (Or.inr rfl)).2 (fun y hy1 => (hy y (Or.inl hy1)).2)
  refine ⟨h1, ?_, ?_, hfield, h3, h4, h5⟩
  · intro j Lj hj hLj hLjb
    rw [h2 j hj]
    refine FList_frame _ _ _ _ _ hLj ?_ ?_
    · intro hj0 y hy
      obtain ⟨b, hb1, hb2, hb3⟩ := hLjb y hy
      have hr := Seg_mem_range _ _ _ _ _ _ hg b hb1
      rw [hj0, find_bucket_zero] at hb3
      have hw : ∀ w, (w = y ∨ w = y + 8) → (insert s x).mem w = s.mem w := by
        intro w hw
        refine hfield w (fun c hc => ?_)
        by_cases hcb : c.addr = b.addr
        · have := Seg_addr_inj _ _ _ _ _ _ hg c b hc hb1 hcb
          rw [this]; omega
        · have := Seg_sep _ _ _ _ _ _ hg c b hc hb1 hcb
          have := Seg_mem_range _ _ _ _ _ _ hg c hc
          omega
      unfold mini_get_header mini_get_next
      rw [hw y (Or.inl rfl), hw (y + 8) (Or.inr rfl)]
      exact ⟨rfl, rfl⟩
    · intro hj0 y hy
      obtain ⟨b, hb1, hb2, hb3⟩ := hLjb y hy
      have hr := Seg_mem_range _ _ _ _ _ _ hg b hb1
      have hyL : ∀ z, (z ∈ L ∨ z = x) → z ≠ y := by
        intro z hz hzy
        obtain ⟨c, hc1, hc2, hc3⟩ := hin z hz
        have := Seg_addr_inj _ _ _ _ _ _ hg c b hc1 hb1 (by rw [hc2, hb2, hzy])
        rw [this, hb3] at hc3
        exact hj hc3
      have hw : ∀ w, (w = y + 8 ∨ w = y + 16) → (insert s x).mem w = s.mem w := by
        intro w hw
        have hz : ∀ z, (z ∈ L ∨ z = x) → w ≠ z + 8 ∧ w ≠ z + 16 := by
          intro z hz
          have : z % 16 = 8 := by
            rcases hz with hz | hz
            · exact hal z hz
            · rw [hz]; exact hx8
          have := hyL z hz
          omega
        exact h6 w (hz x (Or.inr rfl)).1 (hz x (Or.inr rfl)).2
          (fun z hz1 => (hz z (Or.inl hz1)).2)
      exact ⟨hw _ (Or.inl rfl), hw _ (Or.inr rfl)⟩
  · intro l a pa a1 pa1 hl hsub
    refine Seg_frame _ _ _ _ _ _ _ hl (fun b hb => ?_)
    have hbr := Seg_mem_range _ _ _ _ _ _ hg b (hsub b hb)
    have hw : ∀ w, (w = b.addr ∨ w = b.addr + b.size - 8) → (insert s x).mem w = s.mem w := by
      intro w hw
      refine hfield w (fun c hc => ?_)
      by_cases hcb : c.addr = b.addr
      · have := Seg_addr_inj _ _ _ _ _ _ hg c b hc (hsub b hb) hcb
        rw [this]; omega
      · have := Seg_sep _ _ _ _ _ _ hg c b hc (hsub b hb) hcb
        have := Seg_mem_range _ _ _ _ _ _ hg c hc
        omega
    exact ⟨hw _ (Or.inl rfl), fun _ => hw _ (Or.inr rfl)⟩

/-- Linking a mini block in keeps every block sequence of the heap and the lists of the
other buckets. -/
theorem insert_mini_keeps (s : Heap) (x : Nat) (L : List Nat) (m0 : Mem) (a0 : Nat)
    (pa0 : Bool) (bs0 : List Blk) (e : Nat) (pae : Bool) (hg : Seg m0 a0 pa0 bs0 e pae)
    (ha0 : a0 % 16 = 8) (he : e < 2 ^ 64) (hx0 : x ≠ 0)
    (hL : LL (mini_get_header s.mem) (mini_get_next s.mem) 0 (s.seglist 0) L) (hx : x ∉ L)
    (hd : L.Nodup)
    (hLb : ∀ y, y ∈ L → ∃ b, b ∈ bs0 ∧ b.addr = y ∧ find_bucket b.size = 0)
    (hxb : ∃ b, b ∈ bs0 ∧ b.addr = x ∧ find_bucket b.size = 0)
    (hmini : get_mini s.mem x = true) :
    LL (mini_get_header (insert s x).mem) (mini_get_next (insert s x).mem) 0
      ((insert s x).seglist 0) (x :: L) ∧
    (∀ j Lj, j ≠ 0 → FList s.mem j (s.seglist j) Lj →
      (∀ y, y ∈ Lj → ∃ b, b ∈ bs0 ∧ b.addr = y ∧ find_bucket b.size = j) →
      FList (insert s x).mem j ((insert s x).seglist j) Lj) ∧
    (∀ l a pa a1 pa1, Seg s.mem a pa l a1 pa1 →
      (∀ b, b ∈ l → b ∈ bs0 ∧ (b.addr ∈ L ∨ b.addr = x → b.alloc = false)) →
      Seg (insert s x).mem a pa l a1 pa1) ∧
    (∀ w, w ≠ x → w ≠ x + 8 → (∀ y, y ∈ L → w ≠ y + 8) → (insert s x).mem w = s.mem w) ∧
    (insert s x).lo = s.lo ∧ (insert s x).brk = s.brk ∧
    (insert s x).heap_start = s.heap_start := by
  have hin : ∀ y, (y ∈ L ∨ y = x) → ∃ b, b ∈ bs0 ∧ b.addr = y ∧ b.size = 16 := by
    intro y hy
    have : ∃ b, b ∈ bs0 ∧ b.addr = y ∧ find_bucket b.size = 0 := by
      rcases hy with hy | hy
      · exact hLb y hy
      · rw [hy]; exact hxb
    obtain ⟨b, hb1, hb2, hb3⟩ := this
    have := Seg_mem_range _ _ _ _ _ _ hg b hb1
    rw [find_bucket_zero] at hb3
    exact ⟨b, hb1, hb2, by omega⟩
  have hal : ∀ y, (y ∈ L ∨ y = x) → y % 16 = 8 ∧ y < 2 ^ 64 := by
    intro y hy
    obtain ⟨b, hb1, hb2, _⟩ := hin y hy
    have := Seg_mem_range _ _ _ _ _ _ hg b hb1
    omega
  have htag : Tags s.mem x 16 (get_alloc s.mem x) (get_prev_alloc s.mem x) := by
    refine ⟨by norm_num, rfl, rfl, by rw [hmini]; simp, ?_⟩
    unfold get_size; rw [hmini]; simp [dsize, wsize]
  obtain ⟨h1, h2, h3, h4, h5, h6, h7, h8, h9⟩ :=
    insert_mini_spec s x L _ _ hL hx0 hx hd (hal x (Or.inr rfl))
      (fun y hy => hal y (Or.inl hy)) htag
  have hother : ∀ b, b ∈ bs0 → b.addr ∉ L → b.addr ≠ x → ∀ w, b.addr ≤ w →
      w < b.addr + b.size → (insert s x).mem w = s.mem w := by
    intro b hb hbL hbx w hw1 hw2
    have hy : ∀ y, (y ∈ L ∨ y = x) → w ≠ y ∧ w ≠ y + 8 := by
      intro y hy
      obtain ⟨c, hc1, hc2, hc3⟩ := hin y hy
      have hne : c.addr ≠ b.addr := by
        intro e1; rw [hc2] at e1
        rcases hy with hy | hy
        · rw [← e1] at hbL; exact hbL hy
        · rw [← e1] at hbx; exact hbx hy
      have := Seg_sep _ _ _ _ _ _ hg c b hc1 hb hne
      omega
    exact h6 w (hy x (Or.inr rfl)).1 (hy x (Or.inr rfl)).2
      (fun y hy1 => (hy y (Or.inl hy1)).2)
  refine ⟨h1, ?_, ?_, h6, h3, h4, h5⟩
  · intro j Lj hj hLj hLjb
    rw [h2 j hj]
    refine FList_frame _ _ _ _ _ hLj (fun hj0 => absurd hj0 hj) ?_
    intro _ y hy
    obtain ⟨b, hb1, hb2, hb3⟩ := hLjb y hy
    have hr := Seg_mem_range _ _ _ _ _ _ hg b hb1
    have hbs : ¬ b.size ≤ 16 := fun h => hj (by rw [← hb3]; exact (find_bucket_zero _).2 h)
    have hbL : ∀ z, (z ∈ L ∨ z = x) → b.addr ≠ z := by
      intro z hz hbz
      obtain ⟨c, hc1, hc2, hc3⟩ := hin z hz
      have := Seg_addr_inj _ _ _ _ _ _ hg c b hc1 hb1 (by rw [hc2, hbz])
      rw [this] at hc3; omega
    rw [← hb2]
    exact ⟨hother b hb1 (fun h => hbL _ (Or.inl h) rfl) (fun h => hbL _ (Or.inr h) rfl) _
        (by omega) (by omega),
      hother b hb1 (fun h => hbL _ (Or.inl h) rfl) (fun h => hbL _ (Or.inr h) rfl) _
        (by omega) (by omega)⟩
  · intro l a pa a1 pa1 hl hsub
    refine Seg_mono _ _ _ _ _ _ _ hl (fun b hb => ?_)
    obtain ⟨hb0, hbf⟩ := hsub b hb
    have hbr := Seg_mem_range _ _ _ _ _ _ hg b hb0
    by_cases hbx : b.addr = x
    · obtain ⟨c, hc1, hc2, hc3⟩ := hin x (Or.inr rfl)
      have hcb := Seg_addr_inj _ _ _ _ _ _ hg c b hc1 hb0 (by rw [hc2, hbx])
      rw [hcb] at hc3
      have hfree := hbf (Or.inr hbx)
      constructor
      · intro p hp
        refine ⟨hp.1, ?_⟩
        have e1 : get_alloc s.mem x = false := by rw [← hbx, hp.2.2.1, hfree]
        have e2 : get_prev_alloc s.mem x = p := by rw [← hbx]; exact hp.2.2.2.1
        rw [hc3, hfree, hbx, ← e2]
        rw [e1] at h7; exact h7
      · intro _ _
        have e1 : b.addr + b.size - 8 = x + 8 := by omega
        rw [e1, h8]; simp [hc3]
    · by_cases hin2 : b.addr ∈ L
      · obtain ⟨c, hc1, hc2, hc3⟩ := hin _ (Or.inl hin2)
        have hcb := Seg_addr_inj _ _ _ _ _ _ hg c b hc1 hb0 hc2
        rw [hcb] at hc3
        have := hal _ (Or.inl hin2)
        have := hal x (Or.inr rfl)
        constructor
        · intro p hp
          refine Hdr_frame _ _ _ _ (h6 _ hbx (by omega) (fun y hy => ?_)) hp
          have := hal y (Or.inl hy)
          omega
        · intro hf hfree
          have hf1 := hf hfree
          have e1 : b.addr + b.size - 8 = b.addr + 8 := by omega
          rw [e1] at hf1 ⊢
          have := h9 b.addr hin2 (by rw [hf1.1]; simp [hc3])
          rw [this]; simp [hc3]
      · constructor
        · intro p hp
          exact Hdr_frame _ _ _ _ (hother b hb0 hin2 hbx _ (by omega) (by omega)) hp
        · intro hf
          exact Ftr_frame _ _ _ (hother b hb0 hin2 hbx _ (by omega) (by omega)) hf

/-! ## The invariant across `insert` -/

theorem Valid_index (s : Heap) (bs : List Blk) (fl : Nat → List Nat) (x : Nat) (pae : Bool)
    (h : Valid s bs fl x pae) (i : Nat) (hi : i < 15) (y : Nat) (hy : y ∈ fl i) :
    ∃ b, b ∈ bs ∧ b.addr = y ∧ find_bucket b.size = i := by
  obtain ⟨⟨b, hb1, hb2, _, hb4⟩, _⟩ := (h.mem_fl i hi y).1 hy
  exact ⟨b, hb1, hb2, hb4⟩

theorem Valid_block_tags (s : Heap) (bs : List Blk) (fl : Nat → List Nat) (x : Nat) (pae : Bool)
    (h : Valid s bs fl x pae) (b : Blk) (hb : b ∈ bs) :
    get_mini s.mem b.addr = decide (b.size = 16) ∧ get_size s.mem b.addr = b.size ∧
    get_alloc s.mem b.addr = b.alloc ∧ s.lo + 8 ≤ b.addr ∧ b.addr + b.size ≤ s.lo + s.brk - 8 ∧
    16 ≤ b.size ∧ b.size % 16 = 0 ∧ b.addr % 16 = 8 := by
  obtain ⟨⟨p, hp⟩, _⟩ := Seg_mem_hdr _ _ _ _ _ _ h.seg b hb
  have hr := Seg_mem_range _ _ _ _ _ _ h.seg b hb
  have := h.lo_al
  exact ⟨hp.2.2.2.2.1, hp.2.2.2.2.2, hp.2.2.1, hr.1, hr.2.1, hr.2.2.1, hr.2.2.2.1, by omega⟩

/-- After `insert` of the free block that was missing from the index the heap is valid. -/
theorem Valid_insert (s : Heap) (bs : List Blk) (fl : Nat → List Nat) (pae : Bool) (bx : Blk)
    (h : Valid s bs fl bx.addr pae) (hbx : bx ∈ bs) (hfree : bx.alloc = false) :
    Valid (insert s bx.addr) bs
      (fun i => if i = find_bucket bx.size then bx.addr :: fl i else fl i) 0 pae := by
  have ht := Valid_block_tags _ _ _ _ _ h bx hbx
  obtain ⟨htm, hts, hta, hlo, hhi, h16, hm16, hal8⟩ := ht
  have hx0 : bx.addr ≠ 0 := by omega
  have hk := find_bucket_lt bx.size
  have ha0 : (s.lo + 8) % 16 = 8 := by have := h.lo_al; omega
  have he : s.lo + s.brk - 8 < 2 ^ 64 := by have := h.top; omega
  have hxL : bx.addr ∉ fl (find_bucket bx.size) := by
    intro hin
    exact ((h.mem_fl _ hk _).1 hin).2 rfl
  have hxb : ∃ b, b ∈ bs ∧ b.addr = bx.addr ∧ find_bucket b.size = find_bucket bx.size :=
    ⟨bx, hbx, rfl, rfl⟩
  -- what both cases of `insert` give
  have key : FList (insert s bx.addr).mem (find_bucket bx.size)
        ((insert s bx.addr).seglist (find_bucket bx.size))
        (bx.addr :: fl (find_bucket bx.size)) ∧
      (∀ j Lj, j ≠ find_bucket bx.size → FList s.mem j (s.seglist j) Lj →
        (∀ y, y ∈ Lj → ∃ b, b ∈ bs ∧ b.addr = y ∧ find_bucket b.size = j) →
        FList (insert s bx.addr).mem j ((insert s bx.addr).seglist j) Lj) ∧
      Seg (insert s bx.addr).mem (s.lo + 8) true bs (s.lo + s.brk - 8) pae ∧
      (∀ w, (∀ b, b ∈ bs → w < b.addr ∨ b.addr + b.size ≤ w) →
        (insert s bx.addr).mem w = s.mem w) ∧
      (insert s bx.addr).lo = s.lo ∧ (insert s bx.addr).brk = s.brk ∧
      (insert s bx.addr).heap_start = s.heap_start := by
    by_cases hmini : bx.size = 16
    · have hk0 : find_bucket bx.size = 0 := (find_bucket_zero _).2 (by omega)
      have hL := h.lists 0 (by norm_num)
      unfold FList at hL
      rw [if_pos rfl] at hL
      rw [hk0] at hxL hxb
      obtain ⟨h1, h2, h3, h4, h5, h6, h7⟩ := insert_mini_keeps s bx.addr (fl 0) s.mem _ _ bs _ _
        h.seg ha0 he hx0 hL hxL (h.nodup 0 (by norm_num))
        (fun y hy => Valid_index _ _ _ _ _ h 0 (by norm_num) y hy) hxb
        (by rw [htm]; simp [hmini])
      rw [hk0]
      refine ⟨by unfold FList; rw [if_pos rfl]; exact h1, h2, ?_, ?_, h5, h6, h7⟩
      · refine h3 _ _ _ _ _ h.seg (fun b hb => ⟨hb, fun hc => ?_⟩)
        rcases hc with hc | hc
        · obtain ⟨⟨c, hc1, hc2, hc3, _⟩, _⟩ := (h.mem_fl 0 (by norm_num) _).1 hc
          have := Seg_addr_inj _ _ _ _ _ _ h.seg c b hc1 hb hc2
          rw [← this]; exact hc3
        · have := Seg_addr_inj _ _ _ _ _ _ h.seg b bx hb hbx hc
          rw [this]; exact hfree
      · intro w hw
        refine h4 w ?_ ?_ ?_
        · have := hw bx hbx; omega
        · have := hw bx hbx; omega
        · intro y hy
          obtain ⟨b, hb1, hb2, hb3⟩ := Valid_index _ _ _ _ _ h 0 (by norm_num) y hy
          have := hw b hb1
          have := Seg_mem_range _ _ _ _ _ _ h.seg b hb1
          omega
    · have hk0 : find_bucket bx.size ≠ 0 := fun e => hmini (by
        have := (find_bucket_zero _).1 e; omega)
      have hL := h.lists _ hk
      unfold FList at hL
      rw [if_neg hk0] at hL
      obtain ⟨h1, h2, h3, h4, h5, h6, h7⟩ := insert_keeps s bx.addr _ (fl (find_bucket bx.size))
        s.mem _ _ bs _ _ h.seg ha0 hk0 hx0 hL hxL (h.nodup _ hk)
        (fun y hy => Valid_index _ _ _ _ _ h _ hk y hy) hxb
        (by rw [htm]; simp [hmini]) (by rw [hts])
      refine ⟨by unfold FList; rw [if_neg hk0]; exact h1, h2, ?_, ?_, h5, h6, h7⟩
      · exact h3 _ _ _ _ _ h.seg (fun b hb => hb)
      · intro w hw
        refine h4 w (fun b hb => ?_)
        have := hw b hb
        have := Seg_mem_range _ _ _ _ _ _ h.seg b hb
        omega
  obtain ⟨k1, k2, k3, k4, k5, k6, k7⟩ := key
  have hout : ∀ w, (w = s.lo ∨ w = s.lo + s.brk - 8) →
      (insert s bx.addr).mem w = s.mem w := by
    intro w hw
    refine k4 w (fun b hb => ?_)
    have := Seg_mem_range _ _ _ _ _ _ h.seg b hb
    have := h.brk16
    omega
  refine ⟨by rw [k5]; exact h.lo_pos, by rw [k5]; exact h.lo_al, by rw [k7, k5]; exact h.hs,
    by rw [k6]; exact h.brk16, by rw [k5, k6]; exact h.top, ?_, by rw [k5, k6]; exact k3, ?_,
    h.noadj, ?_, ?_, ?_⟩
  · rw [k5]
    unfold get_alloc
    rw [hout _ (Or.inl rfl)]
    exact h.pro
  · rw [k5, k6]
    unfold get_alloc get_size get_mini get_prev_alloc
    rw [hout _ (Or.inr rfl)]
    exact h.epi
  · intro i hi
    by_cases hik : i = find_bucket bx.size
    · simp only [hik, if_true]; exact k1
    · simp only [hik, if_false]
      exact k2 i _ hik (h.lists i hi) (fun y hy => Valid_index _ _ _ _ _ h i hi y hy)
  · intro i hi a
    by_cases hik : i = find_bucket bx.size
    · simp only [hik, if_true, List.mem_cons]
      rw [h.mem_fl _ hk a]
      constructor
      · rintro (e1 | ⟨e1, e2⟩)
        · rw [e1]; exact ⟨⟨bx, hbx, rfl, hfree, rfl⟩, hx0⟩
        · refine ⟨e1, ?_⟩
          obtain ⟨b, hb1, hb2, _⟩ := e1
          have := Seg_mem_range _ _ _ _ _ _ h.seg b hb1
          omega
      · rintro ⟨e1, _⟩
        by_cases hax : a = bx.addr
        · left; exact hax
        · right; exact ⟨e1, hax⟩
    · simp only [hik, if_false]
      rw [h.mem_fl i hi a]
      constructor
      · rintro ⟨e1, _⟩
        refine ⟨e1, ?_⟩
        obtain ⟨b, hb1, hb2, _⟩ := e1
        have := Seg_mem_range _ _ _ _ _ _ h.seg b hb1
        omega
      · rintro ⟨e1, _⟩
        refine ⟨e1, ?_⟩
        intro hax
        obtain ⟨b, hb1, hb2, _, hb4⟩ := e1
        have := Seg_addr_inj _ _ _ _ _ _ h.seg b bx hb1 hbx (by rw [hb2, hax])
        rw [this] at hb4
        exact hik hb4.symm
  · intro i hi
    by_cases hik : i = find_bucket bx.size
    · simp only [hik, if_true]
      exact List.nodup_cons.2 ⟨hxL, h.nodup _ hk⟩
    · simp only [hik, if_false]; exact h.nodup i hi

/-! ## The invariant across marking a free block allocated -/

theorem Seg_cons_split (m : Mem) (l1 l2 : List Blk) (x : Blk) (a : Nat) (pa : Bool) (a1 : Nat)
    (pa1 : Bool) (h : Seg m a pa (l1 ++ x :: l2) a1 pa1) :
    ∃ pax, Seg m a pa l1 x.addr pax ∧ Hdr m x pax ∧ Ftr m x ∧
      Seg m (x.addr + x.size) x.alloc l2 a1 pa1 := by
  rw [Seg_append] at h
  obtain ⟨a2, pa2, h1, h2⟩ := h
  simp only [Seg] at h2
  obtain ⟨e1, h3, h4, h5⟩ := h2
  rw [← e1] at h1 h5
  exact ⟨pa2, h1, h3, h4, h5⟩

theorem Seg_cons_join (m : Mem) (l1 l2 : List Blk) (x : Blk) (a : Nat) (pa : Bool) (a1 : Nat)
    (pa1 pax : Bool) (h1 : Seg m a pa l1 x.addr pax) (h2 : Hdr m x pax) (h3 : Ftr m x)
    (h4 : Seg m (x.addr + x.size) x.alloc l2 a1 pa1) : Seg m a pa (l1 ++ x :: l2) a1 pa1 := by
  rw [Seg_append]
  refine ⟨x.addr, pax, h1, ?_⟩
  simp only [Seg]
  exact ⟨trivial, h2, h3, h4⟩

theorem NoAdj_next (l1 l2 : List Blk) (x : Blk) (h : NoAdj (l1 ++ x :: l2)) (hfree : x.alloc = false) :
    ∀ n l3, l2 = n :: l3 → n.alloc = true := by
  intro n l3 e
  rw [e] at h
  unfold NoAdj at h
  rw [List.chain'_append_cons_cons] at h
  rcases h.2.1 with h1 | h1
  · rw [hfree] at h1; exact absurd h1 (by simp)
  · exact h1

theorem NoAdj_prev (l1 l2 : List Blk) (p x : Blk) (h : NoAdj (l1 ++ p :: x :: l2))
    (hfree : x.alloc = false) : p.alloc = true := by
  unfold NoAdj at h
  rw [List.chain'_append_cons_cons] at h
  rcases h.2.1 with h1 | h1
  · exact h1
  · rw [hfree] at h1; exact absurd h1 (by simp)

theorem NoAdj_set_alloc (l1 l2 : List Blk) (x y : Blk) (h : NoAdj (l1 ++ x :: l2))
    (hy : y.alloc = true) : NoAdj (l1 ++ y :: l2) := by
  unfold NoAdj at *
  rw [List.chain'_split] at h ⊢
  obtain ⟨h1, h2⟩ := h
  constructor
  · rw [List.chain'_append] at h1 ⊢
    refine ⟨h1.1, List.chain'_singleton _, ?_⟩
    intro a _ b hb
    simp only [List.head?_cons, Option.mem_def, Option.some.injEq] at hb
    rw [← hb]; exact Or.inr hy
  · rw [List.chain'_cons'] at h2 ⊢
    exact ⟨fun b _ => Or.inl hy, h2.2⟩

theorem Valid_epi_tags (s : Heap) (bs : List Blk) (fl : Nat → List Nat) (x : Nat) (pae : Bool)
    (h : Valid s bs fl x pae) : Tags s.mem (s.lo + s.brk - 8) 0 true pae :=
  ⟨by norm_num, h.epi.1, h.epi.2.2.2, by rw [h.epi.2.2.1]; simp, h.epi.2.1⟩

/-- Marking a free block allocated and unlinking it, as `malloc` does, keeps the heap
valid. -/
theorem Valid_alloc (s : Heap) (l1 l2 : List Blk) (x : Blk) (fl : Nat → List Nat) (pae : Bool)
    (h : Valid s (l1 ++ x :: l2) fl 0 pae) (hfree : x.alloc = false) :
    ∃ pae1, Valid (delete { s with mem := write_block s.mem x.addr x.size true (get_prev_alloc s.mem x.addr) (get_mini s.mem x.addr) } x.addr)
      (l1 ++ ⟨x.addr, x.size, true⟩ :: l2)
      (fun i => if i = find_bucket x.size then (fl i).erase x.addr else fl i) 0 pae1 := by
  obtain ⟨pax, hs1, hhx, hfx, hs2⟩ := Seg_cons_split _ _ _ _ _ _ _ _ h.seg
  have hxin : x ∈ l1 ++ x :: l2 := by simp
  obtain ⟨htm, hts, hta, hlo, hhi, h16, hm16, hal8⟩ := Valid_block_tags _ _ _ _ _ h x hxin
  have hpa : get_prev_alloc s.mem x.addr = pax := hhx.2.2.2.1
  have hepi := Valid_epi_tags _ _ _ _ _ h
  have he : s.lo + s.brk - 8 < 2 ^ 64 := by have := h.top; omega
  have ha0 : (s.lo + 8) % 16 = 8 := by have := h.lo_al; omega
  have hnext := NoAdj_next _ _ _ h.noadj hfree
  have hk := find_bucket_lt x.size
  rw [hpa, htm]
  obtain ⟨w1, w2, ⟨pae1, w3, w4, _, _⟩, _⟩ := write_block_seg s.mem (s.lo + 8) true l1 l2 x.addr
    x.size pax x.alloc _ pae true pax hs1 hs2 hepi h16 hm16 he
  have hfl1 : ∀ i, i < 15 → FList (write_block s.mem x.addr x.size true pax
      (decide (x.size = 16))) i (s.seglist i) (fl i) := by
    intro i hi
    refine write_block_flist s.mem (s.lo + 8) true l1 l2 x.addr x.size pax x.alloc _ pae true pax
      hs1 hs2 hepi h16 hm16 he i _ _ (h.lists i hi) (fun y hy => ?_)
    obtain ⟨b, hb1, hb2, hb3⟩ := Valid_index _ _ _ _ _ h i hi y hy
    rcases List.mem_append.1 hb1 with hb | hb
    · exact Or.inl ⟨b, Or.inl hb, hb2, hb3⟩
    · rcases List.mem_cons.1 hb with hb | hb
      · right
        rw [hb] at hb2 hb3
        exact ⟨hb2.symm, hb3, fun n l3 e => Or.inl (hnext n l3 e)⟩
      · exact Or.inl ⟨b, Or.inr hb, hb2, hb3⟩
  generalize hm1 : write_block s.mem x.addr x.size true pax (decide (x.size = 16)) = m1 at *
  have hseg1 : Seg m1 (s.lo + 8) true (l1 ++ ⟨x.addr, x.size, true⟩ :: l2) (s.lo + s.brk - 8)
      pae1 :=
    Seg_cons_join m1 l1 l2 ⟨x.addr, x.size, true⟩ _ _ _ _ pax w1 ⟨h16, w2⟩
      (fun hc => absurd hc (by simp)) w3
  -- blocks of the old list are blocks of the new list, up to the alloc bit of `x`
  have hmap : ∀ b, b ∈ l1 ++ x :: l2 → ∃ c, c ∈ l1 ++ (⟨x.addr, x.size, true⟩ : Blk) :: l2 ∧
      c.addr = b.addr ∧ c.size = b.size ∧ (b.addr ≠ x.addr → c = b) := by
    intro b hb
    rcases List.mem_append.1 hb with hb | hb
    · exact ⟨b, List.mem_append_left _ hb, rfl, rfl, fun _ => rfl⟩
    · rcases List.mem_cons.1 hb with hb | hb
      · exact ⟨⟨x.addr, x.size, true⟩, by simp, by rw [hb], by rw [hb],
          fun hc => absurd (by rw [hb]) hc⟩
      · exact ⟨b, List.mem_append_right _ (List.mem_cons_of_mem _ hb), rfl, rfl, fun _ => rfl⟩
  have hmap2 : ∀ c, c ∈ l1 ++ (⟨x.addr, x.size, true⟩ : Blk) :: l2 → c.addr ≠ x.addr →
      c ∈ l1 ++ x :: l2 := by
    intro c hc hne
    rcases List.mem_append.1 hc with hc | hc
    · exact List.mem_append_left _ hc
    · rcases List.mem_cons.1 hc with hc | hc
      · rw [hc] at hne; exact absurd rfl hne
      · exact List.mem_append_right _ (List.mem_cons_of_mem _ hc)
  have hidx : ∀ i, i < 15 → ∀ y, y ∈ fl i →
      ∃ b, b ∈ l1 ++ (⟨x.addr, x.size, true⟩ : Blk) :: l2 ∧ b.addr = y ∧ find_bucket b.size = i := by
    intro i hi y hy
    obtain ⟨b, hb1, hb2, hb3⟩ := Valid_index _ _ _ _ _ h i hi y hy
    obtain ⟨c, hc1, hc2, hc3, _⟩ := hmap b hb1
    exact ⟨c, hc1, by rw [hc2, hb2], by rw [hc3, hb3]⟩
  have hxfl : x.addr ∈ fl (find_bucket x.size) :=
    (h.mem_fl _ hk _).2 ⟨⟨x, hxin, rfl, hfree, rfl⟩, by omega⟩
  have key : FList (delete { s with mem := m1 } x.addr).mem (find_bucket x.size)
        ((delete { s with mem := m1 } x.addr).seglist (find_bucket x.size))
        ((fl (find_bucket x.size)).erase x.addr) ∧
      (∀ j Lj, j ≠ find_bucket x.size → FList m1 j (s.seglist j) Lj →
        (∀ y, y ∈ Lj → ∃ b, b ∈ l1 ++ (⟨x.addr, x.size, true⟩ : Blk) :: l2 ∧ b.addr = y ∧
          find_bucket b.size = j) →
        FList (delete { s with mem := m1 } x.addr).mem j
          ((delete { s with mem := m1 } x.addr).seglist j) Lj) ∧
      Seg (delete { s with mem := m1 } x.addr).mem (s.lo + 8) true
        (l1 ++ ⟨x.addr, x.size, true⟩ :: l2) (s.lo + s.brk - 8) pae1 ∧
      (∀ w, (∀ b, b ∈ l1 ++ (⟨x.addr, x.size, true⟩ : Blk) :: l2 →
          w < b.addr ∨ b.addr + b.size ≤ w) →
        (delete { s with mem := m1 } x.addr).mem w = m1 w) ∧
      (delete { s with mem := m1 } x.addr).lo = s.lo ∧
      (delete { s with mem := m1 } x.addr).brk = s.brk ∧
      (delete { s with mem := m1 } x.addr).heap_start = s.heap_start := by
    by_cases hmini : x.size = 16
    · have hk0 : find_bucket x.size = 0 := (find_bucket_zero _).2 (by omega)
      have hL := hfl1 0 (by norm_num)
      unfold FList at hL
      rw [if_pos rfl] at hL
      rw [hk0] at hxfl
      obtain ⟨r1, r2, r3, r4, r5, r6, r7, r8⟩ := delete_mini_keeps { s with mem := m1 } x.addr
        (fl 0) m1 _ _ _ _ _ hseg1 ha0 he hL hxfl (h.nodup 0 (by norm_num))
        (hidx 0 (by norm_num)) (by show get_mini m1 x.addr = true; rw [w2.2.2.2.1]; simp [hmini])
      have hside : ∀ l : List Blk, (∀ b, b ∈ l → b ∈ l1 ++ x :: l2 ∧ b.addr ≠ x.addr) →
          ∀ b, b ∈ l → b ∈ l1 ++ (⟨x.addr, x.size, true⟩ : Blk) :: l2 ∧ b.addr ≠ x.addr ∧
            (b.addr ∈ fl 0 → b.alloc = false) := by
        intro l hl b hb
        obtain ⟨hb1, hb2⟩ := hl b hb
        obtain ⟨c, hc1, hc2, hc3, hc4⟩ := hmap b hb1
        rw [hc4 hb2] at hc1
        refine ⟨hc1, hb2, fun hin => ?_⟩
        obtain ⟨⟨d, hd1, hd2, hd3, _⟩, _⟩ := (h.mem_fl 0 (by norm_num) _).1 hin
        have := Seg_addr_inj _ _ _ _ _ _ h.seg d b hd1 hb1 hd2
        rw [← this]; exact hd3
      have q1 := r3 l1 _ _ _ _ w1 (hside l1 (fun b hb => ⟨List.mem_append_left _ hb, by
        have := Seg_mem_range _ _ _ _ _ _ hs1 b hb; omega⟩))
      have q3 := r3 l2 _ _ _ _ w3 (hside l2 (fun b hb =>
        ⟨List.mem_append_right _ (List.mem_cons_of_mem _ hb), by
          have := Seg_mem_range _ _ _ _ _ _ hs2 b hb; omega⟩))
      have q2 : Tags (delete { s with mem := m1 } x.addr).mem x.addr x.size true pax := by
        have e1 : get_prev_alloc m1 x.addr = pax := w2.2.2.1
        rw [hmini, ← e1]; exact r5
      rw [hk0]
      refine ⟨by unfold FList; rw [if_pos rfl]; exact r1, r2, ?_, ?_, r6, r7, r8⟩
      · exact Seg_cons_join _ l1 l2 ⟨x.addr, x.size, true⟩ _ _ _ _ pax q1 ⟨h16, q2⟩
          (fun hc => absurd hc (by simp)) q3
      · intro w hw
        refine r4 w (fun y hy => ?_)
        obtain ⟨b, hb1, hb2, hb3⟩ := hidx 0 (by norm_num) y hy
        have := hw b hb1
        have := Seg_mem_range _ _ _ _ _ _ hseg1 b hb1
        omega
    · have hk0 : find_bucket x.size ≠ 0 := fun e => hmini (by
        have := (find_bucket_zero _).1 e; omega)
      have hL := hfl1 _ hk
      unfold FList at hL
      rw [if_neg hk0] at hL
      obtain ⟨r1, r2, r3, r4, r6, r7, r8⟩ := delete_keeps { s with mem := m1 } x.addr
        (find_bucket x.size) (fl (find_bucket x.size)) m1 _ _ _ _ _ hseg1 ha0 hk0 hL hxfl
        (h.nodup _ hk) (hidx _ hk)
        (by show get_mini m1 x.addr = false; rw [w2.2.2.2.1]; simp [hmini])
        (by show find_bucket (get_size m1 x.addr) = _; rw [w2.2.2.2.2])
      refine ⟨by unfold FList; rw [if_neg hk0]; exact r1, r2, ?_, ?_, r6, r7, r8⟩
      · exact r3 _ _ _ _ _ hseg1 (fun b hb => hb)
      · intro w hw
        refine r4 w (fun b hb => ?_)
        have := hw b hb
        have := Seg_mem_range _ _ _ _ _ _ hseg1 b hb
        omega
  obtain ⟨k1, k2, k3, k4, k5, k6, k7⟩ := key
  have hout : ∀ w, (w = s.lo ∨ w = s.lo + s.brk - 8) →
      (delete { s with mem := m1 } x.addr).mem w = m1 w := by
    intro w hw
    refine k4 w (fun b hb => ?_)
    have := Seg_mem_range _ _ _ _ _ _ hseg1 b hb
    have := h.brk16
    omega
  have hpro : m1 s.lo = s.mem s.lo := by
    rw [← hm1]
    have := (write_block_any s.mem x.addr x.size true pax h16 hm16 (by omega)).2 s.lo
      (by omega) (by omega) (by omega) (by omega)
    exact this
  refine ⟨pae1, by rw [k5]; exact h.lo_pos, by rw [k5]; exact h.lo_al,
    by rw [k7, k5]; exact h.hs, by rw [k6]; exact h.brk16, by rw [k5, k6]; exact h.top, ?_,
    by rw [k5, k6]; exact k3, ?_, NoAdj_set_alloc _ _ x _ h.noadj rfl, ?_, ?_, ?_⟩
  · rw [k5]
    unfold get_alloc
    rw [hout _ (Or.inl rfl), hpro]
    exact h.pro
  · rw [k5, k6]
    unfold get_alloc get_size get_mini get_prev_alloc
    rw [hout _ (Or.inr rfl)]
    exact ⟨w4.2.1, w4.2.2.2.2, by have := w4.2.2.2.1; simpa using this, w4.2.2.1⟩
  · intro i hi
    by_cases hik : i = find_bucket x.size
    · simp only [hik, if_true]; exact k1
    · simp only [hik, if_false]
      exact k2 i _ hik (hfl1 i hi) (hidx i hi)
  · intro i hi a
    have hbase := h.mem_fl i hi a
    by_cases hik : i = find_bucket x.size
    · simp only [hik, if_true]
      rw [List.Nodup.mem_erase_iff (h.nodup _ hk), h.mem_fl _ hk a]
      constructor
      · rintro ⟨e1, ⟨b, hb1, hb2, hb3, hb4⟩, e3⟩
        obtain ⟨c, hc1, hc2, hc3, hc4⟩ := hmap b hb1
        rw [hc4 (by rw [hb2]; exact e1)] at hc1
        exact ⟨⟨b, hc1, hb2, hb3, hb4⟩, e3⟩
      · rintro ⟨⟨b, hb1, hb2, hb3, hb4⟩, e3⟩
        have hne : b.addr ≠ x.addr := by
          intro e1
          have := Seg_addr_inj _ _ _ _ _ _ hseg1 b ⟨x.addr, x.size, true⟩ hb1 (by simp) e1
          rw [this] at hb3; simp at hb3
        exact ⟨by rw [← hb2]; exact hne, ⟨b, hmap2 b hb1 hne, hb2, hb3, hb4⟩, e3⟩
    · simp only [hik, if_false]
      rw [h.mem_fl i hi a]
      constructor
      · rintro ⟨⟨b, hb1, hb2, hb3, hb4⟩, e3⟩
        have hne : b.addr ≠ x.addr := by
          intro e1
          have := Seg_addr_inj _ _ _ _ _ _ h.seg b x hb1 hxin e1
          rw [this] at hb4; exact hik hb4.symm
        obtain ⟨c, hc1, hc2, hc3, hc4⟩ := hmap b hb1
        rw [hc4 hne] at hc1
        exact ⟨⟨b, hc1, hb2, hb3, hb4⟩, e3⟩
      · rintro ⟨⟨b, hb1, hb2, hb3, hb4⟩, e3⟩
        have hne : b.addr ≠ x.addr := by
          intro e1
          have := Seg_addr_inj _ _ _ _ _ _ hseg1 b ⟨x.addr, x.size, true⟩ hb1 (by simp) e1
          rw [this] at hb3; simp at hb3
        exact ⟨⟨b, hmap2 b hb1 hne, hb2, hb3, hb4⟩, e3⟩
  · intro i hi
    by_cases hik : i = find_bucket x.size
    · simp only [hik, if_true]
      exact (h.nodup _ hk).erase _
    · simp only [hik, if_false]; exact h.nodup i hi

/-! ## The index across `delete` and `write_block` -/

theorem Idx_delete (s : Heap) (bs0 : List Blk) (fl : Nat → List Nat) (m0 : Mem) (a0 : Nat)
    (pa0 : Bool) (e : Nat) (pae : Bool) (hg : Seg m0 a0 pa0 bs0 e pae) (ha0 : a0 % 16 = 8)
    (he : e < 2 ^ 64) (h : Idx s bs0 fl) (ya ys : Nat) (hy : ya ∈ fl (find_bucket ys))
    (hmini : get_mini s.mem ya = decide (ys = 16)) (hsize : get_size s.mem ya = ys)
    (h16 : 16 ≤ ys) :
    Idx (delete s ya) bs0 (fun i => if i = find_bucket ys then (fl i).erase ya else fl i) ∧
    (∀ l a pa a1 pa1, Seg s.mem a pa l a1 pa1 →
      (∀ b, b ∈ l → b ∈ bs0 ∧ b.addr ≠ ya ∧ (b.addr ∈ fl (find_bucket ys) → b.alloc = false)) →
      Seg (delete s ya).mem a pa l a1 pa1) ∧
    (∀ w, (∀ b, b ∈ bs0 → w < b.addr ∨ b.addr + b.size ≤ w) → (delete s ya).mem w = s.mem w) ∧
    (delete s ya).lo = s.lo ∧ (delete s ya).brk = s.brk ∧
    (delete s ya).heap_start = s.heap_start := by
  have hk := find_bucket_lt ys
  by_cases hm : ys = 16
  · have hk0 : find_bucket ys = 0 := (find_bucket_zero _).2 (by omega)
    have hL := h.lists 0 (by norm_num)
    unfold FList at hL
    rw [if_pos rfl] at hL
    rw [hk0] at hy
    obtain ⟨r1, r2, r3, r4, r5, r6, r7, r8⟩ := delete_mini_keeps s ya (fl 0) m0 _ _ _ _ _ hg
      ha0 he hL hy (h.nodup 0 (by norm_num)) (h.sub 0 (by norm_num))
      (by rw [hmini]; simp [hm])
    rw [hk0]
    refine ⟨⟨fun i hi => ?_, fun i hi y hy1 => ?_, fun i hi => ?_⟩, fun l a pa a1 pa1 hs hl =>
      r3 l a pa a1 pa1 hs hl, fun w hw => ?_, r6, r7, r8⟩
    · by_cases hi0 : i = 0
      · simp only [hi0, if_true]; unfold FList; rw [if_pos rfl]; exact r1
      · simp only [hi0, if_false]; exact r2 i _ hi0 (h.lists i hi) (h.sub i hi)
    · by_cases hi0 : i = 0
      · simp only [hi0, if_true] at hy1; rw [hi0]
        exact h.sub 0 (by norm_num) y (List.mem_of_mem_erase hy1)
      · simp only [hi0, if_false] at hy1; exact h.sub i hi y hy1
    · by_cases hi0 : i = 0
      · simp only [hi0, if_true]; exact (h.nodup 0 (by norm_num)).erase _
      · simp only [hi0, if_false]; exact h.nodup i hi
    · refine r4 w (fun y hy1 => ?_)
      obtain ⟨b, hb1, hb2, hb3⟩ := h.sub 0 (by norm_num) y hy1
      have := hw b hb1
      have := Seg_mem_range _ _ _ _ _ _ hg b hb1
      omega
  · have hk0 : find_bucket ys ≠ 0 := fun e => hm (by
      have := (find_bucket_zero _).1 e; omega)
    have hL := h.lists _ hk
    unfold FList at hL
    rw [if_neg hk0] at hL
    obtain ⟨r1, r2, r3, r4, r6, r7, r8⟩ := delete_keeps s ya (find_bucket ys)
      (fl (find_bucket ys)) m0 _ _ _ _ _ hg ha0 hk0 hL hy (h.nodup _ hk) (h.sub _ hk)
      (by rw [hmini]; simp [hm]) (by rw [hsize])
    refine ⟨⟨fun i hi => ?_, fun i hi y hy1 => ?_, fun i hi => ?_⟩, fun l a pa a1 pa1 hs hl =>
      r3 l a pa a1 pa1 hs (fun b hb => (hl b hb).1), fun w hw => ?_, r6, r7, r8⟩
    · by_cases hi0 : i = find_bucket ys
      · simp only [hi0, if_true]; unfold FList; rw [if_neg hk0]; exact r1
      · simp only [hi0, if_false]; exact r2 i _ hi0 (h.lists i hi) (h.sub i hi)
    · by_cases hi0 : i = find_bucket ys
      · simp only [hi0, if_true] at hy1; rw [hi0]
        exact h.sub _ hk y (List.mem_of_mem_erase hy1)
      · simp only [hi0, if_false] at hy1; exact h.sub i hi y hy1
    · by_cases hi0 : i = find_bucket ys
      · simp only [hi0, if_true]; exact (h.nodup _ hk).erase _
      · simp only [hi0, if_false]; exact h.nodup i hi
    · refine r4 w (fun b hb => ?_)
      have := hw b hb
      have := Seg_mem_range _ _ _ _ _ _ hg b hb
      omega

theorem Idx_write (s : Heap) (bs0 : List Blk) (fl : Nat → List Nat) (a0 : Nat) (pa0 : Bool)
    (l1 l2 : List Blk) (a size : Nat) (pa1 pan : Bool) (e : Nat) (pae : Bool) (al pa : Bool)
    (hpre : Seg s.mem a0 pa0 l1 a pa1) (hsuf : Seg s.mem (a + size) pan l2 e pae)
    (hepi : Tags s.mem e 0 true pae) (h16 : 16 ≤ size) (hm : size % 16 = 0) (he : e < 2 ^ 64)
    (h : Idx s bs0 fl)
    (hmem : ∀ i, i < 15 → ∀ y, y ∈ fl i →
      ∃ b, (b ∈ l1 ∨ b ∈ l2) ∧ b.addr = y ∧ find_bucket b.size = i) :
    Idx { s with mem := write_block s.mem a size al pa (decide (size = 16)) }
      (l1 ++ ⟨a, size, al⟩ :: l2) fl := by
  refine ⟨fun i hi => ?_, fun i hi y hy => ?_, h.nodup⟩
  · exact write_block_flist s.mem a0 pa0 l1 l2 a size pa1 pan e pae al pa hpre hsuf hepi h16 hm
      he i _ _ (h.lists i hi) (fun y hy => Or.inl (hmem i hi y hy))
  · obtain ⟨b, hb1, hb2⟩ := hmem i hi y hy
    refine ⟨b, ?_, hb2⟩
    rcases hb1 with hb | hb
    · exact List.mem_append_left _ hb
    · exact List.mem_append_right _ (List.mem_cons_of_mem _ hb)

/-! ## Coalescing -/

theorem NoAdj_mid (l1 l2 : List Blk) (x : Blk) :
    NoAdj (l1 ++ x :: l2) ↔ NoAdj l1 ∧ NoAdj l2 ∧
      (∀ p, p ∈ l1.getLast? → p.alloc = true ∨ x.alloc = true) ∧
      (∀ n, n ∈ l2.head? → x.alloc = true ∨ n.alloc = true) := by
  unfold NoAdj
  rw [List.chain'_split, List.chain'_append]
  constructor
  · rintro ⟨⟨h1, _, h3⟩, h4⟩
    rw [List.chain'_cons'] at h4
    exact ⟨h1, h4.2, fun p hp => h3 p hp x (by simp), h4.1⟩
  · rintro ⟨h1, h2, h3, h4⟩
    refine ⟨⟨h1, List.chain'_singleton _, fun p hp y hy => ?_⟩, ?_⟩
    · simp only [List.head?_cons, Option.mem_def, Option.some.injEq] at hy
      rw [← hy]; exact h3 p hp
    · rw [List.chain'_cons']; exact ⟨h4, h2⟩

theorem PreCoal_chain (s : Heap) (l1 : List Blk) (xa xs : Nat) (l2 : List Blk)
    (fl : Nat → List Nat) (pax pae : Bool) (h : PreCoal s l1 xa xs l2 fl pax pae) :
    ∃ m0 pae1, Seg m0 (s.lo + 8) true (l1 ++ ⟨xa, xs, true⟩ :: l2) (s.lo + s.brk - 8) pae1 := by
  have he : s.lo + s.brk - 8 < 2 ^ 64 := by have := h.top; omega
  obtain ⟨w1, w2, ⟨pae1, w3, _, _⟩, _⟩ := write_block_seg s.mem (s.lo + 8) true l1 l2 xa xs pax
    false _ pae true pax h.seg1 h.seg2 h.epi h.x16 h.xm he
  exact ⟨_, pae1, Seg_cons_join _ l1 l2 ⟨xa, xs, true⟩ _ _ _ _ pax w1 ⟨h.x16, w2⟩
    (fun hc => absurd hc (by simp)) w3⟩

theorem PreCoal_delete (s : Heap) (l1 : List Blk) (xa xs : Nat) (l2 : List Blk)
    (fl : Nat → List Nat) (pax pae : Bool) (h : PreCoal s l1 xa xs l2 fl pax pae)
    (y : Blk) (hy : y ∈ l1 ∨ y ∈ l2) (hfree : y.alloc = false) :
    (∀ l a pa a1 pa1, Seg s.mem a pa l a1 pa1 →
      (∀ b, b ∈ l → (b ∈ l1 ∨ b ∈ l2) ∧ b ≠ y) → Seg (delete s y.addr).mem a pa l a1 pa1) ∧
    (∀ i, i < 15 → FList (delete s y.addr).mem i ((delete s y.addr).seglist i)
      (if i = find_bucket y.size then (fl i).erase y.addr else fl i)) ∧
    (∀ i, i < 15 → ∀ a, a ∈ (if i = find_bucket y.size then (fl i).erase y.addr else fl i) ↔
      ∃ b, ((b ∈ l1 ∨ b ∈ l2) ∧ b ≠ y) ∧ b.addr = a ∧ b.alloc = false ∧
        find_bucket b.size = i) ∧
    (∀ i, i < 15 → (if i = find_bucket y.size then (fl i).erase y.addr else fl i).Nodup) ∧
    (delete s y.addr).mem s.lo = s.mem s.lo ∧
    (delete s y.addr).mem (s.lo + s.brk - 8) = s.mem (s.lo + s.brk - 8) ∧
    (delete s y.addr).lo = s.lo ∧ (delete s y.addr).brk = s.brk ∧
    (delete s y.addr).heap_start = s.heap_start := by
  obtain ⟨m0, pae1, hg⟩ := PreCoal_chain _ _ _ _ _ _ _ _ h
  have he : s.lo + s.brk - 8 < 2 ^ 64 := by have := h.top; omega
  have ha0 : (s.lo + 8) % 16 = 8 := by have := h.lo_al; omega
  have hk := find_bucket_lt y.size
  have hin : ∀ b, b ∈ l1 ∨ b ∈ l2 → b ∈ l1 ++ (⟨xa, xs, true⟩ : Blk) :: l2 := by
    intro b hb
    rcases hb with hb | hb
    · exact List.mem_append_left _ hb
    · exact List.mem_append_right _ (List.mem_cons_of_mem _ hb)
  have hidx : Idx s (l1 ++ (⟨xa, xs, true⟩ : Blk) :: l2) fl := by
    refine ⟨h.lists, fun i hi a ha => ?_, h.nodup⟩
    obtain ⟨b, hb1, hb2, _, hb4⟩ := (h.mem_fl i hi a).1 ha
    exact ⟨b, hin b hb1, hb2, hb4⟩
  have hhdr : ∃ p, Hdr s.mem y p := by
    rcases hy with hy | hy
    · exact (Seg_mem_hdr _ _ _ _ _ _ h.seg1 y hy).1
    · exact (Seg_mem_hdr _ _ _ _ _ _ h.seg2 y hy).1
  obtain ⟨p, hy16, _, _, _, hymini, hysize⟩ := hhdr
  have hyfl : y.addr ∈ fl (find_bucket y.size) := (h.mem_fl _ hk _).2 ⟨y, hy, rfl, hfree, rfl⟩
  have hne : ∀ b, b ∈ l1 ∨ b ∈ l2 → b ≠ y → b.addr ≠ y.addr := fun b hb hby e =>
    hby (Seg_addr_inj _ _ _ _ _ _ hg b y (hin b hb) (hin y hy) e)
  obtain ⟨r1, r2, r3, r4, r5, r6⟩ := Idx_delete s _ fl m0 _ _ _ _ hg ha0 he hidx y.addr y.size
    hyfl hymini hysize hy16
  have hout : ∀ w, (w = s.lo ∨ w = s.lo + s.brk - 8) → (delete s y.addr).mem w = s.mem w := by
    intro w hw
    refine r3 w (fun b hb => ?_)
    have := Seg_mem_range _ _ _ _ _ _ hg b hb
    have := h.brk16
    omega
  refine ⟨fun l a pa a1 pa1 hs hl => r2 l a pa a1 pa1 hs (fun b hb => ?_), r1.lists, ?_,
    r1.nodup, hout _ (Or.inl rfl), hout _ (Or.inr rfl), r4, r5, r6⟩
  · obtain ⟨hb1, hb2⟩ := hl b hb
    refine ⟨hin b hb1, hne b hb1 hb2, fun hfl => ?_⟩
    obtain ⟨c, hc1, hc2, hc3, _⟩ := (h.mem_fl _ hk _).1 hfl
    have := Seg_addr_inj _ _ _ _ _ _ hg c b (hin c hc1) (hin b hb1) hc2
    rw [← this]; exact hc3
  · intro i hi a
    by_cases hik : i = find_bucket y.size
    · simp only [hik, if_true]
      rw [List.Nodup.mem_erase_iff (h.nodup _ hk), h.mem_fl _ hk a]
      constructor
      · rintro ⟨e1, b, hb1, hb2, hb3⟩
        exact ⟨b, ⟨hb1, fun e => e1 (by rw [← hb2, e])⟩, hb2, hb3⟩
      · rintro ⟨b, ⟨hb1, hb0⟩, hb2, hb3⟩
        exact ⟨by rw [← hb2]; exact hne b hb1 hb0, b, hb1, hb2, hb3⟩
    · simp only [hik, if_false]
      rw [h.mem_fl i hi a]
      constructor
      · rintro ⟨b, hb1, hb2, hb3, hb4⟩
        exact ⟨b, ⟨hb1, fun e => hik (by rw [← hb4, e])⟩, hb2, hb3, hb4⟩
      · rintro ⟨b, ⟨hb1, _⟩, hb2, hb3⟩
        exact ⟨b, hb1, hb2, hb3⟩

theorem get_alloc_frame (m m1 : Mem) (a : Nat) (e : m1 a = m a) : get_alloc m1 a = get_alloc m a := by
  unfold get_alloc; rw [e]

theorem PreCoal_del_next (s : Heap) (l1 : List Blk) (xa xs : Nat) (n : Blk) (l2 : List Blk)
    (fl : Nat → List Nat) (pax pae : Bool) (h : PreCoal s l1 xa xs (n :: l2) fl pax pae)
    (hfree : n.alloc = false) :
    PreCoal (delete s n.addr) l1 xa (xs + n.size) l2
      (fun i => if i = find_bucket n.size then (fl i).erase n.addr else fl i) pax pae := by
  obtain ⟨r1, r2, r3, r4, r5, r6, r7, r8, r9⟩ :=
    PreCoal_delete s l1 xa xs (n :: l2) fl pax pae h n (Or.inr (List.mem_cons_self _ _)) hfree
  have hs2 := h.seg2
  simp only [Seg] at hs2
  obtain ⟨hna, hnh, _, hs3⟩ := hs2
  have hl1 : ∀ b, b ∈ l1 → b ≠ n := by
    intro b hb e
    have := Seg_mem_range _ _ _ _ _ _ h.seg1 b hb
    rw [e] at this
    have := h.x16
    omega
  have hl2 : ∀ b, b ∈ l2 → b ≠ n := by
    intro b hb e
    have := Seg_mem_range _ _ _ _ _ _ hs3 b hb
    rw [e] at this
    have := hnh.1
    omega
  have hna1 := (NoAdj_mid _ _ _).1 h.noadj
  refine ⟨by rw [r7]; exact h.lo_pos, by rw [r7]; exact h.lo_al, by rw [r9, r7]; exact h.hs,
    by rw [r8]; exact h.brk16, by rw [r7, r8]; exact h.top, ?_, ?_, by have := h.x16; omega,
    by have := h.xm; have := hnh.2.1; omega, ?_, ?_, ?_, r2, ?_, r4⟩
  · rw [r7]; unfold get_alloc; rw [r5]; exact h.pro
  · rw [r7]
    exact r1 _ _ _ _ _ h.seg1 (fun b hb => ⟨Or.inl hb, hl1 b hb⟩)
  · rw [r7, r8]
    have := r1 _ _ _ _ _ hs3 (fun b hb => ⟨Or.inr (List.mem_cons_of_mem _ hb), hl2 b hb⟩)
    rw [hfree, Nat.add_assoc] at this
    exact this
  · rw [r7, r8]; exact Tags_frame _ _ _ _ _ _ r6 h.epi
  · rw [NoAdj_mid]
    refine ⟨hna1.1, ?_, fun p _ => Or.inr rfl, fun n _ => Or.inl rfl⟩
    have := hna1.2.1
    unfold NoAdj at this ⊢
    rw [List.chain'_cons'] at this
    exact this.2
  · intro i hi a
    rw [r3 i hi a]
    constructor
    · rintro ⟨b, ⟨hb1, hb0⟩, hb2⟩
      refine ⟨b, ?_, hb2⟩
      rcases hb1 with hb | hb
      · exact Or.inl hb
      · rcases List.mem_cons.1 hb with hb | hb
        · exact absurd hb hb0
        · exact Or.inr hb
    · rintro ⟨b, hb1, hb2⟩
      rcases hb1 with hb | hb
      · exact ⟨b, ⟨Or.inl hb, hl1 b hb⟩, hb2⟩
      · exact ⟨b, ⟨Or.inr (List.mem_cons_of_mem _ hb), hl2 b hb⟩, hb2⟩

theorem PreCoal_del_prev (s : Heap) (l1 : List Blk) (p : Blk) (xa xs : Nat) (l2 : List Blk)
    (fl : Nat → List Nat) (pax pae : Bool) (h : PreCoal s (l1 ++ [p]) xa xs l2 fl pax pae)
    (hfree : p.alloc = false) :
    PreCoal (delete s p.addr) l1 p.addr (p.size + xs) l2
      (fun i => if i = find_bucket p.size then (fl i).erase p.addr else fl i)
      (get_prev_alloc s.mem p.addr) pae := by
  obtain ⟨r1, r2, r3, r4, r5, r6, r7, r8, r9⟩ :=
    PreCoal_delete s (l1 ++ [p]) xa xs l2 fl pax pae h p (Or.inl (by simp)) hfree
  obtain ⟨pap, hs1, hph, _, hs3⟩ := Seg_cons_split _ _ _ _ _ _ _ _ h.seg1
  simp only [Seg] at hs3
  obtain ⟨hxa, _⟩ := hs3
  have hpa : get_prev_alloc s.mem p.addr = pap := hph.2.2.2.1
  have hl1 : ∀ b, b ∈ l1 → b ≠ p := by
    intro b hb e
    have := Seg_mem_range _ _ _ _ _ _ hs1 b hb
    rw [e] at this
    have := hph.1
    omega
  have hl2 : ∀ b, b ∈ l2 → b ≠ p := by
    intro b hb e
    have := Seg_mem_range _ _ _ _ _ _ h.seg2 b hb
    rw [e] at this
    have := hph.1
    omega
  have hna1 := (NoAdj_mid _ _ _).1 h.noadj
  have hna2 := (NoAdj_mid l1 [] p).1 hna1.1
  refine ⟨by rw [r7]; exact h.lo_pos, by rw [r7]; exact h.lo_al, by rw [r9, r7]; exact h.hs,
    by rw [r8]; exact h.brk16, by rw [r7, r8]; exact h.top, ?_, ?_, by have := h.x16; omega,
    by have := h.xm; have := hph.2.1; omega, ?_, ?_, ?_, r2, ?_, r4⟩
  · rw [r7]; unfold get_alloc; rw [r5]; exact h.pro
  · rw [r7, hpa]
    exact r1 _ _ _ _ _ hs1 (fun b hb => ⟨Or.inl (List.mem_append_left _ hb), hl1 b hb⟩)
  · rw [r7, r8]
    have := r1 _ _ _ _ _ h.seg2 (fun b hb => ⟨Or.inr hb, hl2 b hb⟩)
    rw [hxa, Nat.add_assoc] at this
    exact this
  · rw [r7, r8]; exact Tags_frame _ _ _ _ _ _ r6 h.epi
  · rw [NoAdj_mid]
    exact ⟨hna2.1, hna1.2.1, fun p _ => Or.inr rfl, fun n _ => Or.inl rfl⟩
  · intro i hi a
    rw [r3 i hi a]
    constructor
    · rintro ⟨b, ⟨hb1, hb0⟩, hb2⟩
      refine ⟨b, ?_, hb2⟩
      rcases hb1 with hb | hb
      · rcases List.mem_append.1 hb with hb | hb
        · exact Or.inl hb
        · exact absurd (List.mem_singleton.1 hb) hb0
      · exact Or.inr hb
    · rintro ⟨b, hb1, hb2⟩
      rcases hb1 with hb | hb
      · exact ⟨b, ⟨Or.inl (List.mem_append_left _ hb), hl1 b hb⟩, hb2⟩
      · exact ⟨b, ⟨Or.inr hb, hl2 b hb⟩, hb2⟩

theorem PreCoal_finish (s : Heap) (l1 : List Blk) (xa xs : Nat) (l2 : List Blk)
    (fl : Nat → List Nat) (pax pae : Bool) (h : PreCoal s l1 xa xs l2 fl pax pae)
    (hn : NoAdj (l1 ++ ⟨xa, xs, false⟩ :: l2)) :
    ∃ pae1, Valid { s with mem := write_block s.mem xa xs false pax (decide (xs = 16)) }
      (l1 ++ ⟨xa, xs, false⟩ :: l2) fl xa pae1 := by
  have he : s.lo + s.brk - 8 < 2 ^ 64 := by have := h.top; omega
  obtain ⟨w1, w2, ⟨pae1, w3, w4, _, _⟩, w5⟩ := write_block_seg s.mem (s.lo + 8) true l1 l2 xa xs
    pax false _ pae false pax h.seg1 h.seg2 h.epi h.x16 h.xm he
  have hnext := NoAdj_next _ _ _ hn rfl
  have hle := Seg_le _ _ _ _ _ _ h.seg1
  have hle2 := Seg_le _ _ _ _ _ _ h.seg2
  have htop := h.top
  have hx16 := h.x16
  have hpro : write_block s.mem xa xs false pax (decide (xs = 16)) s.lo = s.mem s.lo :=
    (write_block_any s.mem xa xs false pax h.x16 h.xm (by omega)).2 s.lo
      (by omega) (by omega) (by omega) (by omega)
  refine ⟨pae1, h.lo_pos, h.lo_al, h.hs, h.brk16, h.top, ?_, ?_, ?_, hn, ?_, ?_, h.nodup⟩
  · dsimp only
    unfold get_alloc; rw [hpro]; exact h.pro
  · exact Seg_cons_join _ l1 l2 ⟨xa, xs, false⟩ _ _ _ _ pax w1 ⟨h.x16, w2⟩
      (w5 rfl (fun n l3 e => Or.inl (hnext n l3 e))) w3
  · exact ⟨w4.2.1, w4.2.2.2.2, by have := w4.2.2.2.1; simpa using this, w4.2.2.1⟩
  · intro i hi
    refine write_block_flist s.mem (s.lo + 8) true l1 l2 xa xs pax false _ pae false pax
      h.seg1 h.seg2 h.epi h.x16 h.xm he i _ _ (h.lists i hi) (fun y hy => Or.inl ?_)
    obtain ⟨b, hb1, hb2, _, hb4⟩ := (h.mem_fl i hi y).1 hy
    exact ⟨b, hb1, hb2, hb4⟩
  · intro i hi a
    rw [h.mem_fl i hi a]
    constructor
    · rintro ⟨b, hb1, hb2, hb3⟩
      rcases hb1 with hb | hb
      · refine ⟨⟨b, List.mem_append_left _ hb, hb2, hb3⟩, ?_⟩
        have := Seg_mem_range _ _ _ _ _ _ h.seg1 b hb
        omega
      · refine ⟨⟨b, List.mem_append_right _ (List.mem_cons_of_mem _ hb), hb2, hb3⟩, ?_⟩
        have := Seg_mem_range _ _ _ _ _ _ h.seg2 b hb
        have := h.x16
        omega
    · rintro ⟨⟨b, hb1, hb2, hb3⟩, hne⟩
      rcases List.mem_append.1 hb1 with hb | hb
      · exact ⟨b, Or.inl hb, hb2, hb3⟩
      · rcases List.mem_cons.1 hb with hb | hb
        · rw [hb] at hb2; exact absurd hb2.symm hne
        · exact ⟨b, Or.inr hb, hb2, hb3⟩

theorem wadd_small (a b : Nat) (h : a + b < 2 ^ 64) : wadd a b = a + b := by
  unfold wadd; exact Nat.mod_eq_of_lt h

theorem Seg_last (m : Mem) (l : List Blk) (p : Blk) (a : Nat) (pa : Bool) (a1 : Nat)
    (pa1 : Bool) (h : Seg m a pa (l ++ [p]) a1 pa1) : a1 = p.addr + p.size ∧ pa1 = p.alloc := by
  obtain ⟨_, _, _, _, h3⟩ := Seg_cons_split _ _ _ _ _ _ _ _ h
  simp only [Seg] at h3
  exact h3

theorem Seg_last_alloc (m : Mem) (l : List Blk) (a : Nat) (pa : Bool) (a1 : Nat) (pa1 : Bool)
    (h : Seg m a pa l a1 pa1) : ∀ p, p ∈ l.getLast? → p.alloc = pa1 := by
  intro p hp
  rcases List.eq_nil_or_concat l with e | ⟨L, b, e⟩
  · rw [e] at hp; simp at hp
  · rw [List.concat_eq_append] at e
    rw [e] at hp h
    have hp1 : b = p := by simpa using hp
    rw [← hp1]; exact (Seg_last _ _ _ _ _ _ _ h).2.symm

theorem find_prev_eq (m : Mem) (p : Blk) (hf : Ftr m p) (hfree : p.alloc = false)
    (h16 : 16 ≤ p.size) (hlt : p.size < 2 ^ 64) : find_prev m (p.addr + p.size) = p.addr := by
  obtain ⟨h1, h2⟩ := hf hfree
  unfold find_prev find_prev_footer footer_to_header wsize
  dsimp only
  by_cases hm : p.size = 16
  · rw [h1, hm]; simp
  · obtain ⟨h3, _⟩ := h2 hm
    rw [h1, h3]
    simp only [hm, decide_False, Bool.false_eq_true, if_false]
    rw [if_neg (by omega)]
    omega

theorem delete_lo (s : Heap) (x : Nat) : (delete s x).lo = s.lo := by
  unfold delete; dsimp only; split_ifs <;> rfl

theorem delete_brk (s : Heap) (x : Nat) : (delete s x).brk = s.brk := by
  unfold delete; dsimp only; split_ifs <;> rfl

theorem insert_lo (s : Heap) (x : Nat) : (insert s x).lo = s.lo := by
  unfold insert; dsimp only; split_ifs <;> rfl

theorem insert_brk (s : Heap) (x : Nat) : (insert s x).brk = s.brk := by
  unfold insert; dsimp only; split_ifs <;> rfl

theorem coalesce_block_eq (s : Heap) (xa xs : Nat) (pax nalloc : Bool)
    (ht : Tags s.mem xa xs false pax) (hna : get_alloc s.mem (xa + xs) = nalloc)
    (hx : 16 ≤ xs) :
    coalesce_block s xa =
      if pax = false ∧ nalloc = false then
        coalesce_prev_next s (find_prev s.mem xa) (xa + xs) xs
      else if pax = false then coalesce_prev s (find_prev s.mem xa) xs
      else if nalloc = false then coalesce_next s xa (xa + xs) xs
      else ({ s with mem := write_block s.mem xa xs false pax (decide (xs = 16)) }, xa) := by
  have hfn := Tags_find_next _ _ _ _ _ ht
  obtain ⟨_, _, hpa, hmini, hsize⟩ := ht
  have hne : xa + xs ≠ 0 := by omega
  unfold coalesce_block
  simp only [hfn, hpa, hmini, hsize, hna]
  cases pax <;> cases nalloc <;> simp [hne]

theorem head_eq_cons (l : List Blk) (n : Blk) (h : n ∈ l.head?) : ∃ l3, l = n :: l3 := by
  cases l with
  | nil => simp at h
  | cons c l3 =>
    simp only [List.head?_cons, Option.mem_def, Option.some.injEq] at h
    exact ⟨l3, by rw [h]⟩

theorem coalesce_block_valid (s : Heap) (l1 : List Blk) (xa xs : Nat) (l2 : List Blk)
    (fl : Nat → List Nat) (pax pae : Bool) (h : PreCoal s l1 xa xs l2 fl pax pae)
    (ht : Tags s.mem xa xs false pax) :
    ∃ bs fl1 bx pae1, Valid (coalesce_block s xa).1 bs fl1 bx.addr pae1 ∧ bx ∈ bs ∧
      bx.alloc = false ∧ (coalesce_block s xa).2 = bx.addr ∧
      (∀ b, b ∈ l1 ∨ b ∈ l2 → b.alloc = true → b ∈ bs) ∧
      bx.addr ≤ xa ∧ xa + xs ≤ bx.addr + bx.size ∧
      (coalesce_block s xa).1.lo = s.lo ∧ (coalesce_block s xa).1.brk = s.brk := by
  have htop := h.top
  have hle1 := Seg_le _ _ _ _ _ _ h.seg1
  have hle2 := Seg_le _ _ _ _ _ _ h.seg2
  have hx16 := h.x16
  obtain ⟨nsize, nalloc, hnt, hn1, hn2⟩ := Seg_head_tags _ _ _ _ _ _ h.seg2 h.epi
  have hna : get_alloc s.mem (xa + xs) = nalloc := hnt.2.1
  have hnsz : get_size s.mem (xa + xs) = nsize := hnt.2.2.2.2
  have hnoadj := (NoAdj_mid _ _ _).1 h.noadj
  have hlast := Seg_last_alloc _ _ _ _ _ _ h.seg1
  have hcb := coalesce_block_eq s xa xs pax nalloc ht hna hx16
  have hpa : get_prev_alloc s.mem xa = pax := ht.2.2.1
  have hin : ∀ (L1 L2 : List Blk) (y : Blk) (b : Blk), b ∈ L1 ∨ b ∈ L2 → b ∈ L1 ++ y :: L2 := by
    intro L1 L2 y b hb
    rcases hb with hb | hb
    · exact List.mem_append_left _ hb
    · exact List.mem_append_right _ (List.mem_cons_of_mem _ hb)
  by_cases hp : pax = false
  · -- the previous block is free
    have hl1 : ∃ L p, l1 = L ++ [p] := by
      rcases List.eq_nil_or_concat l1 with e | ⟨L, p, e⟩
      · have h3 := h.seg1
        rw [e] at h3
        simp only [Seg] at h3
        rw [hp] at h3; simp at h3
      · exact ⟨L, p, by rw [e, List.concat_eq_append]⟩
    obtain ⟨L, p, e⟩ := hl1
    subst e
    obtain ⟨hxa, hpal⟩ := Seg_last _ _ _ _ _ _ _ h.seg1
    have hpfree : p.alloc = false := by rw [← hpal]; exact hp
    obtain ⟨pap, hsL, hph, hpf, _⟩ := Seg_cons_split _ _ _ _ _ _ _ _ h.seg1
    have hleL := Seg_le _ _ _ _ _ _ hsL
    have hp16 := hph.1
    have hpsz : get_size s.mem p.addr = p.size := hph.2.2.2.2.2
    have hfp : find_prev s.mem xa = p.addr := by
      rw [hxa]; exact find_prev_eq _ _ hpf hpfree hp16 (by omega)
    have h1 := PreCoal_del_prev s L p xa xs l2 fl pax pae h hpfree
    have hLlast : ∀ q, q ∈ L.getLast? → q.alloc = true := by
      intro q hq
      rcases ((NoAdj_mid L [] p).1 hnoadj.1).2.2.1 q hq with h5 | h5
      · exact h5
      · rw [hpfree] at h5; simp at h5
    by_cases hnf : nalloc = false
    · rw [hcb, if_pos ⟨hp, hnf⟩, hfp]
      have hl2 : ∃ n l3, l2 = n :: l3 := by
        cases l2 with
        | nil => have := (hn1 rfl).2.1; rw [hnf] at this; simp at this
        | cons n l3 => exact ⟨n, l3, rfl⟩
      obtain ⟨n, l3, e⟩ := hl2
      obtain ⟨e1, e2, e3, e4⟩ := hn2 n l3 e
      subst e
      have hnfree : n.alloc = false := by rw [← e2]; exact hnf
      have h2 := PreCoal_del_next _ L p.addr (p.size + xs) n l3 _ _ pae h1 hnfree
      have hs2 := h.seg2
      simp only [Seg] at hs2
      have hle3 := Seg_le _ _ _ _ _ _ hs2.2.2.2
      have hn : NoAdj (L ++ ⟨p.addr, p.size + xs + n.size, false⟩ :: l3) := by
        rw [NoAdj_mid]
        have h3 := h2.noadj
        rw [NoAdj_mid] at h3
        refine ⟨h3.1, h3.2.1, fun q hq => Or.inl (hLlast q hq), fun c hc => ?_⟩
        obtain ⟨l4, e5⟩ := head_eq_cons _ _ hc
        have h4 := hnoadj.2.1
        rw [e5] at h4
        unfold NoAdj at h4
        rw [List.chain'_cons] at h4
        rcases h4.1 with h5 | h5
        · rw [hnfree] at h5; simp at h5
        · exact Or.inr h5
      obtain ⟨pae1, hv⟩ := PreCoal_finish _ _ _ _ _ _ _ _ h2 hn
      have hd : decide (p.size + xs + n.size = 16) = false := by simp; omega
      rw [hd] at hv
      have hcn : coalesce_prev_next s p.addr (xa + xs) xs =
          ({ delete (delete s p.addr) n.addr with mem := write_block (delete (delete s p.addr) n.addr).mem p.addr (p.size + xs + n.size) false (get_prev_alloc s.mem p.addr) false }, p.addr) := by
        unfold coalesce_prev_next
        dsimp only
        rw [hnsz, e1, hpsz, e3, wadd_small xs _ (by omega), wadd_small _ _ (by omega),
          Nat.add_comm xs p.size]
      rw [hcn]
      refine ⟨_, _, ⟨p.addr, p.size + xs + n.size, false⟩, pae1, hv, by simp, rfl, rfl, ?_,
        by show p.addr ≤ xa; omega,
        by show xa + xs ≤ p.addr + (p.size + xs + n.size); omega,
        by show (delete (delete s p.addr) n.addr).lo = s.lo; rw [delete_lo, delete_lo],
        by show (delete (delete s p.addr) n.addr).brk = s.brk; rw [delete_brk, delete_brk]⟩
      intro b hb hba
      rcases hb with hb | hb
      · rcases List.mem_append.1 hb with hb | hb
        · exact List.mem_append_left _ hb
        · rw [List.mem_singleton.1 hb, hpfree] at hba; simp at hba
      · rcases List.mem_cons.1 hb with hb | hb
        · rw [hb, hnfree] at hba; simp at hba
        · exact List.mem_append_right _ (List.mem_cons_of_mem _ hb)
    · rw [hcb, if_neg (fun hc => hnf hc.2), if_pos hp, hfp]
      have hnt1 : nalloc = true := by cases nalloc <;> simp at hnf ⊢
      have hn : NoAdj (L ++ ⟨p.addr, p.size + xs, false⟩ :: l2) := by
        rw [NoAdj_mid]
        have h3 := h1.noadj
        rw [NoAdj_mid] at h3
        refine ⟨h3.1, h3.2.1, fun q hq => Or.inl (hLlast q hq), fun c hc => ?_⟩
        obtain ⟨l4, e5⟩ := head_eq_cons _ _ hc
        exact Or.inr (by rw [← (hn2 c l4 e5).2.1, hnt1])
      obtain ⟨pae1, hv⟩ := PreCoal_finish _ _ _ _ _ _ _ _ h1 hn
      have hd : decide (p.size + xs = 16) = false := by simp; omega
      rw [hd] at hv
      have hcn : coalesce_prev s p.addr xs =
          ({ delete s p.addr with mem := write_block (delete s p.addr).mem p.addr (p.size + xs) false (get_prev_alloc s.mem p.addr) false }, p.addr) := by
        unfold coalesce_prev
        dsimp only
        rw [hpsz, wadd_small xs _ (by omega), Nat.add_comm xs p.size]
      rw [hcn]
      refine ⟨_, _, ⟨p.addr, p.size + xs, false⟩, pae1, hv, by simp, rfl, rfl, ?_,
        by show p.addr ≤ xa; omega,
        by show xa + xs ≤ p.addr + (p.size + xs); omega, delete_lo _ _, delete_brk _ _⟩
      intro b hb hba
      rcases hb with hb | hb
      · rcases List.mem_append.1 hb with hb | hb
        · exact List.mem_append_left _ hb
        · rw [List.mem_singleton.1 hb, hpfree] at hba; simp at hba
      · exact List.mem_append_right _ (List.mem_cons_of_mem _ hb)
  · have hpt : pax = true := by cases pax <;> simp at hp ⊢
    by_cases hnf : nalloc = false
    · -- the next block is free
      rw [hcb, if_neg (fun hc => hp hc.1), if_neg hp, if_pos hnf]
      have hl2 : ∃ n l3, l2 = n :: l3 := by
        cases l2 with
        | nil => have := (hn1 rfl).2.1; rw [hnf] at this; simp at this
        | cons n l3 => exact ⟨n, l3, rfl⟩
      obtain ⟨n, l3, e⟩ := hl2
      obtain ⟨e1, e2, e3, e4⟩ := hn2 n l3 e
      subst e
      have hnfree : n.alloc = false := by rw [← e2]; exact hnf
      have h1 := PreCoal_del_next s l1 xa xs n l3 fl pax pae h hnfree
      have hs2 := h.seg2
      simp only [Seg] at hs2
      have hle3 := Seg_le _ _ _ _ _ _ hs2.2.2.2
      have hn : NoAdj (l1 ++ ⟨xa, xs + n.size, false⟩ :: l3) := by
        rw [NoAdj_mid]
        have h3 := h1.noadj
        rw [NoAdj_mid] at h3
        refine ⟨h3.1, h3.2.1, fun p hp1 => Or.inl (by rw [hlast p hp1, hpt]), fun c hc => ?_⟩
        obtain ⟨l4, e5⟩ := head_eq_cons _ _ hc
        have h4 := hnoadj.2.1
        rw [e5] at h4
        unfold NoAdj at h4
        rw [List.chain'_cons] at h4
        rcases h4.1 with h5 | h5
        · rw [hnfree] at h5; simp at h5
        · exact Or.inr h5
      obtain ⟨pae1, hv⟩ := PreCoal_finish _ _ _ _ _ _ _ _ h1 hn
      have hd : decide (xs + n.size = 16) = false := by
        have := e4; simp; omega
      rw [hd] at hv
      have hcn : coalesce_next s xa (xa + xs) xs =
          ({ delete s n.addr with mem := write_block (delete s n.addr).mem xa (xs + n.size) false pax false }, xa) := by
        unfold coalesce_next
        dsimp only
        rw [hnsz, e1, hpa, e3, wadd_small _ _ (by omega)]
      rw [hcn]
      refine ⟨_, _, ⟨xa, xs + n.size, false⟩, pae1, hv, by simp, rfl, rfl, ?_, le_refl _,
        by show xa + xs ≤ xa + (xs + n.size); omega, delete_lo _ _, delete_brk _ _⟩
      intro b hb hba
      rcases hb with hb | hb
      · exact List.mem_append_left _ hb
      · rcases List.mem_cons.1 hb with hb | hb
        · rw [hb, hnfree] at hba; simp at hba
        · exact List.mem_append_right _ (List.mem_cons_of_mem _ hb)
    · rw [hcb, if_neg (fun hc => hp hc.1), if_neg hp, if_neg hnf]
      have hnt1 : nalloc = true := by cases nalloc <;> simp at hnf ⊢
      have hn : NoAdj (l1 ++ ⟨xa, xs, false⟩ :: l2) := by
        rw [NoAdj_mid]
        refine ⟨hnoadj.1, hnoadj.2.1, fun p hp1 => Or.inl (by rw [hlast p hp1, hpt]),
          fun c hc => ?_⟩
        obtain ⟨l4, e5⟩ := head_eq_cons _ _ hc
        exact Or.inr (by rw [← (hn2 c l4 e5).2.1, hnt1])
      obtain ⟨pae1, hv⟩ := PreCoal_finish _ _ _ _ _ _ _ _ h hn
      exact ⟨_, _, ⟨xa, xs, false⟩, pae1, hv, by simp, rfl, rfl, fun b hb _ => hin _ _ _ b hb,
        le_refl _, le_refl _, rfl, rfl⟩

/-! ## `free` -/

theorem free_eq (s : Heap) (bp : Nat) (h : bp ≠ 0) :
    free s bp = insert (coalesce_block { s with mem := write_block s.mem (bp - 8) (get_size s.mem (bp - 8)) false (get_prev_alloc s.mem (bp - 8)) (get_mini s.mem (bp - 8)) } (bp - 8)).1 (coalesce_block { s with mem := write_block s.mem (bp - 8) (get_size s.mem (bp - 8)) false (get_prev_alloc s.mem (bp - 8)) (get_mini s.mem (bp - 8)) } (bp - 8)).2 := by
  unfold free
  rw [if_neg h]
  rfl

theorem Valid_free_write (s : Heap) (l1 l2 : List Blk) (x : Blk) (fl : Nat → List Nat)
    (pae : Bool) (h : Valid s (l1 ++ x :: l2) fl 0 pae) (hal : x.alloc = true) :
    ∃ pax pae1, PreCoal { s with mem := write_block s.mem x.addr (get_size s.mem x.addr) false (get_prev_alloc s.mem x.addr) (get_mini s.mem x.addr) } l1 x.addr x.size l2 fl pax pae1 ∧
      Tags (write_block s.mem x.addr (get_size s.mem x.addr) false (get_prev_alloc s.mem x.addr)
        (get_mini s.mem x.addr)) x.addr x.size false pax := by
  obtain ⟨pax, hs1, hhx, hfx, hs2⟩ := Seg_cons_split _ _ _ _ _ _ _ _ h.seg
  have hxin : x ∈ l1 ++ x :: l2 := by simp
  obtain ⟨htm, hts, hta, hlo, hhi, h16, hm16, hal8⟩ := Valid_block_tags _ _ _ _ _ h x hxin
  have hpa : get_prev_alloc s.mem x.addr = pax := hhx.2.2.2.1
  have hepi := Valid_epi_tags _ _ _ _ _ h
  have he : s.lo + s.brk - 8 < 2 ^ 64 := by have := h.top; omega
  have htop := h.top
  rw [hpa, htm, hts]
  obtain ⟨w1, w2, ⟨pae1, w3, w4, _, _⟩, _⟩ := write_block_seg s.mem (s.lo + 8) true l1 l2 x.addr
    x.size pax x.alloc _ pae false pax hs1 hs2 hepi h16 hm16 he
  have hpro : write_block s.mem x.addr x.size false pax (decide (x.size = 16)) s.lo =
      s.mem s.lo :=
    (write_block_any s.mem x.addr x.size false pax h16 hm16 (by omega)).2 s.lo
      (by omega) (by omega) (by omega) (by omega)
  have hsplit : ∀ b, b ∈ l1 ++ x :: l2 → b.alloc = false → b ∈ l1 ∨ b ∈ l2 := by
    intro b hb hbf
    rcases List.mem_append.1 hb with hb | hb
    · exact Or.inl hb
    · rcases List.mem_cons.1 hb with hb | hb
      · rw [hb, hal] at hbf; simp at hbf
      · exact Or.inr hb
  have hin : ∀ b, b ∈ l1 ∨ b ∈ l2 → b ∈ l1 ++ x :: l2 := by
    intro b hb
    rcases hb with hb | hb
    · exact List.mem_append_left _ hb
    · exact List.mem_append_right _ (List.mem_cons_of_mem _ hb)
  have hmem : ∀ i, i < 15 → ∀ a, a ∈ fl i ↔
      ∃ b, (b ∈ l1 ∨ b ∈ l2) ∧ b.addr = a ∧ b.alloc = false ∧ find_bucket b.size = i := by
    intro i hi a
    rw [h.mem_fl i hi a]
    constructor
    · rintro ⟨⟨b, hb1, hb2, hb3, hb4⟩, _⟩
      exact ⟨b, hsplit b hb1 hb3, hb2, hb3, hb4⟩
    · rintro ⟨b, hb1, hb2, hb3, hb4⟩
      refine ⟨⟨b, hin b hb1, hb2, hb3, hb4⟩, ?_⟩
      have := Seg_mem_range _ _ _ _ _ _ h.seg b (hin b hb1)
      omega
  refine ⟨pax, pae1, ⟨h.lo_pos, h.lo_al, h.hs, h.brk16, h.top, ?_, w1, h16, hm16, w3, w4, ?_,
    ?_, hmem, h.nodup⟩, w2⟩
  · dsimp only
    unfold get_alloc; rw [hpro]; exact h.pro
  · have e : x = ⟨x.addr, x.size, true⟩ := by cases x; simp at hal ⊢; exact hal
    rw [← e]; exact h.noadj
  · intro i hi
    refine write_block_flist s.mem (s.lo + 8) true l1 l2 x.addr x.size pax x.alloc _ pae false pax
      hs1 hs2 hepi h16 hm16 he i _ _ (h.lists i hi) (fun y hy => Or.inl ?_)
    obtain ⟨b, hb1, hb2, _, hb4⟩ := (hmem i hi y).1 hy
    exact ⟨b, hb1, hb2, hb4⟩

theorem free_valid (s : Heap) (bs : List Blk) (fl : Nat → List Nat) (pae : Bool)
    (h : Valid s bs fl 0 pae) (x : Blk) (hx : x ∈ bs) (hal : x.alloc = true) :
    ∃ bs1 fl1 pae1, Valid (free s (x.addr + 8)) bs1 fl1 0 pae1 ∧
      (∀ b, b ∈ bs → b.alloc = true → b ≠ x → b ∈ bs1) ∧
      (free s (x.addr + 8)).lo = s.lo ∧ (free s (x.addr + 8)).brk = s.brk := by
  obtain ⟨l1, l2, e⟩ := List.append_of_mem hx
  subst e
  obtain ⟨pax, pae1, hpc, ht⟩ := Valid_free_write s l1 l2 x fl pae h hal
  obtain ⟨bs1, fl1, bx, pae2, hv, hbx, hbf, hres, hkeep, _, _, hlo, hbrk⟩ :=
    coalesce_block_valid _ l1 x.addr x.size l2 fl pax pae1 hpc ht
  have hins := Valid_insert _ bs1 fl1 pae2 bx hv hbx hbf
  rw [free_eq s _ (by omega), Nat.add_sub_cancel, hres]
  refine ⟨bs1, _, pae2, hins, fun b hb hba hne => hkeep b ?_ hba, ?_, ?_⟩
  · rcases List.mem_append.1 hb with hb | hb
    · exact Or.inl hb
    · rcases List.mem_cons.1 hb with hb | hb
      · exact absurd hb hne
      · exact Or.inr hb
  · rw [insert_lo, hlo]
  · rw [insert_brk, hbrk]

/-! ## `extend_heap` -/

theorem extend_mem_eq (m : Mem) (e size : Nat) (pa : Bool) (hm : size % 16 = 0)
    (h16 : 16 < size) (hlt : size < 2 ^ 64) :
    write_epilogue (extend_write m e size false pa) (find_next (extend_write m e size false pa) e)
      = wr (wr (wr m e (pack size false pa)) (e + size - 8) (pack size false pa)) (e + size)
          (pack 0 true false) := by
  have t1 : Tags (wr m e (pack size false pa)) e size false pa :=
    Tags_pack _ _ _ _ _ hm (by omega) hlt (wr_same _ _ _)
  have e1 : extend_write m e size false pa =
      wr (wr m e (pack size false pa)) (e + size - 8) (pack size false pa) := by
    unfold extend_write header_to_footer
    dsimp only
    rw [t1.2.2.2.2]
    have : e + wsize + size - dsize = e + size - 8 := by unfold wsize dsize wsize; omega
    rw [this]
  have t2 : Tags (extend_write m e size false pa) e size false pa := by
    rw [e1]
    exact Tags_frame _ _ _ _ _ _ (wr_other _ _ _ _ (by omega)) t1
  unfold write_epilogue
  rw [Tags_find_next _ _ _ _ _ t2, e1]

theorem extend_heap_fail (s : Heap) (size : Nat) (grow : Bool)
    (h : ¬(grow = true ∧ s.lo + s.brk + round_up size dsize < 2 ^ 64)) :
    extend_heap s size grow = (s, 0) := by
  unfold extend_heap mem_sbrk
  dsimp only
  rw [if_neg h]

theorem extend_heap_ok (s : Heap) (size : Nat) (grow : Bool)
    (h : grow = true ∧ s.lo + s.brk + round_up size dsize < 2 ^ 64) :
    extend_heap s size grow =
      (insert (coalesce_block ⟨write_epilogue (extend_write s.mem (s.lo + s.brk - 8) (round_up size dsize) false (get_prev_alloc s.mem (s.lo + s.brk - 8))) (find_next (extend_write s.mem (s.lo + s.brk - 8) (round_up size dsize) false (get_prev_alloc s.mem (s.lo + s.brk - 8))) (s.lo + s.brk - 8)), s.lo, s.brk + round_up size dsize, s.heap_start, s.seglist⟩ (s.lo + s.brk - 8)).1
        (coalesce_block ⟨write_epilogue (extend_write s.mem (s.lo + s.brk - 8) (round_up size dsize) false (get_prev_alloc s.mem (s.lo + s.brk - 8))) (find_next (extend_write s.mem (s.lo + s.brk - 8) (round_up size dsize) false (get_prev_alloc s.mem (s.lo + s.brk - 8))) (s.lo + s.brk - 8)), s.lo, s.brk + round_up size dsize, s.heap_start, s.seglist⟩ (s.lo + s.brk - 8)).2,
       (coalesce_block ⟨write_epilogue (extend_write s.mem (s.lo + s.brk - 8) (round_up size dsize) false (get_prev_alloc s.mem (s.lo + s.brk - 8))) (find_next (extend_write s.mem (s.lo + s.brk - 8) (round_up size dsize) false (get_prev_alloc s.mem (s.lo + s.brk - 8))) (s.lo + s.brk - 8)), s.lo, s.brk + round_up size dsize, s.heap_start, s.seglist⟩ (s.lo + s.brk - 8)).2) := by
  unfold extend_heap mem_sbrk
  dsimp only
  rw [if_pos h]
  rfl

theorem extend_precoal (s : Heap) (bs : List Blk) (fl : Nat → List Nat) (pae : Bool)
    (h : Valid s bs fl 0 pae) (sz : Nat) (hm : sz % 16 = 0) (h16 : 16 < sz)
    (htop : s.lo + s.brk + sz < 2 ^ 64) :
    PreCoal ⟨wr (wr (wr s.mem (s.lo + s.brk - 8) (pack sz false pae)) (s.lo + s.brk - 8 + sz - 8) (pack sz false pae)) (s.lo + s.brk - 8 + sz) (pack 0 true false), s.lo, s.brk + sz, s.heap_start, s.seglist⟩
      bs (s.lo + s.brk - 8) sz [] fl pae false ∧
    Tags (wr (wr (wr s.mem (s.lo + s.brk - 8) (pack sz false pae)) (s.lo + s.brk - 8 + sz - 8)
      (pack sz false pae)) (s.lo + s.brk - 8 + sz) (pack 0 true false)) (s.lo + s.brk - 8) sz
      false pae := by
  have hb := h.brk16
  have hfr : ∀ w, w < s.lo + s.brk - 8 →
      wr (wr (wr s.mem (s.lo + s.brk - 8) (pack sz false pae)) (s.lo + s.brk - 8 + sz - 8)
        (pack sz false pae)) (s.lo + s.brk - 8 + sz) (pack 0 true false) w = s.mem w := by
    intro w hw
    rw [wr_other _ _ _ _ (by omega), wr_other _ _ _ _ (by omega), wr_other _ _ _ _ (by omega)]
  have ht : Tags (wr (wr (wr s.mem (s.lo + s.brk - 8) (pack sz false pae))
      (s.lo + s.brk - 8 + sz - 8) (pack sz false pae)) (s.lo + s.brk - 8 + sz)
      (pack 0 true false)) (s.lo + s.brk - 8) sz false pae :=
    Tags_pack _ _ _ _ _ hm (by omega) (by omega) (by
      rw [wr_other _ _ _ _ (by omega), wr_other _ _ _ _ (by omega), wr_same])
  refine ⟨⟨h.lo_pos, h.lo_al, h.hs, by show 16 ≤ s.brk + sz; omega, by
    show s.lo + (s.brk + sz) < 2 ^ 64; omega, ?_, ?_, by omega, hm, ?_, ?_, ?_, ?_, ?_, h.nodup⟩, ht⟩
  · dsimp only
    unfold get_alloc
    rw [hfr _ (by omega)]
    exact h.pro
  · dsimp only
    refine Seg_frame _ _ _ _ _ _ _ h.seg (fun b hb1 => ?_)
    have := Seg_mem_range _ _ _ _ _ _ h.seg b hb1
    exact ⟨hfr _ (by omega), fun _ => hfr _ (by omega)⟩
  · dsimp only
    simp only [Seg]
    exact ⟨by omega, trivial⟩
  · dsimp only
    have e1 : s.lo + (s.brk + sz) - 8 = s.lo + s.brk - 8 + sz := by omega
    rw [e1]
    exact Tags_pack _ _ _ _ _ (by norm_num) (by norm_num) (by norm_num) (wr_same _ _ _)
  · rw [NoAdj_mid]
    exact ⟨h.noadj, List.chain'_nil, fun p _ => Or.inr rfl, fun n hn => by simp at hn⟩
  · intro i hi
    dsimp only
    refine FList_frame _ _ _ _ _ (h.lists i hi) (fun hi0 y hy => ?_) (fun hi0 y hy => ?_)
    · obtain ⟨b, hb1, hb2, hb3⟩ := Valid_index _ _ _ _ _ h i hi y hy
      have := Seg_mem_range _ _ _ _ _ _ h.seg b hb1
      unfold mini_get_header mini_get_next
      rw [hfr _ (by omega), hfr _ (by omega)]
      exact ⟨rfl, rfl⟩
    · obtain ⟨b, hb1, hb2, hb3⟩ := Valid_index _ _ _ _ _ h i hi y hy
      have := Seg_mem_range _ _ _ _ _ _ h.seg b hb1
      have h32 : 16 < b.size := by
        by_contra hc
        exact hi0 (by rw [← hb3]; exact (find_bucket_zero _).2 (by omega))
      exact ⟨hfr _ (by omega), hfr _ (by omega)⟩
  · intro i hi a
    rw [h.mem_fl i hi a]
    constructor
    · rintro ⟨⟨b, hb1, hb2⟩, _⟩
      exact ⟨b, Or.inl hb1, hb2⟩
    · rintro ⟨b, hb1, hb2, hb3⟩
      rcases hb1 with hb1 | hb1
      · refine ⟨⟨b, hb1, hb2, hb3⟩, ?_⟩
        have := Seg_mem_range _ _ _ _ _ _ h.seg b hb1
        omega
      · simp at hb1

theorem extend_heap_valid (s : Heap) (bs : List Blk) (fl : Nat → List Nat) (pae : Bool)
    (h : Valid s bs fl 0 pae) (size : Nat) (grow : Bool)
    (hm : round_up size dsize % 16 = 0) (h16 : 16 < round_up size dsize) :
    extend_heap s size grow = (s, 0) ∨
    ∃ bs1 fl1 pae1 bx, Valid (extend_heap s size grow).1 bs1 fl1 0 pae1 ∧ bx ∈ bs1 ∧
      bx.alloc = false ∧ (extend_heap s size grow).2 = bx.addr ∧
      round_up size dsize ≤ bx.size ∧ (∀ b, b ∈ bs → b.alloc = true → b ∈ bs1) ∧
      (extend_heap s size grow).1.lo = s.lo ∧
      (extend_heap s size grow).1.brk = s.brk + round_up size dsize := by
  by_cases hc : grow = true ∧ s.lo + s.brk + round_up size dsize < 2 ^ 64
  · right
    rw [extend_heap_ok s size grow hc]
    have hpa : get_prev_alloc s.mem (s.lo + s.brk - 8) = pae := h.epi.2.2.2
    rw [hpa, extend_mem_eq _ _ _ _ hm h16 (by omega)]
    obtain ⟨hpc, ht⟩ := extend_precoal s bs fl pae h _ hm h16 hc.2
    obtain ⟨bs1, fl1, bx, pae2, hv, hbx, hbf, hres, hkeep, h1, h2, hlo, hbrk⟩ :=
      coalesce_block_valid _ bs _ _ [] fl pae false hpc ht
    have hins := Valid_insert _ bs1 fl1 pae2 bx hv hbx hbf
    dsimp only
    rw [hres]
    exact ⟨bs1, _, pae2, bx, hins, hbx, hbf, rfl, by omega, fun b hb hba => hkeep b (Or.inl hb) hba,
      by rw [insert_lo, hlo], by rw [insert_brk, hbrk]⟩
  · left
    exact extend_heap_fail s size grow hc

/-! ## `split_block` -/

theorem wsub_small (a b : Nat) (h : b ≤ a) (hlt : a < 2 ^ 64) : wsub a b = a - b := by
  unfold wsub; omega

theorem beq_decide (a b : Nat) : (a == b) = decide (a = b) := by
  by_cases h : a = b <;> simp [h]

theorem split_block_none (m : Mem) (xa asize : Nat) (hsz : get_size m xa = asize)
    (hlt : asize < 2 ^ 64) : split_block m xa asize = (m, 0) := by
  unfold split_block min_block_size dsize wsize
  dsimp only
  rw [hsz, wsub_small _ _ (le_refl _) hlt, if_neg (by omega)]

theorem split_block_eq (m : Mem) (xa asize bsz : Nat) (hsz : get_size m xa = bsz)
    (h1 : asize + 16 ≤ bsz) (hlt : bsz < 2 ^ 64) (h16 : 16 ≤ asize) (hm : asize % 16 = 0) :
    split_block m xa asize =
      (write_block (write_block m xa asize true (get_prev_alloc m xa) (decide (asize = 16)))
        (xa + asize) (bsz - asize) false true (decide (bsz - asize = 16)), xa + asize) := by
  have t := (write_block_any m xa asize true (get_prev_alloc m xa) h16 hm (by omega)).1
  unfold split_block min_block_size dsize wsize
  dsimp only
  rw [hsz, wsub_small _ _ (by omega) hlt, if_pos (by omega), beq_decide, beq_decide,
    Tags_find_next _ _ _ _ _ t]

theorem Valid_split (s : Heap) (l1 l2 : List Blk) (xa bsz asize : Nat) (fl : Nat → List Nat)
    (pae : Bool) (h : Valid s (l1 ++ ⟨xa, bsz, true⟩ :: l2) fl 0 pae)
    (hnext : ∀ n l3, l2 = n :: l3 → n.alloc = true)
    (h1 : asize + 16 ≤ bsz) (h16 : 16 ≤ asize) (hm : asize % 16 = 0) :
    ∃ pae1, Valid { s with mem := (split_block s.mem xa asize).1 }
      (l1 ++ ⟨xa, asize, true⟩ :: ⟨xa + asize, bsz - asize, false⟩ :: l2) fl (xa + asize) pae1 ∧
      (split_block s.mem xa asize).2 = xa + asize := by
  obtain ⟨pax, hs1, hhx, _, hs2⟩ := Seg_cons_split _ _ _ _ _ _ _ _ h.seg
  have hxin : (⟨xa, bsz, true⟩ : Blk) ∈ l1 ++ (⟨xa, bsz, true⟩ : Blk) :: l2 := by simp
  obtain ⟨htm, hts, hta, hlo, hhi, hb16, hbm, hal8⟩ := Valid_block_tags _ _ _ _ _ h _ hxin
  dsimp only at hs1 hhx hs2 htm hts hta hlo hhi hb16 hbm hal8
  have hpa : get_prev_alloc s.mem xa = pax := hhx.2.2.2.1
  have hepi := Valid_epi_tags _ _ _ _ _ h
  have htop := h.top
  have he : s.lo + s.brk - 8 < 2 ^ 64 := by omega
  rw [split_block_eq s.mem xa asize bsz hts h1 (by omega) h16 hm, hpa]
  obtain ⟨t1, f1⟩ := write_block_any s.mem xa asize true pax h16 hm (by omega)
  generalize hm1 : write_block s.mem xa asize true pax (decide (asize = 16)) = m1 at *
  have hfr : ∀ w, w < xa ∨ xa + bsz ≤ w → m1 w = s.mem w := fun w hw =>
    f1 w (by omega) (by omega) (by omega) (by omega)
  have hs1a : Seg m1 (s.lo + 8) true l1 xa pax := by
    refine Seg_frame _ _ _ _ _ _ _ hs1 (fun b hb => ?_)
    have := Seg_mem_range _ _ _ _ _ _ hs1 b hb
    exact ⟨hfr _ (by omega), fun _ => hfr _ (by omega)⟩
  have hs2a : Seg m1 (xa + asize + (bsz - asize)) true l2 (s.lo + s.brk - 8) pae := by
    have e1 : xa + asize + (bsz - asize) = xa + bsz := by omega
    rw [e1]
    refine Seg_frame _ _ _ _ _ _ _ hs2 (fun b hb => ?_)
    have := Seg_mem_range _ _ _ _ _ _ hs2 b hb
    exact ⟨hfr _ (by omega), fun _ => hfr _ (by omega)⟩
  have hle2 := Seg_le _ _ _ _ _ _ hs2
  have hepi1 : Tags m1 (s.lo + s.brk - 8) 0 true pae :=
    Tags_frame _ _ _ _ _ _ (hfr _ (by omega)) hepi
  have hpre : Seg m1 (s.lo + 8) true (l1 ++ [⟨xa, asize, true⟩]) (xa + asize) true :=
    Seg_cons_join m1 l1 [] ⟨xa, asize, true⟩ _ _ _ _ pax hs1a ⟨h16, t1⟩
      (fun hc => absurd hc (by simp)) ⟨rfl, rfl⟩
  have hsplit : ∀ b, b ∈ l1 ++ (⟨xa, bsz, true⟩ : Blk) :: l2 → b.alloc = false → b ∈ l1 ∨ b ∈ l2 := by
    intro b hb hbf
    rcases List.mem_append.1 hb with hb | hb
    · exact Or.inl hb
    · rcases List.mem_cons.1 hb with hb | hb
      · rw [hb] at hbf; simp at hbf
      · exact Or.inr hb
  have hfl : ∀ i, i < 15 → ∀ y, y ∈ fl i →
      ∃ b, (b ∈ l1 ∨ b ∈ l2) ∧ b.addr = y ∧ b.alloc = false ∧ find_bucket b.size = i := by
    intro i hi y hy
    obtain ⟨⟨b, hb1, hb2, hb3, hb4⟩, _⟩ := (h.mem_fl i hi y).1 hy
    exact ⟨b, hsplit b hb1 hb3, hb2, hb3, hb4⟩
  have hrange : ∀ b, b ∈ l1 ∨ b ∈ l2 → 16 ≤ b.size ∧ (b.addr + b.size ≤ xa ∨ xa + bsz ≤ b.addr) := by
    intro b hb
    rcases hb with hb | hb
    · have := Seg_mem_range _ _ _ _ _ _ hs1 b hb; omega
    · have := Seg_mem_range _ _ _ _ _ _ hs2 b hb; omega
  have hl1 : ∀ i, i < 15 → FList m1 i (s.seglist i) (fl i) := by
    intro i hi
    refine FList_frame _ _ _ _ _ (h.lists i hi) (fun hi0 y hy => ?_) (fun hi0 y hy => ?_)
    · obtain ⟨b, hb1, hb2, _, hb4⟩ := hfl i hi y hy
      have := hrange b hb1
      unfold mini_get_header mini_get_next
      rw [hfr _ (by omega), hfr _ (by omega)]
      exact ⟨rfl, rfl⟩
    · obtain ⟨b, hb1, hb2, _, hb4⟩ := hfl i hi y hy
      have := hrange b hb1
      have h32 : 16 < b.size := by
        by_contra hc
        exact hi0 (by rw [← hb4]; exact (find_bucket_zero _).2 (by omega))
      have hbm := Seg_mem_range _ _ _ _ _ _ h.seg b (by
        rcases hb1 with hb | hb
        · exact List.mem_append_left _ hb
        · exact List.mem_append_right _ (List.mem_cons_of_mem _ hb))
      exact ⟨hfr _ (by omega), hfr _ (by omega)⟩
  obtain ⟨w1, w2, ⟨pae1, w3, w4, _, _⟩, w5⟩ := write_block_seg m1 (s.lo + 8) true
    (l1 ++ [⟨xa, asize, true⟩]) l2 (xa + asize) (bsz - asize) true true _ pae false true hpre hs2a
    hepi1 (by omega) (by omega) he
  have hpro : write_block m1 (xa + asize) (bsz - asize) false true (decide (bsz - asize = 16)) s.lo
      = s.mem s.lo := by
    rw [(write_block_any m1 (xa + asize) (bsz - asize) false true (by omega) (by omega)
      (by omega)).2 s.lo (by omega) (by omega) (by omega) (by omega)]
    exact hfr _ (by omega)
  have elist : l1 ++ (⟨xa, asize, true⟩ : Blk) :: ⟨xa + asize, bsz - asize, false⟩ :: l2 =
      (l1 ++ [⟨xa, asize, true⟩]) ++ ⟨xa + asize, bsz - asize, false⟩ :: l2 := by simp
  have hna := (NoAdj_mid _ _ _).1 h.noadj
  refine ⟨pae1, ⟨h.lo_pos, h.lo_al, h.hs, h.brk16, h.top, ?_, ?_, ?_, ?_, ?_, ?_, h.nodup⟩, rfl⟩
  · dsimp only
    unfold get_alloc; rw [hpro]; exact h.pro
  · rw [elist]
    exact Seg_cons_join _ _ l2 ⟨xa + asize, bsz - asize, false⟩ _ _ _ _ true w1
      ⟨by show 16 ≤ bsz - asize; omega, w2⟩ (w5 rfl (fun n l3 e => Or.inl (hnext n l3 e))) w3
  · exact ⟨w4.2.1, w4.2.2.2.2, by have := w4.2.2.2.1; simpa using this, w4.2.2.1⟩
  · rw [elist, NoAdj_mid]
    refine ⟨(NoAdj_mid l1 [] _).2 ⟨hna.1, List.chain'_nil, fun p _ => Or.inr rfl,
      fun n hn => by simp at hn⟩, hna.2.1, fun p hp => Or.inl ?_, fun n hn => Or.inr ?_⟩
    · have hp1 : (⟨xa, asize, true⟩ : Blk) = p := by simpa using hp
      rw [← hp1]
    · obtain ⟨l3, e⟩ := head_eq_cons _ _ hn
      exact hnext n l3 e
  · intro i hi
    refine write_block_flist m1 (s.lo + 8) true (l1 ++ [⟨xa, asize, true⟩]) l2 (xa + asize)
      (bsz - asize) true true _ pae false true hpre hs2a hepi1 (by omega) (by omega) he i _ _
      (hl1 i hi) (fun y hy => Or.inl ?_)
    obtain ⟨b, hb1, hb2, _, hb4⟩ := hfl i hi y hy
    refine ⟨b, ?_, hb2, hb4⟩
    rcases hb1 with hb | hb
    · exact Or.inl (List.mem_append_left _ hb)
    · exact Or.inr hb
  · intro i hi a
    constructor
    · intro ha
      obtain ⟨b, hb1, hb2, hb3, hb4⟩ := hfl i hi a ha
      have := hrange b hb1
      refine ⟨⟨b, ?_, hb2, hb3, hb4⟩, by omega⟩
      rcases hb1 with hb | hb
      · exact List.mem_append_left _ hb
      · exact List.mem_append_right _ (List.mem_cons_of_mem _ (List.mem_cons_of_mem _ hb))
    · rintro ⟨⟨b, hb1, hb2, hb3, hb4⟩, hne⟩
      have hbold : b ∈ l1 ++ (⟨xa, bsz, true⟩ : Blk) :: l2 := by
        rcases List.mem_append.1 hb1 with hb | hb
        · exact List.mem_append_left _ hb
        · rcases List.mem_cons.1 hb with hb | hb
          · rw [hb] at hb3; simp at hb3
          · rcases List.mem_cons.1 hb with hb | hb
            · rw [hb] at hb2; exact absurd hb2.symm hne
            · exact List.mem_append_right _ (List.mem_cons_of_mem _ hb)
      refine (h.mem_fl i hi a).2 ⟨⟨b, hbold, hb2, hb3, hb4⟩, ?_⟩
      have := Seg_mem_range _ _ _ _ _ _ h.seg b hbold
      omega

/-! ## `find_fit` -/

theorem Seg_length (m : Mem) (l : List Blk) (a : Nat) (pa : Bool) (a1 : Nat) (pa1 : Bool)
    (h : Seg m a pa l a1 pa1) : a + 16 * l.length ≤ a1 := by
  induction l generalizing a pa with
  | nil => simp only [Seg] at h; simp; omega
  | cons b l ih =>
    simp only [Seg] at h
    have := ih _ _ h.2.2.2
    have := h.2.1.1
    simp only [List.length_cons]
    omega

theorem Valid_fl_length (s : Heap) (bs : List Blk) (fl : Nat → List Nat) (x : Nat) (pae : Bool)
    (h : Valid s bs fl x pae) (i : Nat) (hi : i < 15) : (fl i).length < s.brk := by
  have h1 : fl i ⊆ bs.map Blk.addr := by
    intro y hy
    obtain ⟨b, hb1, hb2, _⟩ := Valid_index _ _ _ _ _ h i hi y hy
    exact List.mem_map.2 ⟨b, hb1, hb2⟩
  have h2 := ((h.nodup i hi).subperm h1).length_le
  rw [List.length_map] at h2
  have h3 := Seg_length _ _ _ _ _ _ h.seg
  have := h.brk16
  omega

theorem find_fit_scan_spec (m : Mem) (asize : Nat) (pv : Nat → Nat) (l : List Nat) :
    ∀ (fuel prev block best level : Nat), LL (get_next m) pv prev block l → l.length < fuel →
      ∃ r, find_fit_scan m asize fuel block best level = some r ∧
        (r = best ∨ (r ∈ l ∧ asize ≤ get_size m r)) := by
  induction l with
  | nil =>
    intro fuel prev block best level hl hf
    simp only [LL] at hl
    cases fuel with
    | zero => simp at hf
    | succ f =>
      unfold find_fit_scan
      rw [if_pos hl]
      exact ⟨best, rfl, Or.inl rfl⟩
  | cons x xs ih =>
    intro fuel prev block best level hl hf
    simp only [LL] at hl
    obtain ⟨e, hx0, _, hl1⟩ := hl
    cases fuel with
    | zero => simp at hf
    | succ f =>
      unfold find_fit_scan
      rw [if_neg (by rw [e]; exact hx0)]
      dsimp only
      have key : ∀ b lv, ∃ r, find_fit_scan m asize f (get_next m block) b lv = some r ∧
          (r = b ∨ (r ∈ x :: xs ∧ asize ≤ get_size m r)) := by
        intro b lv
        obtain ⟨r, hr1, hr2⟩ := ih f x (get_next m block) b lv (by rw [e]; exact hl1)
          (by simp at hf; omega)
        refine ⟨r, hr1, ?_⟩
        rcases hr2 with hr | hr
        · exact Or.inl hr
        · exact Or.inr ⟨List.mem_cons_of_mem _ hr.1, hr.2⟩
      have hblk : block ∈ x :: xs := by rw [e]; exact List.mem_cons_self _ _
      by_cases h1 : asize ≤ get_size m block
      · simp only [h1, decide_True, if_true]
        by_cases h2 : level - 1 = 0
        · rw [if_pos h2]
          split_ifs
          · exact ⟨_, rfl, Or.inr ⟨hblk, h1⟩⟩
          · exact ⟨_, rfl, Or.inl rfl⟩
        · rw [if_neg h2]
          split_ifs
          · obtain ⟨r, hr1, hr2⟩ := key block (level - 1)
            refine ⟨r, hr1, ?_⟩
            rcases hr2 with hr | hr
            · exact Or.inr ⟨by rw [hr]; exact hblk, by rw [hr]; exact h1⟩
            · exact Or.inr hr
          · exact key best (level - 1)
      · simp only [h1, decide_False, Bool.false_eq_true, if_false]
        split_ifs
        · exact ⟨_, rfl, Or.inl rfl⟩
        · exact key best level

theorem find_fit_buckets_spec (s : Heap) (bs : List Blk) (fl : Nat → List Nat) (x : Nat)
    (pae : Bool) (h : Valid s bs fl x pae) (asize fuel : Nat) (hf : s.brk ≤ fuel) :
    ∀ k bucket, (bucket = 0 → s.seglist 0 = 0) →
      ∃ r, find_fit_buckets s asize fuel k bucket = some r ∧
        (r = 0 ∨ ∃ i, i < 15 ∧ r ∈ fl i ∧ asize ≤ get_size s.mem r) := by
  intro k
  induction k with
  | zero => intro bucket _; exact ⟨0, rfl, Or.inl rfl⟩
  | succ k ih =>
    intro bucket hb0
    unfold find_fit_buckets BUCKET_NUM
    by_cases hb : bucket < 15
    · rw [if_pos hb]
      have hscan : ∃ r, find_fit_scan s.mem asize fuel (s.seglist bucket) 0 5 = some r ∧
          (r = 0 ∨ (r ∈ fl bucket ∧ asize ≤ get_size s.mem r)) := by
        have hL := h.lists bucket hb
        unfold FList at hL
        by_cases h0 : bucket = 0
        · have hfuel : ∃ f, fuel = f + 1 := ⟨fuel - 1, by have := h.brk16; omega⟩
          obtain ⟨f, ef⟩ := hfuel
          rw [ef, h0, hb0 h0]
          unfold find_fit_scan
          rw [if_pos rfl]
          exact ⟨0, rfl, Or.inl rfl⟩
        · rw [if_neg h0] at hL
          have := Valid_fl_length _ _ _ _ _ h bucket hb
          exact find_fit_scan_spec s.mem asize _ _ fuel 0 _ 0 5 hL (by omega)
      obtain ⟨r, hr1, hr2⟩ := hscan
      rw [hr1]
      dsimp only
      by_cases hr0 : r = 0
      · rw [if_pos hr0]
        exact ih (bucket + 1) (fun hc => by omega)
      · rw [if_neg hr0]
        refine ⟨r, rfl, ?_⟩
        rcases hr2 with hr | hr
        · exact Or.inl hr
        · exact Or.inr ⟨bucket, hb, hr⟩
    · rw [if_neg hb]
      exact ⟨0, rfl, Or.inl rfl⟩

theorem find_fit_spec (s : Heap) (bs : List Blk) (fl : Nat → List Nat) (pae : Bool)
    (h : Valid s bs fl 0 pae) (asize fuel : Nat) (hf : s.brk ≤ fuel) (h16 : 16 ≤ asize) :
    ∃ r, find_fit fuel s asize = some r ∧
      (r = 0 ∨ ∃ b, b ∈ bs ∧ b.addr = r ∧ b.alloc = false ∧ asize ≤ b.size) := by
  have hconv : ∀ r, (∃ i, i < 15 ∧ r ∈ fl i ∧ asize ≤ get_size s.mem r) →
      ∃ b, b ∈ bs ∧ b.addr = r ∧ b.alloc = false ∧ asize ≤ b.size := by
    rintro r ⟨i, hi, hr1, hr2⟩
    obtain ⟨⟨b, hb1, hb2, hb3, _⟩, _⟩ := (h.mem_fl i hi r).1 hr1
    have := (Valid_block_tags _ _ _ _ _ h b hb1).2.1
    rw [hb2] at this
    exact ⟨b, hb1, hb2, hb3, by omega⟩
  unfold find_fit min_block_size dsize wsize BUCKET_NUM
  by_cases hc : asize = 2 * 8 ∧ s.seglist 0 ≠ 0
  · rw [if_pos hc]
    refine ⟨_, rfl, Or.inr ?_⟩
    have hL := h.lists 0 (by norm_num)
    unfold FList at hL
    rw [if_pos rfl] at hL
    have hh := LL_head _ _ _ _ _ hL
    have hin : s.seglist 0 ∈ fl 0 := by
      rcases headD_mem_or (fl 0) with h1 | h1
      · rw [← hh] at h1; exact absurd h1 hc.2
      · rw [← hh] at h1; exact h1
    obtain ⟨⟨b, hb1, hb2, hb3, hb4⟩, _⟩ := (h.mem_fl 0 (by norm_num) _).1 hin
    have := (find_bucket_zero _).1 hb4
    have := (Valid_block_tags _ _ _ _ _ h b hb1).2.2.2.2.2.1
    exact ⟨b, hb1, hb2, hb3, by omega⟩
  · rw [if_neg hc]
    obtain ⟨r, hr1, hr2⟩ := find_fit_buckets_spec s bs fl 0 pae h asize fuel hf (15 + 1)
      (find_bucket asize) (fun h0 => by
        have := (find_bucket_zero _).1 h0
        by_contra hne
        exact hc ⟨by omega, hne⟩)
    refine ⟨r, hr1, ?_⟩
    rcases hr2 with hr | hr
    · exact Or.inl hr
    · exact Or.inr (hconv r hr)

/-! ## `malloc` -/

theorem place_valid (s : Heap) (bs : List Blk) (fl : Nat → List Nat) (pae : Bool)
    (h : Valid s bs fl 0 pae) (x : Blk) (hx : x ∈ bs) (hfree : x.alloc = false)
    (asize : Nat) (h16 : 16 ≤ asize) (hm : asize % 16 = 0) (hle : asize ≤ x.size) :
    ∃ bs1 fl1 pae1 b, Valid (place s x.addr asize) bs1 fl1 0 pae1 ∧ b ∈ bs1 ∧ b.alloc = true ∧
      b.addr = x.addr ∧ asize ≤ b.size ∧ (∀ c, c ∈ bs → c.alloc = true → c ∈ bs1) ∧
      (place s x.addr asize).lo = s.lo ∧ (place s x.addr asize).brk = s.brk := by
  obtain ⟨l1, l2, e⟩ := List.append_of_mem hx
  subst e
  obtain ⟨htm, hts, hta, hlo, hhi, hb16, hbm, hal8⟩ := Valid_block_tags _ _ _ _ _ h x hx
  obtain ⟨pae1, hv⟩ := Valid_alloc s l1 l2 x fl pae h hfree
  have hnext := NoAdj_next _ _ _ h.noadj hfree
  have htop := h.top
  have hlo2 : (delete { s with mem := write_block s.mem x.addr x.size true (get_prev_alloc s.mem x.addr) (get_mini s.mem x.addr) } x.addr).lo = s.lo := delete_lo _ _
  have hbrk2 : (delete { s with mem := write_block s.mem x.addr x.size true (get_prev_alloc s.mem x.addr) (get_mini s.mem x.addr) } x.addr).brk = s.brk := delete_brk _ _
  have hkeep : ∀ (y : Blk) (L : List Blk) (c : Blk), c ∈ l1 ++ x :: l2 → c.alloc = true →
      c ∈ l1 ++ y :: (L ++ l2) := by
    intro y L c hc hca
    rcases List.mem_append.1 hc with hc | hc
    · exact List.mem_append_left _ hc
    · rcases List.mem_cons.1 hc with hc | hc
      · rw [hc, hfree] at hca; simp at hca
      · exact List.mem_append_right _ (List.mem_cons_of_mem _ (List.mem_append_right _ hc))
  unfold place
  dsimp only
  rw [hts]
  generalize delete { s with mem := write_block s.mem x.addr x.size true (get_prev_alloc s.mem x.addr) (get_mini s.mem x.addr) } x.addr = s2 at hv hlo2 hbrk2 ⊢
  have hx2 : (⟨x.addr, x.size, true⟩ : Blk) ∈ l1 ++ (⟨x.addr, x.size, true⟩ : Blk) :: l2 := by simp
  have hts2 : get_size s2.mem x.addr = x.size := (Valid_block_tags _ _ _ _ _ hv _ hx2).2.1
  by_cases hgt : x.size > min_block_size
  · rw [if_pos hgt]
    by_cases heq : asize = x.size
    · rw [heq, split_block_none s2.mem x.addr x.size hts2 (by omega)]
      dsimp only
      rw [if_neg (by simp)]
      exact ⟨_, _, pae1, ⟨x.addr, x.size, true⟩, hv, hx2, rfl, rfl, le_refl _,
        fun c hc hca => hkeep _ [] c hc hca, hlo2, hbrk2⟩
    · have h1 : asize + 16 ≤ x.size := by omega
      obtain ⟨pae2, hv2, hr⟩ := Valid_split s2 l1 l2 x.addr x.size asize _ pae1 hv hnext h1 h16 hm
      have hsb := split_block_eq s2.mem x.addr asize x.size hts2 h1 (by omega) h16 hm
      rw [hsb] at hv2
      dsimp only at hv2
      have hins := Valid_insert _ _ _ pae2 ⟨x.addr + asize, x.size - asize, false⟩ hv2 (by simp) rfl
      rw [hsb]
      dsimp only
      rw [if_pos (by omega)]
      refine ⟨_, _, pae2, ⟨x.addr, asize, true⟩, hins, by simp, rfl, rfl, le_refl _,
        fun c hc hca => hkeep _ [_] c hc hca, by rw [insert_lo]; exact hlo2,
        by rw [insert_brk]; exact hbrk2⟩
  · rw [if_neg hgt]
    exact ⟨_, _, pae1, ⟨x.addr, x.size, true⟩, hv, hx2, rfl, rfl, hle,
      fun c hc hca => hkeep _ [] c hc hca, hlo2, hbrk2⟩

theorem round_up_eq (n : Nat) (h : n + 15 < 2 ^ 64) : round_up n dsize = 16 * ((n + 15) / 16) := by
  unfold round_up wmul wadd dsize wsize
  rw [Nat.mod_eq_of_lt (a := n + (2 * 8 - 1)) (by omega)]
  have : 2 * 8 * ((n + (2 * 8 - 1)) / (2 * 8)) < 2 ^ 64 := by omega
  rw [Nat.mod_eq_of_lt this]

theorem malloc_eq (fuel : Nat) (s : Heap) (size : Nat) (grow : Bool) (r : Nat)
    (h0 : s.heap_start ≠ 0) (hs : size ≠ 0) (asize : Nat)
    (ha : asize = (if round_up (wadd size wsize) dsize < min_block_size then min_block_size
      else round_up (wadd size wsize) dsize))
    (hr : find_fit fuel s asize = some r) :
    malloc fuel s size grow =
      if (if r = 0 then extend_heap s (max asize chunksize) grow else (s, r)).2 = 0 then
        some ((if r = 0 then extend_heap s (max asize chunksize) grow else (s, r)).1, 0)
      else
        some (place (if r = 0 then extend_heap s (max asize chunksize) grow else (s, r)).1
          (if r = 0 then extend_heap s (max asize chunksize) grow else (s, r)).2 asize,
          (if r = 0 then extend_heap s (max asize chunksize) grow else (s, r)).2 + 8) := by
  subst ha
  unfold malloc
  rw [if_neg h0]
  dsimp only
  rw [if_neg hs, hr]
  rfl

theorem malloc_valid (s : Heap) (bs : List Blk) (fl : Nat → List Nat) (pae : Bool)
    (h : Valid s bs fl 0 pae) (size fuel : Nat) (grow : Bool) (hsz : size < 2 ^ 63)
    (hf : s.brk ≤ fuel) :
    ∃ s1 p, malloc fuel s size grow = some (s1, p) ∧ ∃ bs1 fl1 pae1, Valid s1 bs1 fl1 0 pae1 ∧
      (∀ c, c ∈ bs → c.alloc = true → c ∈ bs1) ∧ s1.lo = s.lo ∧ s.brk ≤ s1.brk ∧
      (p = 0 ∨ ∃ b, b ∈ bs1 ∧ b.alloc = true ∧ p = b.addr + 8 ∧ size + 8 ≤ b.size ∧
        ∀ c, c ∈ bs → c.alloc = true → c.addr ≠ b.addr) := by
  have h0 : s.heap_start ≠ 0 := by rw [h.hs]; omega
  by_cases hs : size = 0
  · refine ⟨s, 0, ?_, bs, fl, pae, h, fun c hc _ => hc, rfl, le_refl _, Or.inl rfl⟩
    unfold malloc
    rw [if_neg h0]
    dsimp only
    rw [if_pos hs]
  · have hA : ∃ asize, asize = (if round_up (wadd size wsize) dsize < min_block_size then
        min_block_size else round_up (wadd size wsize) dsize) ∧ 16 ≤ asize ∧ asize % 16 = 0 ∧
        size + 8 ≤ asize ∧ asize < 2 ^ 63 + 32 := by
      refine ⟨_, rfl, ?_⟩
      have e1 : wadd size wsize = size + 8 := wadd_small _ _ (by unfold wsize; omega)
      rw [e1, round_up_eq _ (by omega)]
      unfold min_block_size dsize wsize
      split_ifs <;> omega
    obtain ⟨asize, ha, ha16, ham, hale, halt⟩ := hA
    obtain ⟨r, hr1, hr2⟩ := find_fit_spec s bs fl pae h asize fuel hf ha16
    rw [malloc_eq fuel s size grow r h0 hs asize ha hr1]
    by_cases hr0 : r = 0
    · rw [if_pos hr0]
      have hmax : ∃ M, max asize chunksize = M ∧ asize ≤ M ∧ 4096 ≤ M ∧ M < 2 ^ 63 + 32 := by
        refine ⟨_, rfl, ?_⟩
        unfold max chunksize
        split_ifs <;> omega
      obtain ⟨M, hM, hM1, hM2, hM3⟩ := hmax
      rw [hM]
      have hru := round_up_eq M (by omega)
      rcases extend_heap_valid s bs fl pae h M grow (by rw [hru]; omega) (by rw [hru]; omega)
        with hx | ⟨bs1, fl1, pae1, bx, hv, hbx, hbf, hres, hsize, hkeep, hlo, hbrk⟩
      · rw [hx]
        exact ⟨s, 0, by simp, bs, fl, pae, h, fun c hc _ => hc, rfl, le_refl _, Or.inl rfl⟩
      · have hbx0 : bx.addr ≠ 0 := by
          have := (Valid_block_tags _ _ _ _ _ hv bx hbx).2.2.2.1
          omega
        rw [hres, if_neg hbx0]
        obtain ⟨bs2, fl2, pae2, b, hv2, hb, hba, hbaddr, hbsz, hkeep2, hlo2, hbrk2⟩ :=
          place_valid _ bs1 fl1 pae1 hv bx hbx hbf asize ha16 ham (by rw [hru] at hsize; omega)
        refine ⟨_, _, rfl, bs2, fl2, pae2, hv2, fun c hc hca => hkeep2 c (hkeep c hc hca) hca,
          by rw [hlo2, hlo], by rw [hbrk2, hbrk]; omega, Or.inr ⟨b, hb, hba, by rw [hbaddr],
          by omega, fun c hc hca e => ?_⟩⟩
        have := Seg_addr_inj _ _ _ _ _ _ hv.seg c bx (hkeep c hc hca) hbx (by rw [e, hbaddr])
        rw [this, hbf] at hca
        simp at hca
    · rw [if_neg hr0]
      dsimp only
      rw [if_neg hr0]
      rcases hr2 with hr | ⟨x, hx, hxa, hxf, hxs⟩
      · exact absurd hr hr0
      · rw [← hxa]
        obtain ⟨bs2, fl2, pae2, b, hv2, hb, hba, hbaddr, hbsz, hkeep2, hlo2, hbrk2⟩ :=
          place_valid s bs fl pae h x hx hxf asize ha16 ham hxs
        refine ⟨_, _, rfl, bs2, fl2, pae2, hv2, hkeep2, hlo2, by rw [hbrk2],
          Or.inr ⟨b, hb, hba, by rw [hbaddr], by omega, fun c hc hca e => ?_⟩⟩
        have := Seg_addr_inj _ _ _ _ _ _ h.seg c x hc hx (by rw [e, hbaddr])
        rw [this, hxf] at hca
        simp at hca

/-! ## Stores into the payload of an allocated block -/

theorem set_byte_frame (m : Mem) (a v w : Nat) (h : w ≠ a / 8 * 8) : set_byte m a v w = m w := by
  unfold set_byte
  exact wr_other _ _ _ _ h

theorem memcpy_frame (m : Mem) (dst src n w : Nat) (h : w + 8 ≤ dst ∨ dst + n ≤ w) :
    memcpy m dst src n w = m w := by
  induction n with
  | zero => rfl
  | succ n ih =>
    unfold memcpy
    dsimp only
    rw [set_byte_frame _ _ _ _ (by omega)]
    exact ih (by omega)

theorem memset_frame (m : Mem) (dst c n w : Nat) (h : w + 8 ≤ dst ∨ dst + n ≤ w) :
    memset m dst c n w = m w := by
  induction n with
  | zero => rfl
  | succ n ih =>
    unfold memset
    rw [set_byte_frame _ _ _ _ (by omega)]
    exact ih (by omega)

theorem Valid_frame_alloc (s : Heap) (bs : List Blk) (fl : Nat → List Nat) (pae : Bool)
    (h : Valid s bs fl 0 pae) (b : Blk) (hb : b ∈ bs) (hba : b.alloc = true) (m1 : Mem)
    (hfr : ∀ w, w ≤ b.addr ∨ b.addr + b.size ≤ w → m1 w = s.mem w) :
    Valid { s with mem := m1 } bs fl 0 pae := by
  have hbr := Seg_mem_range _ _ _ _ _ _ h.seg b hb
  have hb16 := h.brk16
  have hout : ∀ c, c ∈ bs → c ≠ b → c.addr + c.size ≤ b.addr ∨ b.addr + b.size ≤ c.addr := by
    intro c hc hne
    rcases Seg_pairwise _ _ _ _ _ _ h.seg c b hc hb with h1 | h1 | h1
    · exact absurd h1 hne
    · exact Or.inl h1
    · exact Or.inr h1
  refine ⟨h.lo_pos, h.lo_al, h.hs, h.brk16, h.top, ?_, ?_, ?_, h.noadj, ?_, h.mem_fl, h.nodup⟩
  · dsimp only
    unfold get_alloc
    rw [hfr _ (by omega)]
    exact h.pro
  · dsimp only
    refine Seg_frame _ _ _ _ _ _ _ h.seg (fun c hc => ?_)
    have hcr := Seg_mem_range _ _ _ _ _ _ h.seg c hc
    by_cases hcb : c = b
    · rw [hcb]
      exact ⟨hfr _ (by omega), fun hf => by rw [hba] at hf; simp at hf⟩
    · have := hout c hc hcb
      exact ⟨hfr _ (by omega), fun _ => hfr _ (by omega)⟩
  · dsimp only
    unfold get_alloc get_size get_mini get_prev_alloc
    rw [hfr _ (by omega)]
    exact h.epi
  · intro i hi
    dsimp only
    refine FList_frame _ _ _ _ _ (h.lists i hi) (fun hi0 y hy => ?_) (fun hi0 y hy => ?_)
    · obtain ⟨⟨c, hc1, hc2, hc3, hc4⟩, _⟩ := (h.mem_fl i hi y).1 hy
      have hcr := Seg_mem_range _ _ _ _ _ _ h.seg c hc1
      have := hout c hc1 (fun e => by rw [e, hba] at hc3; simp at hc3)
      unfold mini_get_header mini_get_next
      rw [hfr _ (by omega), hfr _ (by omega)]
      exact ⟨rfl, rfl⟩
    · obtain ⟨⟨c, hc1, hc2, hc3, hc4⟩, _⟩ := (h.mem_fl i hi y).1 hy
      have hcr := Seg_mem_range _ _ _ _ _ _ h.seg c hc1
      have := hout c hc1 (fun e => by rw [e, hba] at hc3; simp at hc3)
      have h32 : 16 < c.size := by
        by_contra hc
        exact hi0 (by rw [← hc4]; exact (find_bucket_zero _).2 (by omega))
      exact ⟨hfr _ (by omega), hfr _ (by omega)⟩

/-! ## The client invariant across the operations -/

theorem Inv_live_pos (bs : List Blk) (live : List Nat)
    (hlive : ∀ q, q ∈ live → ∃ b, b ∈ bs ∧ b.alloc = true ∧ q = b.addr + 8) : 0 ∉ live := by
  intro h0
  obtain ⟨b, _, _, hb⟩ := hlive 0 h0
  omega

theorem Inv_got (s1 : Heap) (bs bs1 : List Blk) (fl1 : Nat → List Nat) (pae1 : Bool)
    (live : List Nat) (p : Nat) (hv : Valid s1 bs1 fl1 0 pae1)
    (hkeep : ∀ c, c ∈ bs → c.alloc = true → c ∈ bs1) (hnd : live.Nodup)
    (hlive : ∀ q, q ∈ live → ∃ b, b ∈ bs ∧ b.alloc = true ∧ q = b.addr + 8)
    (hp : p = 0 ∨ ∃ b, b ∈ bs1 ∧ b.alloc = true ∧ p = b.addr + 8 ∧
      ∀ c, c ∈ bs → c.alloc = true → c.addr ≠ b.addr) :
    Inv ⟨s1, got live p⟩ := by
  have hold : ∀ q, q ∈ live → ∃ b, b ∈ bs1 ∧ b.alloc = true ∧ q = b.addr + 8 := by
    intro q hq
    obtain ⟨b, hb1, hb2, hb3⟩ := hlive q hq
    exact ⟨b, hkeep b hb1 hb2, hb2, hb3⟩
  unfold got
  by_cases h0 : p = 0
  · rw [if_pos h0]
    exact ⟨bs1, fl1, pae1, hv, hnd, hold⟩
  · rw [if_neg h0]
    rcases hp with hp | ⟨b, hb1, hb2, hb3, hb4⟩
    · exact absurd hp h0
    · refine ⟨bs1, fl1, pae1, hv, List.nodup_cons.2 ⟨fun hin => ?_, hnd⟩, fun q hq => ?_⟩
      · obtain ⟨c, hc1, hc2, hc3⟩ := hlive p hin
        exact hb4 c hc1 hc2 (by omega)
      · rcases List.mem_cons.1 hq with hq | hq
        · exact ⟨b, hb1, hb2, by rw [hq, hb3]⟩
        · exact hold q hq

theorem Inv_malloc (c : Client) (size : Nat) (grow : Bool) (h : Inv c) (hsz : size < 2 ^ 63) :
    ∃ c1, exec c (Op.malloc size grow) = some c1 ∧ Inv c1 := by
  obtain ⟨bs, fl, pae, hv, hnd, hlive⟩ := h
  obtain ⟨s1, p, e, bs1, fl1, pae1, hv1, hkeep, _, _, hp⟩ :=
    malloc_valid c.heap bs fl pae hv size c.heap.brk grow hsz (le_refl _)
  refine ⟨⟨s1, got c.live p⟩, ?_, ?_⟩
  · simp only [exec]; rw [e]
  · refine Inv_got s1 bs bs1 fl1 pae1 c.live p hv1 hkeep hnd hlive ?_
    rcases hp with hp | ⟨b, hb1, hb2, hb3, _, hb5⟩
    · exact Or.inl hp
    · exact Or.inr ⟨b, hb1, hb2, hb3, hb5⟩

theorem Inv_free (s : Heap) (live : List Nat) (ptr : Nat) (h : Inv ⟨s, live⟩)
    (hl : ptr = 0 ∨ ptr ∈ live) : Inv ⟨free s ptr, live.erase ptr⟩ := by
  obtain ⟨bs, fl, pae, hv, hnd, hlive⟩ := h
  dsimp only at hv hnd hlive
  by_cases h0 : ptr = 0
  · have e : free s ptr = s := by unfold free; rw [if_pos h0]
    rw [e]
    exact ⟨bs, fl, pae, hv, hnd.erase _, fun q hq => hlive q (List.mem_of_mem_erase hq)⟩
  · rcases hl with hl | hl
    · exact absurd hl h0
    · obtain ⟨x, hx1, hx2, hx3⟩ := hlive ptr hl
      obtain ⟨bs1, fl1, pae1, hv1, hkeep, _, _⟩ := free_valid s bs fl pae hv x hx1 hx2
      rw [hx3]
      refine ⟨bs1, fl1, pae1, hv1, hnd.erase _, fun q hq => ?_⟩
      rw [← hx3] at hq
      obtain ⟨hq1, hq2⟩ := (List.Nodup.mem_erase_iff hnd).1 hq
      obtain ⟨b, hb1, hb2, hb3⟩ := hlive q hq2
      exact ⟨b, hkeep b hb1 hb2 (fun e => hq1 (by rw [hb3, e, hx3])), hb2, hb3⟩

theorem get_payload_size_le (s : Heap) (bs : List Blk) (fl : Nat → List Nat) (x : Nat)
    (pae : Bool) (h : Valid s bs fl x pae) (b : Blk) (hb : b ∈ bs) :
    get_payload_size s.mem b.addr + 8 = b.size := by
  obtain ⟨htm, hts, _, _, hhi, h16, _, _⟩ := Valid_block_tags _ _ _ _ _ h b hb
  have := h.top
  unfold get_payload_size
  rw [htm, hts]
  by_cases hm : b.size = 16
  · simp [hm, wsize]
  · simp only [hm, decide_False, Bool.false_eq_true, if_false]
    rw [wsub_small _ _ (by unfold wsize; omega) (by omega)]
    unfold wsize; omega

theorem Inv_realloc (c : Client) (ptr size : Nat) (grow : Bool) (h : Inv c)
    (hl : ptr = 0 ∨ ptr ∈ c.live) (hsz : size < 2 ^ 63) :
    ∃ c1, exec c (Op.realloc ptr size grow) = some c1 ∧ Inv c1 := by
  by_cases hs0 : size = 0
  · refine ⟨⟨free c.heap ptr, c.live.erase ptr⟩, ?_, Inv_free c.heap c.live ptr h hl⟩
    simp only [exec]
    unfold realloc
    dsimp only
    rw [if_pos hs0]
    dsimp only
    rw [if_pos hs0]
  · obtain ⟨bs, fl, pae, hv, hnd, hlive⟩ := h
    obtain ⟨s1, p, e, bs1, fl1, pae1, hv1, hkeep, _, _, hp⟩ :=
      malloc_valid c.heap bs fl pae hv size c.heap.brk grow hsz (le_refl _)
    have h0 := Inv_live_pos bs c.live hlive
    by_cases hp0 : ptr = 0
    · refine ⟨⟨s1, got c.live p⟩, ?_, ?_⟩
      · simp only [exec]
        unfold realloc
        dsimp only
        rw [if_neg hs0, if_pos hp0, e]
        dsimp only
        rw [if_neg hs0, hp0, List.erase_of_not_mem h0]
        unfold got
        split_ifs <;> rfl
      · refine Inv_got s1 bs bs1 fl1 pae1 c.live p hv1 hkeep hnd hlive ?_
        rcases hp with hp | ⟨b, hb1, hb2, hb3, _, hb5⟩
        · exact Or.inl hp
        · exact Or.inr ⟨b, hb1, hb2, hb3, hb5⟩
    · rcases hl with hl | hl
      · exact absurd hl hp0
      · by_cases hq0 : p = 0
        · refine ⟨⟨s1, c.live⟩, ?_, Inv_got s1 bs bs1 fl1 pae1 c.live 0 hv1 hkeep hnd hlive
            (Or.inl rfl)⟩
          simp only [exec]
          unfold realloc
          dsimp only
          rw [if_neg hs0, if_neg hp0, e]
          dsimp only
          rw [if_pos hq0]
          dsimp only
          rw [if_neg hs0, if_pos rfl]
        · rcases hp with hp | ⟨b, hb1, hb2, hb3, hb4, hb5⟩
          · exact absurd hp hq0
          · obtain ⟨x, hx1, hx2, hx3⟩ := hlive ptr hl
            have hxb : x ≠ b := fun e1 => hb5 x hx1 hx2 (by rw [e1])
            have hcs : ∀ cs, (if size < cs then size else cs) ≤ size := by
              intro cs; split_ifs <;> omega
            have hv2 := Valid_frame_alloc s1 bs1 fl1 pae1 hv1 b hb1 hb2
              (memcpy s1.mem p ptr (if size < get_payload_size s1.mem (payload_to_header ptr)
                then size else get_payload_size s1.mem (payload_to_header ptr)))
              (fun w hw => memcpy_frame _ _ _ _ _ (by
                have := hcs (get_payload_size s1.mem (payload_to_header ptr)); omega))
            obtain ⟨bs3, fl3, pae3, hv3, hkeep3, _, _⟩ :=
              free_valid _ bs1 fl1 pae1 hv2 x (hkeep x hx1 hx2) hx2
            rw [← hx3] at hv3
            refine ⟨⟨free { s1 with mem := memcpy s1.mem p ptr (if size < get_payload_size s1.mem (payload_to_header ptr) then size else get_payload_size s1.mem (payload_to_header ptr)) } ptr, p :: c.live.erase ptr⟩, ?_, bs3, fl3, pae3, hv3, ?_, ?_⟩
            · simp only [exec]
              unfold realloc
              dsimp only
              rw [if_neg hs0, if_neg hp0, e]
              dsimp only
              rw [if_neg hq0]
              dsimp only
              rw [if_neg hs0, if_neg hq0]
            · refine List.nodup_cons.2 ⟨fun hin => ?_, hnd.erase _⟩
              obtain ⟨d, hd1, hd2, hd3⟩ := hlive p (List.mem_of_mem_erase hin)
              exact hb5 d hd1 hd2 (by omega)
            · intro q hq
              rcases List.mem_cons.1 hq with hq | hq
              · exact ⟨b, hkeep3 b hb1 hb2 (fun e1 => hxb e1.symm), hb2, by rw [hq, hb3]⟩
              · obtain ⟨hq1, hq2⟩ := (List.Nodup.mem_erase_iff hnd).1 hq
                obtain ⟨d, hd1, hd2, hd3⟩ := hlive q hq2
                exact ⟨d, hkeep3 d (hkeep d hd1 hd2) hd2 (fun e1 => hq1 (by rw [hd3, e1, hx3])),
                  hd2, hd3⟩

theorem Inv_calloc (c : Client) (elements size : Nat) (grow : Bool) (h : Inv c)
    (hsz : elements * size < 2 ^ 63) :
    ∃ c1, exec c (Op.calloc elements size grow) = some c1 ∧ Inv c1 := by
  by_cases he0 : elements = 0
  · refine ⟨c, ?_, h⟩
    simp only [exec]
    unfold calloc
    dsimp only
    rw [if_pos he0]
    unfold got
    dsimp only
    rw [if_pos rfl]
  · have hw : wmul elements size = elements * size := by
      unfold wmul; exact Nat.mod_eq_of_lt (by omega)
    have hdiv : ¬ (elements * size / elements ≠ size) := by
      rw [Nat.mul_div_cancel_left _ (by omega)]; simp
    obtain ⟨bs, fl, pae, hv, hnd, hlive⟩ := h
    obtain ⟨s1, p, e, bs1, fl1, pae1, hv1, hkeep, _, _, hp⟩ :=
      malloc_valid c.heap bs fl pae hv (elements * size) c.heap.brk grow hsz (le_refl _)
    by_cases hp0 : p = 0
    · refine ⟨⟨s1, got c.live 0⟩, ?_, Inv_got s1 bs bs1 fl1 pae1 c.live 0 hv1 hkeep hnd hlive
        (Or.inl rfl)⟩
      simp only [exec]
      unfold calloc
      dsimp only
      rw [if_neg he0, hw, if_neg hdiv, e]
      dsimp only
      rw [if_pos hp0]
    · rcases hp with hp | ⟨b, hb1, hb2, hb3, hb4, hb5⟩
      · exact absurd hp hp0
      · have hv2 := Valid_frame_alloc s1 bs1 fl1 pae1 hv1 b hb1 hb2
          (memset s1.mem p 0 (elements * size))
          (fun w hw => memset_frame _ _ _ _ _ (by omega))
        refine ⟨⟨{ s1 with mem := memset s1.mem p 0 (elements * size) }, got c.live p⟩, ?_,
          Inv_got _ bs bs1 fl1 pae1 c.live p hv2 hkeep hnd hlive
            (Or.inr ⟨b, hb1, hb2, hb3, hb5⟩)⟩
        simp only [exec]
        unfold calloc
        dsimp only
        rw [if_neg he0, hw, if_neg hdiv, e]
        dsimp only
        rw [if_neg hp0]

theorem Inv_store (c : Client) (addr byte : Nat) (h : Inv c)
    (hl : legal c (Op.store addr byte) = true) :
    ∃ c1, exec c (Op.store addr byte) = some c1 ∧ Inv c1 := by
  obtain ⟨bs, fl, pae, hv, hnd, hlive⟩ := h
  simp only [legal, Bool.and_eq_true, decide_eq_true_eq, List.any_eq_true] at hl
  obtain ⟨_, p, hp1, hp2, hp3⟩ := hl
  obtain ⟨b, hb1, hb2, hb3⟩ := hlive p hp1
  have hps := get_payload_size_le _ _ _ _ _ hv b hb1
  have hbr := Seg_mem_range _ _ _ _ _ _ hv.seg b hb1
  have hlo := hv.lo_al
  have e1 : payload_to_header p = b.addr := by unfold payload_to_header wsize; omega
  rw [e1] at hp3
  have hv2 := Valid_frame_alloc c.heap bs fl pae hv b hb1 hb2 (set_byte c.heap.mem addr byte)
    (fun w hw => set_byte_frame _ _ _ _ (by omega))
  exact ⟨⟨{ c.heap with mem := set_byte c.heap.mem addr byte }, c.live⟩, by simp only [exec],
    bs, fl, pae, hv2, hnd, hlive⟩

theorem exec_inv (c : Client) (op : Op) (h : Inv c) (hl : legal c op = true)
    (hr : op.request < 2 ^ 63) : ∃ c1, exec c op = some c1 ∧ Inv c1 := by
  cases op with
  | malloc size grow => exact Inv_malloc c size grow h hr
  | free ptr =>
    simp only [legal, decide_eq_true_eq] at hl
    exact ⟨⟨free c.heap ptr, c.live.erase ptr⟩, by simp only [exec],
      Inv_free c.heap c.live ptr h hl⟩
  | realloc ptr size grow =>
    simp only [legal, decide_eq_true_eq] at hl
    exact Inv_realloc c ptr size grow h hl hr
  | calloc elements size grow => exact Inv_calloc c elements size grow h hr
  | store addr byte => exact Inv_store c addr byte h hl

/-! ## `mm_init` -/

theorem mm_init_fail (s : Heap) (grow : Bool)
    (h : ¬(grow = true ∧ s.lo + s.brk + 2 * wsize < 2 ^ 64)) : mm_init s grow = (s, false) := by
  unfold mm_init mem_sbrk
  rw [if_neg h]

theorem mm_init_ok (s : Heap) (grow : Bool)
    (h : grow = true ∧ s.lo + s.brk + 2 * wsize < 2 ^ 64) :
    mm_init s grow =
      if (extend_heap ⟨wr (wr s.mem (s.lo + s.brk) (pack 0 true false)) (s.lo + s.brk + 8) (pack 0 true true), s.lo, s.brk + 2 * wsize, s.lo + s.brk + 8, fun i => if i < BUCKET_NUM then 0 else s.seglist i⟩ chunksize grow).2 = 0 then
        ((extend_heap ⟨wr (wr s.mem (s.lo + s.brk) (pack 0 true false)) (s.lo + s.brk + 8) (pack 0 true true), s.lo, s.brk + 2 * wsize, s.lo + s.brk + 8, fun i => if i < BUCKET_NUM then 0 else s.seglist i⟩ chunksize grow).1, false)
      else
        ((extend_heap ⟨wr (wr s.mem (s.lo + s.brk) (pack 0 true false)) (s.lo + s.brk + 8) (pack 0 true true), s.lo, s.brk + 2 * wsize, s.lo + s.brk + 8, fun i => if i < BUCKET_NUM then 0 else s.seglist i⟩ chunksize grow).1, true) := by
  unfold mm_init mem_sbrk
  rw [if_pos h]

theorem init_state_valid (s : Heap) (hlo : 0 < s.lo) (hal : s.lo % 16 = 0) (hbrk : s.brk = 0)
    (htop : s.lo + 16 < 2 ^ 64) :
    Valid ⟨wr (wr s.mem (s.lo + s.brk) (pack 0 true false)) (s.lo + s.brk + 8) (pack 0 true true), s.lo, s.brk + 2 * wsize, s.lo + s.brk + 8, fun i => if i < BUCKET_NUM then 0 else s.seglist i⟩
      [] (fun _ => []) 0 true := by
  rw [hbrk]
  have t1 : Tags (wr (wr s.mem (s.lo + 0) (pack 0 true false)) (s.lo + 0 + 8) (pack 0 true true))
      s.lo 0 true false :=
    Tags_pack _ _ _ _ _ (by norm_num) (by norm_num) (by norm_num)
      (by rw [wr_other _ _ _ _ (by omega)]; exact wr_same _ _ _)
  have t2 : Tags (wr (wr s.mem (s.lo + 0) (pack 0 true false)) (s.lo + 0 + 8) (pack 0 true true))
      (s.lo + 8) 0 true true :=
    Tags_pack _ _ _ _ _ (by norm_num) (by norm_num) (by norm_num) (wr_same _ _ _)
  have e1 : s.lo + (0 + 2 * wsize) - 8 = s.lo + 8 := by unfold wsize; omega
  refine ⟨hlo, hal, by dsimp only, by dsimp only; unfold wsize; omega,
    by dsimp only; unfold wsize; omega, ?_, ?_, ?_, List.chain'_nil, ?_, ?_,
    fun _ _ => List.nodup_nil⟩
  · dsimp only
    obtain ⟨_, h2, _, h4, h5⟩ := t1
    unfold get_size at h5
    rw [h4] at h5
    unfold get_mini at h4
    simp at h5
    exact ⟨h2, h5, by simpa using h4⟩
  · dsimp only
    simp only [Seg]
    exact ⟨e1, trivial⟩
  · dsimp only
    rw [e1]
    exact ⟨t2.2.1, t2.2.2.2.2, by have := t2.2.2.2.1; simpa using this, t2.2.2.1⟩
  · intro i hi
    dsimp only
    unfold FList BUCKET_NUM
    rw [if_pos hi]
    split_ifs <;> simp [LL]
  · intro i hi a
    simp

theorem mm_init_valid (s : Heap) (grow : Bool) (hlo : 0 < s.lo) (hal : s.lo % 16 = 0)
    (hbrk : s.brk = 0) (hok : (mm_init s grow).2 = true) :
    ∃ bs fl pae, Valid (mm_init s grow).1 bs fl 0 pae := by
  by_cases hc : grow = true ∧ s.lo + s.brk + 2 * wsize < 2 ^ 64
  · rw [mm_init_ok s grow hc] at hok ⊢
    have hv := init_state_valid s hlo hal hbrk (by
      have := hc.2; rw [hbrk] at this; unfold wsize at this; omega)
    have hru := round_up_eq chunksize (by unfold chunksize; norm_num)
    rcases extend_heap_valid _ _ _ _ hv chunksize grow
        (by rw [hru]; omega) (by rw [hru]; unfold chunksize; norm_num)
      with hx | ⟨bs1, fl1, pae1, bx, hv1, hbx, _, hres, _⟩
    · rw [hx] at hok
      simp at hok
    · have hbx0 : bx.addr ≠ 0 := by
        have := (Valid_block_tags _ _ _ _ _ hv1 bx hbx).2.2.2.1
        omega
      rw [hres, if_neg hbx0]
      exact ⟨bs1, _, pae1, hv1⟩
  · rw [mm_init_fail s grow hc] at hok
    simp at hok

/-! ## The heap checker accepts every valid heap -/

theorem checkheap_step (s : Heap) (bs : List Blk) (fl : Nat → List Nat) (pae : Bool)
    (h : Valid s bs fl 0 pae) (b : Blk) (hb : b ∈ bs) (hf : Ftr s.mem b)
    (hprev : get_prev_alloc s.mem b.addr = true ∨ b.alloc = true)
    (hnext : b.addr + b.size ≠ s.lo + s.brk - 8 →
      get_alloc s.mem (b.addr + b.size) = true ∨ b.alloc = true)
    (hpn : get_prev_alloc s.mem (b.addr + b.size) = b.alloc) (fuel count : Nat) :
    checkheap_blocks s (s.lo + s.brk - 8) (fuel + 1) b.addr count =
      checkheap_blocks s (s.lo + s.brk - 8) fuel (b.addr + b.size)
        (if b.alloc = false then count + 1 else count) := by
  obtain ⟨hm, hsz, hal, hlo, hhi, h16, hbm, hal8⟩ := Valid_block_tags _ _ _ _ _ h b hb
  have hbrk := h.brk16
  have hfn : find_next s.mem b.addr = b.addr + b.size := by
    unfold find_next
    rw [hm, hsz]
    by_cases h1 : b.size = 16
    · simp [h1, dsize, wsize]
    · simp [h1]
  have hft : header_to_footer s.mem b.addr = b.addr + b.size - 8 := by
    unfold header_to_footer wsize dsize wsize
    rw [hsz]; omega
  have c1 : b.size % dsize = 0 := by unfold dsize wsize; omega
  have c2 : ¬(b.addr < s.heap_start ∨ b.addr > mem_heap_hi s - 7 - min_block_size) := by
    rw [h.hs]; unfold mem_heap_hi min_block_size dsize wsize; omega
  have hfl : b.alloc = false → b.addr ∈ fl (find_bucket b.size) := fun hfree =>
    (h.mem_fl _ (find_bucket_lt _) _).2 ⟨⟨b, hb, rfl, hfree, rfl⟩, by omega⟩
  have n3 : ¬(((!b.alloc) = true ∧ (!decide (b.size = 16)) = true) ∧
      (b.alloc ≠ get_alloc s.mem (b.addr + b.size - 8) ∨
        b.size ≠ get_size s.mem (b.addr + b.size - 8))) := by
    rintro ⟨⟨ha, hmn⟩, hor⟩
    have hfree : b.alloc = false := by simpa using ha
    have hne : b.size ≠ 16 := by simpa using hmn
    obtain ⟨f1, f2⟩ := hf hfree
    obtain ⟨f3, f4⟩ := f2 hne
    have e1 : get_alloc s.mem (b.addr + b.size - 8) = false := f4
    have e2 : get_size s.mem (b.addr + b.size - 8) = b.size := by
      unfold get_size get_mini
      rw [f1, f3]; simp [hne]
    rw [e1, e2, hfree] at hor
    simp at hor
  have n4 : ¬((!b.alloc) = true ∧ (!get_prev_alloc s.mem b.addr) = true) := by
    rintro ⟨ha, hp⟩
    rcases hprev with h1 | h1
    · rw [h1] at hp; simp at hp
    · rw [h1] at ha; simp at ha
  have n5 : ¬((!b.alloc) = true ∧ b.addr + b.size ≠ 0 ∧ b.addr + b.size ≠ s.lo + s.brk - 8 ∧
      (!get_alloc s.mem (b.addr + b.size)) = true) := by
    rintro ⟨ha, _, hne, hn⟩
    rcases hnext hne with h1 | h1
    · rw [h1] at hn; simp at hn
    · rw [h1] at ha; simp at ha
  have n6 : ¬(((!b.alloc) = true ∧ (!decide (b.size = 16)) = true) ∧
      get_prev s.mem b.addr ≠ 0 ∧ get_next s.mem (get_prev s.mem b.addr) ≠ b.addr) := by
    rintro ⟨⟨ha, hmn⟩, hp0, hpne⟩
    have hfree : b.alloc = false := by simpa using ha
    have hne : b.size ≠ 16 := by simpa using hmn
    have hL := h.lists _ (find_bucket_lt b.size)
    unfold FList at hL
    rw [if_neg (fun e => hne (by have := (find_bucket_zero _).1 e; omega))] at hL
    rcases (LL_links _ _ _ _ _ hL _ (hfl hfree)).1 with h1 | h1
    · exact hp0 h1.2
    · exact hpne h1.2.2
  have n7 : ¬(((!b.alloc) = true ∧ (!decide (b.size = 16)) = true) ∧
      get_next s.mem b.addr ≠ 0 ∧ get_prev s.mem (get_next s.mem b.addr) ≠ b.addr) := by
    rintro ⟨⟨ha, hmn⟩, hp0, hpne⟩
    have hfree : b.alloc = false := by simpa using ha
    have hne : b.size ≠ 16 := by simpa using hmn
    have hL := h.lists _ (find_bucket_lt b.size)
    unfold FList at hL
    rw [if_neg (fun e => hne (by have := (find_bucket_zero _).1 e; omega))] at hL
    rcases (LL_links _ _ _ _ _ hL _ (hfl hfree)).2 with h1 | h1
    · exact hp0 h1
    · exact hpne h1.2
  have n8 : ¬(((!b.alloc) = true ∧ decide (b.size = 16) = true) ∧
      mini_get_next s.mem b.addr ≠ 0 ∧
        mini_get_header s.mem (mini_get_next s.mem b.addr) ≠ b.addr) := by
    rintro ⟨⟨ha, hmn⟩, hp0, hpne⟩
    have hfree : b.alloc = false := by simpa using ha
    have he : b.size = 16 := by simpa using hmn
    have hL := h.lists _ (find_bucket_lt b.size)
    unfold FList at hL
    rw [if_pos ((find_bucket_zero _).2 (by omega))] at hL
    rcases (LL_links _ _ _ _ _ hL _ (hfl hfree)).1 with h1 | h1
    · exact hp0 h1.2
    · exact hpne h1.2.2
  have n9 : ¬(((!b.alloc) = true ∧ decide (b.size = 16) = true) ∧
      mini_get_header s.mem b.addr ≠ 0 ∧
        mini_get_next s.mem (mini_get_header s.mem b.addr) ≠ b.addr) := by
    rintro ⟨⟨ha, hmn⟩, hp0, hpne⟩
    have hfree : b.alloc = false := by simpa using ha
    have he : b.size = 16 := by simpa using hmn
    have hL := h.lists _ (find_bucket_lt b.size)
    unfold FList at hL
    rw [if_pos ((find_bucket_zero _).2 (by omega))] at hL
    rcases (LL_links _ _ _ _ _ hL _ (hfl hfree)).2 with h1 | h1
    · exact hp0 h1
    · exact hpne h1.2
  conv_lhs => rw [checkheap_blocks]
  dsimp only
  rw [if_neg (by omega), if_neg (by rw [hsz, c1]; simp), if_neg c2]
  simp only [hm, hsz, hal, hfn, hft, hpn]
  rw [if_neg n3, if_neg n4, if_neg n5, if_neg n6, if_neg n7, if_neg n8, if_neg n9,
    if_neg (by simp)]
  cases b.alloc <;> simp

theorem checkheap_blocks_ok (s : Heap) (bs : List Blk) (fl : Nat → List Nat) (pae : Bool)
    (h : Valid s bs fl 0 pae) :
    ∀ (l2 : List Blk) (a : Nat) (pa : Bool) (fuel count : Nat),
      Seg s.mem a pa l2 (s.lo + s.brk - 8) pae → (∀ b, b ∈ l2 → b ∈ bs) → NoAdj l2 →
      (∀ b, b ∈ l2.head? → pa = true ∨ b.alloc = true) → l2.length < fuel →
      checkheap_blocks s (s.lo + s.brk - 8) fuel a count =
        some (some (count + (l2.filter (fun b => !b.alloc)).length)) := by
  intro l2
  induction l2 with
  | nil =>
    intro a pa fuel count hs _ _ _ hf
    simp only [Seg] at hs
    cases fuel with
    | zero => simp at hf
    | succ f =>
      rw [checkheap_blocks]
      dsimp only
      rw [if_pos hs.1.symm]
      simp
  | cons b l3 ih =>
    intro a pa fuel count hs hsub hna hhead hf
    simp only [Seg] at hs
    obtain ⟨hba, hhdr, hftr, hs3⟩ := hs
    cases fuel with
    | zero => simp at hf
    | succ f =>
      obtain ⟨nsize, nalloc, hnt, hn1, hn2⟩ :=
        Seg_head_tags _ _ _ _ _ _ hs3 (Valid_epi_tags _ _ _ _ _ h)
      have hpa : get_prev_alloc s.mem b.addr = pa := hhdr.2.2.2.1
      unfold NoAdj at hna
      rw [List.chain'_cons'] at hna
      rw [← hba] at hs3 hnt hn1 hn2
      have hstep := checkheap_step s bs fl pae h b (hsub b (List.mem_cons_self _ _)) hftr
        (by
          rcases hhead b (by simp) with h1 | h1
          · left; rw [hpa]; exact h1
          · right; exact h1)
        (fun hne => by
          cases l3 with
          | nil => exact absurd (hn1 rfl).2.2 hne
          | cons n l4 =>
            obtain ⟨_, e2, _, _⟩ := hn2 n l4 rfl
            rcases hna.1 n (by simp) with h1 | h1
            · right; exact h1
            · left; rw [hnt.2.1, e2]; exact h1)
        hnt.2.2.1 f count
      rw [← hba, hstep, ih _ _ _ _ hs3 (fun c hc => hsub c (List.mem_cons_of_mem _ hc)) hna.2
        hna.1 (by simp at hf; omega)]
      cases hb : b.alloc <;> simp [List.filter, hb]
      omega

theorem checkheap_bucket_ok (m : Mem) (bucket : Nat) (pv : Nat → Nat) (l : List Nat) :
    ∀ (fuel prev tmp count : Nat), LL (get_next m) pv prev tmp l →
      (∀ y, y ∈ l → find_bucket (get_size m y) = bucket) → l.length < fuel →
      checkheap_bucket m bucket fuel tmp count = some (some (count + l.length)) := by
  induction l with
  | nil =>
    intro fuel prev tmp count hl _ hf
    simp only [LL] at hl
    cases fuel with
    | zero => simp at hf
    | succ f =>
      rw [checkheap_bucket, if_pos hl]
      simp
  | cons x xs ih =>
    intro fuel prev tmp count hl hb hf
    simp only [LL] at hl
    obtain ⟨e, hx0, _, hl1⟩ := hl
    cases fuel with
    | zero => simp at hf
    | succ f =>
      rw [checkheap_bucket, if_neg (by rw [e]; exact hx0),
        if_neg (by rw [e, hb x (List.mem_cons_self _ _)]; simp), e,
        ih f x _ _ hl1 (fun y hy => hb y (List.mem_cons_of_mem _ hy)) (by simp at hf; omega)]
      simp only [List.length_cons]
      congr 2
      omega

theorem checkheap_mini_ok (m : Mem) (pv : Nat → Nat) (l : List Nat) :
    ∀ (fuel prev tmp count : Nat), LL (mini_get_header m) pv prev tmp l → l.length < fuel →
      checkheap_mini m fuel tmp count = some (count + l.length) := by
  induction l with
  | nil =>
    intro fuel prev tmp count hl hf
    simp only [LL] at hl
    cases fuel with
    | zero => simp at hf
    | succ f =>
      rw [checkheap_mini, if_pos hl]
      simp
  | cons x xs ih =>
    intro fuel prev tmp count hl hf
    simp only [LL] at hl
    obtain ⟨e, hx0, _, hl1⟩ := hl
    cases fuel with
    | zero => simp at hf
    | succ f =>
      rw [checkheap_mini, if_neg (by rw [e]; exact hx0), e,
        ih f x _ _ hl1 (by simp at hf; omega)]
      simp only [List.length_cons]
      congr 1
      omega

theorem checkheap_buckets_ok (s : Heap) (bs : List Blk) (fl : Nat → List Nat) (pae : Bool)
    (h : Valid s bs fl 0 pae) (fuel : Nat) (hf : s.brk ≤ fuel) :
    ∀ (k bucket count : Nat), 0 < bucket →
      checkheap_buckets s fuel k bucket count = some (some (count + sum_len fl k bucket)) := by
  intro k
  induction k with
  | zero => intro bucket count _; simp [checkheap_buckets, sum_len]
  | succ k ih =>
    intro bucket count hb
    rw [checkheap_buckets, sum_len]
    by_cases hlt : bucket < BUCKET_NUM
    · rw [if_pos hlt, if_pos hlt]
      have hlt1 : bucket < 15 := hlt
      have hL := h.lists bucket hlt1
      unfold FList at hL
      rw [if_neg (by omega)] at hL
      have hlen := Valid_fl_length _ _ _ _ _ h bucket hlt1
      rw [checkheap_bucket_ok s.mem bucket _ _ fuel 0 _ count hL (fun y hy => by
        obtain ⟨⟨b, hb1, hb2, _, hb4⟩, _⟩ := (h.mem_fl bucket hlt1 y).1 hy
        have := (Valid_block_tags _ _ _ _ _ h b hb1).2.1
        rw [hb2] at this
        rw [this, hb4]) (by omega)]
      dsimp only
      rw [ih (bucket + 1) _ (by omega), Nat.add_assoc]
    · rw [if_neg hlt, if_neg hlt]
      simp

theorem Seg_nodup_addr (m : Mem) (l : List Blk) (a : Nat) (pa : Bool) (a1 : Nat) (pa1 : Bool)
    (h : Seg m a pa l a1 pa1) : (l.map Blk.addr).Nodup := by
  induction l generalizing a pa with
  | nil => simp
  | cons b l ih =>
    simp only [Seg] at h
    obtain ⟨hba, hhdr, _, hs⟩ := h
    rw [List.map_cons, List.nodup_cons]
    refine ⟨fun hin => ?_, ih _ _ hs⟩
    obtain ⟨c, hc1, hc2⟩ := List.mem_map.1 hin
    have := Seg_mem_range _ _ _ _ _ _ hs c hc1
    have := hhdr.1
    omega

theorem fl_length_eq (s : Heap) (bs : List Blk) (fl : Nat → List Nat) (pae : Bool)
    (h : Valid s bs fl 0 pae) (i : Nat) (hi : i < 15) :
    (fl i).length =
      (bs.filter (fun b => !b.alloc && decide (find_bucket b.size = i))).length := by
  have hnd : ((bs.filter (fun b => !b.alloc && decide (find_bucket b.size = i))).map
      Blk.addr).Nodup :=
    ((List.filter_sublist _).map _).nodup (Seg_nodup_addr _ _ _ _ _ _ h.seg)
  have hperm := (List.perm_ext_iff_of_nodup (h.nodup i hi) hnd).2 (fun a => by
    rw [h.mem_fl i hi a, List.mem_map]
    constructor
    · rintro ⟨⟨b, hb1, hb2, hb3, hb4⟩, _⟩
      exact ⟨b, List.mem_filter.2 ⟨hb1, by simp [hb3, hb4]⟩, hb2⟩
    · rintro ⟨b, hb1, hb2⟩
      obtain ⟨hb3, hb4⟩ := List.mem_filter.1 hb1
      simp only [Bool.and_eq_true, Bool.not_eq_true', decide_eq_true_eq] at hb4
      refine ⟨⟨b, hb3, hb2, hb4.1, hb4.2⟩, ?_⟩
      have := Seg_mem_range _ _ _ _ _ _ h.seg b hb3
      omega)
  rw [hperm.length_eq, List.length_map]

theorem count_split (L : List Blk) :
    (L.filter (fun b => !b.alloc)).length =
      (L.filter (fun b => !b.alloc && decide (find_bucket b.size = 1))).length +
      (L.filter (fun b => !b.alloc && decide (find_bucket b.size = 2))).length +
      (L.filter (fun b => !b.alloc && decide (find_bucket b.size = 3))).length +
      (L.filter (fun b => !b.alloc && decide (find_bucket b.size = 4))).length +
      (L.filter (fun b => !b.alloc && decide (find_bucket b.size = 5))).length +
      (L.filter (fun b => !b.alloc && decide (find_bucket b.size = 6))).length +
      (L.filter (fun b => !b.alloc && decide (find_bucket b.size = 7))).length +
      (L.filter (fun b => !b.alloc && decide (find_bucket b.size = 8))).length +
      (L.filter (fun b => !b.alloc && decide (find_bucket b.size = 9))).length +
      (L.filter (fun b => !b.alloc && decide (find_bucket b.size = 10))).length +
      (L.filter (fun b => !b.alloc && decide (find_bucket b.size = 11))).length +
      (L.filter (fun b => !b.alloc && decide (find_bucket b.size = 12))).length +
      (L.filter (fun b => !b.alloc && decide (find_bucket b.size = 13))).length +
      (L.filter (fun b => !b.alloc && decide (find_bucket b.size = 14))).length +
      (L.filter (fun b => !b.alloc && decide (find_bucket b.size = 0))).length := by
  induction L with
  | nil => simp
  | cons b L ih =>
    simp only [List.filter_cons]
    cases hb : b.alloc
    · have hk := find_bucket_lt b.size
      generalize find_bucket b.size = k at hk
      interval_cases k <;> simp <;> omega
    · simp
      exact ih

theorem sum_len_eq (fl : Nat → List Nat) :
    sum_len fl 15 1 = (fl 1).length + (fl 2).length + (fl 3).length + (fl 4).length +
      (fl 5).length + (fl 6).length + (fl 7).length + (fl 8).length + (fl 9).length +
      (fl 10).length + (fl 11).length + (fl 12).length + (fl 13).length + (fl 14).length := by
  simp [sum_len, BUCKET_NUM]
  omega

theorem mm_checkheap_ok (s : Heap) (bs : List Blk) (fl : Nat → List Nat) (pae : Bool)
    (h : Valid s bs fl 0 pae) : mm_checkheap s.brk s = some true := by
  have hb := h.brk16
  have hlen := Seg_length _ _ _ _ _ _ h.seg
  have e1 : mem_heap_hi s - 7 = s.lo + s.brk - 8 := by unfold mem_heap_hi; omega
  have e2 : s.heap_start - wsize = s.lo := by rw [h.hs]; unfold wsize; omega
  have hpsz : get_size s.mem s.lo = 0 := by
    unfold get_size get_mini
    rw [h.pro.2.2, h.pro.2.1]; simp
  have hL0 := h.lists 0 (by norm_num)
  unfold FList at hL0
  rw [if_pos rfl] at hL0
  have hcount : (bs.filter (fun b => !b.alloc)).length = sum_len fl 15 1 + (fl 0).length := by
    rw [sum_len_eq, count_split,
      fl_length_eq s bs fl pae h 0 (by norm_num), fl_length_eq s bs fl pae h 1 (by norm_num),
      fl_length_eq s bs fl pae h 2 (by norm_num), fl_length_eq s bs fl pae h 3 (by norm_num),
      fl_length_eq s bs fl pae h 4 (by norm_num), fl_length_eq s bs fl pae h 5 (by norm_num),
      fl_length_eq s bs fl pae h 6 (by norm_num), fl_length_eq s bs fl pae h 7 (by norm_num),
      fl_length_eq s bs fl pae h 8 (by norm_num), fl_length_eq s bs fl pae h 9 (by norm_num),
      fl_length_eq s bs fl pae h 10 (by norm_num), fl_length_eq s bs fl pae h 11 (by norm_num),
      fl_length_eq s bs fl pae h 12 (by norm_num), fl_length_eq s bs fl pae h 13 (by norm_num),
      fl_length_eq s bs fl pae h 14 (by norm_num)]
  unfold mm_checkheap
  dsimp only
  rw [e1, e2, if_neg (by rw [h.pro.1, hpsz]; simp), if_neg (by rw [h.epi.1, h.epi.2.1]; simp),
    h.hs, checkheap_blocks_ok s bs fl pae h bs _ true s.brk 0 h.seg (fun b hb1 => hb1) h.noadj
      (fun b _ => Or.inl rfl) (by omega)]
  dsimp only
  unfold BUCKET_NUM
  rw [checkheap_buckets_ok s bs fl pae h s.brk (le_refl _) 15 1 0 (by norm_num)]
  dsimp only
  rw [checkheap_mini_ok s.mem _ (fl 0) s.brk 0 _ _ hL0
    (Valid_fl_length _ _ _ _ _ h 0 (by norm_num))]
  dsimp only
  rw [Nat.zero_add, Nat.zero_add, hcount, if_neg (by simp)]

/-! ## Sequences of calls -/

theorem run_inv (ops : List Op) :
    ∀ (c : Client), Inv c → respects c ops = true → (∀ op, op ∈ ops → op.request ≤ 16384) →
      ∃ c1, run c ops = some c1 ∧ Inv c1 := by
  induction ops with
  | nil => intro c h _ _; exact ⟨c, rfl, h⟩
  | cons op ops ih =>
    intro c h hresp hsize
    simp only [respects, Bool.and_eq_true] at hresp
    obtain ⟨hl, hrest⟩ := hresp
    obtain ⟨c1, e, h1⟩ := exec_inv c op h hl (by
      have := hsize op (List.mem_cons_self _ _); omega)
    rw [e] at hrest
    obtain ⟨c2, e2, h2⟩ := ih c1 h1 hrest (fun o ho => hsize o (List.mem_cons_of_mem _ ho))
    refine ⟨c2, ?_, h2⟩
    simp only [run]
    rw [if_pos hl, e]
    exact e2

theorem respects_take (ops : List Op) :
    ∀ (c : Client) (k : Nat), respects c ops = true → respects c (ops.take k) = true := by
  induction ops with
  | nil => intro c k h; simpa using h
  | cons op ops ih =>
    intro c k h
    cases k with
    | zero => rfl
    | succ k =>
      simp only [respects, Bool.and_eq_true, List.take_succ_cons] at h ⊢
      refine ⟨h.1, ?_⟩
      cases he : exec c op with
      | none => rfl
      | some c1 =>
        rw [he] at h
        exact ih c1 k h.2

theorem fresh_inv (m : Mem) (lo : Nat) (hlo : 0 < lo) (hal : lo % 16 = 0)
    (hinit : (mm_init (empty_heap m lo) true).2 = true) : Inv (fresh m lo) := by
  obtain ⟨bs, fl, pae, hv⟩ := mm_init_valid (empty_heap m lo) true hlo hal rfl hinit
  exact ⟨bs, fl, pae, hv, List.nodup_nil, fun p hp => by simp [fresh] at hp⟩

/-- C1: the heap starts at a non-null, 16-byte aligned address and `mm_init` succeeds.
Then for every sequence of `malloc`, `free`, `realloc` (and `calloc`) calls and stores
into payloads the client holds, in which each action meets the documented
preconditions and asks for at most `4 * chunksize = 16384` bytes, and whatever the
heap growth primitive answers at each call: after every prefix of the sequence the
run has finished and `mm_checkheap` returns `true`. -/
theorem checkheap_after_every_call (m : Mem) (lo : Nat) (ops : List Op) (k : Nat)
    (hlo : 0 < lo) (hal : lo % 16 = 0) (hinit : (mm_init (empty_heap m lo) true).2 = true)
    (hresp : respects (fresh m lo) ops = true)
    (hsize : ∀ op, op ∈ ops → op.request ≤ 4 * chunksize) :
    ∃ c, run (fresh m lo) (ops.take k) = some c ∧
      mm_checkheap c.heap.brk c.heap = some true := by
  obtain ⟨c, e, bs, fl, pae, hv, _⟩ := run_inv (ops.take k) (fresh m lo)
    (fresh_inv m lo hlo hal hinit) (respects_take ops _ k hresp)
    (fun op hop => by
      have := hsize op (List.mem_of_mem_take hop)
      unfold chunksize at this
      omega)
  exact ⟨c, e, mm_checkheap_ok _ bs fl pae hv⟩

set_option maxRecDepth 100000 in
theorem checkheap_after_every_call_witness :
    (0 < 4096 ∧ 4096 % 16 = 0 ∧ (mm_init (empty_heap zero_mem 4096) true).2 = true ∧
      respects (fresh zero_mem 4096)
        [Op.malloc 24 true, Op.realloc 4112 5000 true, Op.malloc 16384 false, Op.free 0] = true) ∧
    ∃ c, run (fresh zero_mem 4096)
        (List.take 4 [Op.malloc 24 true, Op.realloc 4112 5000 true, Op.malloc 16384 false,
          Op.free 0]) = some c ∧
      mm_checkheap c.heap.brk c.heap = some true :=
  have h3 : (mm_init (empty_heap zero_mem 4096) true).2 = true := by decide!
  have h4 : respects (fresh zero_mem 4096)
      [Op.malloc 24 true, Op.realloc 4112 5000 true, Op.malloc 16384 false, Op.free 0] = true := by
    decide!
  ⟨⟨by decide, by decide, h3, h4⟩,
    checkheap_after_every_call zero_mem 4096 _ 4 (by decide) (by decide) h3 h4 (by
      intro op hop
      simp only [List.mem_cons, List.mem_singleton, List.not_mem_nil, or_false] at hop
      rcases hop with rfl | rfl | rfl | rfl <;> simp [Op.request, chunksize])⟩

/-! ## Requests that overflow `size + wsize`

`malloc` adds the header size to the request without a check (`calloc` does check its
product).  For a request of `2 ^ 64 - 23` bytes or more the adjusted size wraps around
to a small block, and `realloc` then copies the old payload over the end of it. -/

theorem run_map_some {α : Type} {c0 : Client} {ops : List Op} {f : Client → α} {v : α}
    (h : (run c0 ops).map f = some v) : ∃ c, run c0 ops = some c ∧ f c = v := by
  cases hr : run c0 ops with
  | none => rw [hr] at h; simp at h
  | some c => rw [hr] at h; exact ⟨c, rfl, by simpa using h⟩

set_option maxRecDepth 100000 in
/-- C2, evaluated at a failing input.  The client holds three blocks, releases the first,
stores one byte into the second and resizes the second to `2 ^ 64 - 8` bytes; `realloc`
copies 24 bytes into the 8 byte payload it got, over the header of the resized block,
which is then released with the size stored by the client.  The next `malloc 40` hands
out the payload `4128 .. 4168`, which overlaps the payload `4160 .. 4184` that the
client still holds. -/
theorem realloc_overflow_payloads_overlap :
    ∃ c, run (fresh zero_mem 4096)
        [Op.malloc 8 true, Op.malloc 24 true, Op.malloc 24 true, Op.free 4112,
         Op.store 4136 0x43, Op.realloc 4128 (2 ^ 64 - 8) true, Op.malloc 40 true] = some c ∧
      ¬ payloads_disjoint c := by
  have h : (run (fresh zero_mem 4096)
      [Op.malloc 8 true, Op.malloc 24 true, Op.malloc 24 true, Op.free 4112,
       Op.store 4136 0x43, Op.realloc 4128 (2 ^ 64 - 8) true, Op.malloc 40 true]).map
      (fun c => (c.live, payload_end c.heap 4128, payload_end c.heap 4160)) =
      some ([4128, 4112, 4160], 4168, 4184) := by decide!
  obtain ⟨c, hc, hv⟩ := run_map_some h
  refine ⟨c, hc, fun hP => ?_⟩
  simp only [Prod.mk.injEq] at hv
  obtain ⟨hl, h1, h2⟩ := hv
  have := hP.2 4128 4160 (by simp [hl]) (by simp [hl]) (by decide)
  omega

set_option maxRecDepth 100000 in
/-- C3, evaluated at a failing input.  On a fresh heap `malloc (2 ^ 64 - 1)` returns the
non-null pointer `4112` to a mini block, whose payload has 8 bytes. -/
theorem malloc_overflow_small_payload :
    ∃ h p, malloc 4112 (fresh zero_mem 4096).heap (2 ^ 64 - 1) true = some (h, p) ∧ p ≠ 0 ∧
      get_payload_size h.mem (payload_to_header p) < 2 ^ 64 - 1 := by
  have h : (malloc 4112 (fresh zero_mem 4096).heap (2 ^ 64 - 1) true).map
      (fun r => (r.2, get_payload_size r.1.mem (payload_to_header r.2))) = some (4112, 8) := by
    decide!
  cases hm : malloc 4112 (fresh zero_mem 4096).heap (2 ^ 64 - 1) true with
  | none => rw [hm] at h; simp at h
  | some r =>
    rw [hm] at h
    simp only [Option.map_some', Option.some.injEq, Prod.mk.injEq] at h
    refine ⟨r.1, r.2, rfl, ?_, ?_⟩
    · rw [h.1]; decide
    · rw [h.2]; decide

set_option maxRecDepth 100000 in
/-- C4, evaluated at a failing input.  The heap base `4096` is a multiple of 16.  The
client holds a block of 88 and one of 24 bytes, stores six bytes into them and resizes
the second block to `2 ^ 64 - 8` bytes; the copy of `realloc` overwrites the header
and the `next` field of the free block behind the new block with the stored bytes.
The following `malloc 56` follows that `next` field and returns `4120`, which is not a
multiple of 16. -/
theorem realloc_overflow_misaligned :
    ∃ c h p, run (fresh zero_mem 4096)
        [Op.malloc 88 true, Op.malloc 24 true, Op.store 4216 0x32, Op.store 4224 0x10,
         Op.store 4225 0x10, Op.store 4112 0x42, Op.store 4128 0x98, Op.store 4129 0x10,
         Op.realloc 4208 (2 ^ 64 - 8) true] = some c ∧
      malloc c.heap.brk c.heap 56 true = some (h, p) ∧ p ≠ 0 ∧ p % 16 ≠ 0 := by
  have h : (run (fresh zero_mem 4096)
      [Op.malloc 88 true, Op.malloc 24 true, Op.store 4216 0x32, Op.store 4224 0x10,
       Op.store 4225 0x10, Op.store 4112 0x42, Op.store 4128 0x98, Op.store 4129 0x10,
       Op.realloc 4208 (2 ^ 64 - 8) true]).map
      (fun c => (malloc c.heap.brk c.heap 56 true).map (fun r => r.2)) = some (some 4120) := by
    decide!
  obtain ⟨c, hc, hv⟩ := run_map_some h
  cases hm : malloc c.heap.brk c.heap 56 true with
  | none => rw [hm] at hv; simp at hv
  | some r =>
    rw [hm] at hv
    simp only [Option.map_some', Option.some.injEq] at hv
    refine ⟨c, r.1, r.2, hc, hm, ?_, ?_⟩
    · rw [hv]; decide
    · rw [hv]; decide

set_option maxRecDepth 100000 in
/-- C5, evaluated at a failing input.  After `malloc 24` and a `realloc` of that block to
`2 ^ 64 - 8` bytes the third block of the heap (at `4152`) has the header `0`: it is free,
and `find_next` of it is the block itself, which is free. -/
theorem realloc_overflow_adjacent_free :
    ∃ c, run (fresh zero_mem 4096)
        [Op.malloc 24 true, Op.realloc 4112 (2 ^ 64 - 8) true] = some c ∧
      ¬ no_adjacent_free c.heap := by
  have h : (run (fresh zero_mem 4096)
      [Op.malloc 24 true, Op.realloc 4112 (2 ^ 64 - 8) true]).map
      (fun c => (block_at c.heap 0, block_at c.heap 1, block_at c.heap 2, epilogue c.heap,
         get_alloc c.heap.mem (block_at c.heap 2),
         get_alloc c.heap.mem (find_next c.heap.mem (block_at c.heap 2)))) =
      some (4104, 4136, 4152, 8200, false, false) := by decide!
  obtain ⟨c, hc, hv⟩ := run_map_some h
  refine ⟨c, hc, fun hP => ?_⟩
  simp only [Prod.mk.injEq] at hv
  obtain ⟨h0, h1, h2, he, ha, hn⟩ := hv
  have hb : before_epilogue c.heap 2 := by
    intro j hj
    interval_cases j <;> simp [h0, h1, h2, he]
  have := hP 2 hb ha
  rw [hn] at this
  exact Bool.noConfusion this

set_option maxRecDepth 100000 in
/-- C6, evaluated at a failing input.  The client stores the word `0xFD3` (size 4048,
allocated) into its block before it resizes the block to `2 ^ 64 - 8` bytes; the copy of
`realloc` puts that word over the header of the free block at `4152`.  The block stays
in bucket 8 of the index, and the address-order walk finds it allocated. -/
theorem realloc_overflow_index_differs :
    ∃ c, run (fresh zero_mem 4096)
        [Op.malloc 24 true, Op.store 4120 0xD3, Op.store 4121 0x0F, Op.store 4128 0,
         Op.realloc 4112 (2 ^ 64 - 8) true] = some c ∧
      ¬ index_exact c.heap := by
  have h : (run (fresh zero_mem 4096)
      [Op.malloc 24 true, Op.store 4120 0xD3, Op.store 4121 0x0F, Op.store 4128 0,
       Op.realloc 4112 (2 ^ 64 - 8) true]).map
      (fun c => (heap_free_blocks c.heap c.heap.brk c.heap.heap_start,
         index_blocks c.heap c.heap.brk)) =
      some (some [4104], some [4104, 4152]) := by decide!
  obtain ⟨c, hc, hv⟩ := run_map_some h
  refine ⟨c, hc, fun hP => ?_⟩
  simp only [Prod.mk.injEq] at hv
  obtain ⟨l, r, hl, hr, _, hlr⟩ := hP
  rw [hv.1] at hl
  rw [hv.2] at hr
  cases hl
  cases hr
  have := (hlr 4152).2 (by simp)
  simp at this

set_option maxRecDepth 100000 in
/-- C7, evaluated at a failing input.  After `malloc 24` and a `realloc` of that block to
`2 ^ 64 - 8` bytes the block at `4152` has its `prev_alloc` bit clear, and the block
before it (the mini block at `4136` that `realloc` returned) is allocated. -/
theorem realloc_overflow_prev_alloc_wrong :
    ∃ c, run (fresh zero_mem 4096)
        [Op.malloc 24 true, Op.realloc 4112 (2 ^ 64 - 8) true] = some c ∧
      ¬ prev_alloc_consistent c.heap := by
  have h : (run (fresh zero_mem 4096)
      [Op.malloc 24 true, Op.realloc 4112 (2 ^ 64 - 8) true]).map
      (fun c => (block_at c.heap 0, block_at c.heap 1, epilogue c.heap,
         get_alloc c.heap.mem (block_at c.heap 1),
         get_prev_alloc c.heap.mem (block_at c.heap 2))) =
      some (4104, 4136, 8200, true, false) := by decide!
  obtain ⟨c, hc, hv⟩ := run_map_some h
  refine ⟨c, hc, fun hP => ?_⟩
  simp only [Prod.mk.injEq] at hv
  obtain ⟨h0, h1, he, ha, hp⟩ := hv
  have hb : before_epilogue c.heap 1 := by
    intro j hj
    interval_cases j <;> simp [h0, h1, he]
  have := hP.2 1 hb
  rw [ha, hp] at this
  exact Bool.noConfusion this

set_option maxRecDepth 100000 in
/-- C8, evaluated at a failing input.  The client stores the word `0x22` (size 32, free,
`prev_alloc` set) into its block before it resizes the block to `2 ^ 64 - 8` bytes; the
copy of `realloc` puts that word over the header of the free block at `4152`, whose
footer word at `4176` holds `0`. -/
theorem realloc_overflow_footer_differs :
    ∃ c, run (fresh zero_mem 4096)
        [Op.malloc 24 true, Op.store 4120 0x22, Op.realloc 4112 (2 ^ 64 - 8) true] = some c ∧
      ¬ footers_match c.heap := by
  have h : (run (fresh zero_mem 4096)
      [Op.malloc 24 true, Op.store 4120 0x22, Op.realloc 4112 (2 ^ 64 - 8) true]).map
      (fun c => (decide (block_at c.heap 0 ≠ epilogue c.heap ∧
           block_at c.heap 1 ≠ epilogue c.heap ∧ block_at c.heap 2 ≠ epilogue c.heap),
         get_alloc c.heap.mem (block_at c.heap 2), get_mini c.heap.mem (block_at c.heap 2),
         get_size c.heap.mem (block_at c.heap 2),
         extract_size (c.heap.mem (header_to_footer c.heap.mem (block_at c.heap 2))))) =
      some (true, false, false, 32, 0) := by decide!
  obtain ⟨c, hc, hv⟩ := run_map_some h
  refine ⟨c, hc, fun hP => ?_⟩
  simp only [Prod.mk.injEq, decide_eq_true_eq] at hv
  obtain ⟨⟨h0, h1, h2⟩, ha, hm, hs, hf⟩ := hv
  have hb : before_epilogue c.heap 2 := by
    intro j hj
    interval_cases j
    · exact h0
    · exact h1
    · exact h2
  have := (hP 2 hb ha hm).1
  rw [hs, hf] at this
  exact absurd this (by decide)

set_option maxRecDepth 100000 in
/-- C9, evaluated at a failing input.  After `malloc 24` and a `realloc` of that block to
`2 ^ 64 - 8` bytes the third block of the heap (at `4152`) has size 0, and the
address-order walk does not arrive at the epilogue at `8200`. -/
theorem realloc_overflow_not_tiled :
    ∃ c, run (fresh zero_mem 4096)
        [Op.malloc 24 true, Op.realloc 4112 (2 ^ 64 - 8) true] = some c ∧
      ¬ well_tiled c.heap := by
  have h : (run (fresh zero_mem 4096)
      [Op.malloc 24 true, Op.realloc 4112 (2 ^ 64 - 8) true]).map
      (fun c => (block_at c.heap 0, block_at c.heap 1, block_at c.heap 2, epilogue c.heap,
         get_size c.heap.mem (block_at c.heap 2))) =
      some (4104, 4136, 4152, 8200, 0) := by decide!
  obtain ⟨c, hc, hv⟩ := run_map_some h
  refine ⟨c, hc, fun hP => ?_⟩
  simp only [Prod.mk.injEq] at hv
  obtain ⟨h0, h1, h2, he, hs⟩ := hv
  obtain ⟨_, _, _, _, _, n, hn, hk⟩ := hP
  by_cases h3 : n ≤ 2
  · interval_cases n <;> simp [h0, h1, h2, he] at hn
  · have := (hk 2 (by omega)).1
    omega

/-! ## `malloc (0)` -/

set_option maxRecDepth 100000 in
/-- C10 fails as stated: on the heap before any initialisation `malloc 0` runs
`mm_init` before it looks at the size, and the heap has grown from 0 to 4112 bytes
when it returns `NULL`. -/
theorem malloc_zero_initialises :
    ¬ ∀ (s : Heap) (fuel : Nat) (grow : Bool), malloc fuel s 0 grow = some (s, 0) := by
  intro h
  have h1 := congrArg (Option.map fun r => r.1.brk) (h (empty_heap zero_mem 4096) 0 true)
  have h2 : (malloc 0 (empty_heap zero_mem 4096) 0 true).map (fun r => r.1.brk) = some 4112 := by
    decide!
  rw [h2] at h1
  simp [empty_heap] at h1

/-- C10, amended: `malloc 0` returns `NULL` in every state; it leaves the whole state
(heap memory, heap size, bucket array) as it was when `heap_start` is not `NULL`, and
when `heap_start` is `NULL` the state it leaves is the one `mm_init` produces. -/
theorem malloc_zero (fuel : Nat) (s : Heap) (grow : Bool) :
    (s.heap_start ≠ 0 → malloc fuel s 0 grow = some (s, 0)) ∧
    (s.heap_start = 0 → malloc fuel s 0 grow = some ((mm_init s grow).1, 0)) := by
  constructor
  · intro h
    simp [malloc, h]
  · intro h
    simp [malloc, h]

set_option maxRecDepth 100000 in
theorem malloc_zero_witness :
    (fresh zero_mem 4096).heap.heap_start ≠ 0 ∧
    malloc 7 (fresh zero_mem 4096).heap 0 true = some ((fresh zero_mem 4096).heap, 0) :=
  ⟨by decide!, (malloc_zero 7 (fresh zero_mem 4096).heap true).1 (by decide!)⟩

/-! ## `realloc` with a zero size or a null pointer, and `calloc` -/

/-- C16: `realloc(p, 0)` returns `NULL` and leaves exactly the state of `free(p)`, for
every pointer `p` (in particular for `NULL` and for every allocated pointer). -/
theorem realloc_zero_is_free (fuel : Nat) (s : Heap) (ptr : Nat) (grow : Bool) :
    realloc fuel s ptr 0 grow = some (free s ptr, 0) := by
  simp [realloc]

/-- C17 fails for `n = 0` on a heap that is not initialised: `realloc(NULL, 0)` leaves the
heap empty, `malloc(0)` initialises it (the heap has 4112 bytes afterwards). -/
theorem realloc_null_zero_differs :
    (realloc 0 (empty_heap zero_mem 4096) 0 0 true).map (fun r => (r.1.brk, r.2)) = some (0, 0) ∧
    (malloc 0 (empty_heap zero_mem 4096) 0 true).map (fun r => (r.1.brk, r.2)) = some (4112, 0) ∧
    realloc 0 (empty_heap zero_mem 4096) 0 0 true ≠ malloc 0 (empty_heap zero_mem 4096) 0 true := by
  have h1 : (realloc 0 (empty_heap zero_mem 4096) 0 0 true).map (fun r => (r.1.brk, r.2)) =
      some (0, 0) := by decide!
  have h2 : (malloc 0 (empty_heap zero_mem 4096) 0 true).map (fun r => (r.1.brk, r.2)) =
      some (4112, 0) := by decide!
  refine ⟨h1, h2, fun e => ?_⟩
  rw [e, h2] at h1
  simp at h1

/-- C17, amended: for a request `n > 0`, or on an initialised heap, `realloc(NULL, n)`
returns the pointer and leaves the state of `malloc(n)`. -/
theorem realloc_null_is_malloc (fuel : Nat) (s : Heap) (size : Nat) (grow : Bool)
    (h : size ≠ 0 ∨ s.heap_start ≠ 0) : realloc fuel s 0 size grow = malloc fuel s size grow := by
  by_cases hs : size = 0
  · rcases h with h | h
    · exact absurd hs h
    · simp [realloc, malloc, free, hs, h]
  · simp [realloc, hs]

set_option maxRecDepth 100000 in
theorem realloc_null_is_malloc_witness :
    (24 ≠ 0 ∨ (fresh zero_mem 4096).heap.heap_start ≠ 0) ∧
    realloc 4112 (fresh zero_mem 4096).heap 0 24 true =
      malloc 4112 (fresh zero_mem 4096).heap 24 true :=
  ⟨Or.inl (by decide), realloc_null_is_malloc 4112 (fresh zero_mem 4096).heap 24 true
    (Or.inl (by decide))⟩

/-- C18: for a 64-bit count `0 < count < 2 ^ 64` and every size the test of `calloc` is
true exactly when the product is `2 ^ 64` or more, and then `calloc` returns `NULL` and
leaves the whole state (memory, heap size, bucket array) as it was. -/
theorem calloc_overflow_check (count size : Nat) (hc : 0 < count) (hcl : count < 2 ^ 64) :
    (wmul count size / count ≠ size ↔ 2 ^ 64 ≤ count * size) ∧
    (2 ^ 64 ≤ count * size →
      ∀ (fuel : Nat) (s : Heap) (grow : Bool), calloc fuel s count size grow = some (s, 0)) := by
  have hiff : wmul count size / count ≠ size ↔ 2 ^ 64 ≤ count * size := by
    unfold wmul
    constructor
    · intro h
      by_contra hlt
      rw [Nat.mod_eq_of_lt (by omega), Nat.mul_div_cancel_left _ hc] at h
      exact h rfl
    · intro h
      have h1 : count * size % 2 ^ 64 < count * size := by
        have := Nat.mod_lt (count * size) (show 0 < 2 ^ 64 by norm_num)
        omega
      have h2 := Nat.div_lt_of_lt_mul h1
      omega
  refine ⟨hiff, fun h fuel s grow => ?_⟩
  unfold calloc
  dsimp only
  rw [if_neg (by omega), if_pos (hiff.2 h)]

theorem calloc_overflow_check_witness :
    (0 < 2 ^ 33 ∧ 2 ^ 33 < 2 ^ 64) ∧
    (wmul (2 ^ 33) (2 ^ 32) / 2 ^ 33 ≠ 2 ^ 32 ↔ 2 ^ 64 ≤ 2 ^ 33 * 2 ^ 32) ∧
    (2 ^ 64 ≤ 2 ^ 33 * 2 ^ 32 → ∀ (fuel : Nat) (s : Heap) (grow : Bool),
      calloc fuel s (2 ^ 33) (2 ^ 32) grow = some (s, 0)) :=
  ⟨⟨by norm_num, by norm_num⟩,
    calloc_overflow_check (2 ^ 33) (2 ^ 32) (by norm_num) (by norm_num)⟩

/-! ## Bytes -/

theorem some_getD {α : Type} (o : Option α) (d : α) (h : o.isSome = true) :
    o = some (o.getD d) := by
  cases o with
  | none => simp at h
  | some x => rfl

theorem byte_update (w v i j : Nat) (hv : v < 256) (hi : i < 8) (hj : j < 8) :
    (w - (w / 256 ^ i % 256) * 256 ^ i + v * 256 ^ i) / 256 ^ j % 256 =
      if j = i then v else w / 256 ^ j % 256 := by
  interval_cases i <;> interval_cases j <;> simp <;> omega

theorem get_byte_set_byte (m : Mem) (a v b : Nat) (hv : v < 256) :
    get_byte (set_byte m a v) b = if b = a then v else get_byte m b := by
  unfold get_byte set_byte
  by_cases hw : b / 8 * 8 = a / 8 * 8
  · rw [hw, wr_same, byte_update _ _ _ _ hv (Nat.mod_lt _ (by norm_num))
      (Nat.mod_lt _ (by norm_num))]
    by_cases hab : b = a
    · rw [if_pos hab, if_pos (by rw [hab])]
    · rw [if_neg hab, if_neg (by omega)]
  · rw [wr_other _ _ _ _ hw, if_neg (fun e => hw (by rw [e]))]

theorem memset_get_byte (m : Mem) (dst n : Nat) :
    ∀ i, i < n → get_byte (memset m dst 0 n) (dst + i) = 0 := by
  induction n with
  | zero => intro i hi; omega
  | succ n ih =>
    intro i hi
    unfold memset
    rw [get_byte_set_byte _ _ _ _ (by norm_num)]
    by_cases e : i = n
    · rw [if_pos (by rw [e])]
    · rw [if_neg (by omega)]
      exact ih i (by omega)

/-- C19: when the product `count * size` does not overflow and `calloc` returns a
non-null pointer, each of the `count * size` bytes from that pointer on is zero in the
state `calloc` leaves. -/
theorem calloc_zero_filled (fuel : Nat) (s : Heap) (count size : Nat) (grow : Bool)
    (r : Heap × Nat) (hprod : count * size < 2 ^ 64)
    (hr : calloc fuel s count size grow = some r) (hp : r.2 ≠ 0) :
    ∀ i, i < count * size → get_byte r.1.mem (r.2 + i) = 0 := by
  have hw : wmul count size = count * size := by
    unfold wmul; exact Nat.mod_eq_of_lt hprod
  unfold calloc at hr
  dsimp only at hr
  rw [hw] at hr
  by_cases he0 : count = 0
  · rw [if_pos he0] at hr
    simp only [Option.some.injEq] at hr
    rw [← hr] at hp
    exact absurd rfl hp
  · rw [if_neg he0, Nat.mul_div_cancel_left _ (by omega), if_neg (by simp)] at hr
    cases hm : malloc fuel s (count * size) grow with
    | none => rw [hm] at hr; simp at hr
    | some q =>
      rw [hm] at hr
      dsimp only at hr
      by_cases hq : q.2 = 0
      · rw [if_pos hq] at hr
        simp only [Option.some.injEq] at hr
        rw [← hr] at hp
        exact absurd rfl hp
      · rw [if_neg hq] at hr
        simp only [Option.some.injEq] at hr
        rw [← hr]
        exact memset_get_byte _ _ _

set_option maxRecDepth 100000 in
theorem calloc_zero_filled_witness :
    3 * 8 < 2 ^ 64 ∧ ∃ r, calloc 4112 (fresh zero_mem 4096).heap 3 8 true = some r ∧ r.2 ≠ 0 ∧
      ∀ i, i < 3 * 8 → get_byte r.1.mem (r.2 + i) = 0 :=
  have hs : (calloc 4112 (fresh zero_mem 4096).heap 3 8 true).isSome = true := by decide!
  have hp : ((calloc 4112 (fresh zero_mem 4096).heap 3 8 true).getD
      (empty_heap zero_mem 0, 0)).2 ≠ 0 := by decide!
  ⟨by norm_num, _, some_getD _ _ hs, hp,
    calloc_zero_filled 4112 (fresh zero_mem 4096).heap 3 8 true _ (by norm_num)
      (some_getD _ _ hs) hp⟩

/-! ## The adjusted size and the search for a fit -/

theorem ite_motive {P : Nat → Prop} (c : Prop) [Decidable c] (a b : Nat) (ha : c → P a)
    (hb : ¬c → P b) : P (if c then a else b) := by
  split
  · exact ha ‹_›
  · exact hb ‹_›

theorem find_bucket_le_iff (n k : Nat) (hk : k < 14) : find_bucket n ≤ k ↔ n ≤ 16 * 2 ^ k := by
  unfold find_bucket
  repeat' (first
    | refine ite_motive (P := fun x => (x ≤ k ↔ n ≤ 16 * 2 ^ k)) _ _ _ (fun h => ?_) (fun h => ?_)
    | (beta_reduce; interval_cases k <;> norm_num <;> omega))

theorem find_bucket_mono (a b : Nat) (h : a ≤ b) : find_bucket a ≤ find_bucket b := by
  by_cases hk : find_bucket b < 14
  · have h1 := (find_bucket_le_iff b _ hk).1 (le_refl _)
    exact (find_bucket_le_iff a _ hk).2 (by omega)
  · have := find_bucket_lt a
    omega

theorem round_up_facts (n : Nat) : round_up n dsize % 16 = 0 ∧ round_up n dsize < 2 ^ 64 - 15 := by
  unfold round_up wmul wadd dsize wsize
  have h1 : (n + (2 * 8 - 1)) % 2 ^ 64 < 2 ^ 64 := Nat.mod_lt _ (by norm_num)
  have h2 : 2 * 8 * ((n + (2 * 8 - 1)) % 2 ^ 64 / (2 * 8)) < 2 ^ 64 := by omega
  rw [Nat.mod_eq_of_lt h2]
  omega

theorem adjust_facts (size : Nat) :
    16 ≤ adjust size ∧ adjust size % 16 = 0 ∧ adjust size < 2 ^ 64 - 15 := by
  have h := round_up_facts (wadd size wsize)
  unfold adjust min_block_size
  dsimp only
  split_ifs with hc
  · unfold dsize wsize; omega
  · generalize round_up (wadd size wsize) dsize = a at h hc
    unfold dsize wsize at hc; omega

theorem adjust_small (size : Nat) (h : size < 2 ^ 63) :
    size + 8 ≤ adjust size ∧ adjust size = 16 * ((size + 23) / 16) := by
  have e1 : wadd size wsize = size + 8 := wadd_small _ _ (by unfold wsize; omega)
  unfold adjust min_block_size
  dsimp only
  rw [e1, round_up_eq _ (by omega)]
  unfold dsize wsize
  split_ifs <;> omega

theorem max_adjust (size : Nat) :
    adjust size ≤ max (adjust size) chunksize ∧ 4096 ≤ max (adjust size) chunksize ∧
    max (adjust size) chunksize % 16 = 0 ∧ max (adjust size) chunksize < 2 ^ 64 - 15 ∧
    round_up (max (adjust size) chunksize) dsize = max (adjust size) chunksize := by
  obtain ⟨h1, h2, h3⟩ := adjust_facts size
  have hM : ∃ M, max (adjust size) chunksize = M ∧ adjust size ≤ M ∧ 4096 ≤ M ∧ M % 16 = 0 ∧
      M < 2 ^ 64 - 15 := by
    refine ⟨_, rfl, ?_⟩
    unfold max chunksize
    split_ifs <;> omega
  obtain ⟨M, e, m1, m2, m3, m4⟩ := hM
  rw [e]
  refine ⟨m1, m2, m3, m4, ?_⟩
  rw [round_up_eq _ (by omega)]
  omega

theorem find_fit_scan_zero (m : Mem) (asize : Nat) (pv : Nat → Nat) (l : List Nat) :
    ∀ (fuel prev block best level : Nat), LL (get_next m) pv prev block l →
      find_fit_scan m asize fuel block best level = some 0 → level ≠ 0 →
      best = 0 ∧ ∀ y, y ∈ l → get_size m y < asize := by
  induction l with
  | nil =>
    intro fuel prev block best level hl hr _
    simp only [LL] at hl
    cases fuel with
    | zero => simp [find_fit_scan] at hr
    | succ f =>
      unfold find_fit_scan at hr
      rw [if_pos hl] at hr
      exact ⟨by simpa using hr, fun y hy => by simp at hy⟩
  | cons x xs ih =>
    intro fuel prev block best level hl hr hlev
    simp only [LL] at hl
    obtain ⟨e, hx0, _, hl1⟩ := hl
    cases fuel with
    | zero => simp [find_fit_scan] at hr
    | succ f =>
      unfold find_fit_scan at hr
      rw [if_neg (by rw [e]; exact hx0)] at hr
      dsimp only at hr
      rw [e] at hr
      by_cases h1 : asize ≤ get_size m x
      · exfalso
        simp only [h1, decide_True, if_true] at hr
        have hb : (if best = 0 ∨ get_size m best > get_size m x then x else best) ≠ 0 := by
          split_ifs with hc
          · exact hx0
          · exact fun e0 => hc (Or.inl e0)
        by_cases h2 : level - 1 = 0
        · rw [if_pos h2] at hr
          exact hb (by simpa using hr)
        · rw [if_neg h2] at hr
          exact hb (ih f x _ _ _ hl1 hr h2).1
      · simp only [h1, decide_False, Bool.false_eq_true, if_false] at hr
        rw [if_neg hlev] at hr
        obtain ⟨hb, hrest⟩ := ih f x _ _ _ hl1 hr hlev
        refine ⟨hb, fun y hy => ?_⟩
        rcases List.mem_cons.1 hy with hy | hy
        · rw [hy]; omega
        · exact hrest y hy

theorem find_fit_buckets_full (s : Heap) (bs : List Blk) (fl : Nat → List Nat) (x : Nat)
    (pae : Bool) (h : Valid s bs fl x pae) (asize fuel : Nat) (hf : s.brk ≤ fuel) :
    ∀ k bucket, (bucket = 0 → s.seglist 0 = 0) → 15 ≤ bucket + k →
      ∃ r, find_fit_buckets s asize fuel k bucket = some r ∧
        ((r = 0 ∧ ∀ i, bucket ≤ i → i < 15 → ∀ y, y ∈ fl i → get_size s.mem y < asize) ∨
         (r ≠ 0 ∧ ∃ i, bucket ≤ i ∧ i < 15 ∧ r ∈ fl i ∧ asize ≤ get_size s.mem r ∧
            ∀ j, bucket ≤ j → j < i → ∀ y, y ∈ fl j → get_size s.mem y < asize)) := by
  intro k
  induction k with
  | zero =>
    intro bucket _ hk
    exact ⟨0, rfl, Or.inl ⟨rfl, fun i hi1 hi2 => by omega⟩⟩
  | succ k ih =>
    intro bucket hb0 hk
    unfold find_fit_buckets BUCKET_NUM
    by_cases hb : bucket < 15
    · rw [if_pos hb]
      have hscan : ∃ r, find_fit_scan s.mem asize fuel (s.seglist bucket) 0 5 = some r ∧
          ((r = 0 ∧ ∀ y, y ∈ fl bucket → get_size s.mem y < asize) ∨
           (r ≠ 0 ∧ r ∈ fl bucket ∧ asize ≤ get_size s.mem r)) := by
        have hL := h.lists bucket hb
        unfold FList at hL
        by_cases h0 : bucket = 0
        · have hfuel : ∃ f, fuel = f + 1 := ⟨fuel - 1, by have := h.brk16; omega⟩
          obtain ⟨f, ef⟩ := hfuel
          rw [if_pos h0] at hL
          have hnil : fl bucket = [] := by
            rw [h0]
            exact (LL_nil_iff _ _ _ _ _ (by rw [h0] at hL; exact hL)).1 (hb0 h0)
          rw [ef, h0, hb0 h0]
          unfold find_fit_scan
          rw [if_pos rfl]
          refine ⟨0, rfl, Or.inl ⟨rfl, fun y hy => ?_⟩⟩
          rw [← h0, hnil] at hy
          simp at hy
        · rw [if_neg h0] at hL
          have hlen := Valid_fl_length _ _ _ _ _ h bucket hb
          obtain ⟨r, hr1, hr2⟩ := find_fit_scan_spec s.mem asize _ _ fuel 0 _ 0 5 hL (by omega)
          refine ⟨r, hr1, ?_⟩
          by_cases hr0 : r = 0
          · left
            rw [hr0] at hr1
            exact ⟨hr0, (find_fit_scan_zero s.mem asize _ _ fuel 0 _ 0 5 hL hr1 (by norm_num)).2⟩
          · right
            rcases hr2 with hr | hr
            · exact absurd hr hr0
            · exact ⟨hr0, hr⟩
      obtain ⟨r, hr1, hr2⟩ := hscan
      rw [hr1]
      dsimp only
      rcases hr2 with ⟨hr0, hno⟩ | ⟨hr0, hin, hfit⟩
      · rw [if_pos hr0]
        obtain ⟨r1, e1, hcase⟩ := ih (bucket + 1) (fun hc => by omega) (by omega)
        refine ⟨r1, e1, ?_⟩
        rcases hcase with ⟨c1, c2⟩ | ⟨c1, i, c2, c3, c4, c5, c6⟩
        · left
          refine ⟨c1, fun i hi1 hi2 y hy => ?_⟩
          by_cases hib : i = bucket
          · rw [hib] at hy; exact hno y hy
          · exact c2 i (by omega) hi2 y hy
        · right
          refine ⟨c1, i, by omega, c3, c4, c5, fun j hj1 hj2 y hy => ?_⟩
          by_cases hjb : j = bucket
          · rw [hjb] at hy; exact hno y hy
          · exact c6 j (by omega) hj2 y hy
      · rw [if_neg hr0]
        exact ⟨r, rfl, Or.inr ⟨hr0, bucket, le_refl _, hb, hin, hfit, fun j hj1 hj2 => by omega⟩⟩
    · rw [if_neg hb]
      exact ⟨0, rfl, Or.inl ⟨rfl, fun i hi1 hi2 => by omega⟩⟩

/-- What `find_fit` returns on a valid heap: `NULL` when no free block has the adjusted
size, and otherwise a free block that has it and lies in the lowest bucket holding
such a block. -/
theorem find_fit_full (s : Heap) (bs : List Blk) (fl : Nat → List Nat) (pae : Bool)
    (h : Valid s bs fl 0 pae) (asize fuel : Nat) (hf : s.brk ≤ fuel) (h16 : 16 ≤ asize) :
    ∃ r, find_fit fuel s asize = some r ∧
      ((r = 0 ∧ ∀ b, b ∈ bs → b.alloc = false → b.size < asize) ∨
       (∃ x, x ∈ bs ∧ x.alloc = false ∧ x.addr = r ∧ asize ≤ x.size ∧
          ∀ b, b ∈ bs → b.alloc = false → asize ≤ b.size →
            find_bucket x.size ≤ find_bucket b.size)) := by
  have hgs : ∀ b, b ∈ bs → get_size s.mem b.addr = b.size := fun b hb =>
    (Valid_block_tags _ _ _ _ _ h b hb).2.1
  have hinfl : ∀ b, b ∈ bs → b.alloc = false → b.addr ∈ fl (find_bucket b.size) := by
    intro b hb hbf
    refine (h.mem_fl _ (find_bucket_lt _) _).2 ⟨⟨b, hb, rfl, hbf, rfl⟩, ?_⟩
    have := (Valid_block_tags _ _ _ _ _ h b hb).2.2.2.1
    omega
  unfold find_fit min_block_size dsize wsize BUCKET_NUM
  by_cases hc : asize = 2 * 8 ∧ s.seglist 0 ≠ 0
  · rw [if_pos hc]
    refine ⟨_, rfl, Or.inr ?_⟩
    have hL := h.lists 0 (by norm_num)
    unfold FList at hL
    rw [if_pos rfl] at hL
    have hh := LL_head _ _ _ _ _ hL
    have hin : s.seglist 0 ∈ fl 0 := by
      rcases headD_mem_or (fl 0) with h1 | h1
      · rw [← hh] at h1; exact absurd h1 hc.2
      · rw [← hh] at h1; exact h1
    obtain ⟨⟨b, hb1, hb2, hb3, hb4⟩, _⟩ := (h.mem_fl 0 (by norm_num) _).1 hin
    have := (find_bucket_zero _).1 hb4
    have := (Valid_block_tags _ _ _ _ _ h b hb1).2.2.2.2.2.1
    exact ⟨b, hb1, hb3, hb2, by omega, fun c _ _ _ => by rw [hb4]; omega⟩
  · rw [if_neg hc]
    obtain ⟨r, hr1, hr2⟩ := find_fit_buckets_full s bs fl 0 pae h asize fuel hf (15 + 1)
      (find_bucket asize) (fun h0 => by
        have := (find_bucket_zero _).1 h0
        by_contra hne
        exact hc ⟨by omega, hne⟩) (by omega)
    refine ⟨r, hr1, ?_⟩
    rcases hr2 with ⟨c1, c2⟩ | ⟨c1, i, c2, c3, c4, c5, c6⟩
    · left
      refine ⟨c1, fun b hb hbf => ?_⟩
      by_contra hge
      have hm := find_bucket_mono asize b.size (by omega)
      have := c2 _ hm (find_bucket_lt _) _ (hinfl b hb hbf)
      rw [hgs b hb] at this
      omega
    · right
      obtain ⟨⟨x, hx1, hx2, hx3, hx4⟩, _⟩ := (h.mem_fl i c3 r).1 c4
      have hxs := hgs x hx1
      rw [hx2] at hxs
      refine ⟨x, hx1, hx3, hx2, by omega, fun b hb hbf hfit => ?_⟩
      rw [hx4]
      by_contra hlt
      have hm := find_bucket_mono asize b.size hfit
      have := c6 _ hm (by omega) _ (hinfl b hb hbf)
      rw [hgs b hb] at this
      omega

/-! ## The paths through `malloc` -/

theorem mem_sbrk_none_iff (s : Heap) (incr : Nat) (grow : Bool) :
    (mem_sbrk s incr grow).1 = none ↔ ¬(grow = true ∧ s.lo + s.brk + incr < 2 ^ 64) := by
  unfold mem_sbrk
  by_cases h : grow = true ∧ s.lo + s.brk + incr < 2 ^ 64
  · rw [if_pos h]
    exact ⟨fun e => absurd e (by simp), fun e => absurd h e⟩
  · rw [if_neg h]
    exact ⟨fun _ => h, fun _ => rfl⟩

theorem mem_sbrk_brk (s : Heap) (incr : Nat) (grow : Bool) :
    (mem_sbrk s incr grow).2.brk =
      if grow = true ∧ s.lo + s.brk + incr < 2 ^ 64 then s.brk + incr else s.brk := by
  unfold mem_sbrk
  split_ifs <;> rfl

theorem extend_heap_valid_ok (s : Heap) (bs : List Blk) (fl : Nat → List Nat) (pae : Bool)
    (h : Valid s bs fl 0 pae) (size : Nat) (grow : Bool)
    (hm : round_up size dsize % 16 = 0) (h16 : 16 < round_up size dsize)
    (hc : grow = true ∧ s.lo + s.brk + round_up size dsize < 2 ^ 64) :
    ∃ bs1 fl1 pae1 bx, Valid (extend_heap s size grow).1 bs1 fl1 0 pae1 ∧ bx ∈ bs1 ∧
      bx.alloc = false ∧ (extend_heap s size grow).2 = bx.addr ∧
      round_up size dsize ≤ bx.size ∧ (∀ b, b ∈ bs → b.alloc = true → b ∈ bs1) ∧
      (extend_heap s size grow).1.lo = s.lo ∧
      (extend_heap s size grow).1.brk = s.brk + round_up size dsize := by
  rw [extend_heap_ok s size grow hc]
  have hpa : get_prev_alloc s.mem (s.lo + s.brk - 8) = pae := h.epi.2.2.2
  rw [hpa, extend_mem_eq _ _ _ _ hm h16 (by omega)]
  obtain ⟨hpc, ht⟩ := extend_precoal s bs fl pae h _ hm h16 hc.2
  obtain ⟨bs1, fl1, bx, pae2, hv, hbx, hbf, hres, hkeep, h1, h2, hlo, hbrk⟩ :=
    coalesce_block_valid _ bs _ _ [] fl pae false hpc ht
  have hins := Valid_insert _ bs1 fl1 pae2 bx hv hbx hbf
  dsimp only
  rw [hres]
  exact ⟨bs1, _, pae2, bx, hins, hbx, hbf, rfl, by omega, fun b hb hba => hkeep b (Or.inl hb) hba,
    by rw [insert_lo, hlo], by rw [insert_brk, hbrk]⟩

/-- The paths through `malloc` on a valid heap: a zero request; a fit, which is placed
without asking for more heap; no fit and a failed growth, which changes nothing; no
fit and a successful growth by `max asize chunksize` bytes. -/
theorem malloc_cases (s : Heap) (bs : List Blk) (fl : Nat → List Nat) (pae : Bool)
    (h : Valid s bs fl 0 pae) (size fuel : Nat) (grow : Bool) (hf : s.brk ≤ fuel) :
    (size = 0 ∧ malloc fuel s size grow = some (s, 0)) ∨
    (size ≠ 0 ∧ ∃ x, x ∈ bs ∧ x.alloc = false ∧ adjust size ≤ x.size ∧
      find_fit fuel s (adjust size) = some x.addr ∧
      (∀ b, b ∈ bs → b.alloc = false → adjust size ≤ b.size →
        find_bucket x.size ≤ find_bucket b.size) ∧
      ∀ g, malloc fuel s size g = some (place s x.addr (adjust size), x.addr + 8)) ∨
    (size ≠ 0 ∧ find_fit fuel s (adjust size) = some 0 ∧
      (∀ b, b ∈ bs → b.alloc = false → b.size < adjust size) ∧
      ((¬(grow = true ∧ s.lo + s.brk + max (adjust size) chunksize < 2 ^ 64) ∧
          malloc fuel s size grow = some (s, 0)) ∨
       ((grow = true ∧ s.lo + s.brk + max (adjust size) chunksize < 2 ^ 64) ∧
          ∃ bs1 fl1 pae1 bx,
            Valid (extend_heap s (max (adjust size) chunksize) grow).1 bs1 fl1 0 pae1 ∧
            bx ∈ bs1 ∧ bx.alloc = false ∧ max (adjust size) chunksize ≤ bx.size ∧
            (∀ c, c ∈ bs → c.alloc = true → c ∈ bs1) ∧
            (extend_heap s (max (adjust size) chunksize) grow).1.lo = s.lo ∧
            (extend_heap s (max (adjust size) chunksize) grow).1.brk =
              s.brk + max (adjust size) chunksize ∧
            malloc fuel s size grow =
              some (place (extend_heap s (max (adjust size) chunksize) grow).1 bx.addr
                (adjust size), bx.addr + 8)))) := by
  have h0 : s.heap_start ≠ 0 := by rw [h.hs]; omega
  by_cases hs : size = 0
  · left
    refine ⟨hs, ?_⟩
    unfold malloc
    rw [if_neg h0]
    dsimp only
    rw [if_pos hs]
  · right
    obtain ⟨ha16, ham, halt⟩ := adjust_facts size
    obtain ⟨m1, m2, m3, m4, hru⟩ := max_adjust size
    obtain ⟨r, hr1, hr2⟩ := find_fit_full s bs fl pae h (adjust size) fuel hf ha16
    have heq := fun g => malloc_eq fuel s size g r h0 hs (adjust size) rfl hr1
    rcases hr2 with ⟨hr0, hno⟩ | ⟨x, hx1, hx2, hx3, hx4, hx5⟩
    · right
      rw [hr0] at hr1
      refine ⟨hs, hr1, hno, ?_⟩
      have hm := heq grow
      rw [if_pos hr0] at hm
      by_cases hc : grow = true ∧ s.lo + s.brk + max (adjust size) chunksize < 2 ^ 64
      · right
        refine ⟨hc, ?_⟩
        obtain ⟨bs1, fl1, pae1, bx, hv, hbx, hbf, hres, hsize, hkeep, hlo, hbrk⟩ :=
          extend_heap_valid_ok s bs fl pae h (max (adjust size) chunksize) grow
            (by rw [hru]; exact m3) (by rw [hru]; omega) (by rw [hru]; exact hc)
        have hbx0 : bx.addr ≠ 0 := by
          have := (Valid_block_tags _ _ _ _ _ hv bx hbx).2.2.2.1
          omega
        rw [hres, if_neg hbx0] at hm
        rw [hru] at hsize hbrk
        exact ⟨bs1, fl1, pae1, bx, hv, hbx, hbf, hsize, hkeep, hlo, hbrk, hm⟩
      · left
        refine ⟨hc, ?_⟩
        rw [extend_heap_fail s _ grow (by rw [hru]; exact hc)] at hm
        exact hm
    · left
      have hx0 : x.addr ≠ 0 := by
        have := (Valid_block_tags _ _ _ _ _ h x hx1).2.2.2.1
        omega
      rw [← hx3] at hr1
      refine ⟨hs, x, hx1, hx2, hx4, hr1, hx5, fun g => ?_⟩
      have hm := heq g
      rw [← hx3] at hm
      simp only [if_neg hx0] at hm
      exact hm

/-! ## Failure of `malloc` and growth of the heap -/

set_option maxRecDepth 100000 in
theorem fresh_valid : ∃ bs fl pae, Valid (fresh zero_mem 4096).heap bs fl 0 pae :=
  mm_init_valid (empty_heap zero_mem 4096) true (by decide) (by decide) rfl (by decide!)

/-- C11: on a valid heap with blocks `bs`, `malloc n` finishes, and it returns `NULL`
exactly when `n = 0`, or no free block has the adjusted size `adjust n` of the request
and the call of the growth primitive that `malloc` then makes fails. -/
theorem malloc_null_iff (s : Heap) (bs : List Blk) (fl : Nat → List Nat) (pae : Bool)
    (h : Valid s bs fl 0 pae) (n : Nat) (grow : Bool) :
    ∃ s1 p, malloc s.brk s n grow = some (s1, p) ∧
      (p = 0 ↔ n = 0 ∨ ((∀ b, b ∈ bs → b.alloc = false → b.size < adjust n) ∧
        (mem_sbrk s (max (adjust n) chunksize) grow).1 = none)) := by
  rcases malloc_cases s bs fl pae h n s.brk grow (le_refl _) with
    ⟨h0, hm⟩ | ⟨h0, x, hx1, hx2, hx3, _, _, hm⟩ | ⟨h0, _, hno, ⟨hc, hm⟩ | ⟨hc, _, _, _, bx, _, _, _, _, _, _, _, hm⟩⟩
  · exact ⟨_, _, hm, ⟨fun _ => Or.inl h0, fun _ => rfl⟩⟩
  · refine ⟨_, _, hm grow, ⟨fun e => by omega, fun e => ?_⟩⟩
    rcases e with e | ⟨e, _⟩
    · exact absurd e h0
    · have := e x hx1 hx2; omega
  · exact ⟨_, _, hm, ⟨fun _ => Or.inr ⟨hno, (mem_sbrk_none_iff _ _ _).2 hc⟩, fun _ => rfl⟩⟩
  · refine ⟨_, _, hm, ⟨fun e => by omega, fun e => ?_⟩⟩
    rcases e with e | ⟨_, e⟩
    · exact absurd e h0
    · exact absurd hc ((mem_sbrk_none_iff _ _ _).1 e)

theorem malloc_null_iff_witness :
    ∃ bs fl pae, Valid (fresh zero_mem 4096).heap bs fl 0 pae ∧
      ∃ s1 p, malloc (fresh zero_mem 4096).heap.brk (fresh zero_mem 4096).heap 24 false =
          some (s1, p) ∧
        (p = 0 ↔ 24 = 0 ∨ ((∀ b, b ∈ bs → b.alloc = false → b.size < adjust 24) ∧
          (mem_sbrk (fresh zero_mem 4096).heap (max (adjust 24) chunksize) false).1 = none)) :=
  fresh_valid.elim fun bs h1 => h1.elim fun fl h2 => h2.elim fun pae hv =>
    ⟨bs, fl, pae, hv, malloc_null_iff _ bs fl pae hv 24 false⟩

/-- C12: on a valid heap, when `malloc n` or `calloc c sz` finds no fit and the call of
the growth primitive fails, the call returns `NULL` and the state it leaves is the
state before the call, which `mm_checkheap` accepts. -/
theorem growth_failure_changes_nothing (s : Heap) (bs : List Blk) (fl : Nat → List Nat)
    (pae : Bool) (h : Valid s bs fl 0 pae) (grow : Bool) :
    (∀ n, n ≠ 0 → find_fit s.brk s (adjust n) = some 0 →
      (mem_sbrk s (max (adjust n) chunksize) grow).1 = none →
      malloc s.brk s n grow = some (s, 0)) ∧
    (∀ c sz, c * sz ≠ 0 → c * sz < 2 ^ 64 → find_fit s.brk s (adjust (c * sz)) = some 0 →
      (mem_sbrk s (max (adjust (c * sz)) chunksize) grow).1 = none →
      calloc s.brk s c sz grow = some (s, 0)) ∧
    mm_checkheap s.brk s = some true := by
  have hmal : ∀ n, n ≠ 0 → find_fit s.brk s (adjust n) = some 0 →
      (mem_sbrk s (max (adjust n) chunksize) grow).1 = none →
      malloc s.brk s n grow = some (s, 0) := by
    intro n hn hfit hfail
    rcases malloc_cases s bs fl pae h n s.brk grow (le_refl _) with
      ⟨h0, _⟩ | ⟨_, x, hx1, _, _, hx4, _, _⟩ | ⟨_, _, _, ⟨_, hm⟩ | ⟨hc, _⟩⟩
    · exact absurd h0 hn
    · rw [hfit] at hx4
      have := (Valid_block_tags _ _ _ _ _ h x hx1).2.2.2.1
      simp only [Option.some.injEq] at hx4
      omega
    · exact hm
    · exact absurd hc ((mem_sbrk_none_iff _ _ _).1 hfail)
  refine ⟨hmal, fun c sz h0 hlt hfit hfail => ?_, mm_checkheap_ok s bs fl pae h⟩
  have hw : wmul c sz = c * sz := by unfold wmul; exact Nat.mod_eq_of_lt hlt
  have hc0 : c ≠ 0 := fun e => h0 (by rw [e]; simp)
  unfold calloc
  dsimp only
  rw [if_neg hc0, hw, Nat.mul_div_cancel_left _ (by omega), if_neg (by simp),
    hmal (c * sz) h0 hfit hfail]
  simp

set_option maxRecDepth 100000 in
theorem growth_failure_changes_nothing_witness :
    ∃ bs fl pae, Valid (fresh zero_mem 4096).heap bs fl 0 pae ∧
      malloc (fresh zero_mem 4096).heap.brk (fresh zero_mem 4096).heap 5000 false =
        some ((fresh zero_mem 4096).heap, 0) ∧
      calloc (fresh zero_mem 4096).heap.brk (fresh zero_mem 4096).heap 50 100 false =
        some ((fresh zero_mem 4096).heap, 0) ∧
      mm_checkheap (fresh zero_mem 4096).heap.brk (fresh zero_mem 4096).heap = some true :=
  fresh_valid.elim fun bs h1 => h1.elim fun fl h2 => h2.elim fun pae hv =>
    have hg := growth_failure_changes_nothing _ bs fl pae hv false
    ⟨bs, fl, pae, hv, hg.1 5000 (by decide) (by decide!) (by decide!),
      hg.2.1 50 100 (by decide) (by norm_num) (by decide!) (by decide!), hg.2.2⟩

set_option maxRecDepth 100000 in
/-- C13 fails when the growth primitive refuses: on the fresh heap `malloc 5000` finds no
fit (the adjusted size is 5008, the only free block has 4096 bytes), asks for 5008 more
bytes, is refused, and the heap keeps its 4112 bytes. -/
theorem malloc_refused_growth_keeps_size :
    find_fit (fresh zero_mem 4096).heap.brk (fresh zero_mem 4096).heap (adjust 5000) = some 0 ∧
    max (adjust 5000) chunksize = 5008 ∧ (fresh zero_mem 4096).heap.brk = 4112 ∧
    (malloc (fresh zero_mem 4096).heap.brk (fresh zero_mem 4096).heap 5000 false).map
      (fun r => (r.1.brk, r.2)) = some (4112, 0) := by
  decide!

/-- C13, amended: on a valid heap and for `n > 0` with adjusted size `a = adjust n`:
when `find_fit a` returns a block, the result of `malloc n` does not depend on the
growth primitive and the heap keeps its size; when `find_fit a` returns no block, the
heap size after `malloc n` is the one after a single call of the growth primitive for
`max a chunksize` bytes: larger by exactly `max a chunksize` when that call succeeds,
and when it fails `malloc` returns `NULL` and changes nothing. -/
theorem malloc_growth (s : Heap) (bs : List Blk) (fl : Nat → List Nat) (pae : Bool)
    (h : Valid s bs fl 0 pae) (n : Nat) (grow : Bool) (hn : n ≠ 0) :
    ∃ r s1 p, find_fit s.brk s (adjust n) = some r ∧
      malloc s.brk s n grow = some (s1, p) ∧ s1.lo = s.lo ∧
      (r ≠ 0 → s1.brk = s.brk ∧ ∀ g, malloc s.brk s n g = some (s1, p)) ∧
      (r = 0 →
        s1.brk = (mem_sbrk s (max (adjust n) chunksize) grow).2.brk ∧
        ((mem_sbrk s (max (adjust n) chunksize) grow).1 ≠ none →
          s1.brk = s.brk + max (adjust n) chunksize) ∧
        ((mem_sbrk s (max (adjust n) chunksize) grow).1 = none → s1 = s ∧ p = 0)) := by
  obtain ⟨ha16, ham, _⟩ := adjust_facts n
  obtain ⟨m1, _, _, _, _⟩ := max_adjust n
  rcases malloc_cases s bs fl pae h n s.brk grow (le_refl _) with
    ⟨h0, _⟩ | ⟨_, x, hx1, hx2, hx3, hx4, _, hm⟩ |
    ⟨_, hfit, _, ⟨hc, hm⟩ | ⟨hc, bs1, fl1, pae1, bx, hv, hbx, hbf, hsz, _, hlo, hbrk, hm⟩⟩
  · exact absurd h0 hn
  · have hx0 : x.addr ≠ 0 := by
      have := (Valid_block_tags _ _ _ _ _ h x hx1).2.2.2.1
      omega
    obtain ⟨_, _, _, _, _, _, _, _, _, _, hplo, hpbrk⟩ :=
      place_valid s bs fl pae h x hx1 hx2 (adjust n) ha16 ham hx3
    exact ⟨_, _, _, hx4, hm grow, hplo, fun _ => ⟨hpbrk, hm⟩, fun e => absurd e hx0⟩
  · have hnone := (mem_sbrk_none_iff s (max (adjust n) chunksize) grow).2 hc
    refine ⟨0, s, 0, hfit, hm, rfl, fun e => absurd rfl e, fun _ => ⟨?_, fun e => absurd hnone e,
      fun _ => ⟨rfl, rfl⟩⟩⟩
    rw [mem_sbrk_brk, if_neg hc]
  · have hsome : (mem_sbrk s (max (adjust n) chunksize) grow).1 ≠ none :=
      fun e => (mem_sbrk_none_iff _ _ _).1 e hc
    obtain ⟨_, _, _, _, _, _, _, _, _, _, hplo, hpbrk⟩ :=
      place_valid _ bs1 fl1 pae1 hv bx hbx hbf (adjust n) ha16 ham (by omega)
    refine ⟨0, _, _, hfit, hm, by rw [hplo, hlo], fun e => absurd rfl e, fun _ => ⟨?_,
      fun _ => by rw [hpbrk, hbrk], fun e => absurd e hsome⟩⟩
    rw [mem_sbrk_brk, if_pos hc, hpbrk, hbrk]

theorem malloc_growth_witness :
    ∃ bs fl pae, Valid (fresh zero_mem 4096).heap bs fl 0 pae ∧ 5000 ≠ 0 ∧
      ∃ r s1 p, find_fit (fresh zero_mem 4096).heap.brk (fresh zero_mem 4096).heap
          (adjust 5000) = some r ∧
        malloc (fresh zero_mem 4096).heap.brk (fresh zero_mem 4096).heap 5000 true =
          some (s1, p) ∧ s1.lo = (fresh zero_mem 4096).heap.lo ∧
        (r ≠ 0 → s1.brk = (fresh zero_mem 4096).heap.brk ∧
          ∀ g, malloc (fresh zero_mem 4096).heap.brk (fresh zero_mem 4096).heap 5000 g =
            some (s1, p)) ∧
        (r = 0 →
          s1.brk = (mem_sbrk (fresh zero_mem 4096).heap (max (adjust 5000) chunksize) true).2.brk ∧
          ((mem_sbrk (fresh zero_mem 4096).heap (max (adjust 5000) chunksize) true).1 ≠ none →
            s1.brk = (fresh zero_mem 4096).heap.brk + max (adjust 5000) chunksize) ∧
          ((mem_sbrk (fresh zero_mem 4096).heap (max (adjust 5000) chunksize) true).1 = none →
            s1 = (fresh zero_mem 4096).heap ∧ p = 0)) :=
  fresh_valid.elim fun bs h1 => h1.elim fun fl h2 => h2.elim fun pae hv =>
    ⟨bs, fl, pae, hv, by decide, malloc_growth _ bs fl pae hv 5000 true (by decide)⟩

/-- C15: on a valid heap, for a pointer `p ≠ NULL` and `new_size > 0`: when the `malloc`
inside `realloc p new_size` returns `NULL`, `realloc` returns `NULL` and the state it
leaves is the state before the call, so the block of `p` keeps its header, its size and
its payload bytes. -/
theorem realloc_failed_malloc (s : Heap) (bs : List Blk) (fl : Nat → List Nat) (pae : Bool)
    (h : Valid s bs fl 0 pae) (ptr size : Nat) (grow : Bool) (hs : size ≠ 0) (hp : ptr ≠ 0)
    (hfail : (malloc s.brk s size grow).map Prod.snd = some 0) :
    realloc s.brk s ptr size grow = some (s, 0) := by
  have hm : malloc s.brk s size grow = some (s, 0) := by
    rcases malloc_cases s bs fl pae h size s.brk grow (le_refl _) with
      ⟨h0, _⟩ | ⟨_, x, _, _, _, _, _, hm⟩ | ⟨_, _, _, ⟨_, hm⟩ | ⟨_, _, _, _, bx, _, _, _, _, _, _, _, hm⟩⟩
    · exact absurd h0 hs
    · rw [hm grow] at hfail
      simp at hfail
    · exact hm
    · rw [hm] at hfail
      simp at hfail
  unfold realloc
  dsimp only
  rw [if_neg hs, if_neg hp, hm]
  simp

set_option maxRecDepth 100000 in
theorem realloc_failed_malloc_witness :
    ∃ c bs fl pae, run (fresh zero_mem 4096) [Op.malloc 24 true] = some c ∧ c.live = [4112] ∧
      Valid c.heap bs fl 0 pae ∧ 5000 ≠ 0 ∧ 4112 ≠ 0 ∧
      (malloc c.heap.brk c.heap 5000 false).map Prod.snd = some 0 ∧
      realloc c.heap.brk c.heap 4112 5000 false = some (c.heap, 0) := by
  have hd : (run (fresh zero_mem 4096) [Op.malloc 24 true]).map
      (fun c => (c.live, (malloc c.heap.brk c.heap 5000 false).map Prod.snd)) =
      some ([4112], some 0) := by decide!
  obtain ⟨c, hc, hv⟩ := run_map_some hd
  simp only [Prod.mk.injEq] at hv
  obtain ⟨c1, hc1, bs, fl, pae, hval, _⟩ := run_inv [Op.malloc 24 true] (fresh zero_mem 4096)
    (fresh_inv zero_mem 4096 (by decide) (by decide) (by decide!)) (by decide!)
    (fun op hop => by
      simp only [List.mem_singleton] at hop
      rw [hop]; simp [Op.request])
  rw [hc] at hc1
  simp only [Option.some.injEq] at hc1
  rw [← hc1] at hval
  exact ⟨c, bs, fl, pae, hc, hv.1, hval, by decide, by decide, hv.2,
    realloc_failed_malloc c.heap bs fl pae hval 4112 5000 false (by decide) (by decide) hv.2⟩

/-! ## `realloc` with a request that overflows -/

theorem Seg_pa_true (m : Mem) (l : List Blk) (a a1 : Nat) (pa1 : Bool)
    (h : Seg m a true l a1 pa1) (hl : ∀ p, p ∈ l.getLast? → p.alloc = true) : pa1 = true := by
  rcases List.eq_nil_or_concat l with e | ⟨L, b, e⟩
  · rw [e] at h
    simp only [Seg] at h
    exact h.2
  · rw [List.concat_eq_append] at e
    have h1 := Seg_last_alloc _ _ _ _ _ _ h b (by rw [e]; simp)
    rw [← h1]
    exact hl b (by rw [e]; simp)

/-- When neither neighbour is free, `coalesce_block` only rewrites the block. -/
theorem coalesce_none_exact (s : Heap) (l1 : List Blk) (xa xs : Nat) (l2 : List Blk)
    (fl : Nat → List Nat) (pax pae : Bool) (h : PreCoal s l1 xa xs l2 fl pax pae)
    (ht : Tags s.mem xa xs false pax) (hp : pax = true)
    (hnext : ∀ n, n ∈ l2.head? → n.alloc = true) :
    coalesce_block s xa =
      ({ s with mem := write_block s.mem xa xs false pax (decide (xs = 16)) }, xa) ∧
    ∃ pae1, Valid { s with mem := write_block s.mem xa xs false pax (decide (xs = 16)) }
      (l1 ++ ⟨xa, xs, false⟩ :: l2) fl xa pae1 := by
  obtain ⟨nsize, nalloc, hnt, hn1, hn2⟩ := Seg_head_tags _ _ _ _ _ _ h.seg2 h.epi
  have hna : get_alloc s.mem (xa + xs) = nalloc := hnt.2.1
  have hnt1 : nalloc = true := by
    cases l2 with
    | nil => exact (hn1 rfl).2.1
    | cons n l3 => rw [(hn2 n l3 rfl).2.1]; exact hnext n (by simp)
  have hcb := coalesce_block_eq s xa xs pax nalloc ht hna h.x16
  rw [if_neg (by rw [hp]; simp), if_neg (by rw [hp]; simp), if_neg (by rw [hnt1]; simp)] at hcb
  have hnoadj := (NoAdj_mid _ _ _).1 h.noadj
  have hlast := Seg_last_alloc _ _ _ _ _ _ h.seg1
  have hn : NoAdj (l1 ++ ⟨xa, xs, false⟩ :: l2) := by
    rw [NoAdj_mid]
    exact ⟨hnoadj.1, hnoadj.2.1, fun p hp1 => Or.inl (by rw [hlast p hp1, hp]),
      fun c hc => Or.inr (hnext c hc)⟩
  exact ⟨hcb, PreCoal_finish _ _ _ _ _ _ _ _ h hn⟩

/-- The layout after `free` of a block whose neighbours are allocated. -/
theorem free_exact_nocoal (s : Heap) (l1 l2 : List Blk) (x : Blk) (fl : Nat → List Nat)
    (pae : Bool) (h : Valid s (l1 ++ x :: l2) fl 0 pae) (hal : x.alloc = true)
    (hprev : ∀ p, p ∈ l1.getLast? → p.alloc = true)
    (hnext : ∀ n, n ∈ l2.head? → n.alloc = true) :
    ∃ fl1 pae1, Valid (free s (x.addr + 8)) (l1 ++ ⟨x.addr, x.size, false⟩ :: l2) fl1 0 pae1 ∧
      (free s (x.addr + 8)).lo = s.lo ∧ (free s (x.addr + 8)).brk = s.brk := by
  obtain ⟨pax, pae1, hpc, ht⟩ := Valid_free_write s l1 l2 x fl pae h hal
  have hp : pax = true := Seg_pa_true _ _ _ _ _ hpc.seg1 hprev
  obtain ⟨hcb, pae2, hv⟩ := coalesce_none_exact _ l1 x.addr x.size l2 fl pax pae1 hpc ht hp hnext
  have hins := Valid_insert _ _ fl pae2 ⟨x.addr, x.size, false⟩ hv (by simp) rfl
  rw [free_eq s _ (by omega), Nat.add_sub_cancel, hcb]
  exact ⟨_, pae2, hins, by rw [insert_lo], by rw [insert_brk]⟩

/-- The layout after the placement of a request in a free block: the block is cut down
to the adjusted size when the remainder can be a block, and taken whole otherwise. -/
theorem place_exact (s : Heap) (l1 l2 : List Blk) (x : Blk) (fl : Nat → List Nat) (pae : Bool)
    (h : Valid s (l1 ++ x :: l2) fl 0 pae) (hfree : x.alloc = false)
    (asize : Nat) (h16 : 16 ≤ asize) (hm : asize % 16 = 0) (hle : asize ≤ x.size) :
    ∃ fl1 pae1, Valid (place s x.addr asize)
      (l1 ++ (if asize = x.size then [⟨x.addr, x.size, true⟩]
        else [⟨x.addr, asize, true⟩, ⟨x.addr + asize, x.size - asize, false⟩]) ++ l2) fl1 0 pae1 ∧
      (place s x.addr asize).lo = s.lo ∧ (place s x.addr asize).brk = s.brk := by
  have hx : x ∈ l1 ++ x :: l2 := by simp
  obtain ⟨htm, hts, hta, hlo, hhi, hb16, hbm, hal8⟩ := Valid_block_tags _ _ _ _ _ h x hx
  obtain ⟨pae1, hv⟩ := Valid_alloc s l1 l2 x fl pae h hfree
  have hnext := NoAdj_next _ _ _ h.noadj hfree
  have htop := h.top
  have hlo2 : (delete { s with mem := write_block s.mem x.addr x.size true (get_prev_alloc s.mem x.addr) (get_mini s.mem x.addr) } x.addr).lo = s.lo := delete_lo _ _
  have hbrk2 : (delete { s with mem := write_block s.mem x.addr x.size true (get_prev_alloc s.mem x.addr) (get_mini s.mem x.addr) } x.addr).brk = s.brk := delete_brk _ _
  unfold place
  dsimp only
  rw [hts]
  generalize delete { s with mem := write_block s.mem x.addr x.size true (get_prev_alloc s.mem x.addr) (get_mini s.mem x.addr) } x.addr = s2 at hv hlo2 hbrk2 ⊢
  have hx2 : (⟨x.addr, x.size, true⟩ : Blk) ∈ l1 ++ (⟨x.addr, x.size, true⟩ : Blk) :: l2 := by simp
  have hts2 : get_size s2.mem x.addr = x.size := (Valid_block_tags _ _ _ _ _ hv _ hx2).2.1
  by_cases heq : asize = x.size
  · rw [if_pos heq]
    have hres : (if x.size > min_block_size then
        match split_block s2.mem x.addr asize with
        | (m, rest) => if rest ≠ 0 then insert { s2 with mem := m } rest else { s2 with mem := m }
        else s2) = s2 := by
      by_cases hgt : x.size > min_block_size
      · rw [if_pos hgt, heq, split_block_none s2.mem x.addr x.size hts2 (by omega)]
        dsimp only
        rw [if_neg (by simp)]
      · rw [if_neg hgt]
    rw [hres]
    have el : l1 ++ [(⟨x.addr, x.size, true⟩ : Blk)] ++ l2 = l1 ++ ⟨x.addr, x.size, true⟩ :: l2 := by
      simp
    rw [el]
    exact ⟨_, pae1, hv, hlo2, hbrk2⟩
  · rw [if_neg heq]
    have h1 : asize + 16 ≤ x.size := by omega
    have hgt : x.size > min_block_size := by unfold min_block_size dsize wsize; omega
    rw [if_pos hgt]
    obtain ⟨pae2, hv2, hr⟩ := Valid_split s2 l1 l2 x.addr x.size asize _ pae1 hv hnext h1 h16 hm
    have hsb := split_block_eq s2.mem x.addr asize x.size hts2 h1 (by omega) h16 hm
    rw [hsb] at hv2
    dsimp only at hv2
    have hins := Valid_insert _ _ _ pae2 ⟨x.addr + asize, x.size - asize, false⟩ hv2 (by simp) rfl
    rw [hsb]
    dsimp only
    rw [if_pos (by omega)]
    have el : l1 ++ [(⟨x.addr, asize, true⟩ : Blk), ⟨x.addr + asize, x.size - asize, false⟩] ++ l2 =
        l1 ++ ⟨x.addr, asize, true⟩ :: ⟨x.addr + asize, x.size - asize, false⟩ :: l2 := by simp
    rw [el]
    exact ⟨_, pae2, hins, by rw [insert_lo]; exact hlo2, by rw [insert_brk]; exact hbrk2⟩

/-- The layout after a successful `extend_heap` behind an allocated last block (or behind
the prologue): one free block of the rounded size is appended. -/
theorem extend_exact (s : Heap) (bs : List Blk) (fl : Nat → List Nat)
    (h : Valid s bs fl 0 true) (size : Nat) (grow : Bool)
    (hm : round_up size dsize % 16 = 0) (h16 : 16 < round_up size dsize)
    (hc : grow = true ∧ s.lo + s.brk + round_up size dsize < 2 ^ 64) :
    ∃ fl1 pae1, Valid (extend_heap s size grow).1
        (bs ++ [⟨s.lo + s.brk - 8, round_up size dsize, false⟩]) fl1 0 pae1 ∧
      (extend_heap s size grow).2 = s.lo + s.brk - 8 ∧
      (extend_heap s size grow).1.lo = s.lo ∧
      (extend_heap s size grow).1.brk = s.brk + round_up size dsize := by
  rw [extend_heap_ok s size grow hc]
  have hpa : get_prev_alloc s.mem (s.lo + s.brk - 8) = true := h.epi.2.2.2
  rw [hpa, extend_mem_eq _ _ _ _ hm h16 (by omega)]
  obtain ⟨hpc, ht⟩ := extend_precoal s bs fl true h _ hm h16 hc.2
  obtain ⟨hcb, pae2, hv⟩ := coalesce_none_exact _ bs _ _ [] fl true false hpc ht rfl
    (fun n hn => by simp at hn)
  have hins := Valid_insert _ _ fl pae2 ⟨s.lo + s.brk - 8, round_up size dsize, false⟩ hv
    (by simp) rfl
  dsimp only
  rw [hcb]
  exact ⟨_, pae2, hins, rfl, by rw [insert_lo], by rw [insert_brk]⟩

/-- The layout after a successful `mm_init`: one free block of `chunksize` bytes. -/
theorem mm_init_exact (s : Heap) (grow : Bool) (hlo : 0 < s.lo) (hal : s.lo % 16 = 0)
    (hbrk : s.brk = 0) (hok : (mm_init s grow).2 = true) :
    ∃ fl pae, Valid (mm_init s grow).1 [⟨s.lo + 8, 4096, false⟩] fl 0 pae ∧
      (mm_init s grow).1.lo = s.lo ∧ (mm_init s grow).1.brk = 4112 := by
  by_cases hc : grow = true ∧ s.lo + s.brk + 2 * wsize < 2 ^ 64
  · rw [mm_init_ok s grow hc] at hok ⊢
    have hv := init_state_valid s hlo hal hbrk (by
      have := hc.2; rw [hbrk] at this; unfold wsize at this; omega)
    have hru := round_up_eq chunksize (by unfold chunksize; norm_num)
    have hch : chunksize = 4096 := by unfold chunksize; norm_num
    by_cases hc2 : grow = true ∧ s.lo + (s.brk + 2 * wsize) + round_up chunksize dsize < 2 ^ 64
    · obtain ⟨fl1, pae1, hv1, hres, hlo1, hbrk1⟩ := extend_exact _ _ _ hv chunksize grow
        (by rw [hru, hch]) (by rw [hru, hch]; norm_num) hc2
      dsimp only at hres hlo1 hbrk1 hv1
      have e1 : s.lo + (s.brk + 2 * wsize) - 8 = s.lo + 8 := by
        rw [hbrk]; unfold wsize; omega
      have e2 : round_up chunksize dsize = 4096 := by rw [hru, hch]
      rw [e1, e2] at hv1
      rw [e1] at hres
      rw [hres, if_neg (by omega)]
      dsimp only
      refine ⟨fl1, pae1, by simpa using hv1, hlo1, ?_⟩
      rw [hbrk1, e2, hbrk]
      unfold wsize
      norm_num
    · rw [extend_heap_fail _ chunksize grow hc2] at hok
      simp at hok
  · rw [mm_init_fail s grow hc] at hok
    simp at hok

/-! ## Reuse of a released block -/

theorem malloc_fit (s : Heap) (bs : List Blk) (fl : Nat → List Nat) (pae : Bool)
    (h : Valid s bs fl 0 pae) (size fuel : Nat) (hf : s.brk ≤ fuel) (hs : size ≠ 0)
    (b : Blk) (hb : b ∈ bs) (hbf : b.alloc = false) (hfit : adjust size ≤ b.size) :
    ∃ x, x ∈ bs ∧ x.alloc = false ∧ adjust size ≤ x.size ∧
      find_bucket x.size ≤ find_bucket b.size ∧
      ∀ g, malloc fuel s size g = some (place s x.addr (adjust size), x.addr + 8) := by
  rcases malloc_cases s bs fl pae h size fuel true hf with
    ⟨h0, _⟩ | ⟨_, x, hx1, hx2, hx3, _, hx5, hm⟩ | ⟨_, _, hno, _⟩
  · exact absurd h0 hs
  · exact ⟨x, hx1, hx2, hx3, hx5 b hb hbf hfit, hm⟩
  · have := hno b hb hbf
    omega

/-- C20: on the heap that a successful `mm_init` leaves (at any non-null, 16-byte
aligned address, over any memory contents), and whatever the growth primitive would
answer: `malloc 24` returns a non-null `P1`, a second `malloc 24` returns a non-null
`P2 ≠ P1`, and after `free P1` a third `malloc 24` returns `P1` again. -/
theorem malloc_reuses_freed_block (m : Mem) (lo : Nat) (g1 g2 g3 : Bool) (hlo : 0 < lo)
    (hal : lo % 16 = 0) (hinit : (mm_init (empty_heap m lo) true).2 = true) :
    ∃ s1 s2 s3 P1 P2,
      malloc (fresh m lo).heap.brk (fresh m lo).heap 24 g1 = some (s1, P1) ∧ P1 ≠ 0 ∧
      malloc s1.brk s1 24 g2 = some (s2, P2) ∧ P2 ≠ 0 ∧ P2 ≠ P1 ∧
      malloc (free s2 P1).brk (free s2 P1) 24 g3 = some (s3, P1) := by
  have hadj : adjust 24 = 32 := by decide
  obtain ⟨fl0, pae0, hv0, hlo0, hbrk0⟩ := mm_init_exact (empty_heap m lo) true hlo hal rfl hinit
  have elo : (empty_heap m lo).lo = lo := rfl
  rw [elo] at hv0 hlo0
  show ∃ s1 s2 s3 P1 P2,
    malloc (mm_init (empty_heap m lo) true).1.brk (mm_init (empty_heap m lo) true).1 24 g1 =
      some (s1, P1) ∧ _
  generalize (mm_init (empty_heap m lo) true).1 = S0 at hv0 hlo0 hbrk0 ⊢
  -- first call
  obtain ⟨x1, hx1, hx1f, hx1s, _, hm1⟩ := malloc_fit S0 _ fl0 pae0 hv0 24 S0.brk (le_refl _)
    (by decide) ⟨lo + 8, 4096, false⟩ (by simp) rfl (by rw [hadj]; norm_num)
  have ex1 : x1 = ⟨lo + 8, 4096, false⟩ := by simpa using hx1
  rw [ex1, hadj] at hm1
  obtain ⟨fl1, pae1, hv1, hlo1, hbrk1⟩ := place_exact S0 [] [] ⟨lo + 8, 4096, false⟩ fl0 pae0
    hv0 rfl 32 (by norm_num) (by norm_num) (by norm_num)
  simp only [List.nil_append, List.append_nil, show ¬ (32 = 4096) by norm_num, if_false] at hv1
  dsimp only at hm1 hlo1 hbrk1
  generalize place S0 (lo + 8) 32 = S1 at hv1 hlo1 hbrk1 hm1
  -- second call
  obtain ⟨x2, hx2, hx2f, hx2s, _, hm2⟩ := malloc_fit S1 _ fl1 pae1 hv1 24 S1.brk (le_refl _)
    (by decide) ⟨lo + 8 + 32, 4096 - 32, false⟩ (by simp) rfl (by rw [hadj]; norm_num)
  have ex2 : x2 = ⟨lo + 8 + 32, 4096 - 32, false⟩ := by
    simp only [List.mem_cons, List.mem_singleton, List.not_mem_nil, or_false] at hx2
    rcases hx2 with e | e
    · rw [e] at hx2f; simp at hx2f
    · exact e
  rw [ex2, hadj] at hm2
  obtain ⟨fl2, pae2, hv2, hlo2, hbrk2⟩ := place_exact S1 [⟨lo + 8, 32, true⟩] []
    ⟨lo + 8 + 32, 4096 - 32, false⟩ fl1 pae1 hv1 rfl 32 (by norm_num) (by norm_num)
    (by norm_num)
  simp only [List.append_nil, show ¬ (32 = 4096 - 32) by norm_num, if_false,
    List.singleton_append, List.cons_append, List.nil_append] at hv2
  dsimp only at hm2 hlo2 hbrk2
  generalize place S1 (lo + 8 + 32) 32 = S2 at hv2 hlo2 hbrk2 hm2
  -- the release of the first block
  obtain ⟨fl3, pae3, hv3, hlo3, hbrk3⟩ := free_exact_nocoal S2 []
    [⟨lo + 8 + 32, 32, true⟩, ⟨lo + 8 + 32 + 32, 4096 - 32 - 32, false⟩] ⟨lo + 8, 32, true⟩
    fl2 pae2 hv2 rfl (fun p hp => by simp at hp) (fun n hn => by
      simp only [List.head?_cons, Option.mem_def, Option.some.injEq] at hn
      rw [← hn])
  dsimp only at hv3 hlo3 hbrk3
  simp only [List.nil_append] at hv3
  generalize hS3 : free S2 (lo + 8 + 8) = S3 at hv3 hlo3 hbrk3
  -- third call
  obtain ⟨x3, hx3, hx3f, hx3s, hx3b, hm3⟩ := malloc_fit S3 _ fl3 pae3 hv3 24 S3.brk (le_refl _)
    (by decide) ⟨lo + 8, 32, false⟩ (by simp) rfl (by rw [hadj])
  have ex3 : x3 = ⟨lo + 8, 32, false⟩ := by
    simp only [List.mem_cons, List.mem_singleton, List.not_mem_nil, or_false] at hx3
    rcases hx3 with e | e | e
    · exact e
    · rw [e] at hx3f; simp at hx3f
    · rw [e] at hx3b
      dsimp only at hx3b
      exact absurd hx3b (by decide)
  rw [ex3, hadj] at hm3
  dsimp only at hm3
  refine ⟨S1, S2, place S3 (lo + 8) 32, lo + 8 + 8, lo + 8 + 32 + 8, hm1 g1, by omega, hm2 g2,
    by omega, by omega, ?_⟩
  rw [hS3]
  exact hm3 g3

set_option maxRecDepth 100000 in
theorem malloc_reuses_freed_block_witness :
    0 < 4096 ∧ 4096 % 16 = 0 ∧ (mm_init (empty_heap zero_mem 4096) true).2 = true ∧
    ∃ s1 s2 s3 P1 P2,
      malloc (fresh zero_mem 4096).heap.brk (fresh zero_mem 4096).heap 24 true =
        some (s1, P1) ∧ P1 ≠ 0 ∧
      malloc s1.brk s1 24 false = some (s2, P2) ∧ P2 ≠ 0 ∧ P2 ≠ P1 ∧
      malloc (free s2 P1).brk (free s2 P1) 24 true = some (s3, P1) :=
  ⟨by decide, by decide, by decide!,
    malloc_reuses_freed_block zero_mem 4096 true false true (by decide) (by decide) (by decide!)⟩

/-! ## The size classes -/

/-- C29: `find_bucket size` is 0 for `size ≤ 16`, is `k` (for `1 ≤ k ≤ 13`) exactly when
`2 ^ (k + 3) < size ≤ 2 ^ (k + 4)`, and is 14 for `size > 131072`; it is monotone in the
size and always less than `BUCKET_NUM = 15`. -/
theorem find_bucket_ranges (size : Nat) :
    (size ≤ 16 → find_bucket size = 0) ∧
    (∀ k, 1 ≤ k → k ≤ 13 → (find_bucket size = k ↔ 2 ^ (k + 3) < size ∧ size ≤ 2 ^ (k + 4))) ∧
    (131072 < size → find_bucket size = 14) ∧
    (∀ size1, size ≤ size1 → find_bucket size ≤ find_bucket size1) ∧
    find_bucket size < BUCKET_NUM ∧ BUCKET_NUM = 15 := by
  refine ⟨fun h => (find_bucket_zero size).2 h, fun k hk1 hk2 => ?_, fun h => ?_,
    fun size1 h => find_bucket_mono size size1 h, find_bucket_lt size, rfl⟩
  · have h1 := find_bucket_le_iff size k (by omega)
    have h2 := find_bucket_le_iff size (k - 1) (by omega)
    interval_cases k <;> norm_num at h1 h2 ⊢ <;> constructor <;> intro h <;> omega
  · have h1 := find_bucket_le_iff size 13 (by norm_num)
    have h2 := find_bucket_lt size
    norm_num at h1
    omega

theorem find_bucket_ranges_witness :
    find_bucket 16 = 0 ∧ find_bucket 100 = 3 ∧ find_bucket 131073 = 14 :=
  ⟨(find_bucket_ranges 16).1 (by decide),
    ((find_bucket_ranges 100).2.1 3 (by decide) (by decide)).2 ⟨by decide, by decide⟩,
    (find_bucket_ranges 131073).2.2.1 (by decide)⟩

/-! ## Completeness of the search -/

/-- C28: on a valid heap and for a size `a ≥ 16`, `find_fit a` finishes; it returns
`NULL` exactly when no block in the index has `a` bytes or more (equivalently, no free
block of the heap has), and every other result is a free block of the heap with at
least `a` bytes that is listed in the bucket of its size. -/
theorem find_fit_null_iff (s : Heap) (bs : List Blk) (fl : Nat → List Nat) (pae : Bool)
    (h : Valid s bs fl 0 pae) (a : Nat) (h16 : 16 ≤ a) :
    ∃ r, find_fit s.brk s a = some r ∧
      (r = 0 ↔ ∀ i, i < 15 → ∀ y, y ∈ fl i → get_size s.mem y < a) ∧
      (r = 0 ↔ ∀ b, b ∈ bs → b.alloc = false → b.size < a) ∧
      (r ≠ 0 → ∃ b, b ∈ bs ∧ b.addr = r ∧ b.alloc = false ∧ a ≤ b.size ∧
        get_alloc s.mem r = false ∧ a ≤ get_size s.mem r ∧ r ∈ fl (find_bucket b.size)) := by
  have hgs : ∀ b, b ∈ bs → get_size s.mem b.addr = b.size := fun b hb =>
    (Valid_block_tags _ _ _ _ _ h b hb).2.1
  have hpos : ∀ b, b ∈ bs → b.addr ≠ 0 := fun b hb => by
    have := (Valid_block_tags _ _ _ _ _ h b hb).2.2.2.1
    omega
  have hinfl : ∀ b, b ∈ bs → b.alloc = false → b.addr ∈ fl (find_bucket b.size) := by
    intro b hb hbf
    exact (h.mem_fl _ (find_bucket_lt _) _).2 ⟨⟨b, hb, rfl, hbf, rfl⟩, hpos b hb⟩
  have hidx : (∀ i, i < 15 → ∀ y, y ∈ fl i → get_size s.mem y < a) ↔
      ∀ b, b ∈ bs → b.alloc = false → b.size < a := by
    constructor
    · intro hi b hb hbf
      have := hi _ (find_bucket_lt _) _ (hinfl b hb hbf)
      rw [hgs b hb] at this
      exact this
    · intro hb i hi y hy
      obtain ⟨⟨b, hb1, hb2, hb3, _⟩, _⟩ := (h.mem_fl i hi y).1 hy
      rw [← hb2, hgs b hb1]
      exact hb b hb1 hb3
  obtain ⟨r, hr, hcase⟩ := find_fit_full s bs fl pae h a s.brk (le_refl _) h16
  have hmain : (r = 0 ↔ ∀ b, b ∈ bs → b.alloc = false → b.size < a) := by
    rcases hcase with ⟨h0, hno⟩ | ⟨x, hx1, hx2, hx3, hx4, _⟩
    · exact ⟨fun _ => hno, fun _ => h0⟩
    · constructor
      · intro h0
        exact absurd (hx3.trans h0) (hpos x hx1)
      · intro hno
        have := hno x hx1 hx2
        omega
  refine ⟨r, hr, hmain.trans hidx.symm, hmain, fun hne => ?_⟩
  rcases hcase with ⟨h0, _⟩ | ⟨x, hx1, hx2, hx3, hx4, _⟩
  · exact absurd h0 hne
  · refine ⟨x, hx1, hx3, hx2, hx4, ?_, ?_, ?_⟩
    · rw [← hx3]; rw [(Valid_block_tags _ _ _ _ _ h x hx1).2.2.1]; exact hx2
    · rw [← hx3, hgs x hx1]; exact hx4
    · rw [← hx3]; exact hinfl x hx1 hx2

set_option maxRecDepth 100000 in
theorem find_fit_null_iff_witness :
    ∃ bs fl pae, Valid (fresh zero_mem 4096).heap bs fl 0 pae ∧ 16 ≤ 32 ∧
      ∃ r, find_fit (fresh zero_mem 4096).heap.brk (fresh zero_mem 4096).heap 32 = some r ∧
        (r = 0 ↔ ∀ i, i < 15 → ∀ y, y ∈ fl i →
          get_size (fresh zero_mem 4096).heap.mem y < 32) ∧
        (r = 0 ↔ ∀ b, b ∈ bs → b.alloc = false → b.size < 32) ∧
        (r ≠ 0 → ∃ b, b ∈ bs ∧ b.addr = r ∧ b.alloc = false ∧ 32 ≤ b.size ∧
          get_alloc (fresh zero_mem 4096).heap.mem r = false ∧
          32 ≤ get_size (fresh zero_mem 4096).heap.mem r ∧ r ∈ fl (find_bucket b.size)) :=
  fresh_valid.elim fun bs h1 => h1.elim fun fl h2 => h2.elim fun pae hv =>
    ⟨bs, fl, pae, hv, by decide, find_fit_null_iff _ bs fl pae hv 32 (by decide)⟩

/-! ## `find_fit` against its reference -/

theorem find_fit_scan_fold (m : Mem) (asize : Nat) (pv : Nat → Nat) (l : List Nat) :
    ∀ (fuel prev block best level : Nat), LL (get_next m) pv prev block l → l.length < fuel →
      level ≠ 0 →
      find_fit_scan m asize fuel block best level =
        some (((l.filter fun b => decide (asize ≤ get_size m b)).take level).foldl
          (fun best x => if best = 0 ∨ get_size m best > get_size m x then x else best) best) := by
  induction l with
  | nil =>
    intro fuel prev block best level hl hf _
    simp only [LL] at hl
    cases fuel with
    | zero => simp at hf
    | succ f =>
      unfold find_fit_scan
      rw [if_pos hl]
      simp
  | cons x xs ih =>
    intro fuel prev block best level hl hf hlev
    simp only [LL] at hl
    obtain ⟨e, hx0, _, hl1⟩ := hl
    cases fuel with
    | zero => simp at hf
    | succ f =>
      unfold find_fit_scan
      rw [if_neg (by rw [e]; exact hx0)]
      dsimp only
      rw [e]
      have hf1 : xs.length < f := by simp at hf; omega
      obtain ⟨lv, elv⟩ : ∃ lv, level = lv + 1 := ⟨level - 1, by omega⟩
      by_cases h1 : asize ≤ get_size m x
      · simp only [h1, decide_True, if_true, List.filter_cons_of_pos]
        rw [elv, List.take_succ_cons, List.foldl_cons, Nat.add_sub_cancel]
        by_cases h2 : lv = 0
        · rw [if_pos h2, h2]
          simp
        · rw [if_neg h2]
          exact ih f x _ _ lv hl1 hf1 h2
      · simp only [h1, decide_False, Bool.false_eq_true, if_false]
        rw [if_neg hlev, List.filter_cons_of_neg (by simp [h1])]
        exact ih f x _ _ level hl1 hf1 hlev

theorem find_first_min (size : Nat → Nat) (pre post : List Nat) (r : Nat)
    (hmin : ∀ c, c ∈ pre ++ r :: post → size r ≤ size c)
    (hpre : ∀ c, c ∈ pre → size r < size c) :
    smallest size (pre ++ r :: post) = r := by
  unfold smallest
  have hr : (pre ++ r :: post).all (fun c => decide (size r ≤ size c)) = true := by
    rw [List.all_eq_true]
    intro c hc
    simpa using hmin c hc
  have hnot : ∀ c, c ∈ pre →
      (pre ++ r :: post).all (fun d => decide (size c ≤ size d)) = false := by
    intro c hc
    rw [Bool.eq_false_iff]
    intro hall
    rw [List.all_eq_true] at hall
    have := hall r (by simp)
    have := hpre c hc
    simp at *
    omega
  have key : ∀ (L pre1 : List Nat), L.all (fun c => decide (size r ≤ size c)) = true →
      (∀ c, c ∈ pre1 → L.all (fun d => decide (size c ≤ size d)) = false) →
      (pre1 ++ r :: post).find? (fun b => L.all fun c => decide (size b ≤ size c)) = some r := by
    intro L pre1 h1 h2
    induction pre1 with
    | nil => simp [List.find?_cons, h1]
    | cons c pre1 ih =>
      rw [List.cons_append, List.find?_cons, h2 c (List.mem_cons_self _ _)]
      exact ih (fun d hd => h2 d (List.mem_cons_of_mem _ hd))
  rw [key _ pre hr hnot]
  rfl

theorem fold_first_min (size : Nat → Nat) (l : List Nat) :
    ∀ b, b ≠ 0 → (∀ y, y ∈ l → y ≠ 0) →
      ∃ pre post r, b :: l = pre ++ r :: post ∧
        l.foldl (fun best x => if best = 0 ∨ size best > size x then x else best) b = r ∧
        (∀ c, c ∈ b :: l → size r ≤ size c) ∧ (∀ c, c ∈ pre → size r < size c) := by
  induction l with
  | nil =>
    intro b _ _
    exact ⟨[], [], b, rfl, rfl, fun c hc => by simp at hc; rw [hc], fun c hc => by simp at hc⟩
  | cons x xs ih =>
    intro b hb hl
    have hx0 : x ≠ 0 := hl x (List.mem_cons_self _ _)
    have hxs : ∀ y, y ∈ xs → y ≠ 0 := fun y hy => hl y (List.mem_cons_of_mem _ hy)
    rw [List.foldl_cons]
    by_cases hgt : size b > size x
    · rw [if_pos (Or.inr hgt)]
      obtain ⟨pre, post, r, e, hf, hmin, hpre⟩ := ih x hx0 hxs
      have hrx := hmin x (List.mem_cons_self _ _)
      refine ⟨b :: pre, post, r, by rw [e]; rfl, hf, fun c hc => ?_, fun c hc => ?_⟩
      · rcases List.mem_cons.1 hc with hc | hc
        · rw [hc]; omega
        · exact hmin c hc
      · rcases List.mem_cons.1 hc with hc | hc
        · rw [hc]; omega
        · exact hpre c hc
    · rw [if_neg (by rintro (h | h); exact hb h; exact hgt h)]
      obtain ⟨pre, post, r, e, hf, hmin, hpre⟩ := ih b hb hxs
      cases pre with
      | nil =>
        simp only [List.nil_append, List.cons.injEq] at e
        obtain ⟨e1, e2⟩ := e
        refine ⟨[], x :: xs, r, by rw [e1]; rfl, hf, fun c hc => ?_, fun c hc => by simp at hc⟩
        rcases List.mem_cons.1 hc with hc | hc
        · rw [hc, e1]
        · rcases List.mem_cons.1 hc with hc | hc
          · rw [hc, ← e1]; omega
          · exact hmin c (List.mem_cons_of_mem _ hc)
      | cons p pre =>
        simp only [List.cons_append, List.cons.injEq] at e
        obtain ⟨e1, e2⟩ := e
        have hrb := hpre p (List.mem_cons_self _ _)
        rw [← e1] at hrb
        refine ⟨b :: x :: pre, post, r, by rw [e2]; rfl, hf, fun c hc => ?_, fun c hc => ?_⟩
        · rcases List.mem_cons.1 hc with hc | hc
          · rw [hc]; omega
          · rcases List.mem_cons.1 hc with hc | hc
            · rw [hc]; omega
            · exact hmin c (List.mem_cons_of_mem _ hc)
        · rcases List.mem_cons.1 hc with hc | hc
          · rw [hc]; omega
          · rcases List.mem_cons.1 hc with hc | hc
            · rw [hc]; omega
            · exact hpre c (by rw [← e1]; exact List.mem_cons_of_mem _ hc)

theorem fold_smallest (size : Nat → Nat) (l : List Nat) (hl : ∀ y, y ∈ l → y ≠ 0) :
    l.foldl (fun best x => if best = 0 ∨ size best > size x then x else best) 0 =
      smallest size l := by
  cases l with
  | nil => rfl
  | cons x xs =>
    rw [List.foldl_cons, if_pos (Or.inl rfl)]
    obtain ⟨pre, post, r, e, hf, hmin, hpre⟩ := fold_first_min size xs x
      (hl x (List.mem_cons_self _ _)) (fun y hy => hl y (List.mem_cons_of_mem _ hy))
    rw [hf, e, find_first_min size pre post r (by rw [← e]; exact hmin) hpre]

theorem smallest_zero_iff (size : Nat → Nat) (l : List Nat) (hl : ∀ y, y ∈ l → y ≠ 0) :
    smallest size l = 0 ↔ l = [] := by
  constructor
  · intro h0
    cases l with
    | nil => rfl
    | cons x xs =>
      exfalso
      obtain ⟨pre, post, r, e, _, hmin, hpre⟩ := fold_first_min size xs x
        (hl x (List.mem_cons_self _ _)) (fun y hy => hl y (List.mem_cons_of_mem _ hy))
      rw [e, find_first_min size pre post r (by rw [← e]; exact hmin) hpre] at h0
      exact hl r (by rw [e]; simp) h0
  · intro e
    rw [e]
    rfl

theorem first_fits_nil_iff (size : Nat → Nat) (a : Nat) (l : List Nat) :
    first_fits size a l = [] ↔ (l.any fun b => decide (a ≤ size b)) = false := by
  unfold first_fits
  rw [List.take_eq_nil_iff, List.filter_eq_nil_iff, Bool.eq_false_iff, Ne, List.any_eq_true]
  constructor
  · rintro (h | h)
    · exact absurd h (by norm_num)
    · rintro ⟨x, hx1, hx2⟩
      exact h x hx1 hx2
  · intro h
    right
    intro x hx1 hx2
    exact h ⟨x, hx1, hx2⟩

theorem first_fits_sub (size : Nat → Nat) (a : Nat) (l : List Nat) :
    ∀ y, y ∈ first_fits size a l → y ∈ l := by
  intro y hy
  unfold first_fits at hy
  exact (List.mem_filter.1 (List.mem_of_mem_take hy)).1

theorem find_fit_scan_ref (s : Heap) (bs : List Blk) (fl : Nat → List Nat) (x : Nat)
    (pae : Bool) (h : Valid s bs fl x pae) (asize fuel : Nat) (hf : s.brk ≤ fuel)
    (bucket : Nat) (hb : bucket < 15) (hb0 : bucket = 0 → s.seglist 0 = 0) :
    find_fit_scan s.mem asize fuel (s.seglist bucket) 0 5 =
      some (smallest (get_size s.mem) (first_fits (get_size s.mem) asize (fl bucket))) := by
  have hL := h.lists bucket hb
  unfold FList at hL
  by_cases h0 : bucket = 0
  · obtain ⟨f, ef⟩ : ∃ f, fuel = f + 1 := ⟨fuel - 1, by have := h.brk16; omega⟩
    subst h0
    rw [if_pos rfl] at hL
    have hnil : fl 0 = [] := (LL_nil_iff _ _ _ _ _ hL).1 (hb0 rfl)
    rw [ef, hb0 rfl, hnil]
    unfold find_fit_scan
    rw [if_pos rfl]
    rfl
  · rw [if_neg h0] at hL
    have hlen := Valid_fl_length _ _ _ _ _ h bucket hb
    rw [find_fit_scan_fold s.mem asize _ _ fuel 0 _ 0 5 hL (by omega) (by norm_num)]
    have hnz := LL_nonzero _ _ _ _ _ hL
    have hfs := fold_smallest (get_size s.mem) (first_fits (get_size s.mem) asize (fl bucket))
      (fun y hy => hnz y (first_fits_sub (get_size s.mem) asize (fl bucket) y hy))
    rw [← hfs]
    rfl

theorem find_fit_buckets_ref (s : Heap) (bs : List Blk) (fl : Nat → List Nat) (x : Nat)
    (pae : Bool) (h : Valid s bs fl x pae) (asize fuel : Nat) (hf : s.brk ≤ fuel) :
    ∀ k bucket, (bucket = 0 → s.seglist 0 = 0) → 15 ≤ bucket + k → bucket ≤ 15 →
      find_fit_buckets s asize fuel k bucket =
        some (match (List.range' bucket (15 - bucket)).find? (fun k =>
            (fl k).any fun b => decide (asize ≤ get_size s.mem b)) with
          | none => 0
          | some j => smallest (get_size s.mem) (first_fits (get_size s.mem) asize (fl j))) := by
  intro k
  induction k with
  | zero =>
    intro bucket _ hk hle
    have e : bucket = 15 := by omega
    rw [e]
    rfl
  | succ k ih =>
    intro bucket hb0 hk hle
    unfold find_fit_buckets BUCKET_NUM
    by_cases hb : bucket < 15
    · rw [if_pos hb, find_fit_scan_ref s bs fl x pae h asize fuel hf bucket hb hb0]
      dsimp only
      have hr : List.range' bucket (15 - bucket) =
          bucket :: List.range' (bucket + 1) (15 - (bucket + 1)) := by
        obtain ⟨n, en⟩ : ∃ n, 15 - bucket = n + 1 := ⟨15 - bucket - 1, by omega⟩
        rw [en, List.range'_succ]
        congr 2
        omega
      rw [hr, List.find?_cons]
      have hnz : ∀ y, y ∈ first_fits (get_size s.mem) asize (fl bucket) → y ≠ 0 := by
        intro y hy e0
        obtain ⟨b, hb1, hb2, _⟩ := Valid_index _ _ _ _ _ h bucket hb y
          (first_fits_sub _ _ _ y hy)
        have := (Valid_block_tags _ _ _ _ _ h b hb1).2.2.2.1
        omega
      by_cases hz : smallest (get_size s.mem) (first_fits (get_size s.mem) asize (fl bucket)) = 0
      · rw [if_pos hz]
        have := (first_fits_nil_iff _ _ _).1 ((smallest_zero_iff _ _ hnz).1 hz)
        rw [this]
        exact ih (bucket + 1) (fun hc => by omega) (by omega) (by omega)
      · rw [if_neg hz]
        have : ((fl bucket).any fun b => decide (asize ≤ get_size s.mem b)) = true := by
          by_contra hc
          rw [Bool.not_eq_true] at hc
          exact hz ((smallest_zero_iff _ _ hnz).2 ((first_fits_nil_iff _ _ _).2 hc))
        rw [this]
    · have e : bucket = 15 := by omega
      rw [if_neg hb, e]
      rfl

/-- C27: on a valid heap whose buckets hold the lists `fl 0`, `fl 1`, ..., and for a size
`a ≥ 16` (the precondition of `find_fit`), `find_fit a` finishes and returns the block of
the reference `find_fit_ref`: the head of the mini list when `a = 16` and this list is not
empty; otherwise, for the lowest bucket from `find_bucket a` on that holds a block of at
least `a` bytes, the smallest of the first five such blocks in the order of the list, the
earliest one among equals; and `NULL` when there is no such bucket. -/
theorem find_fit_refines (s : Heap) (bs : List Blk) (fl : Nat → List Nat) (pae : Bool)
    (h : Valid s bs fl 0 pae) (a : Nat) (h16 : 16 ≤ a) :
    find_fit s.brk s a = some (find_fit_ref (get_size s.mem) fl a) := by
  have hL := h.lists 0 (by norm_num)
  unfold FList at hL
  rw [if_pos rfl] at hL
  have hnil := LL_nil_iff _ _ _ _ _ hL
  unfold find_fit find_fit_ref lowest_bucket min_block_size dsize wsize BUCKET_NUM
  by_cases hc : a = 2 * 8 ∧ s.seglist 0 ≠ 0
  · rw [if_pos hc, if_pos ⟨by omega, fun e => hc.2 (hnil.2 e)⟩, LL_head _ _ _ _ _ hL]
  · rw [if_neg hc, if_neg (fun hd => hc ⟨by omega, fun e => hd.2 (hnil.1 e)⟩)]
    exact find_fit_buckets_ref s bs fl 0 pae h a s.brk (le_refl _) (15 + 1) (find_bucket a)
      (fun h0 => by
        have := (find_bucket_zero _).1 h0
        by_contra hne
        exact hc ⟨by omega, hne⟩) (by omega) (by have := find_bucket_lt a; omega)

set_option maxRecDepth 100000 in
theorem find_fit_refines_witness :
    ∃ bs fl pae, Valid (fresh zero_mem 4096).heap bs fl 0 pae ∧ 16 ≤ 32 ∧
      find_fit (fresh zero_mem 4096).heap.brk (fresh zero_mem 4096).heap 32 =
        some (find_fit_ref (get_size (fresh zero_mem 4096).heap.mem) fl 32) :=
  fresh_valid.elim fun bs h1 => h1.elim fun fl h2 => h2.elim fun pae hv =>
    ⟨bs, fl, pae, hv, by decide, find_fit_refines _ bs fl pae hv 32 (by decide)⟩

/-! ## `split_block` on an allocated block -/

/-- C24: for an allocated block at `b` of size `s` and a size `a` that is a multiple of
16 with `16 ≤ a ≤ s`: when `s - a ≥ 16`, `split_block b a` returns the address `b + a`,
leaves `b` allocated with size exactly `a` (and its `prev_alloc` bit as it was), and the
block at `b + a` is free, has size `s - a`, has `prev_alloc` set and carries the mini flag
exactly when `s - a = 16`; when `s - a < 16` it returns `NULL` and stores nothing. -/
theorem split_block_spec (m : Mem) (b s a : Nat) (pa : Bool) (hb : Tags m b s true pa)
    (h16 : 16 ≤ a) (hm : a % 16 = 0) (hle : a ≤ s) :
    (16 ≤ s - a →
      (split_block m b a).2 = b + a ∧
      get_alloc (split_block m b a).1 b = true ∧ get_size (split_block m b a).1 b = a ∧
      get_prev_alloc (split_block m b a).1 b = pa ∧
      get_alloc (split_block m b a).1 (b + a) = false ∧
      get_size (split_block m b a).1 (b + a) = s - a ∧
      get_prev_alloc (split_block m b a).1 (b + a) = true ∧
      get_mini (split_block m b a).1 (b + a) = decide (s - a = 16) ∧
      a + (s - a) = s) ∧
    (s - a < 16 → split_block m b a = (m, 0) ∧ get_size m b = s) := by
  have hlt := Tags_size_lt _ _ _ _ _ hb
  obtain ⟨hs16, _, hpa, _, hsz⟩ := hb
  constructor
  · intro hd
    rw [split_block_eq m b a s hsz (by omega) hlt h16 hm, hpa]
    obtain ⟨t1, f1⟩ := write_block_any m b a true pa h16 hm (by omega)
    obtain ⟨t2, f2⟩ := write_block_any (write_block m b a true pa (decide (a = 16))) (b + a)
      (s - a) false true hd (by omega) (by omega)
    have t3 := Tags_frame _ _ _ _ _ _ (f2 b (by omega) (by omega) (by omega) (by omega)) t1
    dsimp only
    exact ⟨rfl, t3.2.1, t3.2.2.2.2, t3.2.2.1, t2.2.1, t2.2.2.2.2, t2.2.2.1, t2.2.2.2.1, by omega⟩
  · intro hd
    refine ⟨?_, hsz⟩
    unfold split_block min_block_size dsize wsize
    dsimp only
    rw [hsz, wsub_small _ _ hle hlt, if_neg (by omega)]

set_option maxRecDepth 100000 in
theorem split_block_spec_witness :
    Tags (wr zero_mem 4104 (pack 64 true true)) 4104 64 true true ∧ 16 ≤ 32 ∧ 32 % 16 = 0 ∧
    32 ≤ 64 ∧
    (16 ≤ 64 - 32 →
      (split_block (wr zero_mem 4104 (pack 64 true true)) 4104 32).2 = 4104 + 32 ∧
      get_alloc (split_block (wr zero_mem 4104 (pack 64 true true)) 4104 32).1 4104 = true ∧
      get_size (split_block (wr zero_mem 4104 (pack 64 true true)) 4104 32).1 4104 = 32 ∧
      get_prev_alloc (split_block (wr zero_mem 4104 (pack 64 true true)) 4104 32).1 4104 = true ∧
      get_alloc (split_block (wr zero_mem 4104 (pack 64 true true)) 4104 32).1 (4104 + 32) =
        false ∧
      get_size (split_block (wr zero_mem 4104 (pack 64 true true)) 4104 32).1 (4104 + 32) =
        64 - 32 ∧
      get_prev_alloc (split_block (wr zero_mem 4104 (pack 64 true true)) 4104 32).1 (4104 + 32) =
        true ∧
      get_mini (split_block (wr zero_mem 4104 (pack 64 true true)) 4104 32).1 (4104 + 32) =
        decide (64 - 32 = 16) ∧
      32 + (64 - 32) = 64) ∧
    (64 - 32 < 16 → split_block (wr zero_mem 4104 (pack 64 true true)) 4104 32 =
      (wr zero_mem 4104 (pack 64 true true), 0) ∧
      get_size (wr zero_mem 4104 (pack 64 true true)) 4104 = 64) :=
  have ht : Tags (wr zero_mem 4104 (pack 64 true true)) 4104 64 true true :=
    Tags_pack _ _ _ _ _ (by decide) (by decide) (by norm_num) (wr_same _ _ _)
  ⟨ht, by decide, by decide, by decide,
    split_block_spec _ 4104 64 32 true ht (by decide) (by decide) (by decide)⟩

/-! ## What `coalesce_block` returns -/

theorem write_block_words (m : Mem) (x size : Nat) (pa : Bool) (nsize : Nat) (npa : Bool)
    (h32 : 32 ≤ size) (hm : size % 16 = 0) (hlt : size < 2 ^ 64)
    (hn : Tags m (x + size) nsize true npa) :
    write_block m x size false pa false x = pack size false pa ∧
    write_block m x size false pa false (x + size - 8) = pack size false pa := by
  have hd : decide (size = 16) = false := by simp; omega
  have e := write_block_eq m x size false pa (by omega) hm hlt
  rw [hd] at e
  have t1 := wb_own_tags m x size false pa (by omega) hm hlt
  have t2 : Tags (wb_own m x size false pa) (x + size) nsize true npa :=
    Tags_frame _ _ _ _ _ _ (wb_own_frame m x size false pa _ (by omega) (by omega)) hn
  have e2 := write_block_next_eq (wb_own m x size false pa) x size false nsize true npa
    (Tags_find_next _ _ _ _ _ t1) t1.2.2.2.2 (by omega) t2
  simp only [if_true] at e2
  have hown : wb_own m x size false pa x = pack size false pa ∧
      wb_own m x size false pa (x + size - 8) = pack size false pa := by
    unfold wb_own
    rw [if_neg (by omega), if_neg (by simp)]
    exact ⟨by rw [wr_other _ _ _ _ (by omega), wr_same], wr_same _ _ _⟩
  rw [e, e2]
  split_ifs
  · exact ⟨by rw [wr_other _ _ _ _ (by omega)]; exact hown.1,
      by rw [wr_other _ _ _ _ (by omega)]; exact hown.2⟩
  · exact ⟨by rw [wr_other _ _ _ _ (by omega)]; exact hown.1,
      by rw [wr_other _ _ _ _ (by omega)]; exact hown.2⟩

theorem PreCoal_next_tags (s : Heap) (l1 : List Blk) (xa xs : Nat) (l2 : List Blk)
    (fl : Nat → List Nat) (pax pae : Bool) (h : PreCoal s l1 xa xs l2 fl pax pae)
    (hnext : ∀ n l3, l2 = n :: l3 → n.alloc = true) :
    ∃ nsize, Tags s.mem (xa + xs) nsize true false := by
  obtain ⟨nsize, nalloc, hnt, hn1, hn2⟩ := Seg_head_tags _ _ _ _ _ _ h.seg2 h.epi
  have : nalloc = true := by
    cases l2 with
    | nil => exact (hn1 rfl).2.1
    | cons n l3 => rw [(hn2 n l3 rfl).2.1]; exact hnext n l3 rfl
  rw [this] at hnt
  exact ⟨nsize, hnt⟩

/-- The result of `coalesce_block` on a block that has just been marked free: `P` is the
free predecessor (if there is one) and `N` the free successor (if there is one); the
block returned starts where `P` started, has the sizes of the three added up, and when
a neighbour was absorbed its header and footer are the word
`pack total false prev_alloc`. -/
theorem coalesce_block_exact (s : Heap) (l1 : List Blk) (xa xs : Nat) (l2 : List Blk)
    (fl : Nat → List Nat) (pax pae : Bool) (h : PreCoal s l1 xa xs l2 fl pax pae)
    (ht : Tags s.mem xa xs false pax) :
    ∃ L1 P N L2 fl1 pae1,
      l1 = L1 ++ P ∧ l2 = N ++ L2 ∧ P.length ≤ 1 ∧ N.length ≤ 1 ∧
      (∀ b, b ∈ P ∨ b ∈ N → b.alloc = false) ∧
      (∀ q, q ∈ L1.getLast? → q.alloc = true) ∧ (∀ q, q ∈ L2.head? → q.alloc = true) ∧
      (coalesce_block s xa).2 = (P.head?.map Blk.addr).getD xa ∧
      Valid (coalesce_block s xa).1
        (L1 ++ ⟨(coalesce_block s xa).2, (P.map Blk.size).sum + xs + (N.map Blk.size).sum,
          false⟩ :: L2) fl1 (coalesce_block s xa).2 pae1 ∧
      (coalesce_block s xa).1.lo = s.lo ∧ (coalesce_block s xa).1.brk = s.brk ∧
      (P ≠ [] ∨ N ≠ [] →
        (coalesce_block s xa).1.mem (coalesce_block s xa).2 =
          pack ((P.map Blk.size).sum + xs + (N.map Blk.size).sum) false
            ((P.head?.map fun p => get_prev_alloc s.mem p.addr).getD pax) ∧
        (coalesce_block s xa).1.mem ((coalesce_block s xa).2 +
            ((P.map Blk.size).sum + xs + (N.map Blk.size).sum) - 8) =
          pack ((P.map Blk.size).sum + xs + (N.map Blk.size).sum) false
            ((P.head?.map fun p => get_prev_alloc s.mem p.addr).getD pax)) := by
  have htop := h.top
  have hle1 := Seg_le _ _ _ _ _ _ h.seg1
  have hle2 := Seg_le _ _ _ _ _ _ h.seg2
  have hx16 := h.x16
  have hxm := h.xm
  obtain ⟨nsize, nalloc, hnt, hn1, hn2⟩ := Seg_head_tags _ _ _ _ _ _ h.seg2 h.epi
  have hna : get_alloc s.mem (xa + xs) = nalloc := hnt.2.1
  have hnsz : get_size s.mem (xa + xs) = nsize := hnt.2.2.2.2
  have hnoadj := (NoAdj_mid _ _ _).1 h.noadj
  have hlast := Seg_last_alloc _ _ _ _ _ _ h.seg1
  have hcb := coalesce_block_eq s xa xs pax nalloc ht hna hx16
  have hpa : get_prev_alloc s.mem xa = pax := ht.2.2.1
  by_cases hp : pax = false
  · -- the previous block is free
    have hl1 : ∃ L p, l1 = L ++ [p] := by
      rcases List.eq_nil_or_concat l1 with e | ⟨L, p, e⟩
      · have h3 := h.seg1
        rw [e] at h3
        simp only [Seg] at h3
        rw [hp] at h3; simp at h3
      · exact ⟨L, p, by rw [e, List.concat_eq_append]⟩
    obtain ⟨L, p, e⟩ := hl1
    subst e
    obtain ⟨hxa, hpal⟩ := Seg_last _ _ _ _ _ _ _ h.seg1
    have hpfree : p.alloc = false := by rw [← hpal]; exact hp
    obtain ⟨pap, hsL, hph, hpf, _⟩ := Seg_cons_split _ _ _ _ _ _ _ _ h.seg1
    have hleL := Seg_le _ _ _ _ _ _ hsL
    have hp16 := hph.1
    have hpm := hph.2.1
    have hpsz : get_size s.mem p.addr = p.size := hph.2.2.2.2.2
    have hfp : find_prev s.mem xa = p.addr := by
      rw [hxa]; exact find_prev_eq _ _ hpf hpfree hp16 (by omega)
    have h1 := PreCoal_del_prev s L p xa xs l2 fl pax pae h hpfree
    have hLlast : ∀ q, q ∈ L.getLast? → q.alloc = true := by
      intro q hq
      rcases ((NoAdj_mid L [] p).1 hnoadj.1).2.2.1 q hq with h5 | h5
      · exact h5
      · rw [hpfree] at h5; simp at h5
    by_cases hnf : nalloc = false
    · rw [hcb, if_pos ⟨hp, hnf⟩, hfp]
      have hl2 : ∃ n l3, l2 = n :: l3 := by
        cases l2 with
        | nil => have := (hn1 rfl).2.1; rw [hnf] at this; simp at this
        | cons n l3 => exact ⟨n, l3, rfl⟩
      obtain ⟨n, l3, e⟩ := hl2
      obtain ⟨e1, e2, e3, e4⟩ := hn2 n l3 e
      subst e
      have hnfree : n.alloc = false := by rw [← e2]; exact hnf
      have h2 := PreCoal_del_next _ L p.addr (p.size + xs) n l3 _ _ pae h1 hnfree
      have hs2 := h.seg2
      simp only [Seg] at hs2
      have hnm := hs2.2.1.2.1
      have hle3 := Seg_le _ _ _ _ _ _ hs2.2.2.2
      have hl3 : ∀ c, c ∈ l3.head? → c.alloc = true := by
        intro c hc
        obtain ⟨l4, e5⟩ := head_eq_cons _ _ hc
        have h4 := hnoadj.2.1
        rw [e5] at h4
        unfold NoAdj at h4
        rw [List.chain'_cons] at h4
        rcases h4.1 with h5 | h5
        · rw [hnfree] at h5; simp at h5
        · exact h5
      have hn : NoAdj (L ++ ⟨p.addr, p.size + xs + n.size, false⟩ :: l3) := by
        rw [NoAdj_mid]
        have h3 := h2.noadj
        rw [NoAdj_mid] at h3
        exact ⟨h3.1, h3.2.1, fun q hq => Or.inl (hLlast q hq), fun c hc => Or.inr (hl3 c hc)⟩
      obtain ⟨pae1, hv⟩ := PreCoal_finish _ _ _ _ _ _ _ _ h2 hn
      have hd : decide (p.size + xs + n.size = 16) = false := by simp; omega
      rw [hd] at hv
      have hcn : coalesce_prev_next s p.addr (xa + xs) xs =
          ({ delete (delete s p.addr) n.addr with mem := write_block (delete (delete s p.addr) n.addr).mem p.addr (p.size + xs + n.size) false (get_prev_alloc s.mem p.addr) false }, p.addr) := by
        unfold coalesce_prev_next
        dsimp only
        rw [hnsz, e1, hpsz, e3, wadd_small xs _ (by omega), wadd_small _ _ (by omega),
          Nat.add_comm xs p.size]
      obtain ⟨ns, hnt2⟩ := PreCoal_next_tags _ _ _ _ _ _ _ _ h2
        (fun c l4 e5 => hl3 c (by rw [e5]; simp))
      have hw := write_block_words _ p.addr (p.size + xs + n.size) (get_prev_alloc s.mem p.addr)
        ns false (by omega) (by omega) (by omega) hnt2
      rw [hcn]
      refine ⟨L, [p], [n], l3, _, pae1, rfl, rfl, by simp, by simp, ?_, hLlast, hl3, by simp,
        by simpa using hv,
        by show (delete (delete s p.addr) n.addr).lo = s.lo; rw [delete_lo, delete_lo],
        by show (delete (delete s p.addr) n.addr).brk = s.brk; rw [delete_brk, delete_brk],
        fun _ => by simpa using hw⟩
      intro b hb
      rcases hb with hb | hb
      · rw [List.mem_singleton.1 hb]; exact hpfree
      · rw [List.mem_singleton.1 hb]; exact hnfree
    · rw [hcb, if_neg (fun hc => hnf hc.2), if_pos hp, hfp]
      have hnt1 : nalloc = true := by cases nalloc <;> simp at hnf ⊢
      have hl2h : ∀ c, c ∈ l2.head? → c.alloc = true := by
        intro c hc
        obtain ⟨l4, e5⟩ := head_eq_cons _ _ hc
        rw [← (hn2 c l4 e5).2.1, hnt1]
      have hn : NoAdj (L ++ ⟨p.addr, p.size + xs, false⟩ :: l2) := by
        rw [NoAdj_mid]
        have h3 := h1.noadj
        rw [NoAdj_mid] at h3
        exact ⟨h3.1, h3.2.1, fun q hq => Or.inl (hLlast q hq), fun c hc => Or.inr (hl2h c hc)⟩
      obtain ⟨pae1, hv⟩ := PreCoal_finish _ _ _ _ _ _ _ _ h1 hn
      have hd : decide (p.size + xs = 16) = false := by simp; omega
      rw [hd] at hv
      have hcn : coalesce_prev s p.addr xs =
          ({ delete s p.addr with mem := write_block (delete s p.addr).mem p.addr (p.size + xs) false (get_prev_alloc s.mem p.addr) false }, p.addr) := by
        unfold coalesce_prev
        dsimp only
        rw [hpsz, wadd_small xs _ (by omega), Nat.add_comm xs p.size]
      obtain ⟨ns, hnt2⟩ := PreCoal_next_tags _ _ _ _ _ _ _ _ h1
        (fun c l4 e5 => hl2h c (by rw [e5]; simp))
      have hw := write_block_words _ p.addr (p.size + xs) (get_prev_alloc s.mem p.addr)
        ns false (by omega) (by omega) (by omega) hnt2
      rw [hcn]
      refine ⟨L, [p], [], l2, _, pae1, rfl, rfl, by simp, by simp, ?_, hLlast, hl2h, by simp,
        by simpa using hv, delete_lo _ _, delete_brk _ _, fun _ => by simpa using hw⟩
      intro b hb
      rcases hb with hb | hb
      · rw [List.mem_singleton.1 hb]; exact hpfree
      · simp at hb
  · have hpt : pax = true := by cases pax <;> simp at hp ⊢
    have hl1last : ∀ q, q ∈ l1.getLast? → q.alloc = true := fun q hq => by
      rw [hlast q hq, hpt]
    by_cases hnf : nalloc = false
    · -- the next block is free
      rw [hcb, if_neg (fun hc => hp hc.1), if_neg hp, if_pos hnf]
      have hl2 : ∃ n l3, l2 = n :: l3 := by
        cases l2 with
        | nil => have := (hn1 rfl).2.1; rw [hnf] at this; simp at this
        | cons n l3 => exact ⟨n, l3, rfl⟩
      obtain ⟨n, l3, e⟩ := hl2
      obtain ⟨e1, e2, e3, e4⟩ := hn2 n l3 e
      subst e
      have hnfree : n.alloc = false := by rw [← e2]; exact hnf
      have h1 := PreCoal_del_next s l1 xa xs n l3 fl pax pae h hnfree
      have hs2 := h.seg2
      simp only [Seg] at hs2
      have hnm := hs2.2.1.2.1
      have hle3 := Seg_le _ _ _ _ _ _ hs2.2.2.2
      have hl3 : ∀ c, c ∈ l3.head? → c.alloc = true := by
        intro c hc
        obtain ⟨l4, e5⟩ := head_eq_cons _ _ hc
        have h4 := hnoadj.2.1
        rw [e5] at h4
        unfold NoAdj at h4
        rw [List.chain'_cons] at h4
        rcases h4.1 with h5 | h5
        · rw [hnfree] at h5; simp at h5
        · exact h5
      have hn : NoAdj (l1 ++ ⟨xa, xs + n.size, false⟩ :: l3) := by
        rw [NoAdj_mid]
        have h3 := h1.noadj
        rw [NoAdj_mid] at h3
        exact ⟨h3.1, h3.2.1, fun q hq => Or.inl (hl1last q hq), fun c hc => Or.inr (hl3 c hc)⟩
      obtain ⟨pae1, hv⟩ := PreCoal_finish _ _ _ _ _ _ _ _ h1 hn
      have hd : decide (xs + n.size = 16) = false := by
        have := e4; simp; omega
      rw [hd] at hv
      have hcn : coalesce_next s xa (xa + xs) xs =
          ({ delete s n.addr with mem := write_block (delete s n.addr).mem xa (xs + n.size) false pax false }, xa) := by
        unfold coalesce_next
        dsimp only
        rw [hnsz, e1, hpa, e3, wadd_small _ _ (by omega)]
      obtain ⟨ns, hnt2⟩ := PreCoal_next_tags _ _ _ _ _ _ _ _ h1
        (fun c l4 e5 => hl3 c (by rw [e5]; simp))
      have hw := write_block_words _ xa (xs + n.size) pax ns false (by omega) (by omega)
        (by omega) hnt2
      rw [hcn]
      refine ⟨l1, [], [n], l3, _, pae1, by simp, rfl, by simp, by simp, ?_, hl1last, hl3,
        by simp, by simpa using hv, delete_lo _ _, delete_brk _ _, fun _ => by simpa using hw⟩
      intro b hb
      rcases hb with hb | hb
      · simp at hb
      · rw [List.mem_singleton.1 hb]; exact hnfree
    · rw [hcb, if_neg (fun hc => hp hc.1), if_neg hp, if_neg hnf]
      have hnt1 : nalloc = true := by cases nalloc <;> simp at hnf ⊢
      have hl2h : ∀ c, c ∈ l2.head? → c.alloc = true := by
        intro c hc
        obtain ⟨l4, e5⟩ := head_eq_cons _ _ hc
        rw [← (hn2 c l4 e5).2.1, hnt1]
      have hn : NoAdj (l1 ++ ⟨xa, xs, false⟩ :: l2) := by
        rw [NoAdj_mid]
        exact ⟨hnoadj.1, hnoadj.2.1, fun q hq => Or.inl (hl1last q hq),
          fun c hc => Or.inr (hl2h c hc)⟩
      obtain ⟨pae1, hv⟩ := PreCoal_finish _ _ _ _ _ _ _ _ h hn
      refine ⟨l1, [], [], l2, _, pae1, by simp, rfl, by simp, by simp, ?_, hl1last, hl2h,
        by simp, by simpa using hv, rfl, rfl, fun hc => ?_⟩
      · intro b hb
        rcases hb with hb | hb <;> simp at hb
      · rcases hc with hc | hc <;> exact absurd rfl hc

theorem getLast_append_singleton (l : List Blk) (p : Blk) : p ∈ (l ++ [p]).getLast? := by
  simp

/-- C25: for a block at `xa` of size `xs` that has just been marked free in an otherwise
valid heap (`l1` are the blocks before it, `l2` the blocks behind it), `coalesce_block`
absorbs the predecessor `P` exactly when it is free and the successor `N` exactly when
it is free.  It returns the address of the predecessor when that was free and `xa`
otherwise; the block returned is free and its size is `xs` plus the sizes of the
absorbed neighbours; no absorbed neighbour is in the index any more; and the blocks
before and behind the block returned are allocated. -/
theorem coalesce_block_merges (s : Heap) (l1 : List Blk) (xa xs : Nat) (l2 : List Blk)
    (fl : Nat → List Nat) (pax pae : Bool) (h : PreCoal s l1 xa xs l2 fl pax pae)
    (ht : Tags s.mem xa xs false pax) :
    ∃ L1 P N L2 fl1 pae1,
      l1 = L1 ++ P ∧ l2 = N ++ L2 ∧ P.length ≤ 1 ∧ N.length ≤ 1 ∧
      (∀ b, b ∈ P ∨ b ∈ N → b.alloc = false) ∧
      (∀ q, q ∈ L1.getLast? → q.alloc = true) ∧ (∀ q, q ∈ L2.head? → q.alloc = true) ∧
      (coalesce_block s xa).2 = (P.head?.map Blk.addr).getD xa ∧
      get_alloc (coalesce_block s xa).1.mem (coalesce_block s xa).2 = false ∧
      get_size (coalesce_block s xa).1.mem (coalesce_block s xa).2 =
        (P.map Blk.size).sum + xs + (N.map Blk.size).sum ∧
      Valid (coalesce_block s xa).1
        (L1 ++ ⟨(coalesce_block s xa).2, (P.map Blk.size).sum + xs + (N.map Blk.size).sum,
          false⟩ :: L2) fl1 (coalesce_block s xa).2 pae1 ∧
      (∀ i, i < 15 → FList (coalesce_block s xa).1.mem i ((coalesce_block s xa).1.seglist i)
        (fl1 i)) ∧
      (∀ b, b ∈ P ∨ b ∈ N → ∀ i, i < 15 → b.addr ∉ fl1 i) ∧
      get_prev_alloc (coalesce_block s xa).1.mem (coalesce_block s xa).2 = true ∧
      get_alloc (coalesce_block s xa).1.mem ((coalesce_block s xa).2 +
        ((P.map Blk.size).sum + xs + (N.map Blk.size).sum)) = true := by
  obtain ⟨L1, P, N, L2, fl1, pae1, e1, e2, hP, hN, hfree, hL1, hL2, hr, hv, _, _, _⟩ :=
    coalesce_block_exact s l1 xa xs l2 fl pax pae h ht
  generalize coalesce_block s xa = cb at hr hv ⊢
  generalize htot : (P.map Blk.size).sum + xs + (N.map Blk.size).sum = total at hv ⊢
  have hin : (⟨cb.2, total, false⟩ : Blk) ∈ L1 ++ (⟨cb.2, total, false⟩ : Blk) :: L2 := by simp
  obtain ⟨_, hsz, hal, _, _, h16, _, _⟩ := Valid_block_tags _ _ _ _ _ hv _ hin
  obtain ⟨par, hs1, hhx, _, hs2⟩ := Seg_cons_split _ _ _ _ _ _ _ _ hv.seg
  dsimp only at hsz hal h16 hs1 hhx hs2
  have hpar : par = true := Seg_pa_true _ _ _ _ _ hs1 hL1
  obtain ⟨ns, na, hnt, hn1, hn2⟩ := Seg_head_tags _ _ _ _ _ _ hs2 (Valid_epi_tags _ _ _ _ _ hv)
  have hna : na = true := by
    cases L2 with
    | nil => exact (hn1 rfl).2.1
    | cons n l3 => rw [(hn2 n l3 rfl).2.1]; exact hL2 n (by simp)
  have hx16 := h.x16
  have hle1 := Seg_le _ _ _ _ _ _ h.seg1
  subst htot
  refine ⟨L1, P, N, L2, fl1, pae1, e1, e2, hP, hN, hfree, hL1, hL2, hr, hal, hsz, hv,
    hv.lists, ?_, by rw [← hpar]; exact hhx.2.2.2.1, by rw [← hna]; exact hnt.2.1⟩
  intro b hb i hi hmem
  obtain ⟨⟨c, hc1, hc2, _, _⟩, hne⟩ := (hv.mem_fl i hi b.addr).1 hmem
  rcases hb with hb | hb
  · -- the predecessor starts where the block returned starts
    have : P = [b] := by
      cases P with
      | nil => simp at hb
      | cons p P1 =>
        cases P1 with
        | nil => simp at hb; rw [hb]
        | cons _ _ => simp at hP
    rw [this] at hr
    simp at hr
    exact hne hr.symm
  · have hNb : N = [b] := by
      cases N with
      | nil => simp at hb
      | cons p N1 =>
        cases N1 with
        | nil => simp at hb; rw [hb]
        | cons _ _ => simp at hN
    have hs2' := h.seg2
    rw [e2, hNb] at hs2'
    simp only [List.singleton_append, Seg] at hs2'
    have hba : b.addr = xa + xs := hs2'.1
    have hb16 := hs2'.2.1.1
    have hrle : cb.2 ≤ xa := by
      cases P with
      | nil => simp at hr; omega
      | cons p P1 =>
        have hp := Seg_mem_range _ _ _ _ _ _ h.seg1 p (by rw [e1]; simp)
        simp at hr
        omega
    have htotal : xa + xs + b.size ≤
        cb.2 + ((P.map Blk.size).sum + xs + (N.map Blk.size).sum) := by
      rw [hNb]
      cases P with
      | nil => simp at hr ⊢; omega
      | cons p P1 =>
        cases P1 with
        | cons _ _ => simp at hP
        | nil =>
          have hs1' := h.seg1
          rw [e1] at hs1'
          have := (Seg_last _ _ _ _ _ _ _ hs1').1
          simp at hr ⊢
          omega
    rcases List.mem_append.1 hc1 with hc | hc
    · have := Seg_mem_range _ _ _ _ _ _ hs1 c hc
      omega
    · rcases List.mem_cons.1 hc with hc | hc
      · rw [hc] at hc2
        exact hne hc2.symm
      · have := Seg_mem_range _ _ _ _ _ _ hs2 c hc
        omega

theorem singleton_of_mem (P : List Blk) (b : Blk) (hP : P.length ≤ 1) (hb : b ∈ P) : P = [b] := by
  cases P with
  | nil => simp at hb
  | cons p P1 =>
    cases P1 with
    | nil => simp at hb; rw [hb]
    | cons _ _ => simp at hP

/-- C26: when `coalesce_block` merges the block at `xa` with a free predecessor `p` (with
or without a free successor), the `prev_alloc` bit in the header and in the footer of
the merged block is the `prev_alloc` bit that `p` had before the call; when the
predecessor is allocated and only the free successor `n` is merged, it is the
`prev_alloc` bit of the block at `xa` itself. -/
theorem coalesce_block_prev_alloc (s : Heap) (l1 : List Blk) (xa xs : Nat) (l2 : List Blk)
    (fl : Nat → List Nat) (pax pae : Bool) (h : PreCoal s l1 xa xs l2 fl pax pae)
    (ht : Tags s.mem xa xs false pax) :
    (∀ L p, l1 = L ++ [p] → p.alloc = false →
      (coalesce_block s xa).2 = p.addr ∧
      get_prev_alloc (coalesce_block s xa).1.mem (coalesce_block s xa).2 =
        get_prev_alloc s.mem p.addr ∧
      extract_prev_alloc ((coalesce_block s xa).1.mem
          (header_to_footer (coalesce_block s xa).1.mem (coalesce_block s xa).2)) =
        get_prev_alloc s.mem p.addr) ∧
    ((∀ q, q ∈ l1.getLast? → q.alloc = true) → ∀ n l3, l2 = n :: l3 → n.alloc = false →
      (coalesce_block s xa).2 = xa ∧
      get_prev_alloc (coalesce_block s xa).1.mem (coalesce_block s xa).2 =
        get_prev_alloc s.mem xa ∧
      extract_prev_alloc ((coalesce_block s xa).1.mem
          (header_to_footer (coalesce_block s xa).1.mem (coalesce_block s xa).2)) =
        get_prev_alloc s.mem xa) := by
  obtain ⟨L1, P, N, L2, fl1, pae1, e1, e2, hP, hN, hfree, hL1, hL2, hr, hv, _, _, hw⟩ :=
    coalesce_block_exact s l1 xa xs l2 fl pax pae h ht
  generalize coalesce_block s xa = cb at hr hv hw ⊢
  have hin : (⟨cb.2, (P.map Blk.size).sum + xs + (N.map Blk.size).sum, false⟩ : Blk) ∈
      L1 ++ (⟨cb.2, (P.map Blk.size).sum + xs + (N.map Blk.size).sum, false⟩ : Blk) :: L2 := by
    simp
  obtain ⟨hmini, hsz, _, _, _, h16, hm16, _⟩ := Valid_block_tags _ _ _ _ _ hv _ hin
  dsimp only at hmini hsz h16 hm16
  have hft : header_to_footer cb.1.mem cb.2 =
      cb.2 + ((P.map Blk.size).sum + xs + (N.map Blk.size).sum) - 8 := by
    unfold header_to_footer dsize wsize
    rw [hsz]
    omega
  have hbits : ∀ ppa, (cb.1.mem cb.2 =
        pack ((P.map Blk.size).sum + xs + (N.map Blk.size).sum) false ppa ∧
      cb.1.mem (cb.2 + ((P.map Blk.size).sum + xs + (N.map Blk.size).sum) - 8) =
        pack ((P.map Blk.size).sum + xs + (N.map Blk.size).sum) false ppa) →
      get_prev_alloc cb.1.mem cb.2 = ppa ∧
      extract_prev_alloc (cb.1.mem (header_to_footer cb.1.mem cb.2)) = ppa := by
    intro ppa hwd
    rw [hft]
    unfold get_prev_alloc
    rw [hwd.1, hwd.2]
    exact ⟨extract_prev_alloc_pack _ _ _ hm16, extract_prev_alloc_pack _ _ _ hm16⟩
  constructor
  · intro L p el hpf
    have hPp : P = [p] := by
      cases P with
      | nil =>
        rw [List.append_nil] at e1
        have := hL1 p (by rw [← e1, el]; simp)
        rw [hpf] at this
        simp at this
      | cons p1 P1 =>
        have hP1 : P1 = [] := by
          cases P1 with
          | nil => rfl
          | cons _ _ => simp at hP
        rw [hP1, el] at e1
        have := List.append_inj_right' e1 rfl
        rw [hP1]
        simp at this
        rw [this]
    rw [hPp] at hr hw hbits hft
    simp only [List.head?_cons, Option.map_some', Option.getD_some] at hr hw
    have := hbits _ (hw (Or.inl (by simp)))
    exact ⟨hr, this.1, this.2⟩
  · intro hlast n l3 el hnf
    have hPn : P = [] := by
      cases P with
      | nil => rfl
      | cons p1 P1 =>
        have hP1 : P1 = [] := by
          cases P1 with
          | nil => rfl
          | cons _ _ => simp at hP
        rw [hP1] at e1
        have h1 := hlast p1 (by rw [e1]; simp)
        have h2 := hfree p1 (Or.inl (by simp))
        rw [h1] at h2
        simp at h2
    have hNn : N ≠ [] := by
      intro hc
      rw [hc, List.nil_append] at e2
      have := hL2 n (by rw [← e2, el]; simp)
      rw [hnf] at this
      simp at this
    rw [hPn] at hr hw hbits hft
    simp only [List.head?_nil, Option.map_none', Option.getD_none] at hr hw
    have := hbits _ (hw (Or.inr hNn))
    rw [ht.2.2.1]
    exact ⟨hr, this.1, this.2⟩

/-- The blocks of the heap after `free`: the block `x` and those of its two neighbours
that are free (`P`, `N`) have become one free block. -/
theorem free_exact (s : Heap) (l1 l2 : List Blk) (x : Blk) (fl : Nat → List Nat)
    (pae : Bool) (h : Valid s (l1 ++ x :: l2) fl 0 pae) (hal : x.alloc = true) :
    ∃ L1 P N L2 fl1 pae1,
      l1 = L1 ++ P ∧ l2 = N ++ L2 ∧ P.length ≤ 1 ∧ N.length ≤ 1 ∧
      (∀ b, b ∈ P ∨ b ∈ N → b.alloc = false) ∧
      (∀ q, q ∈ L1.getLast? → q.alloc = true) ∧ (∀ q, q ∈ L2.head? → q.alloc = true) ∧
      Valid (free s (x.addr + 8))
        (L1 ++ ⟨(P.head?.map Blk.addr).getD x.addr,
          (P.map Blk.size).sum + x.size + (N.map Blk.size).sum, false⟩ :: L2) fl1 0 pae1 ∧
      (free s (x.addr + 8)).lo = s.lo ∧ (free s (x.addr + 8)).brk = s.brk := by
  obtain ⟨pax, pae1, hpc, ht⟩ := Valid_free_write s l1 l2 x fl pae h hal
  obtain ⟨L1, P, N, L2, fl1, pae2, e1, e2, hP, hN, hfree, hL1, hL2, hr, hv, hlo, hbrk, _⟩ :=
    coalesce_block_exact _ l1 x.addr x.size l2 fl pax pae1 hpc ht
  have hx8 : x.addr + 8 ≠ 0 := by omega
  rw [free_eq s _ hx8, Nat.add_sub_cancel]
  generalize coalesce_block { s with mem := write_block s.mem x.addr (get_size s.mem x.addr) false (get_prev_alloc s.mem x.addr) (get_mini s.mem x.addr) } x.addr = cb at hr hv hlo hbrk ⊢
  have hins := Valid_insert _ _ fl1 pae2
    ⟨cb.2, (P.map Blk.size).sum + x.size + (N.map Blk.size).sum, false⟩ hv (by simp) rfl
  dsimp only at hins
  refine ⟨L1, P, N, L2, fun i => if i = find_bucket ((P.map Blk.size).sum + x.size + (N.map Blk.size).sum) then cb.2 :: fl1 i else fl1 i, pae2, e1, e2, hP, hN, hfree, hL1, hL2, ?_, ?_, ?_⟩
  · rw [← hr]; exact hins
  · rw [insert_lo, hlo]
  · rw [insert_brk, hbrk]

set_option maxRecDepth 100000 in
/-- A heap with two allocated blocks of 32 bytes followed by a free block of 4032
bytes: the fresh heap at `4096` after two calls `malloc 24`. -/
theorem two_blocks_example :
    ∃ s fl pae, Valid s [⟨4104, 32, true⟩, ⟨4136, 32, true⟩, ⟨4168, 4032, false⟩] fl 0 pae := by
  obtain ⟨fl0, pae0, hv0, _, _⟩ := mm_init_exact (empty_heap zero_mem 4096) true
    (by decide) (by decide) rfl (by decide!)
  have elo : (empty_heap zero_mem 4096).lo = 4096 := rfl
  rw [elo] at hv0
  generalize (mm_init (empty_heap zero_mem 4096) true).1 = S0 at hv0
  obtain ⟨fl1, pae1, hv1, _, _⟩ := place_exact S0 [] [] ⟨4096 + 8, 4096, false⟩ fl0 pae0
    hv0 rfl 32 (by norm_num) (by norm_num) (by norm_num)
  simp only [List.nil_append, List.append_nil, show ¬ (32 = 4096) by norm_num, if_false] at hv1
  generalize place S0 (4096 + 8) 32 = S1 at hv1
  obtain ⟨fl2, pae2, hv2, _, _⟩ := place_exact S1 [⟨4096 + 8, 32, true⟩] []
    ⟨4096 + 8 + 32, 4096 - 32, false⟩ fl1 pae1 hv1 rfl 32 (by norm_num) (by norm_num)
    (by norm_num)
  simp only [List.append_nil, show ¬ (32 = 4096 - 32) by norm_num, if_false,
    List.singleton_append, List.cons_append, List.nil_append] at hv2
  exact ⟨_, fl2, pae2, hv2⟩

/-- A heap with a free block of 32 bytes, an allocated block of 32 bytes and a free block
of 4032 bytes, in which the allocated block has just been marked free. -/
theorem precoal_example :
    ∃ s fl pax pae, PreCoal s [⟨4104, 32, false⟩] 4136 32 [⟨4168, 4032, false⟩] fl pax pae ∧
      Tags s.mem 4136 32 false pax := by
  obtain ⟨S2, fl2, pae2, hv2⟩ := two_blocks_example
  obtain ⟨fl3, pae3, hv3, _, _⟩ := free_exact_nocoal S2 []
    [⟨4136, 32, true⟩, ⟨4168, 4032, false⟩] ⟨4104, 32, true⟩
    fl2 pae2 hv2 rfl (fun p hp => by simp at hp) (fun n hn => by
      simp only [List.head?_cons, Option.mem_def, Option.some.injEq] at hn
      rw [← hn])
  simp only [List.nil_append] at hv3
  generalize free S2 (4104 + 8) = S3 at hv3
  obtain ⟨pax, pae4, hpc, ht⟩ := Valid_free_write S3 [⟨4104, 32, false⟩]
    [⟨4168, 4032, false⟩] ⟨4136, 32, true⟩ fl3 pae3 hv3 rfl
  exact ⟨_, fl3, pax, pae4, hpc, ht⟩

theorem coalesce_block_merges_witness :
    ∃ s fl pax pae, PreCoal s [⟨4104, 32, false⟩] 4136 32 [⟨4168, 4032, false⟩] fl pax pae ∧
      Tags s.mem 4136 32 false pax ∧
      ∃ L1 P N L2 fl1 pae1,
        [(⟨4104, 32, false⟩ : Blk)] = L1 ++ P ∧ [(⟨4168, 4032, false⟩ : Blk)] = N ++ L2 ∧
        P.length ≤ 1 ∧ N.length ≤ 1 ∧
        (∀ b, b ∈ P ∨ b ∈ N → b.alloc = false) ∧
        (∀ q, q ∈ L1.getLast? → q.alloc = true) ∧ (∀ q, q ∈ L2.head? → q.alloc = true) ∧
        (coalesce_block s 4136).2 = (P.head?.map Blk.addr).getD 4136 ∧
        get_alloc (coalesce_block s 4136).1.mem (coalesce_block s 4136).2 = false ∧
        get_size (coalesce_block s 4136).1.mem (coalesce_block s 4136).2 =
          (P.map Blk.size).sum + 32 + (N.map Blk.size).sum ∧
        Valid (coalesce_block s 4136).1
          (L1 ++ ⟨(coalesce_block s 4136).2, (P.map Blk.size).sum + 32 + (N.map Blk.size).sum,
            false⟩ :: L2) fl1 (coalesce_block s 4136).2 pae1 ∧
        (∀ i, i < 15 → FList (coalesce_block s 4136).1.mem i
          ((coalesce_block s 4136).1.seglist i) (fl1 i)) ∧
        (∀ b, b ∈ P ∨ b ∈ N → ∀ i, i < 15 → b.addr ∉ fl1 i) ∧
        get_prev_alloc (coalesce_block s 4136).1.mem (coalesce_block s 4136).2 = true ∧
        get_alloc (coalesce_block s 4136).1.mem ((coalesce_block s 4136).2 +
          ((P.map Blk.size).sum + 32 + (N.map Blk.size).sum)) = true :=
  precoal_example.elim fun s h1 => h1.elim fun fl h2 => h2.elim fun pax h3 =>
    h3.elim fun pae h4 =>
      ⟨s, fl, pax, pae, h4.1, h4.2, coalesce_block_merges s _ 4136 32 _ fl pax pae h4.1 h4.2⟩

theorem coalesce_block_prev_alloc_witness :
    ∃ s fl pax pae, PreCoal s [⟨4104, 32, false⟩] 4136 32 [⟨4168, 4032, false⟩] fl pax pae ∧
      Tags s.mem 4136 32 false pax ∧
      (coalesce_block s 4136).2 = 4104 ∧
      get_prev_alloc (coalesce_block s 4136).1.mem (coalesce_block s 4136).2 =
        get_prev_alloc s.mem 4104 ∧
      extract_prev_alloc ((coalesce_block s 4136).1.mem
          (header_to_footer (coalesce_block s 4136).1.mem (coalesce_block s 4136).2)) =
        get_prev_alloc s.mem 4104 :=
  precoal_example.elim fun s h1 => h1.elim fun fl h2 => h2.elim fun pax h3 =>
    h3.elim fun pae h4 =>
      ⟨s, fl, pax, pae, h4.1, h4.2,
        (coalesce_block_prev_alloc s _ 4136 32 _ fl pax pae h4.1 h4.2).1 [] ⟨4104, 32, false⟩
          rfl rfl⟩

/-! ## A request of twice the size after two releases -/

set_option maxRecDepth 100000 in
/-- C21 fails for `N = 2` and `S = 2040`: the two blocks of 2048 bytes fill the heap, and
whichever of them is released, `malloc 4080` needs 4096 bytes, finds no fit and grows
the heap from 4112 to 8208 bytes. -/
theorem every_other_free_grows :
    (run (fresh zero_mem 4096) [Op.malloc 2040 true, Op.malloc 2040 true, Op.free 4112]).map
      (fun c => (c.live, c.heap.brk,
        (malloc c.heap.brk c.heap (2 * 2040) true).map fun r => (r.2, r.1.brk))) =
      some ([6160], 4112, some (8208, 8208)) ∧
    (run (fresh zero_mem 4096) [Op.malloc 2040 true, Op.malloc 2040 true, Op.free 6160]).map
      (fun c => (c.live, c.heap.brk,
        (malloc c.heap.brk c.heap (2 * 2040) true).map fun r => (r.2, r.1.brk))) =
      some ([4112], 4112, some (6160, 8208)) := by
  constructor <;> decide!

theorem adjust_double (S : Nat) (h : S < 2 ^ 62) : adjust (2 * S) ≤ adjust S + adjust S := by
  rw [(adjust_small S (by omega)).2, (adjust_small (2 * S) (by omega)).2]
  omega

theorem malloc_fit_same_size (s : Heap) (bs : List Blk) (fl : Nat → List Nat) (pae : Bool)
    (h : Valid s bs fl 0 pae) (size : Nat) (hs : size ≠ 0) (b : Blk) (hb : b ∈ bs)
    (hbf : b.alloc = false) (hfit : adjust size ≤ b.size) (g : Bool) :
    ∃ s1 p, malloc s.brk s size g = some (s1, p) ∧ p ≠ 0 ∧ s1.brk = s.brk := by
  obtain ⟨x, hx1, hx2, hx3, _, hm⟩ := malloc_fit s bs fl pae h size s.brk (le_refl _) hs b hb
    hbf hfit
  obtain ⟨ha16, ham, _⟩ := adjust_facts size
  obtain ⟨_, _, _, _, _, _, _, _, _, _, _, hpbrk⟩ :=
    place_valid s bs fl pae h x hx1 hx2 (adjust size) ha16 ham hx3
  exact ⟨_, _, hm g, by omega, hpbrk⟩

/-- In a valid heap with two address-adjacent allocated blocks `b1`, `b2` that each have
at least the adjusted size of a request of `S` bytes (as the blocks that `malloc S`
returns have), after both are released, in either order, `malloc (2 * S)` returns a
non-null pointer and the heap has the size it had before. -/
theorem malloc_double_after_adjacent_frees (s : Heap) (l1 l2 : List Blk) (b1 b2 : Blk)
    (fl : Nat → List Nat) (pae : Bool) (h : Valid s (l1 ++ b1 :: b2 :: l2) fl 0 pae)
    (h1 : b1.alloc = true) (h2 : b2.alloc = true) (S : Nat) (hS : 0 < S) (hlt : S < 2 ^ 62)
    (ha1 : adjust S ≤ b1.size) (ha2 : adjust S ≤ b2.size) (g : Bool) :
    (∃ s1 p, malloc (free (free s (b1.addr + 8)) (b2.addr + 8)).brk
        (free (free s (b1.addr + 8)) (b2.addr + 8)) (2 * S) g = some (s1, p) ∧ p ≠ 0 ∧
      s1.brk = (free (free s (b1.addr + 8)) (b2.addr + 8)).brk ∧ s1.brk = s.brk) ∧
    (∃ s1 p, malloc (free (free s (b2.addr + 8)) (b1.addr + 8)).brk
        (free (free s (b2.addr + 8)) (b1.addr + 8)) (2 * S) g = some (s1, p) ∧ p ≠ 0 ∧
      s1.brk = (free (free s (b2.addr + 8)) (b1.addr + 8)).brk ∧ s1.brk = s.brk) := by
  have hd := adjust_double S hlt
  constructor
  · -- the lower block first
    obtain ⟨L1, P, N, L2, fl1, pae1, e1, e2, hP, hN, hfree, hL1, hL2, hv, _, hbrk⟩ :=
      free_exact s l1 (b2 :: l2) b1 fl pae h h1
    have hN0 : N = [] := by
      cases N with
      | nil => rfl
      | cons n N1 =>
        simp only [List.cons_append, List.cons.injEq] at e2
        have := hfree n (Or.inr (by simp))
        rw [← e2.1, h2] at this
        simp at this
    rw [hN0, List.nil_append] at e2
    rw [hN0, ← e2] at hv
    simp only [List.map_nil, List.sum_nil, Nat.add_zero] at hv
    generalize hc1 : (⟨(P.head?.map Blk.addr).getD b1.addr, (P.map Blk.size).sum + b1.size,
      false⟩ : Blk) = c1 at hv
    have hc1s : b1.size ≤ c1.size := by rw [← hc1]; simp
    have hc1f : c1.alloc = false := by rw [← hc1]
    have el : L1 ++ c1 :: b2 :: l2 = (L1 ++ [c1]) ++ b2 :: l2 := by simp
    rw [el] at hv
    generalize free s (b1.addr + 8) = s1 at hv hbrk ⊢
    obtain ⟨M1, P2, N2, M2, fl2, pae2, f1, f2, hP2, hN2, hfree2, hM1, hM2, hv2, _, hbrk2⟩ :=
      free_exact s1 (L1 ++ [c1]) l2 b2 fl1 pae1 hv h2
    have hP2c : P2 = [c1] := by
      cases P2 with
      | nil =>
        rw [List.append_nil] at f1
        have := hM1 c1 (by rw [← f1]; simp)
        rw [hc1f] at this
        simp at this
      | cons p P3 =>
        have hP3 : P3 = [] := by
          cases P3 with
          | nil => rfl
          | cons _ _ => simp at hP2
        rw [hP3] at f1 ⊢
        have := List.append_inj_right' f1 rfl
        simp at this
        rw [this]
    rw [hP2c] at hv2
    simp only [List.map_cons, List.map_nil, List.sum_cons, List.sum_nil, Nat.add_zero] at hv2
    generalize free s1 (b2.addr + 8) = s2 at hv2 hbrk2 ⊢
    obtain ⟨s3, p, hm, hp, hb3⟩ := malloc_fit_same_size s2 _ _ pae2 hv2 (2 * S) (by omega)
      _ (List.mem_append_right _ (List.mem_cons_self _ _)) rfl
      (by show adjust (2 * S) ≤ c1.size + b2.size + (N2.map Blk.size).sum; omega) g
    exact ⟨s3, p, hm, hp, hb3, by rw [hb3, hbrk2, hbrk]⟩
  · -- the upper block first
    have el : l1 ++ b1 :: b2 :: l2 = (l1 ++ [b1]) ++ b2 :: l2 := by simp
    rw [el] at h
    obtain ⟨L1, P, N, L2, fl1, pae1, e1, e2, hP, hN, hfree, hL1, hL2, hv, _, hbrk⟩ :=
      free_exact s (l1 ++ [b1]) l2 b2 fl pae h h2
    have hP0 : P = [] := by
      cases P with
      | nil => rfl
      | cons p P1 =>
        have hP1 : P1 = [] := by
          cases P1 with
          | nil => rfl
          | cons _ _ => simp at hP
        rw [hP1] at e1
        have := List.append_inj_right' e1 rfl
        simp at this
        have hf := hfree p (Or.inl (by simp))
        rw [← this, h1] at hf
        simp at hf
    rw [hP0, List.append_nil] at e1
    rw [hP0, ← e1] at hv
    simp only [List.map_nil, List.sum_nil, Nat.zero_add, List.head?_nil, Option.map_none',
      Option.getD_none] at hv
    generalize hc2 : (⟨b2.addr, b2.size + (N.map Blk.size).sum, false⟩ : Blk) = c2 at hv
    have hc2s : b2.size ≤ c2.size := by rw [← hc2]; simp
    have hc2f : c2.alloc = false := by rw [← hc2]
    have el2 : (l1 ++ [b1]) ++ c2 :: L2 = l1 ++ b1 :: (c2 :: L2) := by simp
    rw [el2] at hv
    generalize free s (b2.addr + 8) = s1 at hv hbrk ⊢
    obtain ⟨M1, P2, N2, M2, fl2, pae2, f1, f2, hP2, hN2, hfree2, hM1, hM2, hv2, _, hbrk2⟩ :=
      free_exact s1 l1 (c2 :: L2) b1 fl1 pae1 hv h1
    have hN2c : N2 = [c2] := by
      cases N2 with
      | nil =>
        rw [List.nil_append] at f2
        have := hM2 c2 (by rw [← f2]; simp)
        rw [hc2f] at this
        simp at this
      | cons n N3 =>
        have hN3 : N3 = [] := by
          cases N3 with
          | nil => rfl
          | cons _ _ => simp at hN2
        rw [hN3] at f2 ⊢
        simp only [List.singleton_append, List.cons.injEq] at f2
        rw [f2.1]
    rw [hN2c] at hv2
    simp only [List.map_cons, List.map_nil, List.sum_cons, List.sum_nil, Nat.add_zero] at hv2
    generalize free s1 (b1.addr + 8) = s2 at hv2 hbrk2 ⊢
    obtain ⟨s3, p, hm, hp, hb3⟩ := malloc_fit_same_size s2 _ _ pae2 hv2 (2 * S) (by omega)
      _ (List.mem_append_right _ (List.mem_cons_self _ _)) rfl
      (by show adjust (2 * S) ≤ (P2.map Blk.size).sum + b1.size + c2.size; omega) g
    exact ⟨s3, p, hm, hp, hb3, by rw [hb3, hbrk2, hbrk]⟩

theorem malloc_double_after_adjacent_frees_witness :
    ∃ s fl pae,
      Valid s ([] ++ (⟨4104, 32, true⟩ : Blk) :: ⟨4136, 32, true⟩ :: [⟨4168, 4032, false⟩])
        fl 0 pae ∧
      0 < 24 ∧ 24 < 2 ^ 62 ∧ adjust 24 ≤ 32 ∧
      (∃ s1 p, malloc (free (free s (4104 + 8)) (4136 + 8)).brk
          (free (free s (4104 + 8)) (4136 + 8)) (2 * 24) true = some (s1, p) ∧ p ≠ 0 ∧
        s1.brk = (free (free s (4104 + 8)) (4136 + 8)).brk ∧ s1.brk = s.brk) ∧
      (∃ s1 p, malloc (free (free s (4136 + 8)) (4104 + 8)).brk
          (free (free s (4136 + 8)) (4104 + 8)) (2 * 24) true = some (s1, p) ∧ p ≠ 0 ∧
        s1.brk = (free (free s (4136 + 8)) (4104 + 8)).brk ∧ s1.brk = s.brk) :=
  two_blocks_example.elim fun s h1 => h1.elim fun fl h2 => h2.elim fun pae hv =>
    ⟨s, fl, pae, hv, by decide, by norm_num, by decide,
      malloc_double_after_adjacent_frees s [] [⟨4168, 4032, false⟩] ⟨4104, 32, true⟩
        ⟨4136, 32, true⟩ fl pae hv rfl rfl 24 (by decide) (by norm_num) (by decide)
        (by decide) true⟩

/-! ## More consequences of a request that overflows -/

set_option maxRecDepth 100000 in
/-- C22, evaluated at a failing input.  The client holds `p = 4128` and `q = 4160`, both
obtained for 24 bytes, the mini block in front of `p` is free, and the byte at `p` is
`0x11`.  `realloc q (2 ^ 64 - 8)` gets the mini block (8 payload bytes at `4112`) for the
wrapped size and copies 24 bytes of `q` into it, over the header and the first payload
word of `p`: after the call the byte at `p` is `0x55`. -/
theorem realloc_overflow_changes_neighbour :
    ∃ c, run (fresh zero_mem 4096)
        [Op.malloc 8 true, Op.malloc 24 true, Op.malloc 24 true, Op.store 4128 0x11,
          Op.store 4168 0x23, Op.store 4176 0x55, Op.free 4112] = some c ∧
      c.live = [4160, 4128] ∧ get_byte c.heap.mem 4128 = 0x11 ∧
      (realloc c.heap.brk c.heap 4160 (2 ^ 64 - 8) true).map
        (fun r => (r.2, get_byte r.1.mem 4128)) = some (4112, 0x55) := by
  have h : (run (fresh zero_mem 4096)
      [Op.malloc 8 true, Op.malloc 24 true, Op.malloc 24 true, Op.store 4128 0x11,
        Op.store 4168 0x23, Op.store 4176 0x55, Op.free 4112]).map
      (fun c => (c.live, get_byte c.heap.mem 4128,
        (realloc c.heap.brk c.heap 4160 (2 ^ 64 - 8) true).map
          (fun r => (r.2, get_byte r.1.mem 4128)))) =
      some ([4160, 4128], 0x11, some (4112, 0x55)) := by decide!
  obtain ⟨c, hc, hv⟩ := run_map_some h
  simp only [Prod.mk.injEq] at hv
  exact ⟨c, hc, hv.1, hv.2.1, hv.2.2⟩

set_option maxRecDepth 100000 in
/-- C23, evaluated at a failing input.  For `n = 2 ^ 64 - 10` the sum `n + 8` is below
`2 ^ 64`, but the rounding inside `round_up` wraps: on the fresh heap `malloc n` returns
the pointer `4112` to a block of 16 bytes, where `16 * ⌈(n + 8) / 16⌉` is `2 ^ 64`. -/
theorem malloc_round_up_overflow :
    0 < 2 ^ 64 - 10 ∧ (2 ^ 64 - 10) + 8 < 2 ^ 64 ∧
    (malloc (fresh zero_mem 4096).heap.brk (fresh zero_mem 4096).heap (2 ^ 64 - 10) true).map
      (fun r => (r.2, get_size r.1.mem (payload_to_header r.2))) = some (4112, 16) ∧
    16 * (((2 ^ 64 - 10) + 8 + 15) / 16) = 2 ^ 64 := by
  refine ⟨by norm_num, by norm_num, by decide!, by norm_num⟩

set_option maxRecDepth 100000 in
/-- C30, evaluated at a failing input.  The client stores the word `0x22` (size 32, free)
into its block and resizes the block to `2 ^ 64 - 8` bytes; the copy of `realloc` puts
that word over the header of the free block at `4152`, which stays on the list of
bucket 8: it is a free block of 32 bytes that is not on the list of bucket 1. -/
theorem realloc_overflow_wrong_bucket :
    ∃ c, run (fresh zero_mem 4096)
        [Op.malloc 24 true, Op.store 4120 0x22, Op.realloc 4112 (2 ^ 64 - 8) true] = some c ∧
      ¬ buckets_by_size c.heap := by
  have h : (run (fresh zero_mem 4096)
      [Op.malloc 24 true, Op.store 4120 0x22, Op.realloc 4112 (2 ^ 64 - 8) true]).map
      (fun c => (decide (block_at c.heap 0 ≠ epilogue c.heap ∧
           block_at c.heap 1 ≠ epilogue c.heap ∧ block_at c.heap 2 ≠ epilogue c.heap),
         get_alloc c.heap.mem (block_at c.heap 2), get_size c.heap.mem (block_at c.heap 2),
         block_at c.heap 2, bucket_blocks c.heap.mem c.heap.brk (c.heap.seglist 1))) =
      some (true, false, 32, 4152, some [4104]) := by decide!
  obtain ⟨c, hc, hv⟩ := run_map_some h
  refine ⟨c, hc, fun hP => ?_⟩
  simp only [Prod.mk.injEq, decide_eq_true_eq] at hv
  obtain ⟨⟨h0, h1, h2⟩, ha, hs, hb, hl⟩ := hv
  have hbe : before_epilogue c.heap 2 := by
    intro j hj
    interval_cases j
    · exact h0
    · exact h1
    · exact h2
  obtain ⟨_, _, ⟨l, hl1, hl2⟩, _⟩ := (hP 2 hbe ha).2 (by rw [hs]; norm_num)
  rw [hs, show find_bucket 32 = 1 by decide, if_neg (by norm_num), hl] at hl1
  simp only [Option.some.injEq] at hl1
  rw [← hl1, hb] at hl2
  simp at hl2

/-! ## The size of the block that `malloc` returns -/

theorem place_block_size (s : Heap) (bs : List Blk) (fl : Nat → List Nat) (pae : Bool)
    (h : Valid s bs fl 0 pae) (x : Blk) (hx : x ∈ bs) (hfree : x.alloc = false)
    (asize : Nat) (h16 : 16 ≤ asize) (hm : asize % 16 = 0) (hle : asize ≤ x.size) :
    get_size (place s x.addr asize).mem x.addr = asize ∧
    get_alloc (place s x.addr asize).mem x.addr = true := by
  obtain ⟨l1, l2, e⟩ := List.append_of_mem hx
  subst e
  obtain ⟨fl1, pae1, hv, _, _⟩ := place_exact s l1 l2 x fl pae h hfree asize h16 hm hle
  have hin : (⟨x.addr, asize, true⟩ : Blk) ∈ l1 ++ (if asize = x.size then
      [(⟨x.addr, x.size, true⟩ : Blk)]
      else [⟨x.addr, asize, true⟩, ⟨x.addr + asize, x.size - asize, false⟩]) ++ l2 := by
    by_cases e : asize = x.size
    · rw [if_pos e, ← e]; simp
    · rw [if_neg e]; simp
  have := Valid_block_tags _ _ _ _ _ hv _ hin
  exact ⟨this.2.1, this.2.2.1⟩

/-- The block behind a non-null result of `malloc n` on a valid heap is allocated and has
exactly the adjusted size of the request. -/
theorem malloc_block_size (s : Heap) (bs : List Blk) (fl : Nat → List Nat) (pae : Bool)
    (h : Valid s bs fl 0 pae) (n : Nat) (g : Bool) (s1 : Heap) (p : Nat)
    (hm : malloc s.brk s n g = some (s1, p)) (hp : p ≠ 0) :
    get_size s1.mem (payload_to_header p) = adjust n ∧
    get_alloc s1.mem (payload_to_header p) = true := by
  obtain ⟨ha16, ham, _⟩ := adjust_facts n
  obtain ⟨m1, _, _, _, _⟩ := max_adjust n
  have hph : ∀ a, payload_to_header (a + 8) = a := fun a => by
    unfold payload_to_header wsize; omega
  rcases malloc_cases s bs fl pae h n s.brk g (le_refl _) with
    ⟨_, hm0⟩ | ⟨_, x, hx1, hx2, hx3, _, _, hmx⟩ |
    ⟨_, _, _, ⟨_, hm0⟩ | ⟨_, bs1, fl1, pae1, bx, hv, hbx, hbf, hsz, _, _, _, hmx⟩⟩
  · rw [hm0] at hm
    simp only [Option.some.injEq, Prod.mk.injEq] at hm
    exact absurd hm.2.symm hp
  · rw [hmx g] at hm
    simp only [Option.some.injEq, Prod.mk.injEq] at hm
    rw [← hm.1, ← hm.2, hph]
    exact place_block_size s bs fl pae h x hx1 hx2 _ ha16 ham hx3
  · rw [hm0] at hm
    simp only [Option.some.injEq, Prod.mk.injEq] at hm
    exact absurd hm.2.symm hp
  · rw [hmx] at hm
    simp only [Option.some.injEq, Prod.mk.injEq] at hm
    rw [← hm.1, ← hm.2, hph]
    exact place_block_size _ bs1 fl1 pae1 hv bx hbx hbf _ ha16 ham (by omega)

theorem adjust_formula (n : Nat) (h : n + 23 < 2 ^ 64) :
    adjust n = max 16 (16 * ((n + 8 + 15) / 16)) := by
  unfold adjust max min_block_size dsize wsize
  dsimp only
  have e : wadd n 8 = n + 8 := by unfold wadd; omega
  rw [e]
  have := round_up_eq (n + 8) (by omega)
  unfold dsize wsize at this
  rw [this]

/-! ## Example heaps -/

set_option maxRecDepth 100000 in
/-- The fresh heap at `4096` consists of one free block of 4096 bytes. -/
theorem fresh_exact :
    ∃ fl pae, Valid (fresh zero_mem 4096).heap [⟨4104, 4096, false⟩] fl 0 pae := by
  obtain ⟨fl0, pae0, hv0, _, _⟩ := mm_init_exact (empty_heap zero_mem 4096) true
    (by decide) (by decide) rfl (by decide!)
  exact ⟨fl0, pae0, hv0⟩

/-- A heap with a free mini block, an allocated mini block and a free block of 4064
bytes: the fresh heap at `4096` after two calls `malloc 8` and the release of the first
block. -/
theorem mini_example :
    ∃ s fl pae, Valid s [⟨4104, 16, false⟩, ⟨4120, 16, true⟩, ⟨4136, 4064, false⟩] fl 0 pae := by
  obtain ⟨fl0, pae0, hv0⟩ := fresh_exact
  generalize (fresh zero_mem 4096).heap = S0 at hv0
  obtain ⟨fl1, pae1, hv1, _, _⟩ := place_exact S0 [] [] ⟨4104, 4096, false⟩ fl0 pae0
    hv0 rfl 16 (by norm_num) (by norm_num) (by norm_num)
  simp only [List.nil_append, List.append_nil, show ¬ (16 = 4096) by norm_num, if_false] at hv1
  generalize place S0 4104 16 = S1 at hv1
  obtain ⟨fl2, pae2, hv2, _, _⟩ := place_exact S1 [⟨4104, 16, true⟩] []
    ⟨4104 + 16, 4096 - 16, false⟩ fl1 pae1 hv1 rfl 16 (by norm_num) (by norm_num)
    (by norm_num)
  simp only [List.append_nil, show ¬ (16 = 4096 - 16) by norm_num, if_false,
    List.singleton_append, List.cons_append, List.nil_append] at hv2
  generalize place S1 (4104 + 16) 16 = S2 at hv2
  obtain ⟨fl3, pae3, hv3, _, _⟩ := free_exact_nocoal S2 []
    [⟨4104 + 16, 16, true⟩, ⟨4104 + 16 + 16, 4096 - 16 - 16, false⟩] ⟨4104, 16, true⟩
    fl2 pae2 hv2 rfl (fun p hp => by simp at hp) (fun n hn => by
      simp only [List.head?_cons, Option.mem_def, Option.some.injEq] at hn
      rw [← hn])
  simp only [List.nil_append] at hv3
  exact ⟨_, fl3, pae3, hv3⟩

/-- A heap in which a free block is not yet in the index: the state that
`coalesce_block` leaves. -/
theorem pending_example :
    ∃ s bs fl pae bx, Valid s bs fl (Blk.addr bx) pae ∧ bx ∈ bs ∧ bx.alloc = false := by
  obtain ⟨s, fl, pax, pae, hpc, ht⟩ := precoal_example
  obtain ⟨L1, P, N, L2, fl1, pae1, _, _, _, _, _, _, _, _, hv, _⟩ :=
    coalesce_block_exact s _ 4136 32 _ fl pax pae hpc ht
  exact ⟨_, _, fl1, pae1, ⟨(coalesce_block s 4136).2,
    (P.map Blk.size).sum + 32 + (N.map Blk.size).sum, false⟩, hv, by simp, rfl⟩

/-! ## Header words -/

/-- C34: a word built by `pack` from a size that is a multiple of 16 decodes to that
size, the two bits given and no mini flag; a word built by `mini_pack` from a pointer
with its low three bits clear decodes to that pointer, the two bits given and the mini
flag, and `get_size` of a block with such a header is 16. -/
theorem header_round_trip :
    (∀ size a p, size % 16 = 0 → size < 2 ^ 64 →
      extract_size (pack size a p) = size ∧ extract_alloc (pack size a p) = a ∧
      extract_prev_alloc (pack size a p) = p ∧ extract_mini (pack size a p) = false) ∧
    (∀ x a p, x % 8 = 0 → x < 2 ^ 64 →
      extract_header (mini_pack x a p) = x ∧ extract_alloc (mini_pack x a p) = a ∧
      extract_prev_alloc (mini_pack x a p) = p ∧ extract_mini (mini_pack x a p) = true ∧
      ∀ (m : Mem) (b : Nat), m b = mini_pack x a p → get_size m b = 16) := by
  constructor
  · intro size a p hm hlt
    exact ⟨extract_size_pack _ _ _ hm hlt, extract_alloc_pack _ _ _ hm,
      extract_prev_alloc_pack _ _ _ hm, extract_mini_pack _ _ _ hm⟩
  · intro x a p h8 hlt
    refine ⟨extract_header_mini_pack _ _ _ h8 hlt, extract_alloc_mini_pack _ _ _ h8,
      extract_prev_alloc_mini_pack _ _ _ h8, extract_mini_mini_pack _ _ _ h8, fun m b e => ?_⟩
    unfold get_size get_mini
    rw [e, extract_mini_mini_pack _ _ _ h8]
    rfl

theorem header_round_trip_witness :
    (extract_size (pack 4096 false true) = 4096 ∧ extract_alloc (pack 4096 false true) = false ∧
      extract_prev_alloc (pack 4096 false true) = true ∧
      extract_mini (pack 4096 false true) = false) ∧
    (extract_header (mini_pack 4104 true false) = 4104 ∧
      extract_alloc (mini_pack 4104 true false) = true ∧
      extract_prev_alloc (mini_pack 4104 true false) = false ∧
      extract_mini (mini_pack 4104 true false) = true ∧
      ∀ (m : Mem) (b : Nat), m b = mini_pack 4104 true false → get_size m b = 16) :=
  ⟨header_round_trip.1 4096 false true (by decide) (by norm_num),
    header_round_trip.2 4104 true false (by decide) (by norm_num)⟩

/-! ## Stepping back from the next block -/

/-- C35: for a free block `b` of a valid heap, `find_prev (find_next b)` is `b`.  For a
mini block the word before the next block carries the mini flag and the step back is
16 bytes; otherwise that word is the footer of `b`, it holds the size of `b`, and the
step back is that size. -/
theorem find_prev_find_next (s : Heap) (bs : List Blk) (fl : Nat → List Nat) (pae : Bool)
    (h : Valid s bs fl 0 pae) (b : Blk) (hb : b ∈ bs) (hf : b.alloc = false) :
    find_prev s.mem (find_next s.mem b.addr) = b.addr ∧
    (get_mini s.mem b.addr = true →
      extract_mini (s.mem (find_prev_footer (find_next s.mem b.addr))) = true ∧
      find_next s.mem b.addr - 16 = b.addr) ∧
    (get_mini s.mem b.addr = false →
      find_prev_footer (find_next s.mem b.addr) = header_to_footer s.mem b.addr ∧
      extract_mini (s.mem (header_to_footer s.mem b.addr)) = false ∧
      extract_size (s.mem (header_to_footer s.mem b.addr)) = get_size s.mem b.addr ∧
      find_next s.mem b.addr - get_size s.mem b.addr = b.addr) := by
  obtain ⟨hmini, hsz, _, hlo, hhi, h16, hm16, _⟩ := Valid_block_tags _ _ _ _ _ h b hb
  obtain ⟨⟨pa, hhdr⟩, hftr⟩ := Seg_mem_hdr _ _ _ _ _ _ h.seg b hb
  have hfn := Tags_find_next _ _ _ _ _ hhdr.2
  have htop := h.top
  obtain ⟨f1, f2⟩ := hftr hf
  have hpf : find_prev_footer (b.addr + b.size) = b.addr + b.size - 8 := by
    unfold find_prev_footer wsize; rfl
  have hhf : header_to_footer s.mem b.addr = b.addr + b.size - 8 := by
    unfold header_to_footer dsize wsize
    rw [hsz]; omega
  rw [hfn, hpf, hhf, hsz, hmini]
  refine ⟨find_prev_eq _ _ hftr hf h16 (by omega), fun e => ?_, fun e => ?_⟩
  · have e16 : b.size = 16 := by simpa using e
    rw [f1, e16]
    exact ⟨by simp, by omega⟩
  · have e16 : b.size ≠ 16 := by simpa using e
    rw [f1]
    exact ⟨rfl, by simp [e16], (f2 e16).1, by omega⟩

theorem find_prev_find_next_witness :
    ∃ fl pae, Valid (fresh zero_mem 4096).heap [⟨4104, 4096, false⟩] fl 0 pae ∧
      find_prev (fresh zero_mem 4096).heap.mem
        (find_next (fresh zero_mem 4096).heap.mem 4104) = 4104 :=
  fresh_exact.elim fun fl h1 => h1.elim fun pae hv =>
    ⟨fl, pae, hv, (find_prev_find_next _ _ fl pae hv ⟨4104, 4096, false⟩
      (List.mem_singleton.2 rfl) rfl).1⟩

/-! ## `write_block` and the block behind -/

theorem write_block_mini_size (m : Mem) (b size : Nat) (alloc pa : Bool) :
    write_block m b size alloc pa true = write_block m b 16 alloc pa true := by
  unfold write_block
  simp

theorem write_block_next_word (m : Mem) (x size : Nat) (alloc pa : Bool) (npa : Bool)
    (h16 : 16 ≤ size) (hm : size % 16 = 0) (hlt : size < 2 ^ 64)
    (hn : Tags m (x + size) 16 false npa) :
    extract_prev_alloc (write_block m x size alloc pa (decide (size = 16)) (x + size + 8)) =
      alloc := by
  have e := write_block_eq m x size alloc pa h16 hm hlt
  have t1 := wb_own_tags m x size alloc pa h16 hm hlt
  have t2 : Tags (wb_own m x size alloc pa) (x + size) 16 false npa :=
    Tags_frame _ _ _ _ _ _ (wb_own_frame m x size alloc pa _ (by omega) (by omega)) hn
  have e2 := write_block_next_eq (wb_own m x size alloc pa) x size alloc 16 false npa
    (Tags_find_next _ _ _ _ _ t1) t1.2.2.2.2 h16 t2
  simp only [if_true, Bool.false_eq_true, if_false] at e2
  rw [e, e2, wr_same]
  unfold mini_get_next
  rw [extract_header_eq]
  exact extract_prev_alloc_mini_pack _ _ _ (by omega)

/-- C36: when the block behind `b` (at `n = b + size`, or `b + 16` for a mini `b`) has a
well-formed header, then after `write_block b size alloc prev_alloc mini` the next block
of `b` is `n`, the `prev_alloc` bit of `n` is `alloc`, and the size, the alloc bit and the
mini flag of `n` are as before; for a mini `n` the two list pointers stored in it are as
before, and when it is free its second word carries the mini flag and `alloc` as its
`prev_alloc` bit. -/
theorem write_block_patches_next (m : Mem) (b size : Nat) (alloc pa mini : Bool)
    (nsize : Nat) (nalloc npa : Bool)
    (hsz : mini = false → 32 ≤ size ∧ size % 16 = 0 ∧ size < 2 ^ 64)
    (hn : Tags m (b + (if mini = true then 16 else size)) nsize nalloc npa) :
    find_next (write_block m b size alloc pa mini) b = b + (if mini = true then 16 else size) ∧
    get_prev_alloc (write_block m b size alloc pa mini)
      (b + (if mini = true then 16 else size)) = alloc ∧
    get_size (write_block m b size alloc pa mini) (b + (if mini = true then 16 else size)) =
      nsize ∧
    get_alloc (write_block m b size alloc pa mini) (b + (if mini = true then 16 else size)) =
      nalloc ∧
    get_mini (write_block m b size alloc pa mini) (b + (if mini = true then 16 else size)) =
      decide (nsize = 16) ∧
    (nsize = 16 →
      mini_get_header (write_block m b size alloc pa mini)
          (b + (if mini = true then 16 else size)) =
        mini_get_header m (b + (if mini = true then 16 else size)) ∧
      mini_get_next (write_block m b size alloc pa mini)
          (b + (if mini = true then 16 else size)) =
        mini_get_next m (b + (if mini = true then 16 else size)) ∧
      (nalloc = false →
        extract_prev_alloc ((write_block m b size alloc pa mini)
          (b + (if mini = true then 16 else size) + 8)) = alloc ∧
        extract_mini ((write_block m b size alloc pa mini)
          (b + (if mini = true then 16 else size) + 8)) = true)) := by
  have key : ∀ sz, 16 ≤ sz → sz % 16 = 0 → sz < 2 ^ 64 → Tags m (b + sz) nsize nalloc npa →
      find_next (write_block m b sz alloc pa (decide (sz = 16))) b = b + sz ∧
      get_prev_alloc (write_block m b sz alloc pa (decide (sz = 16))) (b + sz) = alloc ∧
      get_size (write_block m b sz alloc pa (decide (sz = 16))) (b + sz) = nsize ∧
      get_alloc (write_block m b sz alloc pa (decide (sz = 16))) (b + sz) = nalloc ∧
      get_mini (write_block m b sz alloc pa (decide (sz = 16))) (b + sz) =
        decide (nsize = 16) ∧
      (nsize = 16 →
        mini_get_header (write_block m b sz alloc pa (decide (sz = 16))) (b + sz) =
          mini_get_header m (b + sz) ∧
        mini_get_next (write_block m b sz alloc pa (decide (sz = 16))) (b + sz) =
          mini_get_next m (b + sz) ∧
        (nalloc = false →
          extract_prev_alloc ((write_block m b sz alloc pa (decide (sz = 16))) (b + sz + 8)) =
            alloc ∧
          extract_mini ((write_block m b sz alloc pa (decide (sz = 16))) (b + sz + 8)) =
            true)) := by
    intro sz h16 hm hlt ht
    obtain ⟨t1, t2, _, _⟩ := write_block_spec m b sz alloc pa nsize nalloc npa h16 hm hlt ht
    obtain ⟨_, _, s3⟩ := write_block_spec2 m b sz alloc pa nsize nalloc npa h16 hm hlt ht
    refine ⟨Tags_find_next _ _ _ _ _ t1, t2.2.2.1, t2.2.2.2.2, t2.2.1, t2.2.2.2.1, fun e => ?_⟩
    obtain ⟨q1, q2, q3⟩ := s3 e
    refine ⟨q1, q2, fun ef => ⟨?_, q3 ef⟩⟩
    rw [e, ef] at ht
    exact write_block_next_word m b sz alloc pa npa h16 hm hlt ht
  cases mini with
  | true =>
    simp only [if_true] at hn ⊢
    rw [write_block_mini_size]
    exact key 16 (by norm_num) (by norm_num) (by norm_num) hn
  | false =>
    simp only [Bool.false_eq_true, if_false] at hn ⊢
    obtain ⟨h32, hm, hlt⟩ := hsz rfl
    have hd : decide (size = 16) = false := by simp; omega
    have := key size (by omega) hm hlt hn
    rw [hd] at this
    exact this

theorem write_block_patches_next_witness :
    Tags (wr zero_mem 4136 (pack 64 true true)) 4136 64 true true ∧
    find_next (write_block (wr zero_mem 4136 (pack 64 true true)) 4104 32 false true false)
      4104 = 4136 ∧
    get_prev_alloc (write_block (wr zero_mem 4136 (pack 64 true true)) 4104 32 false true false)
      4136 = false ∧
    get_size (write_block (wr zero_mem 4136 (pack 64 true true)) 4104 32 false true false)
      4136 = 64 :=
  have ht : Tags (wr zero_mem 4136 (pack 64 true true)) 4136 64 true true :=
    Tags_pack _ _ _ _ _ (by decide) (by decide) (by norm_num) (wr_same _ _ _)
  have hw := write_block_patches_next (wr zero_mem 4136 (pack 64 true true)) 4104 32 false
    true false 64 true true (fun _ => ⟨by decide, by decide, by norm_num⟩) ht
  ⟨ht, hw.1, hw.2.1, hw.2.2.1⟩

set_option maxRecDepth 100000 in
/-- C37, evaluated at a failing input.  In the heap after `malloc 24` on the fresh heap
the block at `4104` has 32 bytes and the block behind it, at `4136`, is free and not mini
(4064 bytes).  `write_block 4104 32 false true false`, the first step of `free`, leaves
the header word `pack 32 false true = 34`, but the footer word at `4104 + 32 - 8` is
`pack 4064 false false = 4064`: it has been written a second time with the size of the
block behind. -/
theorem write_block_footer_overwritten :
    (run (fresh zero_mem 4096) [Op.malloc 24 true]).map (fun c =>
      (get_size c.heap.mem 4104, get_alloc c.heap.mem 4136, get_mini c.heap.mem 4136,
        get_size c.heap.mem 4136,
        (write_block c.heap.mem 4104 32 false true false) 4104,
        (write_block c.heap.mem 4104 32 false true false) (4104 + 32 - 8))) =
      some (32, false, false, 4064, 34, 4064) ∧
    pack 32 false true = 34 ∧ pack 4064 false false = 4064 := by
  refine ⟨by decide!, by decide, by decide⟩

/-- The footer of a free non-mini block equals its header after `write_block` when the
block behind is allocated or mini. -/
theorem write_block_footer_kept (m : Mem) (x size : Nat) (pa : Bool) (nsize : Nat)
    (nalloc npa : Bool) (h32 : 32 ≤ size) (hm : size % 16 = 0) (hlt : size < 2 ^ 64)
    (hn : Tags m (x + size) nsize nalloc npa) (hnext : nalloc = true ∨ nsize = 16) :
    write_block m x size false pa false x = pack size false pa ∧
    write_block m x size false pa false (x + size - 8) = pack size false pa := by
  have hd : decide (size = 16) = false := by simp; omega
  have e := write_block_eq m x size false pa (by omega) hm hlt
  rw [hd] at e
  have t1 := wb_own_tags m x size false pa (by omega) hm hlt
  have t2 : Tags (wb_own m x size false pa) (x + size) nsize nalloc npa :=
    Tags_frame _ _ _ _ _ _ (wb_own_frame m x size false pa _ (by omega) (by omega)) hn
  have e2 := write_block_next_eq (wb_own m x size false pa) x size false nsize nalloc npa
    (Tags_find_next _ _ _ _ _ t1) t1.2.2.2.2 (by omega) t2
  have hown : wb_own m x size false pa x = pack size false pa ∧
      wb_own m x size false pa (x + size - 8) = pack size false pa := by
    unfold wb_own
    rw [if_neg (by omega), if_neg (by simp)]
    exact ⟨by rw [wr_other _ _ _ _ (by omega), wr_same], wr_same _ _ _⟩
  rw [e, e2]
  by_cases h16 : nsize = 16
  · rw [if_pos h16]
    split_ifs
    · exact ⟨by rw [wr_other _ _ _ _ (by omega)]; exact hown.1,
        by rw [wr_other _ _ _ _ (by omega)]; exact hown.2⟩
    · exact ⟨by rw [wr_other _ _ _ _ (by omega), wr_other _ _ _ _ (by omega)]; exact hown.1,
        by rw [wr_other _ _ _ _ (by omega), wr_other _ _ _ _ (by omega)]; exact hown.2⟩
  · rw [if_neg h16]
    have hna : nalloc = true := by
      rcases hnext with c | c
      · exact c
      · exact absurd c h16
    rw [if_pos hna]
    exact ⟨by rw [wr_other _ _ _ _ (by omega)]; exact hown.1,
      by rw [wr_other _ _ _ _ (by omega)]; exact hown.2⟩

/-! ## `insert` and `delete` on the lists of the index -/

theorem Seg_pa_det (m m1 : Mem) (l : List Blk) :
    ∀ (a : Nat) (pa : Bool) (a1 : Nat) (pa1 : Bool) (a2 : Nat) (pa2 : Bool),
      Seg m a pa l a1 pa1 → Seg m1 a pa l a2 pa2 → pa1 = pa2 ∧ a1 = a2 := by
  induction l with
  | nil =>
    intro a pa a1 pa1 a2 pa2 h1 h2
    simp only [Seg] at h1 h2
    exact ⟨by rw [h1.2, h2.2], by rw [h1.1, h2.1]⟩
  | cons b l ih =>
    intro a pa a1 pa1 a2 pa2 h1 h2
    simp only [Seg] at h1 h2
    exact ih _ _ _ _ _ _ h1.2.2.2 h2.2.2.2

theorem Valid_prev_alloc_det (s s1 : Heap) (bs : List Blk) (fl fl1 : Nat → List Nat)
    (x x1 : Nat) (pae pae1 : Bool) (h : Valid s bs fl x pae) (h1 : Valid s1 bs fl1 x1 pae1)
    (hlo : s1.lo = s.lo) (b : Blk) (hb : b ∈ bs) :
    get_prev_alloc s1.mem b.addr = get_prev_alloc s.mem b.addr := by
  obtain ⟨l1, l2, e⟩ := List.append_of_mem hb
  subst e
  obtain ⟨pax, hs1, hh, _, _⟩ := Seg_cons_split _ _ _ _ _ _ _ _ h.seg
  obtain ⟨pax1, hs2, hh1, _, _⟩ := Seg_cons_split _ _ _ _ _ _ _ _ h1.seg
  rw [hlo] at hs2
  have := (Seg_pa_det _ _ _ _ _ _ _ _ _ hs1 hs2).1
  rw [hh.2.2.2.1, hh1.2.2.2.1, this]

/-- C31: for a free block `bx` of a valid heap that is not in the index (the lists `fl`
hold every other free block), after `insert bx` the head of the bucket of `bx` is `bx`,
the list of that bucket is `bx` followed by the former list in its order, every other
bucket has its former head and its former list, and the size, the alloc bit and the
`prev_alloc` bit of `bx` are as before. -/
theorem insert_at_head (s : Heap) (bs : List Blk) (fl : Nat → List Nat) (pae : Bool)
    (bx : Blk) (h : Valid s bs fl bx.addr pae) (hbx : bx ∈ bs) (hfree : bx.alloc = false) :
    (insert s bx.addr).seglist (find_bucket bx.size) = bx.addr ∧
    FList (insert s bx.addr).mem (find_bucket bx.size)
      ((insert s bx.addr).seglist (find_bucket bx.size)) (bx.addr :: fl (find_bucket bx.size)) ∧
    FList s.mem (find_bucket bx.size) (s.seglist (find_bucket bx.size))
      (fl (find_bucket bx.size)) ∧
    (∀ i, i < 15 → i ≠ find_bucket bx.size →
      (insert s bx.addr).seglist i = s.seglist i ∧
      FList (insert s bx.addr).mem i ((insert s bx.addr).seglist i) (fl i) ∧
      FList s.mem i (s.seglist i) (fl i)) ∧
    get_size (insert s bx.addr).mem bx.addr = get_size s.mem bx.addr ∧
    get_alloc (insert s bx.addr).mem bx.addr = get_alloc s.mem bx.addr ∧
    get_prev_alloc (insert s bx.addr).mem bx.addr = get_prev_alloc s.mem bx.addr ∧
    get_mini (insert s bx.addr).mem bx.addr = get_mini s.mem bx.addr := by
  have hv := Valid_insert s bs fl pae bx h hbx hfree
  have hk := find_bucket_lt bx.size
  have t0 := Valid_block_tags _ _ _ _ _ h bx hbx
  have t1 := Valid_block_tags _ _ _ _ _ hv bx hbx
  have hhead : ∀ (t : Heap) (i : Nat) (l : List Nat), FList t.mem i (t.seglist i) l →
      t.seglist i = l.headD 0 := by
    intro t i l hl
    unfold FList at hl
    split_ifs at hl
    · exact LL_head _ _ _ _ _ hl
    · exact LL_head _ _ _ _ _ hl
  have hk1 := hv.lists _ hk
  simp only [if_true] at hk1
  refine ⟨by rw [hhead _ _ _ hk1]; rfl, hk1, h.lists _ hk, fun i hi hne => ?_,
    by rw [t0.2.1, t1.2.1], by rw [t0.2.2.1, t1.2.2.1],
    Valid_prev_alloc_det s _ bs fl _ _ _ pae pae h hv (insert_lo _ _) bx hbx,
    by rw [t0.1, t1.1]⟩
  have hi1 := hv.lists i hi
  simp only [if_neg hne] at hi1
  exact ⟨by rw [hhead _ _ _ hi1, hhead _ _ _ (h.lists i hi)], hi1, h.lists i hi⟩

theorem insert_at_head_witness :
    ∃ s bs fl pae bx, Valid s bs fl (Blk.addr bx) pae ∧ bx ∈ bs ∧ bx.alloc = false ∧
      (insert s bx.addr).seglist (find_bucket bx.size) = bx.addr ∧
      FList (insert s bx.addr).mem (find_bucket bx.size)
        ((insert s bx.addr).seglist (find_bucket bx.size))
        (bx.addr :: fl (find_bucket bx.size)) :=
  pending_example.elim fun s h1 => h1.elim fun bs h2 => h2.elim fun fl h3 =>
    h3.elim fun pae h4 => h4.elim fun bx h5 =>
      ⟨s, bs, fl, pae, bx, h5.1, h5.2.1, h5.2.2,
        (insert_at_head s bs fl pae bx h5.1 h5.2.1 h5.2.2).1,
        (insert_at_head s bs fl pae bx h5.1 h5.2.1 h5.2.2).2.1⟩

theorem FList_head (t : Heap) (i : Nat) (l : List Nat) (hl : FList t.mem i (t.seglist i) l) :
    t.seglist i = l.headD 0 := by
  unfold FList at hl
  split_ifs at hl
  · exact LL_head _ _ _ _ _ hl
  · exact LL_head _ _ _ _ _ hl

theorem Valid_delete_lists (s : Heap) (bs : List Blk) (fl : Nat → List Nat) (pae : Bool)
    (h : Valid s bs fl 0 pae) (b : Blk) (hb : b ∈ bs) (hf : b.alloc = false) :
    b.addr ∈ fl (find_bucket b.size) ∧
    (∀ i, i < 15 → FList (delete s b.addr).mem i ((delete s b.addr).seglist i)
      (if i = find_bucket b.size then (fl i).erase b.addr else fl i)) ∧
    (∀ i, i < 15 → i ≠ find_bucket b.size → (delete s b.addr).seglist i = s.seglist i) := by
  obtain ⟨hmini, hsz, _, hlo, _, h16, _, _⟩ := Valid_block_tags _ _ _ _ _ h b hb
  have hin : b.addr ∈ fl (find_bucket b.size) :=
    (h.mem_fl _ (find_bucket_lt _) _).2 ⟨⟨b, hb, rfl, hf, rfl⟩, by omega⟩
  have hidx : Idx s bs fl := ⟨h.lists, fun i hi y hy => Valid_index _ _ _ _ _ h i hi y hy, h.nodup⟩
  obtain ⟨r1, _⟩ := Idx_delete s bs fl s.mem (s.lo + 8) true (s.lo + s.brk - 8) pae h.seg
    (by have := h.lo_al; omega) (by have := h.top; omega) hidx b.addr b.size hin hmini hsz h16
  refine ⟨hin, r1.lists, fun i hi hne => ?_⟩
  have h1 := r1.lists i hi
  simp only [if_neg hne] at h1
  rw [FList_head _ _ _ h1, FList_head _ _ _ (h.lists i hi)]

/-- C32: for a free block `b` of more than 16 bytes in a valid heap, which is on the list
of the bucket `k = find_bucket (size b)` at some position, after `delete b` the list of
bucket `k` is the former list without `b`, in the former order; the `next` and `prev`
fields of the blocks on it point at each other; and every other bucket has its former
head and its former list. -/
theorem delete_from_bucket (s : Heap) (bs : List Blk) (fl : Nat → List Nat) (pae : Bool)
    (h : Valid s bs fl 0 pae) (b : Blk) (hb : b ∈ bs) (hf : b.alloc = false)
    (hnm : b.size ≠ 16) :
    get_mini s.mem b.addr = false ∧ 1 ≤ find_bucket b.size ∧
    b.addr ∈ fl (find_bucket b.size) ∧
    LL (get_next s.mem) (get_prev s.mem) 0 (s.seglist (find_bucket b.size))
      (fl (find_bucket b.size)) ∧
    LL (get_next (delete s b.addr).mem) (get_prev (delete s b.addr).mem) 0
      ((delete s b.addr).seglist (find_bucket b.size))
      ((fl (find_bucket b.size)).erase b.addr) ∧
    (fl (find_bucket b.size)).erase b.addr =
      (fl (find_bucket b.size)).filter (fun y => y != b.addr) ∧
    (∀ x, x ∈ (fl (find_bucket b.size)).erase b.addr →
      (get_next (delete s b.addr).mem x ≠ 0 →
        get_prev (delete s b.addr).mem (get_next (delete s b.addr).mem x) = x) ∧
      (get_prev (delete s b.addr).mem x ≠ 0 →
        get_next (delete s b.addr).mem (get_prev (delete s b.addr).mem x) = x)) ∧
    (∀ i, i < 15 → i ≠ find_bucket b.size →
      (delete s b.addr).seglist i = s.seglist i ∧
      FList (delete s b.addr).mem i ((delete s b.addr).seglist i) (fl i) ∧
      FList s.mem i (s.seglist i) (fl i)) := by
  obtain ⟨hmini, _, _, _, _, h16, _, _⟩ := Valid_block_tags _ _ _ _ _ h b hb
  obtain ⟨hin, hl, hsl⟩ := Valid_delete_lists s bs fl pae h b hb hf
  have hk := find_bucket_lt b.size
  have hk0 : find_bucket b.size ≠ 0 := fun e => by
    have := (find_bucket_zero _).1 e
    omega
  have h0 := h.lists _ hk
  have h1 := hl _ hk
  unfold FList at h0 h1
  simp only [if_neg hk0, if_true] at h0 h1
  refine ⟨by rw [hmini]; simp [hnm], by omega, hin, h0, h1,
    List.Nodup.erase_eq_filter (h.nodup _ hk) _, fun x hx => ?_, fun i hi hne => ?_⟩
  · obtain ⟨c1, c2⟩ := LL_links _ _ _ _ _ h1 x hx
    constructor
    · intro hne
      rcases c2 with c | c
      · exact absurd c hne
      · exact c.2
    · intro hne
      rcases c1 with c | c
      · exact absurd c.2 hne
      · exact c.2.2
  · have h2 := hl i hi
    simp only [if_neg hne] at h2
    exact ⟨hsl i hi hne, h2, h.lists i hi⟩

theorem delete_from_bucket_witness :
    ∃ fl pae, Valid (fresh zero_mem 4096).heap [⟨4104, 4096, false⟩] fl 0 pae ∧
      (4096 : Nat) ≠ 16 ∧
      LL (get_next (delete (fresh zero_mem 4096).heap 4104).mem)
        (get_prev (delete (fresh zero_mem 4096).heap 4104).mem) 0
        ((delete (fresh zero_mem 4096).heap 4104).seglist (find_bucket 4096))
        ((fl (find_bucket 4096)).erase 4104) :=
  fresh_exact.elim fun fl h1 => h1.elim fun pae hv =>
    ⟨fl, pae, hv, by decide,
      (delete_from_bucket _ _ fl pae hv ⟨4104, 4096, false⟩ (List.mem_singleton.2 rfl) rfl
        (by decide)).2.2.2.2.1⟩

/-- C33: for a free mini block `b` of a valid heap, which is on the mini list at some
position, after `delete b` (the call takes `b` alone) the mini list is the former list
without `b`, in the former order; the forward pointer (in the header word) and the
backward pointer (in the second word) of the blocks on it point at each other; every
block on it keeps its `prev_alloc` bit, its alloc bit and its mini flag; and every other
bucket has its former head and its former list. -/
theorem delete_from_mini_list (s : Heap) (bs : List Blk) (fl : Nat → List Nat) (pae : Bool)
    (h : Valid s bs fl 0 pae) (b : Blk) (hb : b ∈ bs) (hf : b.alloc = false)
    (hm : b.size = 16) :
    get_mini s.mem b.addr = true ∧ b.addr ∈ fl 0 ∧
    LL (mini_get_header s.mem) (mini_get_next s.mem) 0 (s.seglist 0) (fl 0) ∧
    LL (mini_get_header (delete s b.addr).mem) (mini_get_next (delete s b.addr).mem) 0
      ((delete s b.addr).seglist 0) ((fl 0).erase b.addr) ∧
    (fl 0).erase b.addr = (fl 0).filter (fun y => y != b.addr) ∧
    (∀ x, x ∈ (fl 0).erase b.addr →
      (mini_get_header (delete s b.addr).mem x ≠ 0 →
        mini_get_next (delete s b.addr).mem (mini_get_header (delete s b.addr).mem x) = x) ∧
      (mini_get_next (delete s b.addr).mem x ≠ 0 →
        mini_get_header (delete s b.addr).mem (mini_get_next (delete s b.addr).mem x) = x) ∧
      get_prev_alloc (delete s b.addr).mem x = get_prev_alloc s.mem x ∧
      get_alloc (delete s b.addr).mem x = get_alloc s.mem x ∧
      get_mini (delete s b.addr).mem x = get_mini s.mem x) ∧
    (∀ i, i < 15 → i ≠ 0 →
      (delete s b.addr).seglist i = s.seglist i ∧
      FList (delete s b.addr).mem i ((delete s b.addr).seglist i) (fl i) ∧
      FList s.mem i (s.seglist i) (fl i)) := by
  obtain ⟨hmini, _, _, _, _, h16, _, hal8⟩ := Valid_block_tags _ _ _ _ _ h b hb
  obtain ⟨hin, hl, hsl⟩ := Valid_delete_lists s bs fl pae h b hb hf
  have hk0 : find_bucket b.size = 0 := (find_bucket_zero _).2 (by omega)
  rw [hk0] at hin hl hsl
  have htop := h.top
  have h0 := h.lists 0 (by norm_num)
  have h1 := hl 0 (by norm_num)
  unfold FList at h0 h1
  simp only [if_true] at h0 h1
  have hmt : get_mini s.mem b.addr = true := by rw [hmini]; simp [hm]
  have hal : ∀ y, y ∈ fl 0 → y % 16 = 8 ∧ y < 2 ^ 64 := by
    intro y hy
    obtain ⟨c, hc1, hc2, _⟩ := Valid_index _ _ _ _ _ h 0 (by norm_num) y hy
    have := Valid_block_tags _ _ _ _ _ h c hc1
    rw [← hc2]
    exact ⟨this.2.2.2.2.2.2.2, by omega⟩
  obtain ⟨_, _, _, _, _, _, _, d8, _⟩ := delete_mini_spec s b.addr (fl 0) h0 hin
    (h.nodup 0 (by norm_num)) hal hmt
  refine ⟨hmt, hin, h0, h1, List.Nodup.erase_eq_filter (h.nodup 0 (by norm_num)) _,
    fun x hx => ?_, fun i hi hne => ?_⟩
  · obtain ⟨c1, c2⟩ := LL_links _ _ _ _ _ h1 x hx
    have hx0 : x ∈ fl 0 := List.mem_of_mem_erase hx
    have hxb : x ≠ b.addr := fun e => by
      rw [e] at hx
      exact List.Nodup.not_mem_erase (h.nodup 0 (by norm_num)) hx
    obtain ⟨⟨c, hc1, hc2, hc3, hc4⟩, _⟩ := (h.mem_fl 0 (by norm_num) x).1 hx0
    have hc16 : c.size = 16 := by
      have := (find_bucket_zero _).1 hc4
      have := (Valid_block_tags _ _ _ _ _ h c hc1).2.2.2.2.2.1
      omega
    obtain ⟨⟨pa, hhdr⟩, _⟩ := Seg_mem_hdr _ _ _ _ _ _ h.seg c hc1
    have t0 : Tags s.mem x 16 false pa := by
      have := hhdr.2
      rw [hc2, hc16, hc3] at this
      exact this
    have t1 := d8 x hx0 hxb pa t0
    refine ⟨fun hne => ?_, fun hne => ?_, by rw [t0.2.2.1, t1.2.2.1], by rw [t0.2.1, t1.2.1],
      by rw [t0.2.2.2.1, t1.2.2.2.1]⟩
    · rcases c2 with c | c
      · exact absurd c hne
      · exact c.2
    · rcases c1 with c | c
      · exact absurd c.2 hne
      · exact c.2.2
  · have h2 := hl i hi
    simp only [if_neg hne] at h2
    exact ⟨hsl i hi hne, h2, h.lists i hi⟩

theorem delete_from_mini_list_witness :
    ∃ s fl pae,
      Valid s [⟨4104, 16, false⟩, ⟨4120, 16, true⟩, ⟨4136, 4064, false⟩] fl 0 pae ∧
      LL (mini_get_header (delete s 4104).mem) (mini_get_next (delete s 4104).mem) 0
        ((delete s 4104).seglist 0) ((fl 0).erase 4104) :=
  mini_example.elim fun s h1 => h1.elim fun fl h2 => h2.elim fun pae hv =>
    ⟨s, fl, pae, hv,
      (delete_from_mini_list s _ fl pae hv ⟨4104, 16, false⟩ (List.mem_cons_self _ _) rfl
        rfl).2.2.2.1⟩

/-! ## What the heap checker compares in a footer -/

set_option maxRecDepth 100000 in
/-- C38 fails for a difference in the `prev_alloc` bit alone: in the fresh heap with the
footer of its free block (the word at `8192`) replaced by `pack 4096 false false`, the
free non-mini block at `4104` is the first block of the heap, its header and its footer
differ in the `prev_alloc` bit, and `mm_checkheap` returns `true`. -/
theorem checkheap_misses_prev_alloc :
    block_at (poke (fresh zero_mem 4096).heap 8192 (pack 4096 false false)) 0 = 4104 ∧
    4104 ≠ epilogue (poke (fresh zero_mem 4096).heap 8192 (pack 4096 false false)) ∧
    get_alloc (poke (fresh zero_mem 4096).heap 8192 (pack 4096 false false)).mem 4104 = false ∧
    get_mini (poke (fresh zero_mem 4096).heap 8192 (pack 4096 false false)).mem 4104 = false ∧
    header_to_footer (poke (fresh zero_mem 4096).heap 8192 (pack 4096 false false)).mem 4104 =
      8192 ∧
    get_prev_alloc (poke (fresh zero_mem 4096).heap 8192 (pack 4096 false false)).mem 4104 =
      true ∧
    extract_prev_alloc
      ((poke (fresh zero_mem 4096).heap 8192 (pack 4096 false false)).mem 8192) = false ∧
    mm_checkheap (poke (fresh zero_mem 4096).heap 8192 (pack 4096 false false)).brk
      (poke (fresh zero_mem 4096).heap 8192 (pack 4096 false false)) = some true := by
  refine ⟨by decide!, by decide!, by decide!, by decide!, by decide!, by decide!, by decide!,
    by decide!⟩

theorem ite_cases {α : Type} {P : α → Prop} (c : Prop) [Decidable c] (a b : α) (ha : P a)
    (hb : P b) : P (if c then a else b) := by
  split
  · exact ha
  · exact hb

theorem checkheap_blocks_step (s : Heap) (epi fuel block cnt : Nat) (hne : block ≠ epi)
    (P : Option (Option Nat) → Prop) (h0 : P (some none))
    (h1 : (get_mini s.mem block = true ∨ get_size s.mem block % 16 = 0) →
      (s.heap_start ≤ block ∧ block ≤ mem_heap_hi s - 7 - 16) →
      ¬((get_alloc s.mem block = false ∧ get_mini s.mem block = false) ∧
        (get_alloc s.mem (header_to_footer s.mem block) ≠ false ∨
          get_size s.mem (header_to_footer s.mem block) ≠ get_size s.mem block)) →
      ∀ cnt1, P (checkheap_blocks s epi fuel (find_next s.mem block) cnt1)) :
    P (checkheap_blocks s epi (fuel + 1) block cnt) := by
  conv => arg 1; unfold checkheap_blocks
  rw [if_neg hne]
  dsimp only
  unfold dsize min_block_size dsize wsize
  by_cases c1 : (!get_mini s.mem block) = true ∧ get_size s.mem block % (2 * 8) ≠ 0
  · rw [if_pos c1]; exact h0
  rw [if_neg c1]
  by_cases c2 : block < s.heap_start ∨ block > mem_heap_hi s - 7 - 2 * 8
  · rw [if_pos c2]; exact h0
  rw [if_neg c2]
  by_cases c3 : ((!get_alloc s.mem block) = true ∧ (!get_mini s.mem block) = true) ∧
      (get_alloc s.mem block ≠ get_alloc s.mem (header_to_footer s.mem block) ∨
        get_size s.mem block ≠ get_size s.mem (header_to_footer s.mem block))
  · rw [if_pos c3]; exact h0
  rw [if_neg c3]
  have d1 : get_mini s.mem block = true ∨ get_size s.mem block % 16 = 0 := by
    by_contra hc
    rw [not_or] at hc
    exact c1 ⟨by simpa using hc.1, by omega⟩
  have d2 : s.heap_start ≤ block ∧ block ≤ mem_heap_hi s - 7 - 16 := by
    rw [not_or] at c2
    omega
  have d3 : ¬((get_alloc s.mem block = false ∧ get_mini s.mem block = false) ∧
        (get_alloc s.mem (header_to_footer s.mem block) ≠ false ∨
          get_size s.mem (header_to_footer s.mem block) ≠ get_size s.mem block)) := by
    rintro ⟨⟨a1, a2⟩, a3⟩
    apply c3
    refine ⟨⟨by rw [a1]; rfl, by rw [a2]; rfl⟩, ?_⟩
    rcases a3 with a | a
    · left; rw [a1]; exact fun e => a e.symm
    · right; exact fun e => a e.symm
  repeat (refine ite_cases _ _ _ h0 ?_)
  exact h1 d1 d2 d3 _

theorem block_at_iterate (s : Heap) (k : Nat) :
    block_at s k = (find_next s.mem)^[k] s.heap_start := by
  induction k with
  | zero => rfl
  | succ k ih =>
    rw [Function.iterate_succ_apply', ← ih]
    rfl

theorem checkheap_blocks_finds (s : Heap) (epi : Nat) :
    ∀ (j fuel block cnt : Nat), (∀ i, i ≤ j → (find_next s.mem)^[i] block ≠ epi) →
      ((get_alloc s.mem ((find_next s.mem)^[j] block) = false ∧
          get_mini s.mem ((find_next s.mem)^[j] block) = false) ∧
        (get_alloc s.mem (header_to_footer s.mem ((find_next s.mem)^[j] block)) ≠ false ∨
          get_size s.mem (header_to_footer s.mem ((find_next s.mem)^[j] block)) ≠
            get_size s.mem ((find_next s.mem)^[j] block))) →
      1 ≤ fuel → 16 * fuel + block > mem_heap_hi s - 7 - 16 + 16 →
      checkheap_blocks s epi fuel block cnt = some none := by
  intro j
  induction j with
  | zero =>
    intro fuel block cnt hnot hoff hf _
    obtain ⟨f, ef⟩ : ∃ f, fuel = f + 1 := ⟨fuel - 1, by omega⟩
    rw [ef]
    exact checkheap_blocks_step s epi f block cnt (hnot 0 (le_refl _)) (fun v => v = some none)
      rfl (fun _ _ d3 _ => absurd hoff d3)
  | succ j ih =>
    intro fuel block cnt hnot hoff hf hinv
    obtain ⟨f, ef⟩ : ∃ f, fuel = f + 1 := ⟨fuel - 1, by omega⟩
    rw [ef]
    refine checkheap_blocks_step s epi f block cnt (hnot 0 (Nat.zero_le _))
      (fun v => v = some none) rfl (fun d1 d2 d3 cnt1 => ?_)
    by_cases hz : find_next s.mem block = block
    · exfalso
      apply d3
      have hfix : ∀ n, (find_next s.mem)^[n] block = block := by
        intro n
        induction n with
        | zero => rfl
        | succ n ihn => rw [Function.iterate_succ_apply, hz, ihn]
      rw [hfix] at hoff
      exact hoff
    · have hnext : block + 16 ≤ find_next s.mem block := by
        unfold find_next dsize wsize at hz ⊢
        by_cases hm : get_mini s.mem block = true
        · rw [if_pos hm]
        · rw [if_neg hm] at hz ⊢
          rcases d1 with d | d
          · exact absurd d hm
          · omega
      refine ih f (find_next s.mem block) cnt1 (fun i hi => ?_) ?_ (by omega) (by omega)
      · have := hnot (i + 1) (by omega)
        rw [Function.iterate_succ_apply] at this
        exact this
      · rw [Function.iterate_succ_apply] at hoff
        exact hoff

/-- C38, amended: in a heap of at least 16 bytes, when some block that the address-order
walk from `heap_start` meets before the epilogue is free and not mini and its footer
word, read as `mm_checkheap` reads it, has the alloc bit set or gives another size than
the header, then `mm_checkheap` finishes and returns `false`. -/
theorem checkheap_detects_footer (s : Heap) (hbrk : 16 ≤ s.brk) (k : Nat)
    (hk : before_epilogue s k) (hfree : get_alloc s.mem (block_at s k) = false)
    (hnm : get_mini s.mem (block_at s k) = false)
    (hdiff : get_alloc s.mem (header_to_footer s.mem (block_at s k)) ≠
        get_alloc s.mem (block_at s k) ∨
      get_size s.mem (header_to_footer s.mem (block_at s k)) ≠ get_size s.mem (block_at s k)) :
    mm_checkheap s.brk s = some false := by
  unfold mm_checkheap
  dsimp only
  by_cases c1 : s.heap_start - wsize < s.lo ∨ get_alloc s.mem (s.heap_start - wsize) = false ∨
      get_size s.mem (s.heap_start - wsize) ≠ 0
  · rw [if_pos c1]
  rw [if_neg c1]
  refine ite_cases (P := fun v => v = some false) _ _ _ rfl ?_
  have hlo : s.lo ≤ s.heap_start := by
    rw [not_or] at c1
    have := c1.1
    omega
  have hfind := checkheap_blocks_finds s (mem_heap_hi s - 7) k s.brk s.heap_start 0
    (fun i hi => by
      have := hk i hi
      rw [block_at_iterate] at this
      exact this)
    (by
      rw [← block_at_iterate]
      refine ⟨⟨hfree, hnm⟩, ?_⟩
      rw [hfree] at hdiff
      exact hdiff) (by omega) (by unfold mem_heap_hi; omega)
  rw [hfind]

set_option maxRecDepth 100000 in
theorem checkheap_detects_footer_witness :
    16 ≤ (poke (fresh zero_mem 4096).heap 8192 (pack 4096 true true)).brk ∧
    before_epilogue (poke (fresh zero_mem 4096).heap 8192 (pack 4096 true true)) 0 ∧
    get_alloc (poke (fresh zero_mem 4096).heap 8192 (pack 4096 true true)).mem
      (block_at (poke (fresh zero_mem 4096).heap 8192 (pack 4096 true true)) 0) = false ∧
    get_mini (poke (fresh zero_mem 4096).heap 8192 (pack 4096 true true)).mem
      (block_at (poke (fresh zero_mem 4096).heap 8192 (pack 4096 true true)) 0) = false ∧
    mm_checkheap (poke (fresh zero_mem 4096).heap 8192 (pack 4096 true true)).brk
      (poke (fresh zero_mem 4096).heap 8192 (pack 4096 true true)) = some false :=
  have h1 : 16 ≤ (poke (fresh zero_mem 4096).heap 8192 (pack 4096 true true)).brk := by
    decide!
  have h2 : before_epilogue (poke (fresh zero_mem 4096).heap 8192 (pack 4096 true true)) 0 :=
    fun j hj => by
      have e : j = 0 := by omega
      rw [e]
      decide!
  have h3 : get_alloc (poke (fresh zero_mem 4096).heap 8192 (pack 4096 true true)).mem
      (block_at (poke (fresh zero_mem 4096).heap 8192 (pack 4096 true true)) 0) = false := by
    decide!
  have h4 : get_mini (poke (fresh zero_mem 4096).heap 8192 (pack 4096 true true)).mem
      (block_at (poke (fresh zero_mem 4096).heap 8192 (pack 4096 true true)) 0) = false := by
    decide!
  ⟨h1, h2, h3, h4, checkheap_detects_footer _ h1 0 h2 h3 h4 (Or.inl (by decide!))⟩

/-! ## `malloc` followed by `free` -/

theorem two_cons_eq_append (N L2 l2 : List Blk) (r : Blk) (hN : N.length ≤ 1)
    (hfree : ∀ b, b ∈ N → b.alloc = false) (hL2 : ∀ q, q ∈ L2.head? → q.alloc = true)
    (hr : r.alloc = false) (e : r :: l2 = N ++ L2) : N = [r] ∧ L2 = l2 := by
  cases N with
  | nil =>
    rw [List.nil_append] at e
    have := hL2 r (by rw [← e]; simp)
    rw [hr] at this
    simp at this
  | cons n N1 =>
    cases N1 with
    | cons _ _ => simp at hN
    | nil =>
      simp only [List.singleton_append, List.cons.injEq] at e
      exact ⟨by rw [e.1], e.2.symm⟩

theorem nil_of_head_alloc (N L2 l2 : List Blk) (hfree : ∀ b, b ∈ N → b.alloc = false)
    (hhead : ∀ q, q ∈ l2.head? → q.alloc = true) (e : l2 = N ++ L2) : N = [] ∧ L2 = l2 := by
  cases N with
  | nil => exact ⟨rfl, by rw [e]; rfl⟩
  | cons n N1 =>
    have h1 := hhead n (by rw [e]; simp)
    have h2 := hfree n (List.mem_cons_self _ _)
    rw [h1] at h2
    simp at h2

theorem nil_of_last_alloc (L1 P l1 : List Blk) (hP : P.length ≤ 1)
    (hfree : ∀ b, b ∈ P → b.alloc = false)
    (hlast : ∀ q, q ∈ l1.getLast? → q.alloc = true) (e : l1 = L1 ++ P) : P = [] ∧ L1 = l1 := by
  cases P with
  | nil => exact ⟨rfl, by rw [e]; simp⟩
  | cons p P1 =>
    cases P1 with
    | cons _ _ => simp at hP
    | nil =>
      have h1 := hlast p (by rw [e]; simp)
      have h2 := hfree p (List.mem_cons_self _ _)
      rw [h1] at h2
      simp at h2

/-- The blocks after `place` on a free block and `free` of the block placed are the
blocks before. -/
theorem place_free_restores (s : Heap) (l1 l2 : List Blk) (x : Blk) (fl : Nat → List Nat)
    (pae : Bool) (h : Valid s (l1 ++ x :: l2) fl 0 pae) (hfree : x.alloc = false)
    (asize : Nat) (h16 : 16 ≤ asize) (hm : asize % 16 = 0) (hle : asize ≤ x.size) :
    ∃ fl2 pae2, Valid (free (place s x.addr asize) (x.addr + 8)) (l1 ++ x :: l2) fl2 0 pae2 ∧
      (free (place s x.addr asize) (x.addr + 8)).brk = s.brk ∧
      (free (place s x.addr asize) (x.addr + 8)).lo = s.lo := by
  obtain ⟨fl1, pae1, hv, hlo, hbrk⟩ := place_exact s l1 l2 x fl pae h hfree asize h16 hm hle
  have hna := (NoAdj_mid _ _ _).1 h.noadj
  have hlast : ∀ q, q ∈ l1.getLast? → q.alloc = true := by
    intro q hq
    rcases hna.2.2.1 q hq with c | c
    · exact c
    · rw [hfree] at c; simp at c
  have hhead : ∀ q, q ∈ l2.head? → q.alloc = true := by
    intro q hq
    rcases hna.2.2.2 q hq with c | c
    · rw [hfree] at c; simp at c
    · exact c
  have hx : x = ⟨x.addr, x.size, false⟩ := by
    cases x
    simp at hfree ⊢
    exact hfree
  generalize place s x.addr asize = s1 at hv hlo hbrk ⊢
  by_cases e : asize = x.size
  · rw [if_pos e] at hv
    simp only [List.append_assoc, List.singleton_append] at hv
    obtain ⟨L1, P, N, L2, fl2, pae2, e1, e2, hP, hN, hfr, hL1, hL2, hv2, hlo2, hbrk2⟩ :=
      free_exact s1 l1 l2 ⟨x.addr, x.size, true⟩ fl1 pae1 hv rfl
    obtain ⟨p0, p1⟩ := nil_of_last_alloc L1 P l1 hP (fun b hb => hfr b (Or.inl hb)) hlast e1
    obtain ⟨n0, n1⟩ := nil_of_head_alloc N L2 l2 (fun b hb => hfr b (Or.inr hb)) hhead e2
    rw [p0, n0, p1, n1] at hv2
    simp only [List.map_nil, List.sum_nil, Nat.zero_add, Nat.add_zero, List.head?_nil,
      Option.map_none', Option.getD_none] at hv2
    rw [← hx] at hv2
    exact ⟨fl2, pae2, hv2, by rw [hbrk2, hbrk], by rw [hlo2, hlo]⟩
  · rw [if_neg e] at hv
    simp only [List.append_assoc, List.cons_append, List.nil_append] at hv
    obtain ⟨L1, P, N, L2, fl2, pae2, e1, e2, hP, hN, hfr, hL1, hL2, hv2, hlo2, hbrk2⟩ :=
      free_exact s1 l1 (⟨x.addr + asize, x.size - asize, false⟩ :: l2) ⟨x.addr, asize, true⟩
        fl1 pae1 hv rfl
    obtain ⟨p0, p1⟩ := nil_of_last_alloc L1 P l1 hP (fun b hb => hfr b (Or.inl hb)) hlast e1
    obtain ⟨n0, n1⟩ := two_cons_eq_append N L2 l2 ⟨x.addr + asize, x.size - asize, false⟩ hN
      (fun b hb => hfr b (Or.inr hb)) hL2 rfl e2
    rw [p0, n0, p1, n1] at hv2
    simp only [List.map_nil, List.sum_nil, Nat.zero_add, Nat.add_zero, List.head?_nil,
      Option.map_none', Option.getD_none, List.map_cons, List.sum_cons] at hv2
    have hsum : asize + (x.size - asize) = x.size := by omega
    rw [hsum, ← hx] at hv2
    exact ⟨fl2, pae2, hv2, by rw [hbrk2, hbrk], by rw [hlo2, hlo]⟩

/-- C39: on a valid heap with the blocks `bs` and the index lists `fl`, when `malloc n`
for `n > 0` returns a non-null `p` and leaves the heap at its size, the heap after
`free p` is valid with the same blocks `bs` (the same addresses, sizes and alloc flags in
address order), it has the size it had, and the list of every bucket holds the same
blocks as before the call of `malloc`. -/
theorem malloc_free_restores (s : Heap) (bs : List Blk) (fl : Nat → List Nat) (pae : Bool)
    (h : Valid s bs fl 0 pae) (n : Nat) (hn : 0 < n) (g : Bool) (s1 : Heap) (p : Nat)
    (hm : malloc s.brk s n g = some (s1, p)) (hp : p ≠ 0) (hsame : s1.brk = s.brk) :
    ∃ fl2 pae2, Valid (free s1 p) bs fl2 0 pae2 ∧ (free s1 p).brk = s.brk ∧
      (free s1 p).lo = s.lo ∧ (free s1 p).heap_start = s.heap_start ∧
      (∀ i, i < 15 → ∀ a, a ∈ fl2 i ↔ a ∈ fl i) ∧
      (∀ i, i < 15 → FList (free s1 p).mem i ((free s1 p).seglist i) (fl2 i)) := by
  obtain ⟨ha16, ham, _⟩ := adjust_facts n
  obtain ⟨_, m2, _, _, _⟩ := max_adjust n
  rcases malloc_cases s bs fl pae h n s.brk g (le_refl _) with
    ⟨h0, _⟩ | ⟨_, x, hx1, hx2, hx3, _, _, hmx⟩ |
    ⟨_, _, _, ⟨_, hm0⟩ | ⟨_, _, _, _, bx, hv, hbx, _, _, _, _, hbrk, hmx⟩⟩
  · omega
  · rw [hmx g] at hm
    simp only [Option.some.injEq, Prod.mk.injEq] at hm
    rw [← hm.1, ← hm.2]
    obtain ⟨l1, l2, e⟩ := List.append_of_mem hx1
    subst e
    obtain ⟨fl2, pae2, hv2, hb2, hl2⟩ := place_free_restores s l1 l2 x fl pae h hx2 _ ha16 ham hx3
    refine ⟨fl2, pae2, hv2, hb2, hl2, by rw [hv2.hs, h.hs, hl2], fun i hi a => ?_, hv2.lists⟩
    rw [hv2.mem_fl i hi a, h.mem_fl i hi a]
  · rw [hm0] at hm
    simp only [Option.some.injEq, Prod.mk.injEq] at hm
    exact absurd hm.2.symm hp
  · exfalso
    rw [hmx] at hm
    simp only [Option.some.injEq, Prod.mk.injEq] at hm
    obtain ⟨_, _, _, _, _, _, _, _, _, _, _, hpbrk⟩ :=
      place_valid _ _ _ _ hv bx hbx (by assumption) (adjust n) ha16 ham (by omega)
    rw [← hm.1, hpbrk, hbrk] at hsame
    omega

set_option maxRecDepth 100000 in
theorem malloc_free_restores_witness :
    ∃ fl pae s1 p, Valid (fresh zero_mem 4096).heap [⟨4104, 4096, false⟩] fl 0 pae ∧ 0 < 24 ∧
      malloc (fresh zero_mem 4096).heap.brk (fresh zero_mem 4096).heap 24 true = some (s1, p) ∧
      p ≠ 0 ∧ s1.brk = (fresh zero_mem 4096).heap.brk ∧
      ∃ fl2 pae2, Valid (free s1 p) [⟨4104, 4096, false⟩] fl2 0 pae2 ∧
        (free s1 p).brk = (fresh zero_mem 4096).heap.brk ∧
        (free s1 p).lo = (fresh zero_mem 4096).heap.lo ∧
        (free s1 p).heap_start = (fresh zero_mem 4096).heap.heap_start ∧
        (∀ i, i < 15 → ∀ a, a ∈ fl2 i ↔ a ∈ fl i) ∧
        (∀ i, i < 15 → FList (free s1 p).mem i ((free s1 p).seglist i) (fl2 i)) :=
  have hs : (malloc (fresh zero_mem 4096).heap.brk (fresh zero_mem 4096).heap 24 true).isSome =
      true := by decide!
  have hp : ((malloc (fresh zero_mem 4096).heap.brk (fresh zero_mem 4096).heap 24 true).getD
      (empty_heap zero_mem 0, 0)).2 ≠ 0 := by decide!
  have hb : ((malloc (fresh zero_mem 4096).heap.brk (fresh zero_mem 4096).heap 24 true).getD
      (empty_heap zero_mem 0, 0)).1.brk = (fresh zero_mem 4096).heap.brk := by decide!
  fresh_exact.elim fun fl h1 => h1.elim fun pae hv =>
    ⟨fl, pae, _, _, hv, by decide, some_getD _ (empty_heap zero_mem 0, 0) hs, hp, hb,
      malloc_free_restores _ _ fl pae hv 24 (by decide) true _ _
        (some_getD _ (empty_heap zero_mem 0, 0) hs) hp hb⟩

/-! ## The heap after `mm_init` -/

theorem list_eq_singleton (l : List Nat) (v : Nat) (hd : l.Nodup) (h : ∀ a, a ∈ l ↔ a = v) :
    l = [v] := by
  cases l with
  | nil => exact absurd ((h v).2 rfl) (by simp)
  | cons x xs =>
    have hx : x = v := (h x).1 (List.mem_cons_self _ _)
    have hxs : xs = [] := by
      cases xs with
      | nil => rfl
      | cons y ys =>
        exfalso
        have hy : y = v := (h y).1 (List.mem_cons_of_mem _ (List.mem_cons_self _ _))
        rw [hx, hy] at hd
        simp at hd
    rw [hx, hxs]

/-- C40: after a successful `mm_init` on an empty heap region that starts at a non-null
16-byte aligned address `lo`, the heap has 4112 bytes: the prologue word at `lo`
(allocated, size 0); at `heap_start = lo + 8` one free block of 4096 bytes, not mini,
with `prev_alloc` set, whose next block is the epilogue; and the epilogue word
(allocated, size 0, `prev_alloc` clear) in the last word of the heap.  The only member
of bucket 8 is that block, every other bucket is empty, and `mm_checkheap` returns
`true`. -/
theorem mm_init_layout (s : Heap) (grow : Bool) (hlo : 0 < s.lo) (hal : s.lo % 16 = 0)
    (hbrk : s.brk = 0) (hok : (mm_init s grow).2 = true) :
    (mm_init s grow).1.lo = s.lo ∧ (mm_init s grow).1.brk = 4112 ∧
    (mm_init s grow).1.heap_start = s.lo + 8 ∧
    get_alloc (mm_init s grow).1.mem s.lo = true ∧
    extract_size ((mm_init s grow).1.mem s.lo) = 0 ∧
    get_alloc (mm_init s grow).1.mem (s.lo + 8) = false ∧
    get_size (mm_init s grow).1.mem (s.lo + 8) = chunksize ∧ chunksize = 4096 ∧
    get_mini (mm_init s grow).1.mem (s.lo + 8) = false ∧
    get_prev_alloc (mm_init s grow).1.mem (s.lo + 8) = true ∧
    find_next (mm_init s grow).1.mem (s.lo + 8) = epilogue (mm_init s grow).1 ∧
    epilogue (mm_init s grow).1 = s.lo + 4112 - 8 ∧
    get_alloc (mm_init s grow).1.mem (epilogue (mm_init s grow).1) = true ∧
    get_size (mm_init s grow).1.mem (epilogue (mm_init s grow).1) = 0 ∧
    get_prev_alloc (mm_init s grow).1.mem (epilogue (mm_init s grow).1) = false ∧
    (mm_init s grow).1.seglist 8 = s.lo + 8 ∧
    get_next (mm_init s grow).1.mem (s.lo + 8) = 0 ∧
    (∀ i, i < 15 → i ≠ 8 → (mm_init s grow).1.seglist i = 0) ∧
    mm_checkheap (mm_init s grow).1.brk (mm_init s grow).1 = some true ∧
    ∃ fl pae, Valid (mm_init s grow).1 [⟨s.lo + 8, 4096, false⟩] fl 0 pae := by
  obtain ⟨fl, pae, hv, hl, hb⟩ := mm_init_exact s grow hlo hal hbrk hok
  have hchk := mm_checkheap_ok _ _ _ _ hv
  generalize (mm_init s grow).1 = S at hv hl hb hchk ⊢
  have hin : (⟨s.lo + 8, 4096, false⟩ : Blk) ∈ [(⟨s.lo + 8, 4096, false⟩ : Blk)] :=
    List.mem_singleton.2 rfl
  obtain ⟨tm, tsz, tal, _, _, _, _, _⟩ := Valid_block_tags _ _ _ _ _ hv _ hin
  have hseg := hv.seg
  simp only [Seg] at hseg
  obtain ⟨_, hhdr, _, hend, hpae⟩ := hseg
  have hepi : epilogue S = s.lo + 4112 - 8 := by
    unfold epilogue mem_heap_hi
    rw [hl, hb]
    omega
  have hepi2 : S.lo + S.brk - 8 = s.lo + 4112 - 8 := by rw [hl, hb]
  have he := hv.epi
  rw [hepi2] at he
  have hfl8 : fl 8 = [s.lo + 8] := by
    refine list_eq_singleton _ _ (hv.nodup 8 (by norm_num)) (fun a => ?_)
    rw [hv.mem_fl 8 (by norm_num) a]
    constructor
    · rintro ⟨⟨b, hb1, hb2, _⟩, _⟩
      rw [← hb2, List.mem_singleton.1 hb1]
    · intro e
      exact ⟨⟨_, hin, e.symm, rfl, show find_bucket 4096 = 8 by decide⟩, by omega⟩
  have hfli : ∀ i, i < 15 → i ≠ 8 → fl i = [] := by
    intro i hi hne
    rw [List.eq_nil_iff_forall_not_mem]
    intro a ha
    obtain ⟨⟨b, hb1, _, _, hb4⟩, _⟩ := (hv.mem_fl i hi a).1 ha
    rw [List.mem_singleton.1 hb1] at hb4
    exact hne (by rw [← hb4]; exact (show find_bucket 4096 = 8 by decide))
  have h8 := hv.lists 8 (by norm_num)
  unfold FList at h8
  rw [if_neg (by norm_num), hfl8] at h8
  simp only [LL] at h8
  refine ⟨hl, hb, by rw [hv.hs, hl], by rw [← hl]; exact hv.pro.1, by rw [← hl]; exact hv.pro.2.1,
    tal, tsz, rfl, by rw [tm]; rfl, hhdr.2.2.2.1, ?_, hepi, by rw [hepi]; exact he.1,
    by rw [hepi]; exact he.2.1, ?_, h8.1, h8.2.2.2, fun i hi hne => ?_, hchk,
    fl, pae, hv⟩
  · rw [Tags_find_next _ _ _ _ _ hhdr.2, hepi]
    show s.lo + 8 + 4096 = s.lo + 4112 - 8
    omega
  · rw [hepi, he.2.2.2, ← hpae]
  · have := FList_head _ _ _ (hv.lists i hi)
    rw [this, hfli i hi hne]
    rfl

set_option maxRecDepth 100000 in
theorem mm_init_layout_witness :
    0 < (empty_heap zero_mem 4096).lo ∧ (empty_heap zero_mem 4096).lo % 16 = 0 ∧
    (empty_heap zero_mem 4096).brk = 0 ∧ (mm_init (empty_heap zero_mem 4096) true).2 = true ∧
    (mm_init (empty_heap zero_mem 4096) true).1.brk = 4112 ∧
    (mm_init (empty_heap zero_mem 4096) true).1.seglist 8 = 4096 + 8 ∧
    mm_checkheap (mm_init (empty_heap zero_mem 4096) true).1.brk
      (mm_init (empty_heap zero_mem 4096) true).1 = some true :=
  have hw := mm_init_layout (empty_heap zero_mem 4096) true (by decide) (by decide) rfl
    (by decide!)
  ⟨by decide, by decide, rfl, by decide!, hw.2.1, hw.2.2.2.2.2.2.2.2.2.2.2.2.2.2.2.1,
    hw.2.2.2.2.2.2.2.2.2.2.2.2.2.2.2.2.2.2.1⟩

/-! ## Exact layouts for a free block at the end of the heap -/

theorem absorb_last (l L1 P : List Blk) (b : Blk) (hb : b.alloc = false)
    (e : l ++ [b] = L1 ++ P) (hP : P.length ≤ 1)
    (hL1 : ∀ q, q ∈ L1.getLast? → q.alloc = true) : L1 = l ∧ P = [b] := by
  cases P with
  | nil =>
    rw [List.append_nil] at e
    have := hL1 b (by rw [← e]; simp)
    rw [hb] at this
    simp at this
  | cons p P1 =>
    have hP1 : P1 = [] := by
      cases P1 with
      | nil => rfl
      | cons _ _ => simp at hP
    subst hP1
    have := List.append_inj' e rfl
    exact ⟨this.1.symm, this.2.symm⟩

theorem absorb_none (l L1 P : List Blk) (e : l = L1 ++ P) (hP : P.length ≤ 1)
    (hfree : ∀ b, b ∈ P → b.alloc = false) (hl : ∀ q, q ∈ l.getLast? → q.alloc = true) :
    L1 = l ∧ P = [] := by
  cases P with
  | nil =>
    rw [List.append_nil] at e
    exact ⟨e.symm, rfl⟩
  | cons p P1 =>
    have hP1 : P1 = [] := by
      cases P1 with
      | nil => rfl
      | cons _ _ => simp at hP
    subst hP1
    have h1 := hl p (by rw [e]; simp)
    have h2 := hfree p (by simp)
    rw [h2] at h1
    simp at h1

theorem absorb_first (l2 N L2 : List Blk) (b : Blk) (hb : b.alloc = false)
    (e : b :: l2 = N ++ L2) (hN : N.length ≤ 1)
    (hL2 : ∀ q, q ∈ L2.head? → q.alloc = true) : N = [b] ∧ L2 = l2 := by
  cases N with
  | nil =>
    rw [List.nil_append] at e
    have := hL2 b (by rw [← e]; simp)
    rw [hb] at this
    simp at this
  | cons n N1 =>
    have hN1 : N1 = [] := by
      cases N1 with
      | nil => rfl
      | cons _ _ => simp at hN
    subst hN1
    simp only [List.singleton_append, List.cons.injEq] at e
    exact ⟨by rw [e.1], e.2.symm⟩

/-- The layout after a successful `extend_heap` behind a free last block: the block
grows by the rounded size. -/
theorem extend_exact_free (s : Heap) (l : List Blk) (t R : Nat) (fl : Nat → List Nat)
    (pae : Bool) (h : Valid s (l ++ [⟨t, R, false⟩]) fl 0 pae) (size : Nat) (grow : Bool)
    (hm : round_up size dsize % 16 = 0) (h16 : 16 < round_up size dsize)
    (hc : grow = true ∧ s.lo + s.brk + round_up size dsize < 2 ^ 64) :
    ∃ fl1 pae1, Valid (extend_heap s size grow).1
        (l ++ [⟨t, R + round_up size dsize, false⟩]) fl1 0 pae1 ∧
      (extend_heap s size grow).2 = t ∧
      (extend_heap s size grow).1.lo = s.lo ∧
      (extend_heap s size grow).1.brk = s.brk + round_up size dsize := by
  rw [extend_heap_ok s size grow hc]
  have hpa : get_prev_alloc s.mem (s.lo + s.brk - 8) = pae := h.epi.2.2.2
  rw [hpa, extend_mem_eq _ _ _ _ hm h16 (by omega)]
  obtain ⟨hpc, ht⟩ := extend_precoal s _ fl pae h _ hm h16 hc.2
  obtain ⟨L1, P, N, L2, fl1, pae1, e1, e2, hP, hN, hfree, hL1, hL2, hr, hv, hlo, hbrk, _⟩ :=
    coalesce_block_exact _ _ _ _ [] fl pae false hpc ht
  obtain ⟨eL, eP⟩ := absorb_last l L1 P ⟨t, R, false⟩ rfl e1 hP hL1
  have eN : N = [] ∧ L2 = [] := by
    cases N with
    | nil => exact ⟨rfl, by simpa using e2.symm⟩
    | cons _ _ => simp at e2
  rw [eP] at hr hv
  rw [eL, eN.1, eN.2] at hv
  simp only [List.head?_cons, Option.map_some', Option.getD_some, List.map_cons, List.map_nil,
    List.sum_cons, List.sum_nil, Nat.add_zero] at hr hv
  rw [hr] at hv
  have hins := Valid_insert _ _ fl1 pae1 ⟨t, R + round_up size dsize, false⟩ hv (by simp) rfl
  dsimp only
  rw [hr]
  exact ⟨_, pae1, hins, rfl, by rw [insert_lo]; exact hlo, by rw [insert_brk]; exact hbrk⟩

/-- The layout after `free` of a block that has an allocated block (or the prologue) in
front of it and a free block behind it: the two blocks become one. -/
theorem free_exact_next (s : Heap) (l1 l2 : List Blk) (x nb : Blk) (fl : Nat → List Nat)
    (pae : Bool) (h : Valid s (l1 ++ x :: nb :: l2) fl 0 pae) (hal : x.alloc = true)
    (hnb : nb.alloc = false) (hprev : ∀ p, p ∈ l1.getLast? → p.alloc = true) :
    ∃ fl1 pae1, Valid (free s (x.addr + 8))
        (l1 ++ ⟨x.addr, x.size + nb.size, false⟩ :: l2) fl1 0 pae1 ∧
      (free s (x.addr + 8)).lo = s.lo ∧ (free s (x.addr + 8)).brk = s.brk := by
  obtain ⟨L1, P, N, L2, fl1, pae1, e1, e2, hP, hN, hfree, hL1, hL2, hv, hlo, hbrk⟩ :=
    free_exact s l1 (nb :: l2) x fl pae h hal
  obtain ⟨eL, eP⟩ := absorb_none l1 L1 P e1 hP (fun b hb => hfree b (Or.inl hb)) hprev
  obtain ⟨eN, eL2⟩ := absorb_first l2 N L2 nb hnb e2 hN hL2
  rw [eL, eP, eN, eL2] at hv
  simp only [List.head?_nil, Option.map_none', Option.getD_none, List.map_cons, List.map_nil,
    List.sum_cons, List.sum_nil, Nat.add_zero, Nat.zero_add] at hv
  exact ⟨fl1, pae1, hv, hlo, hbrk⟩

/-! ## A request served from the free block at the end of the heap -/

theorem tail_block_pos (t R : Nat) (h : R ≠ 0) : tail_block t R = [⟨t, R, false⟩] := by
  unfold tail_block
  rw [if_neg h]

theorem tail_block_zero (t : Nat) : tail_block t 0 = [] := rfl

theorem grow_arith (t R lo brk a M : Nat) (ht : t + R = lo + brk - 8) (hb : 16 ≤ brk)
    (hM : a ≤ M) (hfit : ¬a ≤ R) : t + a + (R + M - a) = lo + (brk + M) - 8 := by
  omega

/-- The layout after the placement of a request in the free block at the end. -/
theorem place_tail (s : Heap) (l : List Blk) (t F : Nat) (fl : Nat → List Nat) (pae : Bool)
    (h : Valid s (l ++ [⟨t, F, false⟩]) fl 0 pae)
    (a : Nat) (h16 : 16 ≤ a) (hm : a % 16 = 0) (hle : a ≤ F) :
    ∃ fl1 pae1, Valid (place s t a) (l ++ ⟨t, a, true⟩ :: tail_block (t + a) (F - a)) fl1 0 pae1 ∧
      (place s t a).lo = s.lo ∧ (place s t a).brk = s.brk := by
  obtain ⟨fl1, pae1, hv, hlo, hbrk⟩ := place_exact s l [] ⟨t, F, false⟩ fl pae h rfl a h16 hm hle
  refine ⟨fl1, pae1, ?_, hlo, hbrk⟩
  by_cases e : a = F
  · rw [if_pos e] at hv
    subst e
    simpa [tail_block_zero] using hv
  · rw [if_neg e] at hv
    rw [tail_block_pos _ _ (by omega)]
    simpa using hv

/-- One request of `S` bytes in a heap that consists of allocated blocks and `R` free
bytes at the end: unless the call fails, the new block is cut from the free bytes,
after a growth of the heap when they do not suffice. -/
theorem malloc_tail (s : Heap) (l : List Blk) (t R : Nat) (fl : Nat → List Nat) (pae : Bool)
    (h : Valid s (l ++ tail_block t R) fl 0 pae) (hl : ∀ b, b ∈ l → b.alloc = true)
    (ht : t + R = s.lo + s.brk - 8) (S : Nat) (hS : S ≠ 0) (g : Bool) :
    ∃ s1 p, malloc s.brk s S g = some (s1, p) ∧ s1.lo = s.lo ∧
      (p = 0 ∨ (p = t + 8 ∧ ∃ fl1 pae1,
        Valid s1 (l ++ ⟨t, adjust S, true⟩ ::
          tail_block (t + adjust S) (rest_step (adjust S) R)) fl1 0 pae1 ∧
        t + adjust S + rest_step (adjust S) R = s1.lo + s1.brk - 8)) := by
  obtain ⟨ha16, ham, _⟩ := adjust_facts S
  obtain ⟨m1, m2, m3, m4, hru⟩ := max_adjust S
  have hbrk16 := h.brk16
  by_cases hfit : adjust S ≤ R
  · have hR : R ≠ 0 := by omega
    rw [tail_block_pos _ _ hR] at h
    obtain ⟨x, hx1, hx2, _, _, hm⟩ := malloc_fit s _ fl pae h S s.brk (le_refl _) hS
      ⟨t, R, false⟩ (by simp) rfl hfit
    have hx : x = ⟨t, R, false⟩ := by
      rcases List.mem_append.1 hx1 with c | c
      · rw [hl x c] at hx2
        simp at hx2
      · simpa using c
    subst hx
    obtain ⟨fl1, pae1, hv, hlo, hbrk⟩ := place_tail s l t R fl pae h _ ha16 ham hfit
    refine ⟨_, _, hm g, hlo, Or.inr ⟨rfl, fl1, pae1, ?_, ?_⟩⟩
    · unfold rest_step
      rw [if_pos hfit]
      exact hv
    · unfold rest_step
      rw [if_pos hfit, hlo, hbrk]
      omega
  · have hno : ∀ b, b ∈ l ++ tail_block t R → b.alloc = false → b.size < adjust S := by
      intro b hb hbf
      rcases List.mem_append.1 hb with c | c
      · rw [hl b c] at hbf
        simp at hbf
      · unfold tail_block at c
        split_ifs at c
        · simp at c
        · simp only [List.mem_singleton] at c
          rw [c]
          show R < adjust S
          omega
    have h0 : s.heap_start ≠ 0 := by rw [h.hs]; omega
    obtain ⟨r, hr1, hr2⟩ := find_fit_full s _ fl pae h (adjust S) s.brk (le_refl _) ha16
    have hr0 : r = 0 := by
      rcases hr2 with ⟨e, _⟩ | ⟨x, hx1, hx2, _, hx4, _⟩
      · exact e
      · have := hno x hx1 hx2
        omega
    subst hr0
    have heq := malloc_eq s.brk s S g 0 h0 hS (adjust S) rfl hr1
    simp only [if_pos] at heq
    by_cases hc : g = true ∧ s.lo + s.brk + max (adjust S) chunksize < 2 ^ 64
    · have hE : ∃ fl1 pae1, Valid (extend_heap s (max (adjust S) chunksize) g).1
          (l ++ [⟨t, R + max (adjust S) chunksize, false⟩]) fl1 0 pae1 ∧
          (extend_heap s (max (adjust S) chunksize) g).2 = t ∧
          (extend_heap s (max (adjust S) chunksize) g).1.lo = s.lo ∧
          (extend_heap s (max (adjust S) chunksize) g).1.brk =
            s.brk + max (adjust S) chunksize := by
        by_cases hR : R = 0
        · subst hR
          rw [tail_block_zero, List.append_nil] at h
          have hp : pae = true := Seg_pa_true _ _ _ _ _ h.seg (fun p hp =>
            hl p (List.mem_of_mem_getLast? hp))
          subst hp
          obtain ⟨fl1, pae1, hv, hres, hlo, hbrk⟩ := extend_exact s l fl h
            (max (adjust S) chunksize) g (by rw [hru]; exact m3) (by rw [hru]; omega)
            (by rw [hru]; exact hc)
          rw [hru] at hv hbrk
          have e : s.lo + s.brk - 8 = t := by omega
          rw [e] at hv hres
          rw [Nat.zero_add]
          exact ⟨fl1, pae1, hv, hres, hlo, hbrk⟩
        · rw [tail_block_pos _ _ hR] at h
          obtain ⟨fl1, pae1, hv, hres, hlo, hbrk⟩ := extend_exact_free s l t R fl pae h
            (max (adjust S) chunksize) g (by rw [hru]; exact m3) (by rw [hru]; omega)
            (by rw [hru]; exact hc)
          rw [hru] at hv hbrk
          exact ⟨fl1, pae1, hv, hres, hlo, hbrk⟩
      obtain ⟨fl1, pae1, hv, hres, hlo, hbrk⟩ := hE
      have ht0 : t ≠ 0 := by
        have := h.lo_pos
        have := (Valid_block_tags _ _ _ _ _ hv ⟨t, R + max (adjust S) chunksize, false⟩
          (by simp)).2.2.2.1
        simp only at this
        omega
      rw [hres, if_neg ht0] at heq
      generalize (extend_heap s (max (adjust S) chunksize) g).1 = E at hv hlo hbrk heq
      obtain ⟨fl2, pae2, hv2, hlo2, hbrk2⟩ := place_tail E l t _ fl1 pae1 hv _ ha16 ham
        (by omega)
      refine ⟨_, _, heq, by rw [hlo2, hlo], Or.inr ⟨rfl, fl2, pae2, ?_, ?_⟩⟩
      · unfold rest_step
        rw [if_neg hfit]
        exact hv2
      · unfold rest_step
        rw [if_neg hfit, hlo2, hbrk2, hlo, hbrk]
        exact grow_arith _ _ _ _ _ _ ht hbrk16 m1 hfit
    · rw [extend_heap_fail s _ g (by rw [hru]; exact hc)] at heq
      simp only [if_pos] at heq
      exact ⟨_, _, heq, rfl, Or.inl rfl⟩

/-- On a valid heap a non-zero request is served without growth of the heap exactly when
a free block has the adjusted size. -/
theorem malloc_same_heap_iff (s : Heap) (bs : List Blk) (fl : Nat → List Nat) (pae : Bool)
    (h : Valid s bs fl 0 pae) (n : Nat) (hn : n ≠ 0) (g : Bool) :
    ∃ s1 p, malloc s.brk s n g = some (s1, p) ∧
      ((p ≠ 0 ∧ s1.brk = s.brk) ↔ ∃ b, b ∈ bs ∧ b.alloc = false ∧ adjust n ≤ b.size) := by
  obtain ⟨ha16, ham, _⟩ := adjust_facts n
  obtain ⟨m1, m2, m3, m4, hru⟩ := max_adjust n
  rcases malloc_cases s bs fl pae h n s.brk g (le_refl _) with
    ⟨h0, _⟩ | ⟨_, x, hx1, hx2, hx3, _, _, hm⟩ | ⟨_, _, hno, hq⟩
  · exact absurd h0 hn
  · obtain ⟨_, _, _, _, _, _, _, _, _, _, _, hpbrk⟩ :=
      place_valid s bs fl pae h x hx1 hx2 (adjust n) ha16 ham hx3
    exact ⟨_, _, hm g, fun _ => ⟨x, hx1, hx2, hx3⟩, fun _ => ⟨by omega, hpbrk⟩⟩
  · have hnot : ¬∃ b, b ∈ bs ∧ b.alloc = false ∧ adjust n ≤ b.size := by
      rintro ⟨b, hb, hbf, hle⟩
      have := hno b hb hbf
      omega
    rcases hq with ⟨_, hm⟩ | ⟨hc, bs1, fl1, pae1, bx, hv, hbx, hbf, hsz, _, _, hbrk, hm⟩
    · exact ⟨_, _, hm, fun c => absurd rfl c.1, fun c => absurd c hnot⟩
    · obtain ⟨_, _, _, _, _, _, _, _, _, _, _, hpbrk⟩ :=
        place_valid _ bs1 fl1 pae1 hv bx hbx hbf (adjust n) ha16 ham (by omega)
      refine ⟨_, _, hm, fun c => ?_, fun c => absurd c hnot⟩
      have := c.2
      rw [hpbrk, hbrk] at this
      omega

/-! ## Requests of one size in a row on a fresh heap -/

theorem row_concat (base a k : Nat) :
    row base a 0 (k + 1) = row base a 0 k ++ [⟨base + k * a, a, true⟩] := by
  unfold row
  rw [List.range'_concat]
  simp

theorem row_cons (base a i n : Nat) :
    row base a i (n + 1) = ⟨base + i * a, a, true⟩ :: row base a (i + 1) n := by
  unfold row
  rw [List.range'_succ]
  simp

theorem row_alloc (base a i n : Nat) (b : Blk) (hb : b ∈ row base a i n) : b.alloc = true := by
  unfold row at hb
  obtain ⟨k, _, e⟩ := List.mem_map.1 hb
  rw [← e]

theorem got_length (live : List Nat) (p : Nat) : (got live p).length ≤ live.length + 1 := by
  unfold got
  split_ifs <;> simp

theorem run_mallocs_live (S : Nat) (gs : List Bool) :
    ∀ (c c1 : Client), run c (gs.map (Op.malloc S)) = some c1 →
      c1.live.length ≤ c.live.length + gs.length := by
  induction gs with
  | nil =>
    intro c c1 h
    simp only [List.map_nil, run, Option.some.injEq] at h
    rw [← h]
    simp
  | cons g gs ih =>
    intro c c1 h
    simp only [List.map_cons, run, legal, if_true, exec] at h
    cases hm : malloc c.heap.brk c.heap S g with
    | none => rw [hm] at h; simp at h
    | some r =>
      rw [hm] at h
      have := ih _ _ h
      have := got_length c.live r.2
      simp only [List.length_cons] at *
      omega

/-- The layout after a row of requests of `S` bytes that all succeed, in a heap that
consists of `k` allocated blocks of the adjusted size and `R` free bytes behind them:
one more block for each request, in address order, and the pointers the client holds. -/
theorem mallocs_layout (S : Nat) (hS : S ≠ 0) (base : Nat) (gs : List Bool) :
    ∀ (k R : Nat) (c c1 : Client) (fl : Nat → List Nat) (pae : Bool),
      Valid c.heap (row base (adjust S) 0 k ++ tail_block (base + k * adjust S) R) fl 0 pae →
      base = c.heap.lo + 8 →
      base + k * adjust S + R = c.heap.lo + c.heap.brk - 8 →
      run c (gs.map (Op.malloc S)) = some c1 →
      c1.live.length = c.live.length + gs.length →
      ∃ fl1 pae1,
        Valid c1.heap (row base (adjust S) 0 (k + gs.length) ++
          tail_block (base + (k + gs.length) * adjust S) (rest (adjust S) R gs.length))
          fl1 0 pae1 ∧
        c1.heap.lo = c.heap.lo ∧
        c1.live = ((List.range' k gs.length).map fun i => base + i * adjust S + 8).reverse ++
          c.live := by
  induction gs with
  | nil =>
    intro k R c c1 fl pae hv _ _ hrun _
    simp only [List.map_nil, run, Option.some.injEq] at hrun
    subst hrun
    exact ⟨fl, pae, hv, rfl, by simp⟩
  | cons g gs ih =>
    intro k R c c1 fl pae hv hb ht hrun hlen
    simp only [List.map_cons, run, legal, if_true, exec] at hrun
    obtain ⟨s1, p, hm, hlo, hp⟩ := malloc_tail c.heap (row base (adjust S) 0 k)
      (base + k * adjust S) R fl pae hv (fun b hb => row_alloc _ _ _ _ b hb) ht S hS g
    rw [hm] at hrun
    simp only at hrun
    rcases hp with hp | ⟨hp, fl1, pae1, hv1, ht1⟩
    · have := run_mallocs_live S gs _ _ hrun
      rw [hp] at this
      simp only [got, if_true, List.length_cons] at this hlen
      omega
    · have hp0 : p ≠ 0 := by omega
      have hg : got c.live p = p :: c.live := by
        unfold got
        rw [if_neg hp0]
      rw [hg] at hrun
      have e1 : row base (adjust S) 0 k ++ ⟨base + k * adjust S, adjust S, true⟩ ::
          tail_block (base + k * adjust S + adjust S) (rest_step (adjust S) R) =
          row base (adjust S) 0 (k + 1) ++
            tail_block (base + (k + 1) * adjust S) (rest_step (adjust S) R) := by
        rw [row_concat, Nat.add_mul, Nat.one_mul, Nat.add_assoc]
        simp
      rw [e1] at hv1
      obtain ⟨fl2, pae2, hv2, hlo2, hlive⟩ := ih (k + 1) (rest_step (adjust S) R)
        ⟨s1, p :: c.live⟩ c1 fl1 pae1 hv1 (by rw [hb]; exact congrArg (· + 8) hlo.symm)
        (by
          show base + (k + 1) * adjust S + rest_step (adjust S) R = s1.lo + s1.brk - 8
          rw [← ht1, Nat.add_mul, Nat.one_mul]
          omega)
        hrun (by simp only [List.length_cons] at hlen ⊢; omega)
      have e2 : k + 1 + gs.length = k + (g :: gs).length := by
        simp only [List.length_cons]
        omega
      rw [e2] at hv2
      refine ⟨fl2, pae2, hv2, by rw [hlo2]; exact hlo, ?_⟩
      rw [hlive, hp]
      simp only [List.length_cons, List.range'_succ, List.map_cons, List.reverse_cons,
        List.append_assoc, List.singleton_append]

/-! ## The release of every other block of a row -/

theorem every_other_row (f : Nat → Nat) (i n : Nat) :
    every_other ((List.range' i (n + 2)).map f) =
      f i :: every_other ((List.range' (i + 2) n).map f) := by
  rw [List.range'_succ, List.range'_succ]
  rfl

theorem ptr_ne (base a i k : Nat) (ha : 16 ≤ a) (hk : i < k) :
    base + k * a + 8 ≠ base + i * a + 8 := by
  have := Nat.mul_lt_mul_of_pos_right hk (show 0 < a by omega)
  omega

/-- The layout after the release of every other block of a row of allocated blocks,
starting with the first block of the row; each call is one the client may make. -/
theorem frees_layout (base a R : Nat) (ha : 16 ≤ a) :
    ∀ (n i : Nat) (l1 : List Blk) (c : Client) (fl : Nat → List Nat) (pae : Bool),
      Valid c.heap (l1 ++ (row base a i n ++ tail_block (base + (i + n) * a) R)) fl 0 pae →
      (∀ p, p ∈ l1.getLast? → p.alloc = true) →
      (∀ k, i ≤ k → k < i + n → base + k * a + 8 ∈ c.live) →
      ∃ c1 fl1 pae1,
        run c ((every_other ((List.range' i n).map fun k => base + k * a + 8)).map Op.free) =
          some c1 ∧
        Valid c1.heap (l1 ++ released base a R i n) fl1 0 pae1 ∧
        c1.heap.brk = c.heap.brk ∧ c1.heap.lo = c.heap.lo
  | 0, i, l1, c, fl, pae, hv, _, _ => by
    refine ⟨c, fl, pae, rfl, ?_, rfl, rfl⟩
    simpa [row, released] using hv
  | 1, i, l1, c, fl, pae, hv, hl, hlive => by
    have hmem := hlive i (le_refl _) (by omega)
    have hrun : run c ((every_other ((List.range' i 1).map fun k => base + k * a + 8)).map
        Op.free) = some ⟨free c.heap (base + i * a + 8), c.live.erase (base + i * a + 8)⟩ := by
      simp only [List.range'_one, List.map_cons, List.map_nil, every_other, run, legal, exec]
      rw [if_pos (by simpa using hmem)]
    rw [hrun]
    rw [row_cons] at hv
    by_cases hR : R = 0
    · subst hR
      simp only [row, List.range'_zero, List.map_nil, tail_block_zero, List.append_nil,
        List.cons_append, List.nil_append] at hv
      obtain ⟨fl1, pae1, hv1, hlo, hbrk⟩ := free_exact_nocoal c.heap l1 []
        ⟨base + i * a, a, true⟩ fl pae hv rfl hl (fun n hn => by simp at hn)
      exact ⟨_, fl1, pae1, rfl, by simpa [released] using hv1, hbrk, hlo⟩
    · simp only [row, List.range'_zero, List.map_nil, tail_block_pos _ _ hR,
        List.cons_append, List.nil_append] at hv
      obtain ⟨fl1, pae1, hv1, hlo, hbrk⟩ := free_exact_next c.heap l1 []
        ⟨base + i * a, a, true⟩ ⟨base + (i + 1) * a, R, false⟩ fl pae hv rfl rfl hl
      exact ⟨_, fl1, pae1, rfl, by simpa [released] using hv1, hbrk, hlo⟩
  | n + 2, i, l1, c, fl, pae, hv, hl, hlive => by
    have hmem := hlive i (le_refl _) (by omega)
    rw [every_other_row]
    simp only [List.map_cons, run, legal, exec]
    rw [if_pos (by simpa using hmem)]
    rw [row_cons, row_cons] at hv
    simp only [List.cons_append] at hv
    obtain ⟨fl1, pae1, hv1, hlo, hbrk⟩ := free_exact_nocoal c.heap l1 _
      ⟨base + i * a, a, true⟩ fl pae hv rfl hl (fun n hn => by
        simp only [List.head?_cons, Option.mem_def, Option.some.injEq] at hn
        rw [← hn])
    have e : l1 ++ (⟨base + i * a, a, false⟩ : Blk) :: ⟨base + (i + 1) * a, a, true⟩ ::
        (row base a (i + 1 + 1) n ++ tail_block (base + (i + (n + 2)) * a) R) =
        (l1 ++ [⟨base + i * a, a, false⟩, ⟨base + (i + 1) * a, a, true⟩]) ++
          (row base a (i + 2) n ++ tail_block (base + (i + 2 + n) * a) R) := by
      rw [show i + (n + 2) = i + 2 + n by omega]
      simp
    rw [e] at hv1
    obtain ⟨c1, fl2, pae2, hrun, hv2, hbrk2, hlo2⟩ := frees_layout base a R ha n (i + 2)
      (l1 ++ [⟨base + i * a, a, false⟩, ⟨base + (i + 1) * a, a, true⟩])
      ⟨free c.heap (base + i * a + 8), c.live.erase (base + i * a + 8)⟩ fl1 pae1 hv1
      (fun p hp => by
        simp only [List.getLast?_append, List.getLast?_cons_cons, List.getLast?_singleton,
          Option.mem_def] at hp
        have hp2 : some (⟨base + (i + 1) * a, a, true⟩ : Blk) = some p := hp
        rw [← Option.some.inj hp2])
      (fun k hk1 hk2 => by
        show base + k * a + 8 ∈ c.live.erase (base + i * a + 8)
        rw [List.mem_erase_of_ne (ptr_ne base a i k ha (by omega))]
        exact hlive k (by omega) (by omega))
    refine ⟨c1, fl2, pae2, hrun, ?_, by rw [hbrk2]; exact hbrk, by rw [hlo2]; exact hlo⟩
    simpa [released] using hv2

/-! ## A request of twice the size after the release of every other block -/

theorem released_fit (base a R t : Nat) (ht : 0 < t) :
    ∀ (n i : Nat), (∃ b, b ∈ released base a R i n ∧ b.alloc = false ∧ t ≤ b.size) ↔
      (2 ≤ n ∧ t ≤ a) ∨ (n % 2 = 1 ∧ t ≤ a + R) ∨ (n % 2 = 0 ∧ t ≤ R)
  | 0, i => by
    by_cases hR : R = 0
    · subst hR
      simp only [released, tail_block_zero, List.not_mem_nil, false_and, exists_false]
      constructor
      · intro h
        exact h.elim
      · rintro (⟨h, _⟩ | ⟨h, _⟩ | ⟨_, h⟩) <;> omega
    · simp only [released, tail_block_pos _ _ hR, List.mem_singleton]
      constructor
      · rintro ⟨b, e, _, h⟩
        rw [e] at h
        exact Or.inr (Or.inr ⟨trivial, h⟩)
      · intro h
        exact ⟨_, rfl, rfl, by
          show t ≤ R
          omega⟩
  | 1, i => by
    simp only [released, List.mem_singleton]
    constructor
    · rintro ⟨b, e, _, h⟩
      rw [e] at h
      exact Or.inr (Or.inl ⟨trivial, h⟩)
    · intro h
      exact ⟨_, rfl, rfl, by
        show t ≤ a + R
        omega⟩
  | n + 2, i => by
    have ih := released_fit base a R t ht n (i + 2)
    simp only [released, List.mem_cons]
    constructor
    · rintro ⟨b, e | e | e, hf, h⟩
      · rw [e] at h
        exact Or.inl ⟨by omega, h⟩
      · rw [e] at hf
        simp at hf
      · have := ih.1 ⟨b, e, hf, h⟩
        omega
    · intro h
      by_cases c : t ≤ a
      · exact ⟨_, Or.inl rfl, rfl, c⟩
      · obtain ⟨b, hb, hf, h1⟩ := ih.2 (by omega)
        exact ⟨b, Or.inr (Or.inr hb), hf, h1⟩

theorem rest_small (a : Nat) : ∀ (n R : Nat), n * a ≤ R → rest a R n = R - n * a := by
  intro n
  induction n with
  | zero => intro R _; simp [rest]
  | succ n ih =>
    intro R h
    rw [Nat.succ_mul] at h
    have e : rest_step a R = R - a := by
      unfold rest_step
      rw [if_pos (by omega)]
    rw [rest, e, ih _ (by omega), Nat.succ_mul]
    omega

/-- A request of twice the size has the adjusted size of the single request only for
`S` from 1 to 4 and from 9 to 12. -/
theorem adjust_double_le_iff (S : Nat) (h0 : 0 < S) (h : S < 2 ^ 62) :
    adjust (2 * S) ≤ adjust S ↔ S ≤ 4 ∨ (9 ≤ S ∧ S ≤ 12) := by
  rw [(adjust_small S (by omega)).2, (adjust_small (2 * S) (by omega)).2]
  omega

/-- The release of every other block of a row, followed by one more request: the
request is served without growth of the heap exactly when a released block, or the free
bytes at the end of the heap, have its adjusted size. -/
theorem frees_then_malloc (base a R : Nat) (ha : 16 ≤ a) (n i : Nat) (l1 : List Blk)
    (c : Client) (fl : Nat → List Nat) (pae : Bool)
    (hv : Valid c.heap (l1 ++ (row base a i n ++ tail_block (base + (i + n) * a) R)) fl 0 pae)
    (hl1 : ∀ b, b ∈ l1 → b.alloc = true)
    (hlive : ∀ k, i ≤ k → k < i + n → base + k * a + 8 ∈ c.live)
    (T : Nat) (hT : T ≠ 0) (g : Bool) :
    ∃ c1 s2 p,
      run c ((every_other ((List.range' i n).map fun k => base + k * a + 8)).map Op.free) =
        some c1 ∧
      c1.heap.brk = c.heap.brk ∧
      malloc c1.heap.brk c1.heap T g = some (s2, p) ∧
      ((p ≠ 0 ∧ s2.brk = c1.heap.brk) ↔
        (2 ≤ n ∧ adjust T ≤ a) ∨ (n % 2 = 1 ∧ adjust T ≤ a + R) ∨
          (n % 2 = 0 ∧ adjust T ≤ R)) := by
  obtain ⟨c1, fl1, pae1, hrun, hv1, hbrk, _⟩ := frees_layout base a R ha n i l1 c fl pae hv
    (fun p hp => hl1 p (List.mem_of_mem_getLast? hp)) hlive
  obtain ⟨s2, p, hm, hiff⟩ := malloc_same_heap_iff c1.heap _ fl1 pae1 hv1 T hT g
  refine ⟨c1, s2, p, hrun, hbrk, hm, hiff.trans ?_⟩
  have ht16 := (adjust_facts T).1
  rw [← released_fit base a R (adjust T) (by omega) n i]
  constructor
  · rintro ⟨b, hb, hf, h⟩
    rcases List.mem_append.1 hb with e | e
    · rw [hl1 b e] at hf
      simp at hf
    · exact ⟨b, e, hf, h⟩
  · rintro ⟨b, hb, hf, h⟩
    exact ⟨b, List.mem_append_right _ hb, hf, h⟩

/-- C21, amended.  The heap starts at a non-null, 16-byte aligned address and `mm_init`
succeeds.  `N >= 2` calls `malloc S` with `S > 0` are made on the fresh heap and all
succeed, whatever the growth primitive answered at each of them (`gs`): the client
holds `N` pointers afterwards.  Every other returned block is then released, in the
order of return, either the first, third, ... (`off = 0`) or the second, fourth, ...
(`off = 1`): each release is a call the client may make, and the heap keeps its size.
Then `malloc (2 * S)`, with `2 * S` a value of `size_t`, returns, and it returns a
non-null pointer and leaves the size of the heap as it is exactly when the adjusted size
of `2 * S` is at most the adjusted size of `S`, so that a released block holds it, or at
most the number of free bytes at the end of the heap, `rest (adjust S) 4096 N`, to which
the last returned block adds its size when it is among the released ones.  In
particular it does so when `N` blocks and the block for `2 * S` fit in the first chunk of
4096 bytes. -/
theorem every_other_free_then_double (m : Mem) (lo : Nat) (hlo : 0 < lo) (hal : lo % 16 = 0)
    (hinit : (mm_init (empty_heap m lo) true).2 = true)
    (N S : Nat) (hN : 2 ≤ N) (hS : 0 < S) (hS2 : 2 * S < 2 ^ 64)
    (gs : List Bool) (hgs : gs.length = N) (c : Client)
    (hrun : run (fresh m lo) (gs.map (Op.malloc S)) = some c) (hsucc : c.live.length = N)
    (off : Nat) (hoff : off < 2) (g : Bool) :
    ∃ c1 s2 p,
      run c ((every_other (c.live.reverse.drop off)).map Op.free) = some c1 ∧
      c1.heap.brk = c.heap.brk ∧
      malloc c1.heap.brk c1.heap (2 * S) g = some (s2, p) ∧
      ((p ≠ 0 ∧ s2.brk = c1.heap.brk) ↔
        adjust (2 * S) ≤ adjust S ∨
        adjust (2 * S) ≤
          rest (adjust S) 4096 N + (if (N + off) % 2 = 1 then adjust S else 0)) ∧
      (N * adjust S + adjust (2 * S) ≤ 4096 → p ≠ 0 ∧ s2.brk = c1.heap.brk) := by
  obtain ⟨ha16, _, _⟩ := adjust_facts S
  obtain ⟨fl, pae, hv, hlo1, hbrk1⟩ := mm_init_exact (empty_heap m lo) true hlo hal rfl hinit
  have hlo2 : (fresh m lo).heap.lo = lo := hlo1
  have hbrk2 : (fresh m lo).heap.brk = 4112 := hbrk1
  have hv0 : Valid (fresh m lo).heap (row (lo + 8) (adjust S) 0 0 ++
      tail_block (lo + 8 + 0 * adjust S) 4096) fl 0 pae := by
    have e : row (lo + 8) (adjust S) 0 0 ++ tail_block (lo + 8 + 0 * adjust S) 4096 =
        [⟨lo + 8, 4096, false⟩] := by
      simp [row, tail_block]
    rw [e]
    exact hv
  obtain ⟨fl1, pae1, hv1, hlo3, hlive⟩ := mallocs_layout S (by omega) (lo + 8) gs 0 4096
    (fresh m lo) c fl pae hv0 (by rw [hlo2]) (by rw [hlo2, hbrk2]; omega) hrun
    (by rw [hsucc, hgs]; simp [fresh])
  rw [hgs, Nat.zero_add] at hv1
  rw [hgs] at hlive
  have hfr : (fresh m lo).live = [] := rfl
  rw [hfr, List.append_nil] at hlive
  have hrev : c.live.reverse = (List.range' 0 N).map fun i => lo + 8 + i * adjust S + 8 := by
    rw [hlive, List.reverse_reverse]
  have hin : ∀ k, k < N → lo + 8 + k * adjust S + 8 ∈ c.live := by
    intro k hk
    rw [hlive, List.mem_reverse, List.mem_map]
    exact ⟨k, by simp [List.mem_range']; omega, rfl⟩
  have hsmall : N * adjust S + adjust (2 * S) ≤ 4096 →
      adjust (2 * S) ≤ rest (adjust S) 4096 N := by
    intro h
    rw [rest_small (adjust S) N 4096 (by omega)]
    omega
  have hoff2 : off = 0 ∨ off = 1 := by omega
  rcases hoff2 with e | e
  · subst e
    obtain ⟨c1, s2, p, hr, hb, hm, hiff⟩ := frees_then_malloc (lo + 8) (adjust S)
      (rest (adjust S) 4096 N) ha16 N 0 [] c fl1 pae1
      (by rw [Nat.zero_add]; exact hv1) (fun b hb => by simp at hb)
      (fun k _ hk => hin k (by omega)) (2 * S) (by omega) g
    rw [List.drop_zero, hrev]
    have key : ((2 ≤ N ∧ adjust (2 * S) ≤ adjust S) ∨
        (N % 2 = 1 ∧ adjust (2 * S) ≤ adjust S + rest (adjust S) 4096 N) ∨
        (N % 2 = 0 ∧ adjust (2 * S) ≤ rest (adjust S) 4096 N)) ↔
        (adjust (2 * S) ≤ adjust S ∨ adjust (2 * S) ≤
          rest (adjust S) 4096 N + (if (N + 0) % 2 = 1 then adjust S else 0)) := by
      split_ifs <;> omega
    refine ⟨c1, s2, p, hr, hb, hm, hiff.trans key, fun h => ?_⟩
    exact (hiff.trans key).2 (Or.inr (Nat.le_trans (hsmall h) (Nat.le_add_right _ _)))
  · subst e
    obtain ⟨M, eM⟩ : ∃ M, N = M + 1 := ⟨N - 1, by omega⟩
    subst eM
    rw [row_cons] at hv1
    obtain ⟨c1, s2, p, hr, hb, hm, hiff⟩ := frees_then_malloc (lo + 8) (adjust S)
      (rest (adjust S) 4096 (M + 1)) ha16 M 1 [⟨lo + 8 + 0 * adjust S, adjust S, true⟩] c fl1
      pae1 (by rw [Nat.add_comm 1 M]; simpa using hv1)
      (fun b hb => by
        simp only [List.mem_singleton] at hb
        rw [hb])
      (fun k _ hk => hin k (by omega)) (2 * S) (by omega) g
    have hd : (c.live.reverse).drop 1 =
        (List.range' 1 M).map fun i => lo + 8 + i * adjust S + 8 := by
      rw [hrev, List.range'_succ]
      rfl
    rw [hd]
    have key : ((2 ≤ M ∧ adjust (2 * S) ≤ adjust S) ∨
        (M % 2 = 1 ∧ adjust (2 * S) ≤ adjust S + rest (adjust S) 4096 (M + 1)) ∨
        (M % 2 = 0 ∧ adjust (2 * S) ≤ rest (adjust S) 4096 (M + 1))) ↔
        (adjust (2 * S) ≤ adjust S ∨ adjust (2 * S) ≤
          rest (adjust S) 4096 (M + 1) +
            (if (M + 1 + 1) % 2 = 1 then adjust S else 0)) := by
      split_ifs <;> omega
    refine ⟨c1, s2, p, hr, hb, hm, hiff.trans key, fun h => ?_⟩
    exact (hiff.trans key).2 (Or.inr (Nat.le_trans (hsmall h) (Nat.le_add_right _ _)))

set_option maxRecDepth 100000 in
theorem every_other_free_then_double_witness :
    ∃ c, (0 < 4096 ∧ 4096 % 16 = 0 ∧ (mm_init (empty_heap zero_mem 4096) true).2 = true ∧
        2 ≤ 2 ∧ 0 < 24 ∧ 2 * 24 < 2 ^ 64 ∧ [true, true].length = 2 ∧
        run (fresh zero_mem 4096) ([true, true].map (Op.malloc 24)) = some c ∧
        c.live.length = 2 ∧ 0 < 2) ∧
      ∃ c1 s2 p,
        run c ((every_other (c.live.reverse.drop 0)).map Op.free) = some c1 ∧
        c1.heap.brk = c.heap.brk ∧
        malloc c1.heap.brk c1.heap (2 * 24) true = some (s2, p) ∧
        ((p ≠ 0 ∧ s2.brk = c1.heap.brk) ↔
          adjust (2 * 24) ≤ adjust 24 ∨
          adjust (2 * 24) ≤
            rest (adjust 24) 4096 2 + (if (2 + 0) % 2 = 1 then adjust 24 else 0)) ∧
        (2 * adjust 24 + adjust (2 * 24) ≤ 4096 → p ≠ 0 ∧ s2.brk = c1.heap.brk) :=
  have h3 : (mm_init (empty_heap zero_mem 4096) true).2 = true := by decide!
  have hs : (run (fresh zero_mem 4096) ([true, true].map (Op.malloc 24))).isSome = true := by
    decide!
  have hl : ((run (fresh zero_mem 4096) ([true, true].map (Op.malloc 24))).getD
      ⟨empty_heap zero_mem 0, []⟩).live.length = 2 := by decide!
  ⟨_, ⟨by decide, by decide, h3, by decide, by decide, by norm_num, rfl,
      some_getD _ ⟨empty_heap zero_mem 0, []⟩ hs, hl, by decide⟩,
    every_other_free_then_double zero_mem 4096 (by decide) (by decide) h3 2 24 (by decide)
      (by decide) (by norm_num) [true, true] rfl _
      (some_getD _ ⟨empty_heap zero_mem 0, []⟩ hs) hl 0 (by decide) true⟩

end MM
